import Mathlib

/-!
# Fabric-Food: the ingredient / food custody chaincode

A shallow embedding of `src/chaincode/food.go` and a verification of its
ownership and history properties.

Layout of the model

* the five record types of the chaincode (`User`, `Food`, `Ingredient`,
  `IngredientHistory`, `FoodHistory`);
* the values held by the ledger: JSON documents (`Bytes`), with `json.Marshal`
  and `json.Unmarshal` for the five record types;
* the world state seen through the chaincode stub (`Ledger`, `GetState`,
  `PutState`, `DelState`, `CreateCompositeKey`,
  `GetStateByPartialCompositeKey`);
* the twelve operations and the dispatcher `Invoke`, each a function from the
  stub state and the argument list to the response and the stub state with the
  writes of the call applied.

Conventions

* The arguments of the operations are Lean strings (sequences of Unicode
  scalar values), that is, Go strings that are valid UTF-8; keys are compared
  by code point, which is the byte order of their UTF-8 encoding. The section
  on arguments that are not valid UTF-8 gives the seven operations that write
  to the ledger on arbitrary bytes (`Raw.userRegister` and the others), with
  the ledger states reachable by them (`RawReachable`).
* A `[]string` is a `List String`; a nil slice and an empty slice are both
  `[]`. `json.Marshal` writes the lists of a user, which are never nil in a
  record that the program writes, as arrays, and the empty list of a food,
  which is the nil slice, as `null`.
* A stored value is a JSON document; `json.Unmarshal` matches the member names
  with the json tags without regard to case, and the document `null` leaves
  the target as it is.
* `GetState`, `PutState` and `DelState` do not fail in the model (the ledger
  transport is outside the chaincode), and neither does `json.Marshal` on the
  five record types, so the branches of the source that handle those errors
  are not taken.
* Every operation reads all the keys it needs before its first write, so the
  writes can be applied to the state as they are issued.
* The ledger commits the writes of an invocation as one unit: `commit` keeps
  the writes of an invocation that returns a success and drops those of an
  invocation that returns an error. The reachable ledgers are the ones built
  from the empty ledger by `commit`.
-/

namespace FabricFood

/-! ## Records -/

/-- The constant `originOwner` of the source. -/
def originOwner : String := "originPlaceholder"

/-- The struct `User`. -/
structure User where
  Name : String
  Id : String
  Ingredients : List String
  Foods : List String
deriving DecidableEq

/-- The struct `Food`. -/
structure Food where
  Name : String
  Id : String
  Metadata : String
  Ingredients : List String
deriving DecidableEq

/-- The struct `Ingredient`. -/
structure Ingredient where
  Name : String
  Id : String
  Metadata : String
deriving DecidableEq

/-- The struct `IngredientHistory`. -/
structure IngredientHistory where
  IngredientId : String
  OriginOwnerId : String
  CurrentOwnerId : String
deriving DecidableEq

/-- The struct `FoodHistory`. -/
structure FoodHistory where
  FoodId : String
  OriginOwnerId : String
  CurrentOwnerId : String
deriving DecidableEq

/-! ## JSON documents -/

/-- A JSON value as `json.Unmarshal` sees it when the target is a `string` or a
`[]string` field: `null`, a string, an array of strings, or any other value
(kept as its text), which neither target accepts. -/
inductive JVal where
  | null
  | str (s : String)
  | strs (xs : List String)
  | other (raw : String)
deriving DecidableEq

/-- A JSON object: its members in the order in which they are written. -/
abbrev JObject := List (String × JVal)

/-- A non-empty byte string held by the ledger or returned in a response: a
JSON object, a JSON array of objects, or any other text. -/
inductive Bytes where
  | object (fields : JObject)
  | array (items : List JObject)
  | text (raw : String)
deriving DecidableEq

/-- Decoding of a JSON value into a `string` field holding `cur`: `null` leaves
the field as it is. -/
def decodeString (v : JVal) (cur : String) : Except String String :=
  match v with
  | JVal.null => Except.ok cur
  | JVal.str s => Except.ok s
  | _ => Except.error "json: cannot unmarshal value into Go value of type string"

/-- Decoding of a JSON value into a `[]string` field: `null` gives the nil
slice. -/
def decodeStrings (v : JVal) : Except String (List String) :=
  match v with
  | JVal.null => Except.ok []
  | JVal.strs xs => Except.ok xs
  | _ => Except.error "json: cannot unmarshal value into Go value of type []string"

/-- The rune that stands for `c` when `json.Unmarshal` compares a member name
with a json tag without regard to case (`foldRune` of `encoding/json`, on the
runes that fold to an ASCII letter): an upper-case ASCII letter folds to its
lower case, U+017F (long s) to `s` and U+212A (Kelvin sign) to `k`. -/
def foldRune (c : Char) : Char :=
  if 'A'.toNat ≤ c.toNat ∧ c.toNat ≤ 'Z'.toNat then Char.ofNat (c.toNat + 32)
  else if c.toNat = 0x017F then 's'
  else if c.toNat = 0x212A then 'k'
  else c

/-- Whether the member name `key` matches the json tag `tag`, which is written
in lower-case ASCII letters and `_`: `json.Unmarshal` matches the names
without regard to case. -/
def equalFold (key tag : String) : Bool := key.data.map foldRune = tag.data

/-- Whether `c` is one of the four characters of JSON white space. -/
def isJsonSpace (c : Char) : Bool := c = ' ' ∨ c = '\t' ∨ c = '\n' ∨ c = '\r'

/-- Whether the text is the JSON document `null`, with white space around it:
`json.Unmarshal` of `null` into a struct has no effect and no error. -/
def isJsonNull (raw : String) : Bool :=
  ((raw.data.dropWhile isJsonSpace).reverse.dropWhile isJsonSpace).reverse = "null".data

/-- The members of an object are decoded in order into the target `a`, each
by `set`, which ignores the members the target has no field for; the first
member that does not fit its field is the error of the whole decoding. -/
def unmarshalFields {α : Type} (set : α → String → JVal → Except String α) :
    JObject → α → Except String α
  | [], a => Except.ok a
  | (k, v) :: rest, a =>
    match set a k v with
    | Except.error e => Except.error e
    | Except.ok a1 => unmarshalFields set rest a1

/-- Decoding of one member into a `User` (json tags `name`, `id`,
`ingredients`, `foods`). -/
def User.setField (u : User) (k : String) (v : JVal) : Except String User :=
  if equalFold k "name" then (decodeString v u.Name).map (fun s => { u with Name := s })
  else if equalFold k "id" then (decodeString v u.Id).map (fun s => { u with Id := s })
  else if equalFold k "ingredients" then
    (decodeStrings v).map (fun xs => { u with Ingredients := xs })
  else if equalFold k "foods" then (decodeStrings v).map (fun xs => { u with Foods := xs })
  else Except.ok u

/-- Decoding of one member into a `Food` (json tags `name`, `id`, `metadata`,
`ingredients`). -/
def Food.setField (f : Food) (k : String) (v : JVal) : Except String Food :=
  if equalFold k "name" then (decodeString v f.Name).map (fun s => { f with Name := s })
  else if equalFold k "id" then (decodeString v f.Id).map (fun s => { f with Id := s })
  else if equalFold k "metadata" then
    (decodeString v f.Metadata).map (fun s => { f with Metadata := s })
  else if equalFold k "ingredients" then
    (decodeStrings v).map (fun xs => { f with Ingredients := xs })
  else Except.ok f

/-- Decoding of one member into an `IngredientHistory` (json tags
`ingredient_id`, `origin_owner_id`, `current_owner_id`). -/
def IngredientHistory.setField (h : IngredientHistory) (k : String) (v : JVal) :
    Except String IngredientHistory :=
  if equalFold k "ingredient_id" then
    (decodeString v h.IngredientId).map (fun s => { h with IngredientId := s })
  else if equalFold k "origin_owner_id" then
    (decodeString v h.OriginOwnerId).map (fun s => { h with OriginOwnerId := s })
  else if equalFold k "current_owner_id" then
    (decodeString v h.CurrentOwnerId).map (fun s => { h with CurrentOwnerId := s })
  else Except.ok h

/-- Decoding of one member into a `FoodHistory` (json tags `food_id`,
`origin_owner_id`, `current_owner_id`). -/
def FoodHistory.setField (h : FoodHistory) (k : String) (v : JVal) :
    Except String FoodHistory :=
  if equalFold k "food_id" then
    (decodeString v h.FoodId).map (fun s => { h with FoodId := s })
  else if equalFold k "origin_owner_id" then
    (decodeString v h.OriginOwnerId).map (fun s => { h with OriginOwnerId := s })
  else if equalFold k "current_owner_id" then
    (decodeString v h.CurrentOwnerId).map (fun s => { h with CurrentOwnerId := s })
  else Except.ok h

/-- The members `json.Marshal` writes for a `User`. -/
def User.fields (u : User) : JObject :=
  [("name", JVal.str u.Name), ("id", JVal.str u.Id),
   ("ingredients", JVal.strs u.Ingredients), ("foods", JVal.strs u.Foods)]

/-- The members `json.Marshal` writes for a `Food`. The `Ingredients` of a
food is the nil slice until the first `append`: `foodEnroll` leaves the field
unset and `json.Unmarshal` reads `null` back as nil, so the empty list is
written as `null`; the list is never empty after an `append`. -/
def Food.fields (f : Food) : JObject :=
  [("name", JVal.str f.Name), ("id", JVal.str f.Id),
   ("metadata", JVal.str f.Metadata),
   ("ingredients", if f.Ingredients = [] then JVal.null else JVal.strs f.Ingredients)]

/-- The members `json.Marshal` writes for an `Ingredient`. -/
def Ingredient.fields (i : Ingredient) : JObject :=
  [("name", JVal.str i.Name), ("id", JVal.str i.Id), ("metadata", JVal.str i.Metadata)]

/-- The members `json.Marshal` writes for an `IngredientHistory`. -/
def IngredientHistory.fields (h : IngredientHistory) : JObject :=
  [("ingredient_id", JVal.str h.IngredientId), ("origin_owner_id", JVal.str h.OriginOwnerId),
   ("current_owner_id", JVal.str h.CurrentOwnerId)]

/-- The members `json.Marshal` writes for a `FoodHistory`. -/
def FoodHistory.fields (h : FoodHistory) : JObject :=
  [("food_id", JVal.str h.FoodId), ("origin_owner_id", JVal.str h.OriginOwnerId),
   ("current_owner_id", JVal.str h.CurrentOwnerId)]

/-- The call `json.Marshal(user)`. -/
def marshalUser (u : User) : Bytes := Bytes.object u.fields

/-- The call `json.Marshal(food)`. -/
def marshalFood (f : Food) : Bytes := Bytes.object f.fields

/-- The call `json.Marshal(ingredient)`. -/
def marshalIngredient (i : Ingredient) : Bytes := Bytes.object i.fields

/-- The call `json.Marshal(history)` on an `IngredientHistory`. -/
def marshalIngredientHistory (h : IngredientHistory) : Bytes := Bytes.object h.fields

/-- The call `json.Marshal(history)` on a `FoodHistory`. -/
def marshalFoodHistory (h : FoodHistory) : Bytes := Bytes.object h.fields

/-- The call `json.Marshal(histories)` on a `[]*IngredientHistory`. -/
def marshalIngredientHistories (hs : List IngredientHistory) : Bytes :=
  Bytes.array (hs.map IngredientHistory.fields)

/-- The call `json.Marshal(histories)` on a `[]*FoodHistory`. -/
def marshalFoodHistories (hs : List FoodHistory) : Bytes :=
  Bytes.array (hs.map FoodHistory.fields)

/-- The call `json.Unmarshal(bytes, user)` on a fresh `User`. -/
def unmarshalUser : Bytes → Except String User
  | Bytes.object fields => unmarshalFields User.setField fields ⟨"", "", [], []⟩
  | Bytes.text raw =>
    if isJsonNull raw then Except.ok ⟨"", "", [], []⟩
    else Except.error "json: cannot unmarshal into Go value of type main.User"
  | Bytes.array _ => Except.error "json: cannot unmarshal into Go value of type main.User"

/-- The call `json.Unmarshal(bytes, food)` on a fresh `Food`. -/
def unmarshalFood : Bytes → Except String Food
  | Bytes.object fields => unmarshalFields Food.setField fields ⟨"", "", "", []⟩
  | Bytes.text raw =>
    if isJsonNull raw then Except.ok ⟨"", "", "", []⟩
    else Except.error "json: cannot unmarshal into Go value of type main.Food"
  | Bytes.array _ => Except.error "json: cannot unmarshal into Go value of type main.Food"

/-- The call `json.Unmarshal(bytes, history)` on a fresh `IngredientHistory`. -/
def unmarshalIngredientHistory : Bytes → Except String IngredientHistory
  | Bytes.object fields => unmarshalFields IngredientHistory.setField fields ⟨"", "", ""⟩
  | Bytes.text raw =>
    if isJsonNull raw then Except.ok ⟨"", "", ""⟩
    else Except.error "json: cannot unmarshal into Go value of type main.IngredientHistory"
  | Bytes.array _ =>
    Except.error "json: cannot unmarshal into Go value of type main.IngredientHistory"

/-- The call `json.Unmarshal(bytes, history)` on a fresh `FoodHistory`. -/
def unmarshalFoodHistory : Bytes → Except String FoodHistory
  | Bytes.object fields => unmarshalFields FoodHistory.setField fields ⟨"", "", ""⟩
  | Bytes.text raw =>
    if isJsonNull raw then Except.ok ⟨"", "", ""⟩
    else Except.error "json: cannot unmarshal into Go value of type main.FoodHistory"
  | Bytes.array _ => Except.error "json: cannot unmarshal into Go value of type main.FoodHistory"

/-! ## The world state and the chaincode stub -/

/-- The value bound to `key` in an association list, the first binding. -/
def lookupKV (key : String) : List (String × Bytes) → Option Bytes
  | [] => none
  | (k, v) :: rest => if k = key then some v else lookupKV key rest

/-- The order of the keys: the lexicographic order of their code points, which
is the byte order of their UTF-8 encodings. -/
def keyLt : List Char → List Char → Bool
  | _, [] => false
  | [], _ :: _ => true
  | a :: as, b :: bs => decide (a.toNat < b.toNat) || (decide (a = b) && keyLt as bs)

/-- Binding of `key` to `value` in an association list in ascending key order:
the binding of `key` is replaced, or the new one is put at its place. -/
def insertKV (key : String) (value : Bytes) : List (String × Bytes) → List (String × Bytes)
  | [] => [(key, value)]
  | (k, v) :: rest =>
    if keyLt key.data k.data then (key, value) :: (k, v) :: rest
    else if key = k then (key, value) :: rest
    else (k, v) :: insertKV key value rest

/-- Removal of the bindings of `key`. -/
def eraseKV (key : String) (l : List (String × Bytes)) : List (String × Bytes) :=
  l.filter (fun e => e.1 ≠ key)

/-- The world state: the bindings of the keys that hold a value, kept in
ascending key order by `PutState`; `GetState` reads the first binding of a
key. A key holds a non-empty value or none. -/
structure Ledger where
  entries : List (String × Bytes)
deriving DecidableEq

/-- The representation invariant of the world state: the keys are in strictly
ascending order. The operations below keep it and do not depend on it. -/
def Ledger.WF (stub : Ledger) : Prop :=
  stub.entries.Pairwise (fun a b => keyLt a.1.data b.1.data = true)

instance (stub : Ledger) : Decidable stub.WF :=
  List.instDecidablePairwise stub.entries

/-- The ledger that holds no key. -/
def Ledger.empty : Ledger := ⟨[]⟩

/-- The call `stub.GetState(key)`: the value of `key`, `none` (the nil slice)
when `key` holds none. -/
def Ledger.GetState (stub : Ledger) (key : String) : Option Bytes :=
  lookupKV key stub.entries

/-- The call `stub.PutState(key, value)`. -/
def Ledger.PutState (stub : Ledger) (key : String) (value : Bytes) : Ledger :=
  ⟨insertKV key value stub.entries⟩

/-- The call `stub.DelState(key)`. -/
def Ledger.DelState (stub : Ledger) (key : String) : Ledger :=
  ⟨eraseKV key stub.entries⟩

/-- The rune `minUnicodeRuneValue` of the shim, U+0000. -/
def minUnicodeRuneValue : Char := Char.ofNat 0

/-- The rune `maxUnicodeRuneValue` of the shim, U+10FFFF. -/
def maxUnicodeRuneValue : Char := Char.ofNat 0x10FFFF

/-- The prefix `compositeKeyNamespace` of the shim. -/
def compositeKeyNamespace : String := String.singleton minUnicodeRuneValue

/-- The check `validateCompositeKeyAttribute` of the shim: an attribute holds
neither U+0000 nor U+10FFFF. -/
def validateCompositeKeyAttribute (str : String) : Except String Unit :=
  if minUnicodeRuneValue ∈ str.data ∨ maxUnicodeRuneValue ∈ str.data then
    Except.error "input contain unicode U+0000 or U+10FFFF, not allowed in a composite key"
  else Except.ok ()

/-- The loop of `CreateCompositeKey` over the attributes. -/
def appendAttributes (ck : String) : List String → Except String String
  | [] => Except.ok ck
  | att :: rest =>
    match validateCompositeKeyAttribute att with
    | Except.error e => Except.error e
    | Except.ok _ => appendAttributes (ck ++ att ++ String.singleton minUnicodeRuneValue) rest

/-- The call `stub.CreateCompositeKey(objectType, attributes)`: the namespace
rune, the object type and the attributes, each followed by U+0000. -/
def CreateCompositeKey (objectType : String) (attributes : List String) : Except String String :=
  match validateCompositeKeyAttribute objectType with
  | Except.error e => Except.error e
  | Except.ok _ =>
    appendAttributes
      (compositeKeyNamespace ++ objectType ++ String.singleton minUnicodeRuneValue) attributes

/-- The range query behind the iterators of the stub: the bindings whose key
is at least `startKey` and below `endKey`, in key order. -/
def Ledger.GetStateByRange (stub : Ledger) (startKey endKey : String) : List (String × Bytes) :=
  stub.entries.filter (fun e => !keyLt e.1.data startKey.data && keyLt e.1.data endKey.data)

/-- The call `stub.GetStateByPartialCompositeKey(objectType, attributes)`: the
range from the partial composite key to that key followed by U+10FFFF. -/
def Ledger.GetStateByPartialCompositeKey (stub : Ledger) (objectType : String)
    (attributes : List String) : Except String (List (String × Bytes)) :=
  match CreateCompositeKey objectType attributes with
  | Except.error e => Except.error e
  | Except.ok partialCompositeKey =>
    Except.ok (stub.GetStateByRange partialCompositeKey
      (partialCompositeKey ++ String.singleton maxUnicodeRuneValue))

/-- The response of an invocation: `shim.Success(payload)` or
`shim.Error(msg)`. -/
inductive Response where
  | Success (payload : Option Bytes)
  | Error (msg : String)
deriving DecidableEq

/-! ## Storage keys -/

/-- The function `constructUserKey`. -/
def constructUserKey (userId : String) : String := "user_" ++ userId

/-- The function `constructFOODKey`. -/
def constructFOODKey (foodId : String) : String := "food_" ++ foodId

/-- The function `constructIngredientKey`. -/
def constructIngredientKey (ingredientId : String) : String := "ingredient_" ++ ingredientId

/-- The function `constructFoodKey`. -/
def constructFoodKey (foodId : String) : String := "food_" ++ foodId

/-! ## The operations -/

/-- The method `userRegister`. -/
def userRegister (stub : Ledger) (args : List String) : Response × Ledger :=
  match args with
  | [name, id] =>
    if name = "" ∨ id = "" then (Response.Error "invalid args", stub)
    else
      match stub.GetState (constructUserKey id) with
      | some _ => (Response.Error "user already exist", stub)
      | none =>
        let user : User := { Name := name, Id := id, Ingredients := [], Foods := [] }
        let userBytes := marshalUser user
        (Response.Success none, stub.PutState (constructUserKey id) userBytes)
  | _ => (Response.Error "not enough args", stub)

/-- The loop of `userDestroy` that deletes the ingredients of the user. -/
def deleteIngredients (stub : Ledger) : List String → Ledger
  | [] => stub
  | ingredientid :: rest =>
    deleteIngredients (stub.DelState (constructIngredientKey ingredientid)) rest

/-- The method `userDestroy`. -/
def userDestroy (stub : Ledger) (args : List String) : Response × Ledger :=
  match args with
  | [id] =>
    if id = "" then (Response.Error "invalid args", stub)
    else
      match stub.GetState (constructUserKey id) with
      | none => (Response.Error "user not found", stub)
      | some userBytes =>
        let stub1 := stub.DelState (constructUserKey id)
        match unmarshalUser userBytes with
        | Except.error e => (Response.Error ("unmarshal user error: " ++ e), stub1)
        | Except.ok user => (Response.Success none, deleteIngredients stub1 user.Ingredients)
  | _ => (Response.Error "not enough args", stub)

/-- The method `ingredientEnroll`. -/
def ingredientEnroll (stub : Ledger) (args : List String) : Response × Ledger :=
  match args with
  | [ingredientName, ingredientId, metadata, ownerId] =>
    if ingredientName = "" ∨ ingredientId = "" ∨ ownerId = "" then
      (Response.Error "invalid args", stub)
    else
      match stub.GetState (constructUserKey ownerId) with
      | none => (Response.Error "user not found", stub)
      | some userBytes =>
        match stub.GetState (constructIngredientKey ingredientId) with
        | some _ => (Response.Error "ingredient already exist", stub)
        | none =>
          let ingredient : Ingredient :=
            { Name := ingredientName, Id := ingredientId, Metadata := metadata }
          let ingredientBytes := marshalIngredient ingredient
          let stub1 := stub.PutState (constructIngredientKey ingredientId) ingredientBytes
          match unmarshalUser userBytes with
          | Except.error e => (Response.Error ("unmarshal user error: " ++ e), stub1)
          | Except.ok user0 =>
            let user : User := { user0 with Ingredients := user0.Ingredients ++ [ingredientId] }
            let userBytes1 := marshalUser user
            let stub2 := stub1.PutState (constructUserKey user.Id) userBytes1
            let history : IngredientHistory :=
              { IngredientId := ingredientId, OriginOwnerId := originOwner,
                CurrentOwnerId := ownerId }
            let historyBytes := marshalIngredientHistory history
            match CreateCompositeKey "history" [ingredientId, originOwner, ownerId] with
            | Except.error e => (Response.Error ("create key error: " ++ e), stub2)
            | Except.ok historyKey =>
              (Response.Success none, stub2.PutState historyKey historyBytes)
  | _ => (Response.Error "not enough args", stub)

/-- The method `foodEnroll`. -/
def foodEnroll (stub : Ledger) (args : List String) : Response × Ledger :=
  match args with
  | [foodName, foodId, metadata, ownerId] =>
    if foodName = "" ∨ foodId = "" ∨ ownerId = "" then
      (Response.Error "invalid args", stub)
    else
      match stub.GetState (constructUserKey ownerId) with
      | none => (Response.Error "user not found", stub)
      | some userBytes =>
        match stub.GetState (constructFOODKey foodId) with
        | some _ => (Response.Error "food already exist", stub)
        | none =>
          let food : Food :=
            { Name := foodName, Id := foodId, Metadata := metadata, Ingredients := [] }
          let foodBytes := marshalFood food
          let stub1 := stub.PutState (constructFoodKey foodId) foodBytes
          match unmarshalUser userBytes with
          | Except.error e => (Response.Error ("unmarshal user error: " ++ e), stub1)
          | Except.ok user0 =>
            let user : User := { user0 with Foods := user0.Foods ++ [foodId] }
            let userBytes1 := marshalUser user
            let stub2 := stub1.PutState (constructUserKey user.Id) userBytes1
            let history : FoodHistory :=
              { FoodId := foodId, OriginOwnerId := originOwner, CurrentOwnerId := ownerId }
            let historyBytes := marshalFoodHistory history
            match CreateCompositeKey "history" [foodId, originOwner, ownerId] with
            | Except.error e => (Response.Error ("create key error: " ++ e), stub2)
            | Except.ok historyKey =>
              (Response.Success none, stub2.PutState historyKey historyBytes)
  | _ => (Response.Error "not enough args", stub)

/-- The first loop of the exchange methods: whether `id` is one of `ids`. -/
def aidexist (ids : List String) (id : String) : Bool :=
  match ids with
  | [] => false
  | aid :: rest => if aid = id then true else aidexist rest id

/-- The second loop of the exchange methods: the elements of `ids` other than
`id`, in order. -/
def removeId (ids : List String) (id : String) : List String :=
  match ids with
  | [] => []
  | aid :: rest => if aid = id then removeId rest id else aid :: removeId rest id

/-- The method `ingredientExchange`. -/
def ingredientExchange (stub : Ledger) (args : List String) : Response × Ledger :=
  match args with
  | [ownerId, ingredientId, currentOwnerId] =>
    if ownerId = "" ∨ ingredientId = "" ∨ currentOwnerId = "" then
      (Response.Error "invalid args", stub)
    else
      match stub.GetState (constructUserKey ownerId) with
      | none => (Response.Error "user not found", stub)
      | some originOwnerBytes =>
        match stub.GetState (constructUserKey currentOwnerId) with
        | none => (Response.Error "user not found", stub)
        | some currentOwnerBytes =>
          match stub.GetState (constructIngredientKey ingredientId) with
          | none => (Response.Error "asset not found", stub)
          | some _ =>
            match unmarshalUser originOwnerBytes with
            | Except.error e => (Response.Error ("unmarshal user error: " ++ e), stub)
            | Except.ok originOwner0 =>
              if ¬ aidexist originOwner0.Ingredients ingredientId then
                (Response.Error "ingredient owner not match", stub)
              else
                let originOwner1 : User :=
                  { originOwner0 with
                    Ingredients := removeId originOwner0.Ingredients ingredientId }
                let stub1 := stub.PutState (constructUserKey ownerId) (marshalUser originOwner1)
                match unmarshalUser currentOwnerBytes with
                | Except.error e => (Response.Error ("unmarshal user error: " ++ e), stub1)
                | Except.ok currentOwner0 =>
                  let currentOwner : User :=
                    { currentOwner0 with
                      Ingredients := currentOwner0.Ingredients ++ [ingredientId] }
                  let stub2 :=
                    stub1.PutState (constructUserKey currentOwnerId) (marshalUser currentOwner)
                  let history : IngredientHistory :=
                    { IngredientId := ingredientId, OriginOwnerId := ownerId,
                      CurrentOwnerId := currentOwnerId }
                  let historyBytes := marshalIngredientHistory history
                  match CreateCompositeKey "history" [ingredientId, ownerId, currentOwnerId] with
                  | Except.error e => (Response.Error ("create key error: " ++ e), stub2)
                  | Except.ok historyKey =>
                    (Response.Success none, stub2.PutState historyKey historyBytes)
  | _ => (Response.Error "not enough args", stub)

/-- The method `ingredientExchangeFood`. -/
def ingredientExchangeFood (stub : Ledger) (args : List String) : Response × Ledger :=
  match args with
  | [ownerId, ingredientId, currentOwnerId] =>
    if ownerId = "" ∨ ingredientId = "" ∨ currentOwnerId = "" then
      (Response.Error "invalid args", stub)
    else
      match stub.GetState (constructUserKey ownerId) with
      | none => (Response.Error "user not found", stub)
      | some originOwnerBytes =>
        match stub.GetState (constructFOODKey currentOwnerId) with
        | none => (Response.Error "user not found", stub)
        | some currentOwnerBytes =>
          match stub.GetState (constructIngredientKey ingredientId) with
          | none => (Response.Error "ingredient not found", stub)
          | some _ =>
            match unmarshalUser originOwnerBytes with
            | Except.error e => (Response.Error ("unmarshal user error: " ++ e), stub)
            | Except.ok originOwner0 =>
              if ¬ aidexist originOwner0.Ingredients ingredientId then
                (Response.Error "ingredient owner not match", stub)
              else
                let originOwner1 : User :=
                  { originOwner0 with
                    Ingredients := removeId originOwner0.Ingredients ingredientId }
                let stub1 := stub.PutState (constructUserKey ownerId) (marshalUser originOwner1)
                match unmarshalFood currentOwnerBytes with
                | Except.error e => (Response.Error ("unmarshal user error: " ++ e), stub1)
                | Except.ok currentOwner0 =>
                  let currentOwner : Food :=
                    { currentOwner0 with
                      Ingredients := currentOwner0.Ingredients ++ [ingredientId] }
                  let stub2 :=
                    stub1.PutState (constructFOODKey currentOwnerId) (marshalFood currentOwner)
                  let history : IngredientHistory :=
                    { IngredientId := ingredientId, OriginOwnerId := ownerId,
                      CurrentOwnerId := currentOwnerId }
                  let historyBytes := marshalIngredientHistory history
                  match CreateCompositeKey "history" [ingredientId, ownerId, currentOwnerId] with
                  | Except.error e => (Response.Error ("create key error: " ++ e), stub2)
                  | Except.ok historyKey =>
                    (Response.Success none, stub2.PutState historyKey historyBytes)
  | _ => (Response.Error "not enough args", stub)

/-- The method `foodExchange`. -/
def foodExchange (stub : Ledger) (args : List String) : Response × Ledger :=
  match args with
  | [ownerId, foodId, currentOwnerId] =>
    if ownerId = "" ∨ foodId = "" ∨ currentOwnerId = "" then
      (Response.Error "invalid args", stub)
    else
      match stub.GetState (constructUserKey ownerId) with
      | none => (Response.Error "user not found", stub)
      | some originOwnerBytes =>
        match stub.GetState (constructUserKey currentOwnerId) with
        | none => (Response.Error "user not found", stub)
        | some currentOwnerBytes =>
          match stub.GetState (constructFoodKey foodId) with
          | none => (Response.Error "food not found", stub)
          | some _ =>
            match unmarshalUser originOwnerBytes with
            | Except.error e => (Response.Error ("unmarshal user error: " ++ e), stub)
            | Except.ok originOwner0 =>
              if ¬ aidexist originOwner0.Foods foodId then
                (Response.Error "food owner not match", stub)
              else
                let originOwner1 : User :=
                  { originOwner0 with Foods := removeId originOwner0.Foods foodId }
                let stub1 := stub.PutState (constructUserKey ownerId) (marshalUser originOwner1)
                match unmarshalUser currentOwnerBytes with
                | Except.error e => (Response.Error ("unmarshal user error: " ++ e), stub1)
                | Except.ok currentOwner0 =>
                  let currentOwner : User :=
                    { currentOwner0 with Foods := currentOwner0.Foods ++ [foodId] }
                  let stub2 :=
                    stub1.PutState (constructUserKey currentOwnerId) (marshalUser currentOwner)
                  let history : FoodHistory :=
                    { FoodId := foodId, OriginOwnerId := ownerId,
                      CurrentOwnerId := currentOwnerId }
                  let historyBytes := marshalFoodHistory history
                  match CreateCompositeKey "history" [foodId, ownerId, currentOwnerId] with
                  | Except.error e => (Response.Error ("create key error: " ++ e), stub2)
                  | Except.ok historyKey =>
                    (Response.Success none, stub2.PutState historyKey historyBytes)
  | _ => (Response.Error "not enough args", stub)

/-- The method `queryUser`. -/
def queryUser (stub : Ledger) (args : List String) : Response × Ledger :=
  match args with
  | [ownerId] =>
    if ownerId = "" then (Response.Error "invalid args", stub)
    else
      match stub.GetState (constructUserKey ownerId) with
      | none => (Response.Error "user not found", stub)
      | some userBytes => (Response.Success (some userBytes), stub)
  | _ => (Response.Error "not enough args", stub)

/-- The method `queryIngredient`. -/
def queryIngredient (stub : Ledger) (args : List String) : Response × Ledger :=
  match args with
  | [ingredientId] =>
    if ingredientId = "" then (Response.Error "invalid args", stub)
    else
      match stub.GetState (constructIngredientKey ingredientId) with
      | none => (Response.Error "ingredient not found", stub)
      | some ingredientBytes => (Response.Success (some ingredientBytes), stub)
  | _ => (Response.Error "not enough args", stub)

/-- The method `queryFood`. -/
def queryFood (stub : Ledger) (args : List String) : Response × Ledger :=
  match args with
  | [foodId] =>
    if foodId = "" then (Response.Error "invalid args", stub)
    else
      match stub.GetState (constructFoodKey foodId) with
      | none => (Response.Error "food not found", stub)
      | some foodBytes => (Response.Success (some foodBytes), stub)
  | _ => (Response.Error "not enough args", stub)

/-- The loop of `queryIngredientHistory` over the iterator: each value is
decoded, and kept unless the query type is `exchange` and its origin owner is
`originOwner`. -/
def collectIngredientHistories (queryType : String) :
    List (String × Bytes) → List IngredientHistory → Except String (List IngredientHistory)
  | [], histories => Except.ok histories
  | (_, value) :: rest, histories =>
    match unmarshalIngredientHistory value with
    | Except.error e => Except.error e
    | Except.ok history =>
      if queryType = "exchange" ∧ history.OriginOwnerId = originOwner then
        collectIngredientHistories queryType rest histories
      else collectIngredientHistories queryType rest (histories ++ [history])

/-- The loop of `queryFoodHistory` over the iterator. -/
def collectFoodHistories (queryType : String) :
    List (String × Bytes) → List FoodHistory → Except String (List FoodHistory)
  | [], histories => Except.ok histories
  | (_, value) :: rest, histories =>
    match unmarshalFoodHistory value with
    | Except.error e => Except.error e
    | Except.ok history =>
      if queryType = "exchange" ∧ history.OriginOwnerId = originOwner then
        collectFoodHistories queryType rest histories
      else collectFoodHistories queryType rest (histories ++ [history])

/-- The body of `queryIngredientHistory` once `ingredientId` and `queryType`
are read from the arguments. -/
def queryIngredientHistoryBody (stub : Ledger) (ingredientId queryType : String) :
    Response × Ledger :=
  if ingredientId = "" then (Response.Error "invalid args", stub)
  else if queryType ≠ "all" ∧ queryType ≠ "enroll" ∧ queryType ≠ "exchange" then
    (Response.Error ("queryType unknown " ++ queryType), stub)
  else
    match stub.GetState (constructIngredientKey ingredientId) with
    | none => (Response.Error "ingredient not found", stub)
    | some _ =>
      let keys := if queryType = "enroll" then [ingredientId, originOwner] else [ingredientId]
      match stub.GetStateByPartialCompositeKey "history" keys with
      | Except.error e => (Response.Error ("query history error: " ++ e), stub)
      | Except.ok result =>
        match collectIngredientHistories queryType result [] with
        | Except.error e => (Response.Error ("unmarshal error: " ++ e), stub)
        | Except.ok histories =>
          (Response.Success (some (marshalIngredientHistories histories)), stub)

/-- The method `queryIngredientHistory`. -/
def queryIngredientHistory (stub : Ledger) (args : List String) : Response × Ledger :=
  match args with
  | [ingredientId] => queryIngredientHistoryBody stub ingredientId "all"
  | [ingredientId, queryType] => queryIngredientHistoryBody stub ingredientId queryType
  | _ => (Response.Error "not enough args", stub)

/-- The body of `queryFoodHistory` once `foodId` and `queryType` are read from
the arguments. -/
def queryFoodHistoryBody (stub : Ledger) (foodId queryType : String) : Response × Ledger :=
  if foodId = "" then (Response.Error "invalid args", stub)
  else if queryType ≠ "all" ∧ queryType ≠ "enroll" ∧ queryType ≠ "exchange" then
    (Response.Error ("queryType unknown " ++ queryType), stub)
  else
    match stub.GetState (constructFoodKey foodId) with
    | none => (Response.Error "food not found", stub)
    | some _ =>
      let keys := if queryType = "enroll" then [foodId, originOwner] else [foodId]
      match stub.GetStateByPartialCompositeKey "history" keys with
      | Except.error e => (Response.Error ("query history error: " ++ e), stub)
      | Except.ok result =>
        match collectFoodHistories queryType result [] with
        | Except.error e => (Response.Error ("unmarshal error: " ++ e), stub)
        | Except.ok histories =>
          (Response.Success (some (marshalFoodHistories histories)), stub)

/-- The method `queryFoodHistory`. -/
def queryFoodHistory (stub : Ledger) (args : List String) : Response × Ledger :=
  match args with
  | [foodId] => queryFoodHistoryBody stub foodId "all"
  | [foodId, queryType] => queryFoodHistoryBody stub foodId queryType
  | _ => (Response.Error "not enough args", stub)

/-- The method `Invoke`: the dispatch on the function name. -/
def Invoke (stub : Ledger) (funcName : String) (args : List String) : Response × Ledger :=
  if funcName = "userRegister" then userRegister stub args
  else if funcName = "userDestroy" then userDestroy stub args
  else if funcName = "ingredientEnroll" then ingredientEnroll stub args
  else if funcName = "foodEnroll" then foodEnroll stub args
  else if funcName = "ingredientExchange" then ingredientExchange stub args
  else if funcName = "foodExchange" then foodExchange stub args
  else if funcName = "ingredientExchangeFood" then ingredientExchangeFood stub args
  else if funcName = "queryUser" then queryUser stub args
  else if funcName = "queryIngredient" then queryIngredient stub args
  else if funcName = "queryFood" then queryFood stub args
  else if funcName = "queryIngredientHistory" then queryIngredientHistory stub args
  else if funcName = "queryFoodHistory" then queryFoodHistory stub args
  else (Response.Error ("unsupported function: " ++ funcName), stub)

/-! ## Transactions and reachable states -/

/-- Whether a response is a success. -/
def Response.isSuccess : Response → Bool
  | Response.Success _ => true
  | Response.Error _ => false

/-- One transaction: the writes of an invocation that returns a success are
committed, an invocation that returns an error is not committed and leaves
the ledger as it was. -/
def commit (ledger : Ledger) (funcName : String) (args : List String) : Ledger :=
  if (Invoke ledger funcName args).1.isSuccess then (Invoke ledger funcName args).2 else ledger

/-- The ledger after a sequence of transactions. -/
def run (ledger : Ledger) : List (String × List String) → Ledger
  | [] => ledger
  | (funcName, args) :: rest => run (commit ledger funcName args) rest

/-- The ledger states reachable from the empty ledger by transactions. -/
inductive Reachable : Ledger → Prop where
  | empty : Reachable Ledger.empty
  | step (ledger : Ledger) (funcName : String) (args : List String) :
      Reachable ledger → Reachable (commit ledger funcName args)

/-! ## Arguments that are not valid UTF-8

The operations above take their arguments as strings of the model, which are
sequences of Unicode scalar values: they are the operations of the source on
arguments that are valid UTF-8. A Go string is a sequence of bytes, and
`json.Marshal` writes U+FFFD for every byte of a string that does not start a
valid encoding. This section gives the seven operations that write to the
ledger on arbitrary bytes. A stored JSON document is valid UTF-8 whatever the
arguments were, so the values of the ledger are the documents `Bytes` of the
model, and a decoded record holds strings of the model; the keys are Go
strings, and the ledger takes any bytes as a key. -/

/-- A Go string: its bytes, which need not be valid UTF-8. -/
abbrev GoString := List Nat

/-- The UTF-8 encoding of the code point `n`. -/
def encodeRune (n : Nat) : List Nat :=
  if n < 0x80 then [n]
  else if n < 0x800 then [0xC0 + n / 64, 0x80 + n % 64]
  else if n < 0x10000 then [0xE0 + n / 4096, 0x80 + n / 64 % 64, 0x80 + n % 64]
  else [0xF0 + n / 262144, 0x80 + n / 4096 % 64, 0x80 + n / 64 % 64, 0x80 + n % 64]

/-- The UTF-8 encoding of a sequence of characters. -/
def encodeRunes : List Char → GoString
  | [] => []
  | c :: cs => encodeRune c.toNat ++ encodeRunes cs

/-- The bytes of a string of the model, which is valid UTF-8. -/
def utf8Bytes (s : String) : GoString := encodeRunes s.data

/-- The least second byte that `utf8.DecodeRune` accepts after the first byte
`b0` of an encoding of three or four bytes. -/
def secondLo (b0 : Nat) : Nat :=
  if b0 = 0xE0 then 0xA0 else if b0 = 0xF0 then 0x90 else 0x80

/-- The greatest second byte that `utf8.DecodeRune` accepts after the first
byte `b0` of an encoding of three or four bytes. -/
def secondHi (b0 : Nat) : Nat :=
  if b0 = 0xED then 0x9F else if b0 = 0xF4 then 0x8F else 0xBF

/-- The call `utf8.DecodeRune` at the head of the bytes: the code point and the
width of the encoding that starts there, `none` for the rune error of width 1
(no bytes, or a head that does not start a valid encoding). -/
def decodeRune : List Nat → Option (Nat × Nat)
  | [] => none
  | b0 :: rest =>
    if b0 < 0x80 then some (b0, 1)
    else if 0xC2 ≤ b0 ∧ b0 ≤ 0xDF then
      match rest with
      | b1 :: _ =>
        if 0x80 ≤ b1 ∧ b1 ≤ 0xBF then some ((b0 - 0xC0) * 64 + (b1 - 0x80), 2) else none
      | _ => none
    else if 0xE0 ≤ b0 ∧ b0 ≤ 0xEF then
      match rest with
      | b1 :: b2 :: _ =>
        if secondLo b0 ≤ b1 ∧ b1 ≤ secondHi b0 ∧ 0x80 ≤ b2 ∧ b2 ≤ 0xBF then
          some ((b0 - 0xE0) * 4096 + (b1 - 0x80) * 64 + (b2 - 0x80), 3)
        else none
      | _ => none
    else if 0xF0 ≤ b0 ∧ b0 ≤ 0xF4 then
      match rest with
      | b1 :: b2 :: b3 :: _ =>
        if secondLo b0 ≤ b1 ∧ b1 ≤ secondHi b0 ∧ 0x80 ≤ b2 ∧ b2 ≤ 0xBF ∧
            0x80 ≤ b3 ∧ b3 ≤ 0xBF then
          some ((b0 - 0xF0) * 262144 + (b1 - 0x80) * 4096 + (b2 - 0x80) * 64 + (b3 - 0x80), 4)
        else none
      | _ => none
    else none

/-- The characters that `json.Unmarshal` reads back from what `json.Marshal`
writes for a Go string: the runes of the string, with U+FFFD for each byte
that does not start a valid encoding. `skip` counts the bytes of the current
rune that are still to pass. -/
def jsonRunes : Nat → List Nat → List Char
  | _, [] => []
  | skip + 1, _ :: rest => jsonRunes skip rest
  | 0, b :: rest =>
    match decodeRune (b :: rest) with
    | some (cp, width) => Char.ofNat cp :: jsonRunes (width - 1) rest
    | none => Char.ofNat 0xFFFD :: jsonRunes 0 rest

/-- The string that `json.Unmarshal` reads back from what `json.Marshal`
writes for a Go string. -/
def jsonString (s : GoString) : String := ⟨jsonRunes 0 s⟩

/-- The world state with Go strings as keys. -/
def RawLedger : Type := GoString → Option Bytes

/-- The empty world state. -/
def RawLedger.empty : RawLedger := fun _ => none

/-- The call `stub.GetState(key)` on a key that is a Go string. -/
def RawLedger.GetState (stub : RawLedger) (key : GoString) : Option Bytes := stub key

/-- The call `stub.PutState(key, value)` on a key that is a Go string. -/
def RawLedger.PutState (stub : RawLedger) (key : GoString) (value : Bytes) : RawLedger :=
  fun k => if k = key then some value else stub k

/-- The world state of the model seen with Go strings as keys: a key that is
the UTF-8 encoding of a string holds the value of that string, any other key
holds nothing. -/
def Ledger.raw (stub : Ledger) : RawLedger :=
  fun key => if utf8Bytes (jsonString key) = key then stub.GetState (jsonString key) else none

/-- The function `constructUserKey` on a Go string. -/
def Raw.constructUserKey (userId : GoString) : GoString := utf8Bytes "user_" ++ userId

/-- The method `userRegister` on arguments that are Go strings: the key is
built from the bytes of the id, and the stored document is what `json.Marshal`
writes for the record. -/
def Raw.userRegister (stub : RawLedger) (args : List GoString) : Response × RawLedger :=
  match args with
  | [name, id] =>
    if name = [] ∨ id = [] then (Response.Error "invalid args", stub)
    else
      match stub.GetState (Raw.constructUserKey id) with
      | some _ => (Response.Error "user already exist", stub)
      | none =>
        (Response.Success none,
          stub.PutState (Raw.constructUserKey id)
            (marshalUser ⟨jsonString name, jsonString id, [], []⟩))
  | _ => (Response.Error "not enough args", stub)

/-- The call `utf8.ValidString` on the bytes: every rune decodes. `skip` counts
the bytes of the current rune that are still to pass. -/
def utf8Valid : Nat → List Nat → Bool
  | _, [] => true
  | skip + 1, _ :: rest => utf8Valid skip rest
  | 0, b :: rest =>
    match decodeRune (b :: rest) with
    | some (_, width) => utf8Valid (width - 1) rest
    | none => false

/-- The call `stub.DelState(key)` on a key that is a Go string. -/
def RawLedger.DelState (stub : RawLedger) (key : GoString) : RawLedger :=
  fun k => if k = key then none else stub k

/-- The function `constructIngredientKey` on a Go string. -/
def Raw.constructIngredientKey (ingredientId : GoString) : GoString :=
  utf8Bytes "ingredient_" ++ ingredientId

/-- The function `constructFoodKey` on a Go string. -/
def Raw.constructFoodKey (foodId : GoString) : GoString := utf8Bytes "food_" ++ foodId

/-- The function `constructFOODKey` on a Go string. -/
def Raw.constructFOODKey (foodId : GoString) : GoString := utf8Bytes "food_" ++ foodId

/-- The check `validateCompositeKeyAttribute` of the shim on a Go string: the
attribute is valid UTF-8 (`utf8.ValidString`) and holds neither U+0000 nor
U+10FFFF. The message of the shim for bytes that are not valid UTF-8 also
prints the bytes. -/
def Raw.validateCompositeKeyAttribute (str : GoString) : Except String Unit :=
  if utf8Valid 0 str then FabricFood.validateCompositeKeyAttribute (jsonString str)
  else Except.error "not a valid utf8 string"

/-- The loop of `CreateCompositeKey` over attributes that are Go strings. -/
def Raw.appendAttributes (ck : GoString) : List GoString → Except String GoString
  | [] => Except.ok ck
  | att :: rest =>
    match Raw.validateCompositeKeyAttribute att with
    | Except.error e => Except.error e
    | Except.ok _ => Raw.appendAttributes (ck ++ att ++ [0]) rest

/-- The call `stub.CreateCompositeKey(objectType, attributes)` on Go strings:
the byte of U+0000, the object type and the attributes, each followed by the
byte of U+0000. -/
def Raw.CreateCompositeKey (objectType : GoString) (attributes : List GoString) :
    Except String GoString :=
  match Raw.validateCompositeKeyAttribute objectType with
  | Except.error e => Except.error e
  | Except.ok _ => Raw.appendAttributes ([0] ++ objectType ++ [0]) attributes

/-- The loop of `userDestroy` on the decoded ingredient ids. -/
def Raw.deleteIngredients (stub : RawLedger) : List String → RawLedger
  | [] => stub
  | ingredientid :: rest =>
    Raw.deleteIngredients
      (stub.DelState (Raw.constructIngredientKey (utf8Bytes ingredientid))) rest

/-- The method `userDestroy` on an argument that is a Go string. -/
def Raw.userDestroy (stub : RawLedger) (args : List GoString) : Response × RawLedger :=
  match args with
  | [id] =>
    if id = [] then (Response.Error "invalid args", stub)
    else
      match stub.GetState (Raw.constructUserKey id) with
      | none => (Response.Error "user not found", stub)
      | some userBytes =>
        let stub1 := stub.DelState (Raw.constructUserKey id)
        match unmarshalUser userBytes with
        | Except.error e => (Response.Error ("unmarshal user error: " ++ e), stub1)
        | Except.ok user =>
          (Response.Success none, Raw.deleteIngredients stub1 user.Ingredients)
  | _ => (Response.Error "not enough args", stub)

/-- The method `ingredientEnroll` on arguments that are Go strings. The decoded
user holds strings; the argument appended to its list is written by
`json.Marshal` as `jsonString` reads it back, and the user is written under
the key built from the bytes of the decoded `Id`. -/
def Raw.ingredientEnroll (stub : RawLedger) (args : List GoString) : Response × RawLedger :=
  match args with
  | [ingredientName, ingredientId, metadata, ownerId] =>
    if ingredientName = [] ∨ ingredientId = [] ∨ ownerId = [] then
      (Response.Error "invalid args", stub)
    else
      match stub.GetState (Raw.constructUserKey ownerId) with
      | none => (Response.Error "user not found", stub)
      | some userBytes =>
        match stub.GetState (Raw.constructIngredientKey ingredientId) with
        | some _ => (Response.Error "ingredient already exist", stub)
        | none =>
          let ingredient : Ingredient :=
            { Name := jsonString ingredientName, Id := jsonString ingredientId,
              Metadata := jsonString metadata }
          let ingredientBytes := marshalIngredient ingredient
          let stub1 := stub.PutState (Raw.constructIngredientKey ingredientId) ingredientBytes
          match unmarshalUser userBytes with
          | Except.error e => (Response.Error ("unmarshal user error: " ++ e), stub1)
          | Except.ok user0 =>
            let user : User :=
              { user0 with Ingredients := user0.Ingredients ++ [jsonString ingredientId] }
            let userBytes1 := marshalUser user
            let stub2 := stub1.PutState (Raw.constructUserKey (utf8Bytes user.Id)) userBytes1
            let history : IngredientHistory :=
              { IngredientId := jsonString ingredientId, OriginOwnerId := originOwner,
                CurrentOwnerId := jsonString ownerId }
            let historyBytes := marshalIngredientHistory history
            match Raw.CreateCompositeKey (utf8Bytes "history")
                [ingredientId, utf8Bytes originOwner, ownerId] with
            | Except.error e => (Response.Error ("create key error: " ++ e), stub2)
            | Except.ok historyKey =>
              (Response.Success none, stub2.PutState historyKey historyBytes)
  | _ => (Response.Error "not enough args", stub)

/-- The method `foodEnroll` on arguments that are Go strings. -/
def Raw.foodEnroll (stub : RawLedger) (args : List GoString) : Response × RawLedger :=
  match args with
  | [foodName, foodId, metadata, ownerId] =>
    if foodName = [] ∨ foodId = [] ∨ ownerId = [] then
      (Response.Error "invalid args", stub)
    else
      match stub.GetState (Raw.constructUserKey ownerId) with
      | none => (Response.Error "user not found", stub)
      | some userBytes =>
        match stub.GetState (Raw.constructFOODKey foodId) with
        | some _ => (Response.Error "food already exist", stub)
        | none =>
          let food : Food :=
            { Name := jsonString foodName, Id := jsonString foodId,
              Metadata := jsonString metadata, Ingredients := [] }
          let foodBytes := marshalFood food
          let stub1 := stub.PutState (Raw.constructFoodKey foodId) foodBytes
          match unmarshalUser userBytes with
          | Except.error e => (Response.Error ("unmarshal user error: " ++ e), stub1)
          | Except.ok user0 =>
            let user : User := { user0 with Foods := user0.Foods ++ [jsonString foodId] }
            let userBytes1 := marshalUser user
            let stub2 := stub1.PutState (Raw.constructUserKey (utf8Bytes user.Id)) userBytes1
            let history : FoodHistory :=
              { FoodId := jsonString foodId, OriginOwnerId := originOwner,
                CurrentOwnerId := jsonString ownerId }
            let historyBytes := marshalFoodHistory history
            match Raw.CreateCompositeKey (utf8Bytes "history")
                [foodId, utf8Bytes originOwner, ownerId] with
            | Except.error e => (Response.Error ("create key error: " ++ e), stub2)
            | Except.ok historyKey =>
              (Response.Success none, stub2.PutState historyKey historyBytes)
  | _ => (Response.Error "not enough args", stub)

/-- The first loop of the exchange methods on a Go string: whether the bytes
of one of the decoded `ids` are `id`. -/
def Raw.aidexist (ids : List String) (id : GoString) : Bool :=
  match ids with
  | [] => false
  | aid :: rest => if utf8Bytes aid = id then true else Raw.aidexist rest id

/-- The second loop of the exchange methods on a Go string: the elements of
`ids` whose bytes are not `id`, in order. -/
def Raw.removeId (ids : List String) (id : GoString) : List String :=
  match ids with
  | [] => []
  | aid :: rest =>
    if utf8Bytes aid = id then Raw.removeId rest id else aid :: Raw.removeId rest id

/-- The method `ingredientExchange` on arguments that are Go strings. -/
def Raw.ingredientExchange (stub : RawLedger) (args : List GoString) : Response × RawLedger :=
  match args with
  | [ownerId, ingredientId, currentOwnerId] =>
    if ownerId = [] ∨ ingredientId = [] ∨ currentOwnerId = [] then
      (Response.Error "invalid args", stub)
    else
      match stub.GetState (Raw.constructUserKey ownerId) with
      | none => (Response.Error "user not found", stub)
      | some originOwnerBytes =>
        match stub.GetState (Raw.constructUserKey currentOwnerId) with
        | none => (Response.Error "user not found", stub)
        | some currentOwnerBytes =>
          match stub.GetState (Raw.constructIngredientKey ingredientId) with
          | none => (Response.Error "asset not found", stub)
          | some _ =>
            match unmarshalUser originOwnerBytes with
            | Except.error e => (Response.Error ("unmarshal user error: " ++ e), stub)
            | Except.ok originOwner0 =>
              if ¬ Raw.aidexist originOwner0.Ingredients ingredientId then
                (Response.Error "ingredient owner not match", stub)
              else
                let originOwner1 : User :=
                  { originOwner0 with
                    Ingredients := Raw.removeId originOwner0.Ingredients ingredientId }
                let stub1 :=
                  stub.PutState (Raw.constructUserKey ownerId) (marshalUser originOwner1)
                match unmarshalUser currentOwnerBytes with
                | Except.error e => (Response.Error ("unmarshal user error: " ++ e), stub1)
                | Except.ok currentOwner0 =>
                  let currentOwner : User :=
                    { currentOwner0 with
                      Ingredients := currentOwner0.Ingredients ++ [jsonString ingredientId] }
                  let stub2 := stub1.PutState (Raw.constructUserKey currentOwnerId)
                    (marshalUser currentOwner)
                  let history : IngredientHistory :=
                    { IngredientId := jsonString ingredientId,
                      OriginOwnerId := jsonString ownerId,
                      CurrentOwnerId := jsonString currentOwnerId }
                  let historyBytes := marshalIngredientHistory history
                  match Raw.CreateCompositeKey (utf8Bytes "history")
                      [ingredientId, ownerId, currentOwnerId] with
                  | Except.error e => (Response.Error ("create key error: " ++ e), stub2)
                  | Except.ok historyKey =>
                    (Response.Success none, stub2.PutState historyKey historyBytes)
  | _ => (Response.Error "not enough args", stub)

/-- The method `ingredientExchangeFood` on arguments that are Go strings. -/
def Raw.ingredientExchangeFood (stub : RawLedger) (args : List GoString) :
    Response × RawLedger :=
  match args with
  | [ownerId, ingredientId, currentOwnerId] =>
    if ownerId = [] ∨ ingredientId = [] ∨ currentOwnerId = [] then
      (Response.Error "invalid args", stub)
    else
      match stub.GetState (Raw.constructUserKey ownerId) with
      | none => (Response.Error "user not found", stub)
      | some originOwnerBytes =>
        match stub.GetState (Raw.constructFOODKey currentOwnerId) with
        | none => (Response.Error "user not found", stub)
        | some currentOwnerBytes =>
          match stub.GetState (Raw.constructIngredientKey ingredientId) with
          | none => (Response.Error "ingredient not found", stub)
          | some _ =>
            match unmarshalUser originOwnerBytes with
            | Except.error e => (Response.Error ("unmarshal user error: " ++ e), stub)
            | Except.ok originOwner0 =>
              if ¬ Raw.aidexist originOwner0.Ingredients ingredientId then
                (Response.Error "ingredient owner not match", stub)
              else
                let originOwner1 : User :=
                  { originOwner0 with
                    Ingredients := Raw.removeId originOwner0.Ingredients ingredientId }
                let stub1 :=
                  stub.PutState (Raw.constructUserKey ownerId) (marshalUser originOwner1)
                match unmarshalFood currentOwnerBytes with
                | Except.error e => (Response.Error ("unmarshal user error: " ++ e), stub1)
                | Except.ok currentOwner0 =>
                  let currentOwner : Food :=
                    { currentOwner0 with
                      Ingredients := currentOwner0.Ingredients ++ [jsonString ingredientId] }
                  let stub2 := stub1.PutState (Raw.constructFOODKey currentOwnerId)
                    (marshalFood currentOwner)
                  let history : IngredientHistory :=
                    { IngredientId := jsonString ingredientId,
                      OriginOwnerId := jsonString ownerId,
                      CurrentOwnerId := jsonString currentOwnerId }
                  let historyBytes := marshalIngredientHistory history
                  match Raw.CreateCompositeKey (utf8Bytes "history")
                      [ingredientId, ownerId, currentOwnerId] with
                  | Except.error e => (Response.Error ("create key error: " ++ e), stub2)
                  | Except.ok historyKey =>
                    (Response.Success none, stub2.PutState historyKey historyBytes)
  | _ => (Response.Error "not enough args", stub)

/-- The method `foodExchange` on arguments that are Go strings. -/
def Raw.foodExchange (stub : RawLedger) (args : List GoString) : Response × RawLedger :=
  match args with
  | [ownerId, foodId, currentOwnerId] =>
    if ownerId = [] ∨ foodId = [] ∨ currentOwnerId = [] then
      (Response.Error "invalid args", stub)
    else
      match stub.GetState (Raw.constructUserKey ownerId) with
      | none => (Response.Error "user not found", stub)
      | some originOwnerBytes =>
        match stub.GetState (Raw.constructUserKey currentOwnerId) with
        | none => (Response.Error "user not found", stub)
        | some currentOwnerBytes =>
          match stub.GetState (Raw.constructFoodKey foodId) with
          | none => (Response.Error "food not found", stub)
          | some _ =>
            match unmarshalUser originOwnerBytes with
            | Except.error e => (Response.Error ("unmarshal user error: " ++ e), stub)
            | Except.ok originOwner0 =>
              if ¬ Raw.aidexist originOwner0.Foods foodId then
                (Response.Error "food owner not match", stub)
              else
                let originOwner1 : User :=
                  { originOwner0 with Foods := Raw.removeId originOwner0.Foods foodId }
                let stub1 :=
                  stub.PutState (Raw.constructUserKey ownerId) (marshalUser originOwner1)
                match unmarshalUser currentOwnerBytes with
                | Except.error e => (Response.Error ("unmarshal user error: " ++ e), stub1)
                | Except.ok currentOwner0 =>
                  let currentOwner : User :=
                    { currentOwner0 with Foods := currentOwner0.Foods ++ [jsonString foodId] }
                  let stub2 := stub1.PutState (Raw.constructUserKey currentOwnerId)
                    (marshalUser currentOwner)
                  let history : FoodHistory :=
                    { FoodId := jsonString foodId, OriginOwnerId := jsonString ownerId,
                      CurrentOwnerId := jsonString currentOwnerId }
                  let historyBytes := marshalFoodHistory history
                  match Raw.CreateCompositeKey (utf8Bytes "history")
                      [foodId, ownerId, currentOwnerId] with
                  | Except.error e => (Response.Error ("create key error: " ++ e), stub2)
                  | Except.ok historyKey =>
                    (Response.Success none, stub2.PutState historyKey historyBytes)
  | _ => (Response.Error "not enough args", stub)

/-- The seven operations that write to the ledger, on Go strings; the five
queries write nothing. -/
def Raw.writers : List (RawLedger → List GoString → Response × RawLedger) :=
  [Raw.userRegister, Raw.userDestroy, Raw.ingredientEnroll, Raw.foodEnroll,
    Raw.ingredientExchange, Raw.foodExchange, Raw.ingredientExchangeFood]

/-- The ledger states reachable from the empty ledger by transactions whose
arguments are arbitrary Go strings: a transaction is committed when its
operation returns a success. -/
inductive RawReachable : RawLedger → Prop where
  | empty : RawReachable RawLedger.empty
  | step (stub stub1 : RawLedger) (op : RawLedger → List GoString → Response × RawLedger)
      (args : List GoString) (payload : Option Bytes) :
      RawReachable stub → op ∈ Raw.writers →
      op stub args = (Response.Success payload, stub1) → RawReachable stub1


/-- The invariant of the user records on Go strings: the value under the key
of user `k` is the encoding of a user record whose `Id` is what `json` reads
back from the bytes `k`, which is `k` when `k` is valid UTF-8. -/
def RawUserCanon (stub : RawLedger) : Prop :=
  ∀ k bytes, stub.GetState (Raw.constructUserKey k) = some bytes →
    ∃ user : User, bytes = marshalUser user ∧ user.Id = jsonString k

/-- The ledger after the registration of the user `Eve` under the id of the
single byte `0xFF`, which is not valid UTF-8. -/
def eveLedger : RawLedger :=
  (Raw.userRegister RawLedger.empty [utf8Bytes "Eve", [0xFF]]).2

/-- The ledger after the registration of the user `Alice` under the id `u1`,
by the operation on Go strings. -/
def aliceLedger : RawLedger :=
  (Raw.userRegister RawLedger.empty [utf8Bytes "Alice", utf8Bytes "u1"]).2

/-! ## Ownership -/

/-- The Ingredients list of the user record stored for `id`; the empty list
when no user is stored for `id` (or the stored value does not decode). -/
def userIngredients (ledger : Ledger) (id : String) : List String :=
  match ledger.GetState (constructUserKey id) with
  | none => []
  | some userBytes =>
    match unmarshalUser userBytes with
    | Except.ok user => user.Ingredients
    | Except.error _ => []

/-- The Ingredients list of the food record stored for `id`; the empty list
when no food is stored for `id` (or the stored value does not decode). -/
def foodIngredients (ledger : Ledger) (id : String) : List String :=
  match ledger.GetState (constructFoodKey id) with
  | none => []
  | some foodBytes =>
    match unmarshalFood foodBytes with
    | Except.ok food => food.Ingredients
    | Except.error _ => []

/-- A holder of ingredients: the user or the food with the given id. -/
inductive Holder where
  | user (id : String)
  | food (id : String)
deriving DecidableEq

/-- The holder lists the ingredient id `x` in its stored record. -/
def Holder.holds (ledger : Ledger) : Holder → String → Prop
  | Holder.user id, x => x ∈ userIngredients ledger id
  | Holder.food id, x => x ∈ foodIngredients ledger id

/-- The invariant of the reachable ledgers: user and food records are the
encodings of records, a user record is stored under its own id, and every
ingredient id is listed by a holder exactly when its record is stored, and
then by one holder only. -/
structure Inv (ledger : Ledger) : Prop where
  user_canon : ∀ id bytes, ledger.GetState (constructUserKey id) = some bytes →
    ∃ user : User, bytes = marshalUser user ∧ user.Id = id
  food_canon : ∀ id bytes, ledger.GetState (constructFoodKey id) = some bytes →
    ∃ food : Food, bytes = marshalFood food
  held_stored : ∀ (h : Holder) (x : String), h.holds ledger x →
    ledger.GetState (constructIngredientKey x) ≠ none
  holder_unique : ∀ (x : String) (h1 h2 : Holder), h1.holds ledger x → h2.holds ledger x →
    h1 = h2
  stored_held : ∀ x : String, ledger.GetState (constructIngredientKey x) ≠ none →
    ∃ h : Holder, h.holds ledger x

/-! ## Scenarios -/

/-- The scenario of the specification: Alice (`u1`) and Bob (`u2`) are
registered and the ingredient `i1` is enrolled to `u1`. -/
def scenario : Ledger :=
  run Ledger.empty
    [("userRegister", ["Alice", "u1"]), ("userRegister", ["Bob", "u2"]),
     ("ingredientEnroll", ["Tomato", "i1", "organic", "u1"])]

/-- The scenario with the food `f1` enrolled to `u1`. -/
def foodScenario : Ledger := commit scenario "foodEnroll" ["Soup", "f1", "hot", "u1"]

/-! ## History records -/

/-- The key is a composite key of the `history` namespace. -/
def isHistoryKey (key : String) : Prop :=
  ∃ attributes : List String, CreateCompositeKey "history" attributes = Except.ok key

/-- The history records of `before` are kept by `after`: each key of the
`history` namespace that holds a value in `before` holds a value in `after`,
the same one, or the ingredient- or food-history record of the three
attributes of the key. -/
def HistoryKept (before after : Ledger) : Prop :=
  ∀ key value, isHistoryKey key → before.GetState key = some value →
    ∃ value1, after.GetState key = some value1 ∧
      (value1 = value ∨
        ∃ assetId originOwnerId currentOwnerId,
          CreateCompositeKey "history" [assetId, originOwnerId, currentOwnerId] =
            Except.ok key ∧
          (value1 = marshalIngredientHistory ⟨assetId, originOwnerId, currentOwnerId⟩ ∨
            value1 = marshalFoodHistory ⟨assetId, originOwnerId, currentOwnerId⟩))

/-- The ledger with the user `u1` only. -/
def oneUser : Ledger := run Ledger.empty [("userRegister", ["Alice", "u1"])]

/-- A ledger that is not reachable: the value stored for the user `u1` is not
a JSON document. -/
def undecodableUser : Ledger := ⟨[("user_u1", Bytes.text "Alice")]⟩

/-- The ledger in which `u1` has enrolled the ingredient `x`. -/
def ingredientX : Ledger :=
  run Ledger.empty
    [("userRegister", ["Alice", "u1"]), ("ingredientEnroll", ["Tomato", "x", "organic", "u1"])]

/-- The result of a call on `stub` has written nothing when it is an error,
unless the error is an `unmarshal user error` or a `create key error`. -/
def NoWriteOnError (stub : Ledger) (r : Response × Ledger) : Prop :=
  ∀ msg, r.1 = Response.Error msg →
    r.2 = stub ∨ (∃ e, msg = "unmarshal user error: " ++ e) ∨
      (∃ e, msg = "create key error: " ++ e)

/-- The characters of the partial composite key of the history of an asset:
U+0000, `history`, U+0000, the asset id, U+0000. -/
def historyPrefix (assetId : String) : List Char :=
  minUnicodeRuneValue ::
    ("history".data ++ minUnicodeRuneValue :: (assetId.data ++ [minUnicodeRuneValue]))

/-- The number of records of a history query: the length of the array of the
payload. -/
def historyCount : Response → Option Nat
  | Response.Success (some (Bytes.array items)) => some items.length
  | _ => none

/-- The key is in the range scanned for the partial composite key whose
characters are `p`: not below `p`, and below `p` followed by U+10FFFF. -/
def inHistoryRange (p : List Char) (e : String × Bytes) : Bool :=
  !keyLt e.1.data p && keyLt e.1.data (p ++ [maxUnicodeRuneValue])

/-- The binding is kept by the loop of `queryIngredientHistory`: its value
decodes, and the query type is not `exchange` or the origin owner of the
record is not `originOwner`. -/
def keptHistory (queryType : String) (e : String × Bytes) : Bool :=
  match unmarshalIngredientHistory e.2 with
  | Except.ok history => !decide (queryType = "exchange" ∧ history.OriginOwnerId = originOwner)
  | Except.error _ => false

/-- The ledger with the users `u1` and `u2` and no ingredient. -/
def twoUsers : Ledger :=
  run Ledger.empty [("userRegister", ["Alice", "u1"]), ("userRegister", ["Bob", "u2"])]

/-- The scenario after the transfer of `i1` from `u1` to `u2`. -/
def afterOne : Ledger := commit scenario "ingredientExchange" ["u1", "i1", "u2"]

/-- The scenario after the transfers of `i1` from `u1` to `u2` and back. -/
def afterTwo : Ledger := commit afterOne "ingredientExchange" ["u2", "i1", "u1"]

/-- The scenario after three transfers of `i1`: from `u1` to `u2`, back, and
from `u1` to `u2` again. -/
def afterThree : Ledger := commit afterTwo "ingredientExchange" ["u1", "i1", "u2"]

/-! ## The frame of a transfer -/

/-- The user record stored for `id`, decoded; `none` when no user is stored
for `id` or the stored value does not decode. -/
def storedUser (ledger : Ledger) (id : String) : Option User :=
  match ledger.GetState (constructUserKey id) with
  | none => none
  | some userBytes =>
    match unmarshalUser userBytes with
    | Except.ok user => some user
    | Except.error _ => none

/-- The frame of a transfer of the asset `assetId`, whose record is stored
under `assetKey`, from `fromOwnerId` to `toOwnerId`, between the ledger
`stub` before the call and the ledger `stub1` after it. `moved` is the list of
a user record that the transfer works on and `other` its other list. Every key
but the two user keys and the history key of the transfer keeps its value, so
do the key of the asset and the keys of the other users, and the two user
records keep their name, id and other list; the list of the source keeps its
elements other than `assetId` in their order, and the list of the target is
its list before with `assetId` appended. -/
def TransferFrame (stub stub1 : Ledger) (assetKey fromOwnerId assetId toOwnerId : String)
    (moved other : User → List String) : Prop :=
  (∃ historyKey,
    CreateCompositeKey "history" [assetId, fromOwnerId, toOwnerId] = Except.ok historyKey ∧
    ∀ key, key ≠ constructUserKey fromOwnerId → key ≠ constructUserKey toOwnerId →
      key ≠ historyKey → stub1.GetState key = stub.GetState key) ∧
  stub1.GetState assetKey = stub.GetState assetKey ∧
  (∀ id, id ≠ fromOwnerId → id ≠ toOwnerId →
    stub1.GetState (constructUserKey id) = stub.GetState (constructUserKey id)) ∧
  ∃ source source1 target target1 : User,
    storedUser stub fromOwnerId = some source ∧ storedUser stub1 fromOwnerId = some source1 ∧
    storedUser stub toOwnerId = some target ∧ storedUser stub1 toOwnerId = some target1 ∧
    source1.Name = source.Name ∧ source1.Id = source.Id ∧ other source1 = other source ∧
    target1.Name = target.Name ∧ target1.Id = target.Id ∧ other target1 = other target ∧
    (moved source1).filter (fun a => decide (a ≠ assetId)) =
      (moved source).filter (fun a => decide (a ≠ assetId)) ∧
    (fromOwnerId ≠ toOwnerId →
      moved source1 = (moved source).filter (fun a => decide (a ≠ assetId))) ∧
    moved target1 = moved target ++ [assetId]

/-! ## The invariant of the history records -/

/-- A binding as the program writes them: the key is the key of a user, of an
ingredient or of a food, or it is the composite key of the `history` namespace
for three attributes and the value is the ingredient- or food-history record
of these three attributes. -/
def EntryOK (e : String × Bytes) : Prop :=
  (∃ id, e.1 = constructUserKey id) ∨ (∃ id, e.1 = constructIngredientKey id) ∨
  (∃ id, e.1 = constructFoodKey id) ∨
  ∃ assetId originOwnerId currentOwnerId,
    CreateCompositeKey "history" [assetId, originOwnerId, currentOwnerId] = Except.ok e.1 ∧
    (e.2 = marshalIngredientHistory ⟨assetId, originOwnerId, currentOwnerId⟩ ∨
      e.2 = marshalFoodHistory ⟨assetId, originOwnerId, currentOwnerId⟩)

/-- The asset `assetId` has an enrollment record: its id is not empty and a
history record is stored under a composite key `(assetId, originOwner,
ownerId)`. -/
def HasEnrollment (ledger : Ledger) (assetId : String) : Prop :=
  assetId ≠ "" ∧ ∃ ownerId key,
    CreateCompositeKey "history" [assetId, originOwner, ownerId] = Except.ok key ∧
    ledger.GetState key ≠ none

/-- The invariant of the history records of the reachable ledgers: the
bindings are in key order and are bindings as the program writes them, and
every stored ingredient and every stored food has an enrollment record. -/
structure HistInv (ledger : Ledger) : Prop where
  wf : ledger.WF
  entries_ok : ∀ e ∈ ledger.entries, EntryOK e
  ingredient_enrolled : ∀ id, ledger.GetState (constructIngredientKey id) ≠ none →
    HasEnrollment ledger id
  food_enrolled : ∀ id, ledger.GetState (constructFoodKey id) ≠ none →
    HasEnrollment ledger id

/-- The characters of the partial composite key of the enrollment records of
an asset: the partial key of its history followed by `originOwner` and
U+0000. -/
def enrollPrefix (assetId : String) : List Char :=
  historyPrefix assetId ++ (originOwner.data ++ [minUnicodeRuneValue])

/-- The characters that follow the partial key of the history of an asset in
the composite key of a history record: the origin owner, U+0000, the current
owner, U+0000. -/
def pairKey (originOwnerId currentOwnerId : String) : List Char :=
  originOwnerId.data ++ minUnicodeRuneValue :: (currentOwnerId.data ++ [minUnicodeRuneValue])

/-- The ingredient `x` is enrolled to `u1`, `u1` is destroyed, and `x` is
enrolled again, to `u2`. -/
def reEnrolled : Ledger :=
  run Ledger.empty
    [("userRegister", ["Alice", "u1"]), ("userRegister", ["Bob", "u2"]),
     ("ingredientEnroll", ["Tomato", "x", "organic", "u1"]), ("userDestroy", ["u1"]),
     ("ingredientEnroll", ["Tomato", "x", "organic", "u2"])]

/-- The users `a` and `b`: the ingredient `i1` is enrolled to `a` and then
transferred from `a` to `b`. -/
def transferFromA : Ledger :=
  run Ledger.empty
    [("userRegister", ["Ann", "a"]), ("userRegister", ["Bob", "b"]),
     ("ingredientEnroll", ["Tomato", "i1", "organic", "a"]),
     ("ingredientExchange", ["a", "i1", "b"])]

/-- A user is registered under the id `originPlaceholder`, the value of
`originOwner`, and the ingredient `i1` is enrolled to that user. -/
def sentinelEnrolled : Ledger :=
  run Ledger.empty
    [("userRegister", ["Eve", "originPlaceholder"]), ("userRegister", ["Bob", "u2"]),
     ("ingredientEnroll", ["Tomato", "i1", "organic", "originPlaceholder"])]

/-- The ledger `sentinelEnrolled` after the transfer of `i1` from the user
`originPlaceholder` to `u2`. -/
def sentinelUser : Ledger :=
  commit sentinelEnrolled "ingredientExchange" ["originPlaceholder", "i1", "u2"]

/-- The ingredient-history record that the loop of `queryIngredientHistory`
reads from a value; the empty record when the value does not decode. -/
def decodeIngredientHistory (value : Bytes) : IngredientHistory :=
  match unmarshalIngredientHistory value with
  | Except.ok history => history
  | Except.error _ => ⟨"", "", ""⟩

/-- The food-history record that the loop of `queryFoodHistory` reads from a
value; the empty record when the value does not decode. -/
def decodeFoodHistory (value : Bytes) : FoodHistory :=
  match unmarshalFoodHistory value with
  | Except.ok history => history
  | Except.error _ => ⟨"", "", ""⟩

/-- The list `hs` of records is the list of the enrollment records of the
asset `id` in the ledger: it is not empty, no two of its records have the same
current owner, each record has `originOwner` as origin owner and is the
decoding of the value stored under the composite key `(id, originOwner,
current owner)`, and every current owner with a value stored under such a key
has its record in the list. `unmarshal` decodes a record, `origin` and
`current` read its owners. -/
def EnrollmentList {α : Type} (ledger : Ledger) (id : String)
    (unmarshal : Bytes → Except String α) (origin current : α → String) (hs : List α) : Prop :=
  1 ≤ hs.length ∧ (hs.map current).Nodup ∧
  (∀ h ∈ hs, origin h = originOwner ∧
    ∃ key value, CreateCompositeKey "history" [id, originOwner, current h] = Except.ok key ∧
      ledger.GetState key = some value ∧ unmarshal value = Except.ok h) ∧
  (∀ c key, CreateCompositeKey "history" [id, originOwner, c] = Except.ok key →
    ledger.GetState key ≠ none → c ∈ hs.map current)

/-! ## The foods of a user -/

/-- The Foods list of the user record stored for `id`; the empty list when no
user is stored for `id` (or the stored value does not decode). -/
def userFoods (ledger : Ledger) (id : String) : List String :=
  match ledger.GetState (constructUserKey id) with
  | none => []
  | some userBytes =>
    match unmarshalUser userBytes with
    | Except.ok user => user.Foods
    | Except.error _ => []

/-- Every food id listed by a stored user has a stored food record. -/
def FoodsStored (ledger : Ledger) : Prop :=
  ∀ id x, x ∈ userFoods ledger id → ledger.GetState (constructFoodKey x) ≠ none

/-- A ledger that is not reachable: the record stored under the key of the
user `u1` has the id `u9`. -/
def misfiledUser : Ledger := ⟨[("user_u1", marshalUser ⟨"Alice", "u9", [], []⟩)]⟩

/-! ## The ids of the stored users -/

/-- No user record is stored under the empty id. -/
def NoEmptyUser (ledger : Ledger) : Prop :=
  ledger.GetState (constructUserKey "") = none
/-! ## The ledger laws -/

theorem lookupKV_insertKV (key : String) (value : Bytes) (l : List (String × Bytes))
    (k : String) :
    lookupKV k (insertKV key value l) = if k = key then some value else lookupKV k l := by
  induction l with
  | nil =>
    by_cases h : k = key
    · simp [insertKV, lookupKV, h]
    · simp [insertKV, lookupKV, h, Ne.symm h]
  | cons hd tl ih =>
    obtain ⟨k0, v0⟩ := hd
    by_cases h : k = key
    · subst h
      rw [if_pos rfl] at ih ⊢
      unfold insertKV
      split_ifs with h1 h2
      · simp [lookupKV]
      · simp [lookupKV]
      · simp [lookupKV, Ne.symm h2, ih]
    · rw [if_neg h] at ih ⊢
      unfold insertKV
      split_ifs with h1 h2
      · simp [lookupKV, Ne.symm h]
      · subst h2
        simp [lookupKV, Ne.symm h]
      · simp [lookupKV, ih]

theorem lookupKV_eraseKV (key : String) (l : List (String × Bytes)) (k : String) :
    lookupKV k (eraseKV key l) = if k = key then none else lookupKV k l := by
  induction l with
  | nil => simp [eraseKV, lookupKV]
  | cons hd tl ih =>
    obtain ⟨k0, v0⟩ := hd
    unfold eraseKV at ih ⊢
    by_cases h0 : k0 = key
    · subst h0
      rw [List.filter_cons_of_neg (by simp)]
      rw [ih]
      by_cases hk : k = k0
      · simp [hk]
      · simp [hk, lookupKV, Ne.symm hk]
    · rw [List.filter_cons_of_pos (by simpa using h0)]
      by_cases hk : k = key
      · subst hk
        simp [lookupKV, h0] at ih ⊢
        exact ih
      · simp [lookupKV, hk] at ih ⊢
        rw [ih]

theorem GetState_PutState (stub : Ledger) (key : String) (value : Bytes) (k : String) :
    (stub.PutState key value).GetState k = if k = key then some value else stub.GetState k :=
  lookupKV_insertKV key value stub.entries k

theorem GetState_DelState (stub : Ledger) (key : String) (k : String) :
    (stub.DelState key).GetState k = if k = key then none else stub.GetState k :=
  lookupKV_eraseKV key stub.entries k

theorem GetState_deleteIngredients (ids : List String) (stub : Ledger) (k : String) :
    (deleteIngredients stub ids).GetState k =
      if k ∈ ids.map constructIngredientKey then none else stub.GetState k := by
  induction ids generalizing stub with
  | nil => simp [deleteIngredients]
  | cons x rest ih =>
    simp only [deleteIngredients, ih, GetState_DelState, List.map_cons, List.mem_cons]
    by_cases h1 : k ∈ rest.map constructIngredientKey
    · simp [h1]
    · by_cases h2 : k = constructIngredientKey x
      · simp [h2]
      · simp [h1, h2]

/-! ## Keys -/

theorem constructUserKey_inj {a b : String} :
    constructUserKey a = constructUserKey b ↔ a = b := by
  constructor
  · intro h
    have h1 := congrArg String.data h
    simp only [constructUserKey, String.data_append] at h1
    exact String.ext (List.append_cancel_left h1)
  · rintro rfl; rfl

theorem constructIngredientKey_inj {a b : String} :
    constructIngredientKey a = constructIngredientKey b ↔ a = b := by
  constructor
  · intro h
    have h1 := congrArg String.data h
    simp only [constructIngredientKey, String.data_append] at h1
    exact String.ext (List.append_cancel_left h1)
  · rintro rfl; rfl

theorem constructFoodKey_inj {a b : String} :
    constructFoodKey a = constructFoodKey b ↔ a = b := by
  constructor
  · intro h
    have h1 := congrArg String.data h
    simp only [constructFoodKey, String.data_append] at h1
    exact String.ext (List.append_cancel_left h1)
  · rintro rfl; rfl

theorem constructFOODKey_eq (a : String) : constructFOODKey a = constructFoodKey a := rfl

/-- The first character of a key. -/
theorem head_constructUserKey (a : String) : (constructUserKey a).data.head? = some 'u' := rfl
theorem head_constructFoodKey (a : String) : (constructFoodKey a).data.head? = some 'f' := rfl
theorem head_constructIngredientKey (a : String) :
    (constructIngredientKey a).data.head? = some 'i' := rfl

theorem user_ne_food (a b : String) : constructUserKey a ≠ constructFoodKey b := by
  intro h
  have := congrArg (fun s => s.data.head?) h
  simp [head_constructUserKey, head_constructFoodKey] at this


theorem user_ne_ingredient (a b : String) : constructUserKey a ≠ constructIngredientKey b := by
  intro h
  have := congrArg (fun s => s.data.head?) h
  simp [head_constructUserKey, head_constructIngredientKey] at this

theorem food_ne_ingredient (a b : String) : constructFoodKey a ≠ constructIngredientKey b := by
  intro h
  have := congrArg (fun s => s.data.head?) h
  simp [head_constructFoodKey, head_constructIngredientKey] at this

/-! ## Composite keys -/

theorem appendAttributes_prefix (attrs : List String) (ck k : String)
    (h : appendAttributes ck attrs = Except.ok k) : ∃ rest, k.data = ck.data ++ rest := by
  induction attrs generalizing ck with
  | nil =>
    simp only [appendAttributes, Except.ok.injEq] at h
    exact ⟨[], by simp [h]⟩
  | cons att rest ih =>
    unfold appendAttributes at h
    split at h
    · cases h
    · obtain ⟨r, hr⟩ := ih _ h
      exact ⟨att.data ++ (String.singleton minUnicodeRuneValue).data ++ r, by
        simp [hr, String.data_append, List.append_assoc]⟩

theorem head_CreateCompositeKey (objectType : String) (attrs : List String) (k : String)
    (h : CreateCompositeKey objectType attrs = Except.ok k) :
    k.data.head? = some minUnicodeRuneValue := by
  unfold CreateCompositeKey at h
  split at h
  · cases h
  · obtain ⟨r, hr⟩ := appendAttributes_prefix _ _ _ h
    rw [hr]
    simp [compositeKeyNamespace, String.data_append, String.singleton]

theorem compositeKey_ne_user {objectType : String} {attrs : List String} {k : String}
    (h : CreateCompositeKey objectType attrs = Except.ok k) (a : String) :
    k ≠ constructUserKey a := by
  intro e
  have h1 := head_CreateCompositeKey _ _ _ h
  rw [e, head_constructUserKey] at h1
  exact absurd h1 (by decide)

theorem compositeKey_ne_food {objectType : String} {attrs : List String} {k : String}
    (h : CreateCompositeKey objectType attrs = Except.ok k) (a : String) :
    k ≠ constructFoodKey a := by
  intro e
  have h1 := head_CreateCompositeKey _ _ _ h
  rw [e, head_constructFoodKey] at h1
  exact absurd h1 (by decide)

theorem compositeKey_ne_ingredient {objectType : String} {attrs : List String} {k : String}
    (h : CreateCompositeKey objectType attrs = Except.ok k) (a : String) :
    k ≠ constructIngredientKey a := by
  intro e
  have h1 := head_CreateCompositeKey _ _ _ h
  rw [e, head_constructIngredientKey] at h1
  exact absurd h1 (by decide)

/-! ## Round trips of the codec -/

theorem unmarshalUser_marshalUser (u : User) : unmarshalUser (marshalUser u) = Except.ok u := rfl
/-- The document that `foodEnroll` stores for a fresh food: its list of
ingredients, the nil slice, is written as `null`. -/
theorem marshalFood_fresh (name id metadata : String) :
    marshalFood ⟨name, id, metadata, []⟩ =
      Bytes.object [("name", JVal.str name), ("id", JVal.str id),
        ("metadata", JVal.str metadata), ("ingredients", JVal.null)] := rfl

theorem unmarshalFood_marshalFood (f : Food) : unmarshalFood (marshalFood f) = Except.ok f := by
  obtain ⟨name, id, metadata, ingredients⟩ := f
  cases ingredients with
  | nil => rfl
  | cons x xs => rfl
theorem unmarshalIngredientHistory_marshal (h : IngredientHistory) :
    unmarshalIngredientHistory (marshalIngredientHistory h) = Except.ok h := rfl
theorem unmarshalFoodHistory_marshal (h : FoodHistory) :
    unmarshalFoodHistory (marshalFoodHistory h) = Except.ok h := rfl

theorem marshalUser_inj {u v : User} (h : marshalUser u = marshalUser v) : u = v := by
  have := congrArg unmarshalUser h
  simpa [unmarshalUser_marshalUser] using this

theorem aidexist_iff (ids : List String) (id : String) : aidexist ids id = true ↔ id ∈ ids := by
  induction ids with
  | nil => simp [aidexist]
  | cons a rest ih =>
    unfold aidexist
    by_cases h : a = id
    · simp [h]
    · simp [h, ih, Ne.symm h]

theorem removeId_eq_filter (ids : List String) (id : String) :
    removeId ids id = ids.filter (fun a => a ≠ id) := by
  induction ids with
  | nil => simp [removeId]
  | cons a rest ih =>
    unfold removeId
    by_cases h : a = id
    · simp [h, ih]
    · simp [h, ih]

theorem mem_removeId {ids : List String} {id y : String} :
    y ∈ removeId ids id ↔ y ∈ ids ∧ y ≠ id := by
  simp [removeId_eq_filter, List.mem_filter]

/-! ## The successful runs of the operations -/

theorem ingredientExchange_success {stub stub1 : Ledger} {args : List String}
    {payload : Option Bytes}
    (h : ingredientExchange stub args = (Response.Success payload, stub1)) :
    ∃ ownerId ingredientId currentOwnerId originOwnerBytes currentOwnerBytes originOwner0
      currentOwner0 historyKey,
      args = [ownerId, ingredientId, currentOwnerId] ∧
      ownerId ≠ "" ∧ ingredientId ≠ "" ∧ currentOwnerId ≠ "" ∧
      stub.GetState (constructUserKey ownerId) = some originOwnerBytes ∧
      stub.GetState (constructUserKey currentOwnerId) = some currentOwnerBytes ∧
      stub.GetState (constructIngredientKey ingredientId) ≠ none ∧
      unmarshalUser originOwnerBytes = Except.ok originOwner0 ∧
      ingredientId ∈ originOwner0.Ingredients ∧
      unmarshalUser currentOwnerBytes = Except.ok currentOwner0 ∧
      CreateCompositeKey "history" [ingredientId, ownerId, currentOwnerId] = Except.ok historyKey ∧
      payload = none ∧
      stub1 = ((stub.PutState (constructUserKey ownerId)
          (marshalUser { originOwner0 with
            Ingredients := removeId originOwner0.Ingredients ingredientId })).PutState
          (constructUserKey currentOwnerId)
          (marshalUser { currentOwner0 with
            Ingredients := currentOwner0.Ingredients ++ [ingredientId] })).PutState historyKey
          (marshalIngredientHistory ⟨ingredientId, ownerId, currentOwnerId⟩) := by
  unfold ingredientExchange at h
  split at h
  case h_2 => simp at h
  case h_1 ownerId ingredientId currentOwnerId =>
    split_ifs at h with h0
    · simp at h
    · push_neg at h0
      split at h
      · simp at h
      · rename_i originOwnerBytes hb0
        split at h
        · simp at h
        · rename_i currentOwnerBytes hb1
          split at h
          · simp at h
          · rename_i ib hib
            split at h
            · simp at h
            · rename_i originOwner0 hu0
              split_ifs at h with hex
              · split at h
                · simp at h
                · rename_i currentOwner0 hu1
                  split at h
                  · simp at h
                  · rename_i historyKey hk
                    simp only [Prod.mk.injEq, Response.Success.injEq] at h
                    exact ⟨ownerId, ingredientId, currentOwnerId, originOwnerBytes,
                      currentOwnerBytes, originOwner0, currentOwner0, historyKey, rfl, h0.1,
                      h0.2.1, h0.2.2, hb0, hb1, by simp [hib], hu0, (aidexist_iff _ _).1 hex,
                      hu1, hk, h.1.symm, h.2.symm⟩
              · simp at h

theorem ingredientExchangeFood_success {stub stub1 : Ledger} {args : List String}
    {payload : Option Bytes}
    (h : ingredientExchangeFood stub args = (Response.Success payload, stub1)) :
    ∃ ownerId ingredientId currentOwnerId originOwnerBytes currentOwnerBytes originOwner0
      currentOwner0 historyKey,
      args = [ownerId, ingredientId, currentOwnerId] ∧
      ownerId ≠ "" ∧ ingredientId ≠ "" ∧ currentOwnerId ≠ "" ∧
      stub.GetState (constructUserKey ownerId) = some originOwnerBytes ∧
      stub.GetState (constructFoodKey currentOwnerId) = some currentOwnerBytes ∧
      stub.GetState (constructIngredientKey ingredientId) ≠ none ∧
      unmarshalUser originOwnerBytes = Except.ok originOwner0 ∧
      ingredientId ∈ originOwner0.Ingredients ∧
      unmarshalFood currentOwnerBytes = Except.ok currentOwner0 ∧
      CreateCompositeKey "history" [ingredientId, ownerId, currentOwnerId] = Except.ok historyKey ∧
      payload = none ∧
      stub1 = ((stub.PutState (constructUserKey ownerId)
          (marshalUser { originOwner0 with
            Ingredients := removeId originOwner0.Ingredients ingredientId })).PutState
          (constructFoodKey currentOwnerId)
          (marshalFood { currentOwner0 with
            Ingredients := currentOwner0.Ingredients ++ [ingredientId] })).PutState historyKey
          (marshalIngredientHistory ⟨ingredientId, ownerId, currentOwnerId⟩) := by
  unfold ingredientExchangeFood at h
  split at h
  case h_2 => simp at h
  case h_1 ownerId ingredientId currentOwnerId =>
    split_ifs at h with h0
    · simp at h
    · push_neg at h0
      split at h
      · simp at h
      · rename_i originOwnerBytes hb0
        split at h
        · simp at h
        · rename_i currentOwnerBytes hb1
          split at h
          · simp at h
          · rename_i ib hib
            split at h
            · simp at h
            · rename_i originOwner0 hu0
              split_ifs at h with hex
              · split at h
                · simp at h
                · rename_i currentOwner0 hu1
                  split at h
                  · simp at h
                  · rename_i historyKey hk
                    simp only [Prod.mk.injEq, Response.Success.injEq] at h
                    exact ⟨ownerId, ingredientId, currentOwnerId, originOwnerBytes,
                      currentOwnerBytes, originOwner0, currentOwner0, historyKey, rfl, h0.1,
                      h0.2.1, h0.2.2, hb0, hb1, by simp [hib], hu0, (aidexist_iff _ _).1 hex,
                      hu1, hk, h.1.symm, h.2.symm⟩
              · simp at h

theorem foodExchange_success {stub stub1 : Ledger} {args : List String}
    {payload : Option Bytes}
    (h : foodExchange stub args = (Response.Success payload, stub1)) :
    ∃ ownerId foodId currentOwnerId originOwnerBytes currentOwnerBytes originOwner0
      currentOwner0 historyKey,
      args = [ownerId, foodId, currentOwnerId] ∧
      ownerId ≠ "" ∧ foodId ≠ "" ∧ currentOwnerId ≠ "" ∧
      stub.GetState (constructUserKey ownerId) = some originOwnerBytes ∧
      stub.GetState (constructUserKey currentOwnerId) = some currentOwnerBytes ∧
      stub.GetState (constructFoodKey foodId) ≠ none ∧
      unmarshalUser originOwnerBytes = Except.ok originOwner0 ∧
      foodId ∈ originOwner0.Foods ∧
      unmarshalUser currentOwnerBytes = Except.ok currentOwner0 ∧
      CreateCompositeKey "history" [foodId, ownerId, currentOwnerId] = Except.ok historyKey ∧
      payload = none ∧
      stub1 = ((stub.PutState (constructUserKey ownerId)
          (marshalUser { originOwner0 with
            Foods := removeId originOwner0.Foods foodId })).PutState
          (constructUserKey currentOwnerId)
          (marshalUser { currentOwner0 with
            Foods := currentOwner0.Foods ++ [foodId] })).PutState historyKey
          (marshalFoodHistory ⟨foodId, ownerId, currentOwnerId⟩) := by
  unfold foodExchange at h
  split at h
  case h_2 => simp at h
  case h_1 ownerId foodId currentOwnerId =>
    split_ifs at h with h0
    · simp at h
    · push_neg at h0
      split at h
      · simp at h
      · rename_i originOwnerBytes hb0
        split at h
        · simp at h
        · rename_i currentOwnerBytes hb1
          split at h
          · simp at h
          · rename_i ib hib
            split at h
            · simp at h
            · rename_i originOwner0 hu0
              split_ifs at h with hex
              · split at h
                · simp at h
                · rename_i currentOwner0 hu1
                  split at h
                  · simp at h
                  · rename_i historyKey hk
                    simp only [Prod.mk.injEq, Response.Success.injEq] at h
                    exact ⟨ownerId, foodId, currentOwnerId, originOwnerBytes,
                      currentOwnerBytes, originOwner0, currentOwner0, historyKey, rfl, h0.1,
                      h0.2.1, h0.2.2, hb0, hb1, by simp [hib], hu0, (aidexist_iff _ _).1 hex,
                      hu1, hk, h.1.symm, h.2.symm⟩
              · simp at h

theorem userRegister_success {stub stub1 : Ledger} {args : List String}
    {payload : Option Bytes}
    (h : userRegister stub args = (Response.Success payload, stub1)) :
    ∃ name id,
      args = [name, id] ∧ name ≠ "" ∧ id ≠ "" ∧
      stub.GetState (constructUserKey id) = none ∧
      payload = none ∧
      stub1 = stub.PutState (constructUserKey id) (marshalUser ⟨name, id, [], []⟩) := by
  unfold userRegister at h
  split at h
  case h_2 => simp at h
  case h_1 name id =>
    split_ifs at h with h0
    · simp at h
    · push_neg at h0
      split at h
      · simp at h
      · rename_i hb
        simp only [Prod.mk.injEq, Response.Success.injEq] at h
        exact ⟨name, id, rfl, h0.1, h0.2, hb, h.1.symm, h.2.symm⟩

theorem userDestroy_success {stub stub1 : Ledger} {args : List String}
    {payload : Option Bytes}
    (h : userDestroy stub args = (Response.Success payload, stub1)) :
    ∃ id userBytes user,
      args = [id] ∧ id ≠ "" ∧
      stub.GetState (constructUserKey id) = some userBytes ∧
      unmarshalUser userBytes = Except.ok user ∧
      payload = none ∧
      stub1 = deleteIngredients (stub.DelState (constructUserKey id)) user.Ingredients := by
  unfold userDestroy at h
  split at h
  case h_2 => simp at h
  case h_1 id =>
    split_ifs at h with h0
    · simp at h
    · split at h
      · simp at h
      · rename_i userBytes hb
        split at h
        · simp at h
        · rename_i user hu
          simp only [Prod.mk.injEq, Response.Success.injEq] at h
          exact ⟨id, userBytes, user, rfl, h0, hb, hu, h.1.symm, h.2.symm⟩

theorem ingredientEnroll_success {stub stub1 : Ledger} {args : List String}
    {payload : Option Bytes}
    (h : ingredientEnroll stub args = (Response.Success payload, stub1)) :
    ∃ ingredientName ingredientId metadata ownerId userBytes user0 historyKey,
      args = [ingredientName, ingredientId, metadata, ownerId] ∧
      ingredientName ≠ "" ∧ ingredientId ≠ "" ∧ ownerId ≠ "" ∧
      stub.GetState (constructUserKey ownerId) = some userBytes ∧
      stub.GetState (constructIngredientKey ingredientId) = none ∧
      unmarshalUser userBytes = Except.ok user0 ∧
      CreateCompositeKey "history" [ingredientId, originOwner, ownerId] = Except.ok historyKey ∧
      payload = none ∧
      stub1 = ((stub.PutState (constructIngredientKey ingredientId)
          (marshalIngredient ⟨ingredientName, ingredientId, metadata⟩)).PutState
          (constructUserKey user0.Id)
          (marshalUser { user0 with
            Ingredients := user0.Ingredients ++ [ingredientId] })).PutState historyKey
          (marshalIngredientHistory ⟨ingredientId, originOwner, ownerId⟩) := by
  unfold ingredientEnroll at h
  split at h
  case h_2 => simp at h
  case h_1 ingredientName ingredientId metadata ownerId =>
    split_ifs at h with h0
    · simp at h
    · push_neg at h0
      split at h
      · simp at h
      · rename_i userBytes hb0
        split at h
        · simp at h
        · rename_i hb1
          split at h
          · simp at h
          · rename_i user0 hu0
            split at h
            · simp at h
            · rename_i historyKey hk
              simp only [Prod.mk.injEq, Response.Success.injEq] at h
              exact ⟨ingredientName, ingredientId, metadata, ownerId, userBytes, user0,
                historyKey, rfl, h0.1, h0.2.1, h0.2.2, hb0, hb1, hu0, hk, h.1.symm, h.2.symm⟩

theorem foodEnroll_success {stub stub1 : Ledger} {args : List String}
    {payload : Option Bytes}
    (h : foodEnroll stub args = (Response.Success payload, stub1)) :
    ∃ foodName foodId metadata ownerId userBytes user0 historyKey,
      args = [foodName, foodId, metadata, ownerId] ∧
      foodName ≠ "" ∧ foodId ≠ "" ∧ ownerId ≠ "" ∧
      stub.GetState (constructUserKey ownerId) = some userBytes ∧
      stub.GetState (constructFoodKey foodId) = none ∧
      unmarshalUser userBytes = Except.ok user0 ∧
      CreateCompositeKey "history" [foodId, originOwner, ownerId] = Except.ok historyKey ∧
      payload = none ∧
      stub1 = ((stub.PutState (constructFoodKey foodId)
          (marshalFood ⟨foodName, foodId, metadata, []⟩)).PutState
          (constructUserKey user0.Id)
          (marshalUser { user0 with Foods := user0.Foods ++ [foodId] })).PutState historyKey
          (marshalFoodHistory ⟨foodId, originOwner, ownerId⟩) := by
  unfold foodEnroll at h
  split at h
  case h_2 => simp at h
  case h_1 foodName foodId metadata ownerId =>
    split_ifs at h with h0
    · simp at h
    · push_neg at h0
      split at h
      · simp at h
      · rename_i userBytes hb0
        split at h
        · simp at h
        · rename_i hb1
          split at h
          · simp at h
          · rename_i user0 hu0
            split at h
            · simp at h
            · rename_i historyKey hk
              simp only [Prod.mk.injEq, Response.Success.injEq] at h
              exact ⟨foodName, foodId, metadata, ownerId, userBytes, user0,
                historyKey, rfl, h0.1, h0.2.1, h0.2.2, hb0, hb1, hu0, hk, h.1.symm, h.2.symm⟩

/-- The query operations write nothing. -/
theorem queryUser_ledger (stub : Ledger) (args : List String) : (queryUser stub args).2 = stub := by
  unfold queryUser
  repeat' split
  all_goals rfl

theorem queryIngredient_ledger (stub : Ledger) (args : List String) :
    (queryIngredient stub args).2 = stub := by
  unfold queryIngredient
  repeat' split
  all_goals rfl

theorem queryFood_ledger (stub : Ledger) (args : List String) :
    (queryFood stub args).2 = stub := by
  unfold queryFood
  repeat' split
  all_goals rfl

theorem queryIngredientHistoryBody_ledger (stub : Ledger) (ingredientId queryType : String) :
    (queryIngredientHistoryBody stub ingredientId queryType).2 = stub := by
  unfold queryIngredientHistoryBody
  dsimp only
  repeat' split
  all_goals rfl

theorem queryIngredientHistory_ledger (stub : Ledger) (args : List String) :
    (queryIngredientHistory stub args).2 = stub := by
  unfold queryIngredientHistory
  split
  · exact queryIngredientHistoryBody_ledger _ _ _
  · exact queryIngredientHistoryBody_ledger _ _ _
  · rfl

theorem queryFoodHistoryBody_ledger (stub : Ledger) (foodId queryType : String) :
    (queryFoodHistoryBody stub foodId queryType).2 = stub := by
  unfold queryFoodHistoryBody
  dsimp only
  repeat' split
  all_goals rfl

theorem queryFoodHistory_ledger (stub : Ledger) (args : List String) :
    (queryFoodHistory stub args).2 = stub := by
  unfold queryFoodHistory
  split
  · exact queryFoodHistoryBody_ledger _ _ _
  · exact queryFoodHistoryBody_ledger _ _ _
  · rfl

/-! ## Preservation of the invariant -/

theorem userIngredients_of {ledger : Ledger} {id : String} {bytes : Bytes} {user : User}
    (h : ledger.GetState (constructUserKey id) = some bytes)
    (hu : unmarshalUser bytes = Except.ok user) :
    userIngredients ledger id = user.Ingredients := by
  simp [userIngredients, h, hu]

theorem userIngredients_none {ledger : Ledger} {id : String}
    (h : ledger.GetState (constructUserKey id) = none) : userIngredients ledger id = [] := by
  simp [userIngredients, h]

theorem foodIngredients_of {ledger : Ledger} {id : String} {bytes : Bytes} {food : Food}
    (h : ledger.GetState (constructFoodKey id) = some bytes)
    (hu : unmarshalFood bytes = Except.ok food) :
    foodIngredients ledger id = food.Ingredients := by
  simp [foodIngredients, h, hu]

theorem foodIngredients_none {ledger : Ledger} {id : String}
    (h : ledger.GetState (constructFoodKey id) = none) : foodIngredients ledger id = [] := by
  simp [foodIngredients, h]

theorem Inv.user_decode {ledger : Ledger} (hI : Inv ledger) {id : String} {bytes : Bytes}
    {user : User} (h : ledger.GetState (constructUserKey id) = some bytes)
    (hu : unmarshalUser bytes = Except.ok user) : bytes = marshalUser user ∧ user.Id = id := by
  obtain ⟨u, rfl, hid⟩ := hI.user_canon id bytes h
  rw [unmarshalUser_marshalUser] at hu
  cases hu
  exact ⟨rfl, hid⟩

theorem Inv.food_decode {ledger : Ledger} (hI : Inv ledger) {id : String} {bytes : Bytes}
    {food : Food} (h : ledger.GetState (constructFoodKey id) = some bytes)
    (hu : unmarshalFood bytes = Except.ok food) : bytes = marshalFood food := by
  obtain ⟨f, rfl⟩ := hI.food_canon id bytes h
  rw [unmarshalFood_marshalFood] at hu
  cases hu
  rfl

theorem Inv.empty : Inv Ledger.empty := by
  refine ⟨?_, ?_, ?_, ?_, ?_⟩
  · intro id bytes h; simp [Ledger.empty, Ledger.GetState, lookupKV] at h
  · intro id bytes h; simp [Ledger.empty, Ledger.GetState, lookupKV] at h
  · intro h x hx
    cases h <;>
      simp [Holder.holds, userIngredients, foodIngredients, Ledger.empty, Ledger.GetState,
        lookupKV] at hx
  · intro x h1 h2 hx
    cases h1 <;>
      simp [Holder.holds, userIngredients, foodIngredients, Ledger.empty, Ledger.GetState,
        lookupKV] at hx
  · intro x hx
    simp [Ledger.empty, Ledger.GetState, lookupKV] at hx

/-- A step after which the ingredient `x` is stored and held by `holder` alone,
the other ingredients being stored and held as before. -/
theorem Inv.of_move {ledger ledger1 : Ledger} (hI : Inv ledger) (x : String) (holder : Holder)
    (hU : ∀ id bytes, ledger1.GetState (constructUserKey id) = some bytes →
      ∃ user : User, bytes = marshalUser user ∧ user.Id = id)
    (hF : ∀ id bytes, ledger1.GetState (constructFoodKey id) = some bytes →
      ∃ food : Food, bytes = marshalFood food)
    (hx : ledger1.GetState (constructIngredientKey x) ≠ none)
    (gI : ∀ y, y ≠ x → ledger1.GetState (constructIngredientKey y) =
      ledger.GetState (constructIngredientKey y))
    (key : ∀ (h : Holder) (y : String), h.holds ledger1 y ↔
      if y = x then h = holder else h.holds ledger y) : Inv ledger1 := by
  refine ⟨hU, hF, ?_, ?_, ?_⟩
  · intro h y hy
    rw [key] at hy
    split_ifs at hy with cy
    · rw [cy]; exact hx
    · rw [gI y cy]; exact hI.held_stored h y hy
  · intro y h1 h2 hy1 hy2
    rw [key] at hy1 hy2
    split_ifs at hy1 hy2 with cy
    · rw [hy1, hy2]
    · exact hI.holder_unique y h1 h2 hy1 hy2
  · intro y hy
    by_cases cy : y = x
    · exact ⟨holder, (key _ _).2 (by simp [cy])⟩
    · rw [gI y cy] at hy
      obtain ⟨h, hh⟩ := hI.stored_held y hy
      exact ⟨h, (key _ _).2 (by simpa [cy] using hh)⟩

/-- A step that changes neither the stored ingredients nor who holds them. -/
theorem Inv.of_same {ledger ledger1 : Ledger} (hI : Inv ledger)
    (hU : ∀ id bytes, ledger1.GetState (constructUserKey id) = some bytes →
      ∃ user : User, bytes = marshalUser user ∧ user.Id = id)
    (hF : ∀ id bytes, ledger1.GetState (constructFoodKey id) = some bytes →
      ∃ food : Food, bytes = marshalFood food)
    (gI : ∀ y, ledger1.GetState (constructIngredientKey y) =
      ledger.GetState (constructIngredientKey y))
    (key : ∀ (h : Holder) (y : String), h.holds ledger1 y ↔ h.holds ledger y) : Inv ledger1 := by
  refine ⟨hU, hF, ?_, ?_, ?_⟩
  · intro h y hy
    rw [gI]; exact hI.held_stored h y ((key h y).1 hy)
  · intro y h1 h2 hy1 hy2
    exact hI.holder_unique y h1 h2 ((key _ _).1 hy1) ((key _ _).1 hy2)
  · intro y hy
    rw [gI] at hy
    obtain ⟨h, hh⟩ := hI.stored_held y hy
    exact ⟨h, (key _ _).2 hh⟩

theorem Inv.step_ingredientExchange {stub stub1 : Ledger} {args : List String}
    {payload : Option Bytes} (hI : Inv stub)
    (h : ingredientExchange stub args = (Response.Success payload, stub1)) : Inv stub1 := by
  obtain ⟨ownerId, x, currentOwnerId, b0, b1, u0, u1, hk, rfl, -, -, -, hb0, hb1, hib, hu0,
    hmem, hu1, hkey, -, rfl⟩ := ingredientExchange_success h
  obtain ⟨rfl, hid0⟩ := hI.user_decode hb0 hu0
  obtain ⟨rfl, hid1⟩ := hI.user_decode hb1 hu1
  have kU : ∀ a, constructUserKey a ≠ hk := fun a => (compositeKey_ne_user hkey a).symm
  have kF : ∀ a, constructFoodKey a ≠ hk := fun a => (compositeKey_ne_food hkey a).symm
  have kI : ∀ a, constructIngredientKey a ≠ hk :=
    fun a => (compositeKey_ne_ingredient hkey a).symm
  set s1 := ((stub.PutState (constructUserKey ownerId)
          (marshalUser { u0 with Ingredients := removeId u0.Ingredients x })).PutState
          (constructUserKey currentOwnerId)
          (marshalUser { u1 with Ingredients := u1.Ingredients ++ [x] })).PutState hk
          (marshalIngredientHistory ⟨x, ownerId, currentOwnerId⟩) with hs1
  have gU : ∀ id, s1.GetState (constructUserKey id) =
      if id = currentOwnerId then
        some (marshalUser { u1 with Ingredients := u1.Ingredients ++ [x] })
      else if id = ownerId then
        some (marshalUser { u0 with Ingredients := removeId u0.Ingredients x })
      else stub.GetState (constructUserKey id) := by
    intro id
    simp only [hs1, GetState_PutState, constructUserKey_inj, kU, if_false]
  have gF : ∀ id, s1.GetState (constructFoodKey id) = stub.GetState (constructFoodKey id) := by
    intro id
    simp only [hs1, GetState_PutState, kF, (fun a b => (user_ne_food a b).symm), if_false]
  have gI : ∀ y, s1.GetState (constructIngredientKey y) =
      stub.GetState (constructIngredientKey y) := by
    intro y
    simp only [hs1, GetState_PutState, kI, (fun a b => (user_ne_ingredient a b).symm), if_false]
  have hfrom : Holder.holds stub (Holder.user ownerId) x := by
    simp only [Holder.holds, userIngredients_of hb0 hu0]; exact hmem
  have fI : ∀ id, foodIngredients s1 id = foodIngredients stub id := by
    intro id; simp only [foodIngredients, gF]
  have uI : ∀ id, userIngredients s1 id =
      if id = currentOwnerId then userIngredients stub currentOwnerId ++ [x]
      else if id = ownerId then removeId (userIngredients stub ownerId) x
      else userIngredients stub id := by
    intro id
    rw [userIngredients_of hb0 hu0, userIngredients_of hb1 hu1]
    by_cases c1 : id = currentOwnerId
    · simp [userIngredients, gU, c1, unmarshalUser_marshalUser]
    · by_cases c2 : id = ownerId
      · subst c2
        simp [userIngredients, gU, c1, unmarshalUser_marshalUser]
      · simp [userIngredients, gU, c1, c2]
  refine hI.of_move x (Holder.user currentOwnerId) ?_ ?_ ?_ (fun y _ => gI y) ?_
  · intro id bytes hb
    rw [gU] at hb
    split_ifs at hb with c1 c2
    · cases hb; exact ⟨_, rfl, by simpa [c1] using hid1⟩
    · cases hb; exact ⟨_, rfl, by simpa [c2] using hid0⟩
    · exact hI.user_canon id bytes hb
  · intro id bytes hb
    rw [gF] at hb
    exact hI.food_canon id bytes hb
  · rw [gI]; exact hib
  · intro h y
    cases h with
    | user id =>
      simp only [Holder.holds, uI]
      by_cases c1 : id = currentOwnerId
      · subst c1
        by_cases cy : y = x
        · simp [cy]
        · simp [cy]
      · by_cases c2 : id = ownerId
        · subst c2
          by_cases cy : y = x
          · simp [cy, c1, mem_removeId]
          · simp [cy, c1, mem_removeId, Holder.holds]
        · by_cases cy : y = x
          · subst cy
            simp only [c1, c2, if_false, if_true, Holder.user.injEq, iff_false]
            intro hm
            have := hI.holder_unique y (Holder.user id) (Holder.user ownerId) hm hfrom
            exact c2 (Holder.user.inj this)
          · simp [cy, c1, c2]
    | food id =>
      simp only [Holder.holds, fI]
      by_cases cy : y = x
      · subst cy
        simp only [if_true]
        constructor
        · intro hm
          have := hI.holder_unique y (Holder.food id) (Holder.user ownerId) hm hfrom
          cases this
        · intro e; cases e
      · simp [cy]

theorem Inv.step_ingredientExchangeFood {stub stub1 : Ledger} {args : List String}
    {payload : Option Bytes} (hI : Inv stub)
    (h : ingredientExchangeFood stub args = (Response.Success payload, stub1)) : Inv stub1 := by
  obtain ⟨ownerId, x, foodId, b0, b1, u0, f1, hk, rfl, -, -, -, hb0, hb1, hib, hu0,
    hmem, hu1, hkey, -, rfl⟩ := ingredientExchangeFood_success h
  obtain ⟨rfl, hid0⟩ := hI.user_decode hb0 hu0
  obtain rfl := hI.food_decode hb1 hu1
  have kU : ∀ a, constructUserKey a ≠ hk := fun a => (compositeKey_ne_user hkey a).symm
  have kF : ∀ a, constructFoodKey a ≠ hk := fun a => (compositeKey_ne_food hkey a).symm
  have kI : ∀ a, constructIngredientKey a ≠ hk :=
    fun a => (compositeKey_ne_ingredient hkey a).symm
  set s1 := ((stub.PutState (constructUserKey ownerId)
          (marshalUser { u0 with Ingredients := removeId u0.Ingredients x })).PutState
          (constructFoodKey foodId)
          (marshalFood { f1 with Ingredients := f1.Ingredients ++ [x] })).PutState hk
          (marshalIngredientHistory ⟨x, ownerId, foodId⟩) with hs1
  have gU : ∀ id, s1.GetState (constructUserKey id) =
      if id = ownerId then
        some (marshalUser { u0 with Ingredients := removeId u0.Ingredients x })
      else stub.GetState (constructUserKey id) := by
    intro id
    simp only [hs1, GetState_PutState, constructUserKey_inj, kU, user_ne_food,
      if_false]
  have gF : ∀ id, s1.GetState (constructFoodKey id) =
      if id = foodId then some (marshalFood { f1 with Ingredients := f1.Ingredients ++ [x] })
      else stub.GetState (constructFoodKey id) := by
    intro id
    by_cases c : id = foodId
    · simp only [hs1, GetState_PutState, kF, c, if_false, if_true]
    · simp only [hs1, GetState_PutState, kF, constructFoodKey_inj, c,
        (fun a b => (user_ne_food a b).symm), if_false]
  have gI : ∀ y, s1.GetState (constructIngredientKey y) =
      stub.GetState (constructIngredientKey y) := by
    intro y
    simp only [hs1, GetState_PutState, kI, (fun a b => (user_ne_ingredient a b).symm),
      (fun a b => (food_ne_ingredient a b).symm), if_false]
  have hfrom : Holder.holds stub (Holder.user ownerId) x := by
    simp only [Holder.holds, userIngredients_of hb0 hu0]; exact hmem
  have fI : ∀ id, foodIngredients s1 id =
      if id = foodId then foodIngredients stub foodId ++ [x] else foodIngredients stub id := by
    intro id
    rw [foodIngredients_of hb1 hu1]
    by_cases c1 : id = foodId
    · simp [foodIngredients, gF, c1, unmarshalFood_marshalFood]
    · simp [foodIngredients, gF, c1]
  have uI : ∀ id, userIngredients s1 id =
      if id = ownerId then removeId (userIngredients stub ownerId) x
      else userIngredients stub id := by
    intro id
    rw [userIngredients_of hb0 hu0]
    by_cases c2 : id = ownerId
    · subst c2
      simp [userIngredients, gU, unmarshalUser_marshalUser]
    · simp [userIngredients, gU, c2]
  refine hI.of_move x (Holder.food foodId) ?_ ?_ ?_ (fun y _ => gI y) ?_
  · intro id bytes hb
    rw [gU] at hb
    split_ifs at hb with c2
    · cases hb; exact ⟨_, rfl, by simpa [c2] using hid0⟩
    · exact hI.user_canon id bytes hb
  · intro id bytes hb
    rw [gF] at hb
    split_ifs at hb with c1
    · cases hb; exact ⟨_, rfl⟩
    · exact hI.food_canon id bytes hb
  · rw [gI]; exact hib
  · intro h y
    cases h with
    | user id =>
      simp only [Holder.holds, uI]
      by_cases c2 : id = ownerId
      · subst c2
        by_cases cy : y = x
        · simp [cy, mem_removeId]
        · simp [cy, mem_removeId, Holder.holds]
      · by_cases cy : y = x
        · subst cy
          simp only [c2, if_false, if_true]
          constructor
          · intro hm
            have := hI.holder_unique y (Holder.user id) (Holder.user ownerId) hm hfrom
            exact absurd (Holder.user.inj this) c2
          · intro e; cases e
        · simp [cy, c2]
    | food id =>
      simp only [Holder.holds, fI]
      by_cases c1 : id = foodId
      · subst c1
        by_cases cy : y = x
        · simp [cy]
        · simp [cy]
      · by_cases cy : y = x
        · subst cy
          simp only [c1, if_false, if_true, Holder.food.injEq, iff_false]
          intro hm
          have := hI.holder_unique y (Holder.food id) (Holder.user ownerId) hm hfrom
          cases this
        · simp [cy, c1]

theorem Inv.step_foodExchange {stub stub1 : Ledger} {args : List String}
    {payload : Option Bytes} (hI : Inv stub)
    (h : foodExchange stub args = (Response.Success payload, stub1)) : Inv stub1 := by
  obtain ⟨ownerId, x, currentOwnerId, b0, b1, u0, u1, hk, rfl, -, -, -, hb0, hb1, -, hu0,
    -, hu1, hkey, -, rfl⟩ := foodExchange_success h
  obtain ⟨rfl, hid0⟩ := hI.user_decode hb0 hu0
  obtain ⟨rfl, hid1⟩ := hI.user_decode hb1 hu1
  have kU : ∀ a, constructUserKey a ≠ hk := fun a => (compositeKey_ne_user hkey a).symm
  have kF : ∀ a, constructFoodKey a ≠ hk := fun a => (compositeKey_ne_food hkey a).symm
  have kI : ∀ a, constructIngredientKey a ≠ hk :=
    fun a => (compositeKey_ne_ingredient hkey a).symm
  set s1 := ((stub.PutState (constructUserKey ownerId)
          (marshalUser { u0 with Foods := removeId u0.Foods x })).PutState
          (constructUserKey currentOwnerId)
          (marshalUser { u1 with Foods := u1.Foods ++ [x] })).PutState hk
          (marshalFoodHistory ⟨x, ownerId, currentOwnerId⟩) with hs1
  have gU : ∀ id, s1.GetState (constructUserKey id) =
      if id = currentOwnerId then some (marshalUser { u1 with Foods := u1.Foods ++ [x] })
      else if id = ownerId then some (marshalUser { u0 with Foods := removeId u0.Foods x })
      else stub.GetState (constructUserKey id) := by
    intro id
    simp only [hs1, GetState_PutState, constructUserKey_inj, kU, if_false]
  have gF : ∀ id, s1.GetState (constructFoodKey id) = stub.GetState (constructFoodKey id) := by
    intro id
    simp only [hs1, GetState_PutState, kF, (fun a b => (user_ne_food a b).symm), if_false]
  have gI : ∀ y, s1.GetState (constructIngredientKey y) =
      stub.GetState (constructIngredientKey y) := by
    intro y
    simp only [hs1, GetState_PutState, kI, (fun a b => (user_ne_ingredient a b).symm), if_false]
  have fI : ∀ id, foodIngredients s1 id = foodIngredients stub id := by
    intro id; simp only [foodIngredients, gF]
  have uI : ∀ id, userIngredients s1 id = userIngredients stub id := by
    intro id
    by_cases c1 : id = currentOwnerId
    · subst c1
      simp [userIngredients, gU, hb1, unmarshalUser_marshalUser]
    · by_cases c2 : id = ownerId
      · subst c2
        simp [userIngredients, gU, c1, hb0, unmarshalUser_marshalUser]
      · simp [userIngredients, gU, c1, c2]
  refine hI.of_same ?_ ?_ gI ?_
  · intro id bytes hb
    rw [gU] at hb
    split_ifs at hb with c1 c2
    · cases hb; exact ⟨_, rfl, by simpa [c1] using hid1⟩
    · cases hb; exact ⟨_, rfl, by simpa [c2] using hid0⟩
    · exact hI.user_canon id bytes hb
  · intro id bytes hb
    rw [gF] at hb
    exact hI.food_canon id bytes hb
  · intro h y
    cases h with
    | user id => simp only [Holder.holds, uI]
    | food id => simp only [Holder.holds, fI]

theorem Inv.step_userRegister {stub stub1 : Ledger} {args : List String}
    {payload : Option Bytes} (hI : Inv stub)
    (h : userRegister stub args = (Response.Success payload, stub1)) : Inv stub1 := by
  obtain ⟨name, id0, rfl, -, -, hb, -, rfl⟩ := userRegister_success h
  set s1 := stub.PutState (constructUserKey id0) (marshalUser ⟨name, id0, [], []⟩) with hs1
  have gU : ∀ id, s1.GetState (constructUserKey id) =
      if id = id0 then some (marshalUser ⟨name, id0, [], []⟩)
      else stub.GetState (constructUserKey id) := by
    intro id
    simp only [hs1, GetState_PutState, constructUserKey_inj]
  have gF : ∀ id, s1.GetState (constructFoodKey id) = stub.GetState (constructFoodKey id) := by
    intro id
    simp only [hs1, GetState_PutState, (fun a b => (user_ne_food a b).symm), if_false]
  have gI : ∀ y, s1.GetState (constructIngredientKey y) =
      stub.GetState (constructIngredientKey y) := by
    intro y
    simp only [hs1, GetState_PutState, (fun a b => (user_ne_ingredient a b).symm), if_false]
  have fI : ∀ id, foodIngredients s1 id = foodIngredients stub id := by
    intro id; simp only [foodIngredients, gF]
  have uI : ∀ id, userIngredients s1 id = userIngredients stub id := by
    intro id
    by_cases c1 : id = id0
    · subst c1
      simp [userIngredients, gU, hb, unmarshalUser_marshalUser]
    · simp [userIngredients, gU, c1]
  refine hI.of_same ?_ ?_ gI ?_
  · intro id bytes hb
    rw [gU] at hb
    split_ifs at hb with c1
    · cases hb; exact ⟨_, rfl, c1.symm⟩
    · exact hI.user_canon id bytes hb
  · intro id bytes hb
    rw [gF] at hb
    exact hI.food_canon id bytes hb
  · intro h y
    cases h with
    | user id => simp only [Holder.holds, uI]
    | food id => simp only [Holder.holds, fI]

theorem Inv.step_foodEnroll {stub stub1 : Ledger} {args : List String}
    {payload : Option Bytes} (hI : Inv stub)
    (h : foodEnroll stub args = (Response.Success payload, stub1)) : Inv stub1 := by
  obtain ⟨foodName, foodId, metadata, ownerId, b0, u0, hk, rfl, -, -, -, hb0, hb1, hu0, hkey,
    -, rfl⟩ := foodEnroll_success h
  obtain ⟨rfl, hid0⟩ := hI.user_decode hb0 hu0
  have kU : ∀ a, constructUserKey a ≠ hk := fun a => (compositeKey_ne_user hkey a).symm
  have kF : ∀ a, constructFoodKey a ≠ hk := fun a => (compositeKey_ne_food hkey a).symm
  have kI : ∀ a, constructIngredientKey a ≠ hk :=
    fun a => (compositeKey_ne_ingredient hkey a).symm
  subst hid0
  set s1 := ((stub.PutState (constructFoodKey foodId)
          (marshalFood ⟨foodName, foodId, metadata, []⟩)).PutState
          (constructUserKey u0.Id)
          (marshalUser { u0 with Foods := u0.Foods ++ [foodId] })).PutState hk
          (marshalFoodHistory ⟨foodId, originOwner, u0.Id⟩) with hs1
  have gU : ∀ id, s1.GetState (constructUserKey id) =
      if id = u0.Id then some (marshalUser { u0 with Foods := u0.Foods ++ [foodId] })
      else stub.GetState (constructUserKey id) := by
    intro id
    simp only [hs1, GetState_PutState, constructUserKey_inj, kU, user_ne_food, if_false]
  have gF : ∀ id, s1.GetState (constructFoodKey id) =
      if id = foodId then some (marshalFood ⟨foodName, foodId, metadata, []⟩)
      else stub.GetState (constructFoodKey id) := by
    intro id
    simp only [hs1, GetState_PutState, kF, constructFoodKey_inj,
      (fun a b => (user_ne_food a b).symm), if_false]
  have gI : ∀ y, s1.GetState (constructIngredientKey y) =
      stub.GetState (constructIngredientKey y) := by
    intro y
    simp only [hs1, GetState_PutState, kI, (fun a b => (user_ne_ingredient a b).symm),
      (fun a b => (food_ne_ingredient a b).symm), if_false]
  have fI : ∀ id, foodIngredients s1 id = foodIngredients stub id := by
    intro id
    by_cases c1 : id = foodId
    · subst c1
      simp [foodIngredients, gF, hb1, unmarshalFood_marshalFood]
    · simp [foodIngredients, gF, c1]
  have uI : ∀ id, userIngredients s1 id = userIngredients stub id := by
    intro id
    by_cases c1 : id = u0.Id
    · subst c1
      simp [userIngredients, gU, hb0, unmarshalUser_marshalUser]
    · simp [userIngredients, gU, c1]
  refine hI.of_same ?_ ?_ gI ?_
  · intro id bytes hb
    rw [gU] at hb
    split_ifs at hb with c1
    · cases hb; exact ⟨_, rfl, c1.symm⟩
    · exact hI.user_canon id bytes hb
  · intro id bytes hb
    rw [gF] at hb
    split_ifs at hb with c1
    · cases hb; exact ⟨_, rfl⟩
    · exact hI.food_canon id bytes hb
  · intro h y
    cases h with
    | user id => simp only [Holder.holds, uI]
    | food id => simp only [Holder.holds, fI]

theorem Inv.step_ingredientEnroll {stub stub1 : Ledger} {args : List String}
    {payload : Option Bytes} (hI : Inv stub)
    (h : ingredientEnroll stub args = (Response.Success payload, stub1)) : Inv stub1 := by
  obtain ⟨ingredientName, x, metadata, ownerId, b0, u0, hk, rfl, -, -, -, hb0, hb1, hu0, hkey,
    -, rfl⟩ := ingredientEnroll_success h
  obtain ⟨rfl, hid0⟩ := hI.user_decode hb0 hu0
  have kU : ∀ a, constructUserKey a ≠ hk := fun a => (compositeKey_ne_user hkey a).symm
  have kF : ∀ a, constructFoodKey a ≠ hk := fun a => (compositeKey_ne_food hkey a).symm
  have kI : ∀ a, constructIngredientKey a ≠ hk :=
    fun a => (compositeKey_ne_ingredient hkey a).symm
  subst hid0
  set s1 := ((stub.PutState (constructIngredientKey x)
          (marshalIngredient ⟨ingredientName, x, metadata⟩)).PutState
          (constructUserKey u0.Id)
          (marshalUser { u0 with Ingredients := u0.Ingredients ++ [x] })).PutState hk
          (marshalIngredientHistory ⟨x, originOwner, u0.Id⟩) with hs1
  have gU : ∀ id, s1.GetState (constructUserKey id) =
      if id = u0.Id then some (marshalUser { u0 with Ingredients := u0.Ingredients ++ [x] })
      else stub.GetState (constructUserKey id) := by
    intro id
    simp only [hs1, GetState_PutState, constructUserKey_inj, kU, user_ne_ingredient, if_false]
  have gF : ∀ id, s1.GetState (constructFoodKey id) = stub.GetState (constructFoodKey id) := by
    intro id
    simp only [hs1, GetState_PutState, kF, food_ne_ingredient,
      (fun a b => (user_ne_food a b).symm), if_false]
  have gI : ∀ y, s1.GetState (constructIngredientKey y) =
      if y = x then some (marshalIngredient ⟨ingredientName, x, metadata⟩)
      else stub.GetState (constructIngredientKey y) := by
    intro y
    simp only [hs1, GetState_PutState, kI, constructIngredientKey_inj,
      (fun a b => (user_ne_ingredient a b).symm), if_false]
  have fI : ∀ id, foodIngredients s1 id = foodIngredients stub id := by
    intro id; simp only [foodIngredients, gF]
  have uI : ∀ id, userIngredients s1 id =
      if id = u0.Id then userIngredients stub u0.Id ++ [x] else userIngredients stub id := by
    intro id
    rw [userIngredients_of hb0 hu0]
    by_cases c1 : id = u0.Id
    · subst c1
      simp [userIngredients, gU, unmarshalUser_marshalUser]
    · simp [userIngredients, gU, c1]
  have hfree : ∀ h : Holder, ¬ h.holds stub x := fun h hh => hI.held_stored h x hh hb1
  refine hI.of_move x (Holder.user u0.Id) ?_ ?_ ?_ ?_ ?_
  · intro id bytes hb
    rw [gU] at hb
    split_ifs at hb with c1
    · cases hb; exact ⟨_, rfl, c1.symm⟩
    · exact hI.user_canon id bytes hb
  · intro id bytes hb
    rw [gF] at hb
    exact hI.food_canon id bytes hb
  · rw [gI]; simp
  · intro y hy
    rw [gI, if_neg hy]
  · intro h y
    cases h with
    | user id =>
      simp only [Holder.holds, uI]
      by_cases c1 : id = u0.Id
      · subst c1
        by_cases cy : y = x
        · simp [cy]
        · simp [cy]
      · by_cases cy : y = x
        · subst cy
          simp only [c1, if_false, if_true, Holder.user.injEq, iff_false]
          exact hfree (Holder.user id)
        · simp [cy, c1]
    | food id =>
      simp only [Holder.holds, fI]
      by_cases cy : y = x
      · subst cy
        simp only [if_true]
        constructor
        · intro hm; exact absurd hm (hfree (Holder.food id))
        · intro e; cases e
      · simp [cy]

theorem Inv.step_userDestroy {stub stub1 : Ledger} {args : List String}
    {payload : Option Bytes} (hI : Inv stub)
    (h : userDestroy stub args = (Response.Success payload, stub1)) : Inv stub1 := by
  obtain ⟨id0, b0, u0, rfl, -, hb0, hu0, -, rfl⟩ := userDestroy_success h
  obtain ⟨rfl, -⟩ := hI.user_decode hb0 hu0
  set s1 := deleteIngredients (stub.DelState (constructUserKey id0)) u0.Ingredients with hs1
  have gU : ∀ id, s1.GetState (constructUserKey id) =
      if id = id0 then none else stub.GetState (constructUserKey id) := by
    intro id
    have : constructUserKey id ∉ u0.Ingredients.map constructIngredientKey := by
      intro hm
      obtain ⟨a, -, ha⟩ := List.mem_map.1 hm
      exact user_ne_ingredient _ _ ha.symm
    simp only [hs1, GetState_deleteIngredients, this, GetState_DelState, constructUserKey_inj,
      if_false]
  have gF : ∀ id, s1.GetState (constructFoodKey id) = stub.GetState (constructFoodKey id) := by
    intro id
    have : constructFoodKey id ∉ u0.Ingredients.map constructIngredientKey := by
      intro hm
      obtain ⟨a, -, ha⟩ := List.mem_map.1 hm
      exact food_ne_ingredient _ _ ha.symm
    simp only [hs1, GetState_deleteIngredients, this, GetState_DelState,
      (fun a b => (user_ne_food a b).symm), if_false]
  have gI : ∀ y, s1.GetState (constructIngredientKey y) =
      if y ∈ u0.Ingredients then none else stub.GetState (constructIngredientKey y) := by
    intro y
    have : constructIngredientKey y ∈ u0.Ingredients.map constructIngredientKey ↔
        y ∈ u0.Ingredients := by
      constructor
      · intro hm
        obtain ⟨a, ha1, ha⟩ := List.mem_map.1 hm
        rwa [← constructIngredientKey_inj.1 ha]
      · exact List.mem_map_of_mem _
    simp only [hs1, GetState_deleteIngredients, this, GetState_DelState,
      (fun a b => (user_ne_ingredient a b).symm), if_false]
  have fI : ∀ id, foodIngredients s1 id = foodIngredients stub id := by
    intro id; simp only [foodIngredients, gF]
  have uI : ∀ id, userIngredients s1 id =
      if id = id0 then [] else userIngredients stub id := by
    intro id
    by_cases c1 : id = id0
    · simp [userIngredients, gU, c1]
    · simp [userIngredients, gU, c1]
  have hL : userIngredients stub id0 = u0.Ingredients := userIngredients_of hb0 hu0
  have key : ∀ (h : Holder) (y : String), h.holds s1 y ↔
      h.holds stub y ∧ h ≠ Holder.user id0 := by
    intro h y
    cases h with
    | user id =>
      simp only [Holder.holds, uI]
      by_cases c1 : id = id0
      · simp [c1]
      · simp [c1]
    | food id => simp [Holder.holds, fI]
  refine ⟨?_, ?_, ?_, ?_, ?_⟩
  · intro id bytes hb
    rw [gU] at hb
    split_ifs at hb with c1
    exact hI.user_canon id bytes hb
  · intro id bytes hb
    rw [gF] at hb
    exact hI.food_canon id bytes hb
  · intro h y hy
    obtain ⟨hy1, hy2⟩ := (key h y).1 hy
    rw [gI]
    split_ifs with c
    · exfalso
      apply hy2
      apply hI.holder_unique y h (Holder.user id0) hy1
      simp only [Holder.holds, hL]; exact c
    · exact hI.held_stored h y hy1
  · intro y h1 h2 hy1 hy2
    exact hI.holder_unique y h1 h2 ((key _ _).1 hy1).1 ((key _ _).1 hy2).1
  · intro y hy
    rw [gI] at hy
    split_ifs at hy with c
    · exact absurd rfl hy
    · obtain ⟨h, hh⟩ := hI.stored_held y hy
      refine ⟨h, (key _ _).2 ⟨hh, ?_⟩⟩
      rintro rfl
      apply c
      simpa only [Holder.holds, hL] using hh

/-- A property of the results of the twelve operations and of the error of an
unknown function name is a property of the results of `Invoke`. -/
theorem Invoke_cases (P : Response × Ledger → Prop) (stub : Ledger) (funcName : String)
    (args : List String)
    (h1 : P (userRegister stub args)) (h2 : P (userDestroy stub args))
    (h3 : P (ingredientEnroll stub args)) (h4 : P (foodEnroll stub args))
    (h5 : P (ingredientExchange stub args)) (h6 : P (foodExchange stub args))
    (h7 : P (ingredientExchangeFood stub args)) (h8 : P (queryUser stub args))
    (h9 : P (queryIngredient stub args)) (h10 : P (queryFood stub args))
    (h11 : P (queryIngredientHistory stub args)) (h12 : P (queryFoodHistory stub args))
    (h13 : P (Response.Error ("unsupported function: " ++ funcName), stub)) :
    P (Invoke stub funcName args) := by
  unfold FabricFood.Invoke
  by_cases c1 : funcName = "userRegister"
  · rw [if_pos c1]; exact h1
  rw [if_neg c1]
  by_cases c2 : funcName = "userDestroy"
  · rw [if_pos c2]; exact h2
  rw [if_neg c2]
  by_cases c3 : funcName = "ingredientEnroll"
  · rw [if_pos c3]; exact h3
  rw [if_neg c3]
  by_cases c4 : funcName = "foodEnroll"
  · rw [if_pos c4]; exact h4
  rw [if_neg c4]
  by_cases c5 : funcName = "ingredientExchange"
  · rw [if_pos c5]; exact h5
  rw [if_neg c5]
  by_cases c6 : funcName = "foodExchange"
  · rw [if_pos c6]; exact h6
  rw [if_neg c6]
  by_cases c7 : funcName = "ingredientExchangeFood"
  · rw [if_pos c7]; exact h7
  rw [if_neg c7]
  by_cases c8 : funcName = "queryUser"
  · rw [if_pos c8]; exact h8
  rw [if_neg c8]
  by_cases c9 : funcName = "queryIngredient"
  · rw [if_pos c9]; exact h9
  rw [if_neg c9]
  by_cases c10 : funcName = "queryFood"
  · rw [if_pos c10]; exact h10
  rw [if_neg c10]
  by_cases c11 : funcName = "queryIngredientHistory"
  · rw [if_pos c11]; exact h11
  rw [if_neg c11]
  by_cases c12 : funcName = "queryFoodHistory"
  · rw [if_pos c12]; exact h12
  rw [if_neg c12]
  exact h13

theorem Response.isSuccess_pair {r : Response × Ledger} (h : r.1.isSuccess = true) :
    ∃ payload, r = (Response.Success payload, r.2) := by
  obtain ⟨r, l⟩ := r
  cases r with
  | Success p => exact ⟨p, rfl⟩
  | Error m => simp [Response.isSuccess] at h

/-- The writes of a successful invocation keep the invariant. -/
theorem Inv.step_Invoke {stub : Ledger} (hI : Inv stub) (funcName : String) (args : List String) :
    (Invoke stub funcName args).1.isSuccess = true → Inv (Invoke stub funcName args).2 := by
  apply Invoke_cases (fun r => r.1.isSuccess = true → Inv r.2)
  · intro hs; obtain ⟨p, hp⟩ := Response.isSuccess_pair hs; exact hI.step_userRegister hp
  · intro hs; obtain ⟨p, hp⟩ := Response.isSuccess_pair hs; exact hI.step_userDestroy hp
  · intro hs; obtain ⟨p, hp⟩ := Response.isSuccess_pair hs; exact hI.step_ingredientEnroll hp
  · intro hs; obtain ⟨p, hp⟩ := Response.isSuccess_pair hs; exact hI.step_foodEnroll hp
  · intro hs; obtain ⟨p, hp⟩ := Response.isSuccess_pair hs; exact hI.step_ingredientExchange hp
  · intro hs; obtain ⟨p, hp⟩ := Response.isSuccess_pair hs; exact hI.step_foodExchange hp
  · intro hs; obtain ⟨p, hp⟩ := Response.isSuccess_pair hs; exact hI.step_ingredientExchangeFood hp
  · intro _; rw [queryUser_ledger]; exact hI
  · intro _; rw [queryIngredient_ledger]; exact hI
  · intro _; rw [queryFood_ledger]; exact hI
  · intro _; rw [queryIngredientHistory_ledger]; exact hI
  · intro _; rw [queryFoodHistory_ledger]; exact hI
  · intro _; exact hI

theorem Inv.commit {ledger : Ledger} (hI : Inv ledger) (funcName : String) (args : List String) :
    Inv (commit ledger funcName args) := by
  unfold FabricFood.commit
  split_ifs with hs
  · exact hI.step_Invoke funcName args hs
  · exact hI

theorem Reachable.inv {ledger : Ledger} (h : Reachable ledger) : Inv ledger := by
  induction h with
  | empty => exact Inv.empty
  | step ledger funcName args _ ih => exact ih.commit funcName args

/-! ## Single ownership (C1) -/

theorem Reachable.run {ledger : Ledger} (h : Reachable ledger)
    (calls : List (String × List String)) : Reachable (run ledger calls) := by
  induction calls generalizing ledger with
  | nil => exact h
  | cons c rest ih => exact ih (Reachable.step ledger c.1 c.2 h)

/-- C1, single ownership: in every ledger state reachable from the empty ledger
by transactions of `Invoke`, every ingredient id whose record is stored is
listed by exactly one holder, a stored user or a stored food: never by a user
and a food at once, never by two users and never by two foods. -/
theorem single_ownership (ledger : Ledger) (hr : Reachable ledger) (x : String)
    (hx : ledger.GetState (constructIngredientKey x) ≠ none) :
    ∃! h : Holder, h.holds ledger x := by
  obtain ⟨h, hh⟩ := hr.inv.stored_held x hx
  exact ⟨h, hh, fun h2 hh2 => hr.inv.holder_unique x h2 h hh2 hh⟩

/-- C1 at the scenario of the specification: `i1` is stored and has one holder. -/
theorem single_ownership_witness :
    Reachable scenario ∧ scenario.GetState (constructIngredientKey "i1") ≠ none ∧
      ∃! h : Holder, h.holds scenario "i1" :=
  ⟨Reachable.run Reachable.empty _, by decide,
    single_ownership scenario (Reachable.run Reachable.empty _) "i1" (by decide)⟩

/-! ## Transfer of an ingredient (C2) -/

/-- C2 as stated fails at the self-transfer of the scenario: `u1` gives `i1` to `u1`. The call
succeeds and `u1` lists `i1` twice afterwards, so the list of the source still
contains the ingredient. -/
theorem ingredientExchange_self_transfer :
    (ingredientExchange scenario ["u1", "i1", "u1"]).1 = Response.Success none ∧
      userIngredients scenario "u1" = ["i1"] ∧
      userIngredients (ingredientExchange scenario ["u1", "i1", "u1"]).2 "u1" = ["i1", "i1"] ∧
      "i1" ∈ userIngredients (ingredientExchange scenario ["u1", "i1", "u1"]).2 "u1" := by
  decide

/-- C2 (amended), the postcondition of a transfer between two different users:
on every ledger state and all arguments `(fromOwnerId, ingredientId,
toOwnerId)` with `fromOwnerId ≠ toOwnerId` on which `ingredientExchange`
succeeds, the list stored for `fromOwnerId` afterwards is its previous list
without the occurrences of `ingredientId`, so it no longer contains it, and
the list stored for `toOwnerId` is its previous list with `ingredientId`
appended at the end. -/
theorem ingredientExchange_post (stub stub1 : Ledger)
    (fromOwnerId ingredientId toOwnerId : String) (payload : Option Bytes)
    (hne : fromOwnerId ≠ toOwnerId)
    (h : ingredientExchange stub [fromOwnerId, ingredientId, toOwnerId] =
      (Response.Success payload, stub1)) :
    ingredientId ∉ userIngredients stub1 fromOwnerId ∧
      userIngredients stub1 fromOwnerId =
        removeId (userIngredients stub fromOwnerId) ingredientId ∧
      userIngredients stub1 toOwnerId = userIngredients stub toOwnerId ++ [ingredientId] := by
  obtain ⟨ownerId, x, currentOwnerId, b0, b1, u0, u1, hk, hargs, -, -, -, hb0, hb1, -, hu0,
    -, hu1, hkey, -, rfl⟩ := ingredientExchange_success h
  simp only [List.cons.injEq, and_true] at hargs
  obtain ⟨rfl, rfl, rfl⟩ := hargs
  have kU : ∀ a, constructUserKey a ≠ hk := fun a => (compositeKey_ne_user hkey a).symm
  have e1 : userIngredients
      (((stub.PutState (constructUserKey fromOwnerId)
          (marshalUser { u0 with Ingredients := removeId u0.Ingredients ingredientId })).PutState
          (constructUserKey toOwnerId)
          (marshalUser { u1 with Ingredients := u1.Ingredients ++ [ingredientId] })).PutState hk
          (marshalIngredientHistory ⟨ingredientId, fromOwnerId, toOwnerId⟩)) fromOwnerId =
      removeId u0.Ingredients ingredientId := by
    simp [userIngredients, GetState_PutState, constructUserKey_inj, kU, hne,
      unmarshalUser_marshalUser]
  have e2 : userIngredients
      (((stub.PutState (constructUserKey fromOwnerId)
          (marshalUser { u0 with Ingredients := removeId u0.Ingredients ingredientId })).PutState
          (constructUserKey toOwnerId)
          (marshalUser { u1 with Ingredients := u1.Ingredients ++ [ingredientId] })).PutState hk
          (marshalIngredientHistory ⟨ingredientId, fromOwnerId, toOwnerId⟩)) toOwnerId =
      u1.Ingredients ++ [ingredientId] := by
    simp [userIngredients, GetState_PutState, constructUserKey_inj, kU,
      unmarshalUser_marshalUser]
  rw [e1, e2, userIngredients_of hb0 hu0, userIngredients_of hb1 hu1]
  exact ⟨fun hm => (mem_removeId.1 hm).2 rfl, rfl, rfl⟩

/-- C2 at the scenario of the specification: after the transfer of `i1` from
`u1` to `u2` the list of `u1` is empty and the list of `u2` is `["i1"]`. -/
theorem ingredientExchange_post_witness :
    "u1" ≠ "u2" ∧
      ingredientExchange scenario ["u1", "i1", "u2"] =
        (Response.Success none, (ingredientExchange scenario ["u1", "i1", "u2"]).2) ∧
      userIngredients (ingredientExchange scenario ["u1", "i1", "u2"]).2 "u1" = [] ∧
      userIngredients (ingredientExchange scenario ["u1", "i1", "u2"]).2 "u2" = ["i1"] ∧
      ("i1" ∉ userIngredients (ingredientExchange scenario ["u1", "i1", "u2"]).2 "u1" ∧
        userIngredients (ingredientExchange scenario ["u1", "i1", "u2"]).2 "u1" =
          removeId (userIngredients scenario "u1") "i1" ∧
        userIngredients (ingredientExchange scenario ["u1", "i1", "u2"]).2 "u2" =
          userIngredients scenario "u2" ++ ["i1"]) :=
  ⟨by decide, by decide, by decide, by decide,
    ingredientExchange_post scenario (ingredientExchange scenario ["u1", "i1", "u2"]).2
      "u1" "i1" "u2" none (by decide) (by decide)⟩

/-- The rejection of a transfer by a user who does not list the ingredient:
with non-empty arguments, both users and the ingredient stored, and a record
of `fromOwnerId` that decodes and does not list `x`, `ingredientExchange`
returns the error `ingredient owner not match` and writes nothing. -/
theorem ingredientExchange_not_listed (stub : Ledger) (fromOwnerId x toOwnerId : String)
    (fromBytes toBytes assetBytes : Bytes) (fromUser : User)
    (h1 : fromOwnerId ≠ "") (h2 : x ≠ "") (h3 : toOwnerId ≠ "")
    (hfrom : stub.GetState (constructUserKey fromOwnerId) = some fromBytes)
    (hto : stub.GetState (constructUserKey toOwnerId) = some toBytes)
    (hx : stub.GetState (constructIngredientKey x) = some assetBytes)
    (hdec : unmarshalUser fromBytes = Except.ok fromUser)
    (hnot : x ∉ fromUser.Ingredients) :
    ingredientExchange stub [fromOwnerId, x, toOwnerId] =
      (Response.Error "ingredient owner not match", stub) := by
  have hex : aidexist fromUser.Ingredients x = false := by
    cases hc : aidexist fromUser.Ingredients x
    · rfl
    · exact absurd ((aidexist_iff _ _).1 hc) hnot
  simp [ingredientExchange, h1, h2, h3, hfrom, hto, hx, hdec, hex]


/-! ## The order of the keys -/

theorem keyLt_irrefl (a : List Char) : keyLt a a = false := by
  induction a with
  | nil => rfl
  | cons c cs ih => simp [keyLt, ih]

theorem keyLt_trans {a b c : List Char} (h1 : keyLt a b = true) (h2 : keyLt b c = true) :
    keyLt a c = true := by
  induction a generalizing b c with
  | nil =>
    cases b with
    | nil => simp [keyLt] at h1
    | cons y ys =>
      cases c with
      | nil => simp [keyLt] at h2
      | cons z zs => simp [keyLt]
  | cons x xs ih =>
    cases b with
    | nil => simp [keyLt] at h1
    | cons y ys =>
      cases c with
      | nil => simp [keyLt] at h2
      | cons z zs =>
        simp only [keyLt, Bool.or_eq_true, decide_eq_true_eq, Bool.and_eq_true] at h1 h2 ⊢
        rcases h1 with h1 | ⟨h1, h1'⟩
        · rcases h2 with h2 | ⟨h2, h2'⟩
          · exact Or.inl (lt_trans h1 h2)
          · subst h2; exact Or.inl h1
        · subst h1
          rcases h2 with h2 | ⟨h2, h2'⟩
          · exact Or.inl h2
          · exact Or.inr ⟨h2, ih h1' h2'⟩

theorem keyLt_trichotomy (a b : List Char) : keyLt a b = true ∨ a = b ∨ keyLt b a = true := by
  induction a generalizing b with
  | nil =>
    cases b with
    | nil => exact Or.inr (Or.inl rfl)
    | cons y ys => exact Or.inl (by simp [keyLt])
  | cons x xs ih =>
    cases b with
    | nil => exact Or.inr (Or.inr (by simp [keyLt]))
    | cons y ys =>
      simp only [keyLt, Bool.or_eq_true, decide_eq_true_eq, Bool.and_eq_true, List.cons.injEq]
      rcases lt_trichotomy x.toNat y.toNat with h | h | h
      · exact Or.inl (Or.inl h)
      · have hxy : x = y := Char.ext (UInt32.ext (by simpa [Char.toNat] using h))
        subst hxy
        rcases ih ys with h' | h' | h'
        · exact Or.inl (Or.inr ⟨rfl, h'⟩)
        · exact Or.inr (Or.inl ⟨rfl, h'⟩)
        · exact Or.inr (Or.inr (Or.inr ⟨rfl, h'⟩))
      · exact Or.inr (Or.inr (Or.inl h))

/-- A key is not below one of its prefixes. -/
theorem keyLt_append_self (a r : List Char) : keyLt (a ++ r) a = false := by
  induction a with
  | nil => cases r <;> simp [keyLt]
  | cons c cs ih => simp [keyLt, ih]

/-- A key that continues the prefix `a` with a character below `d` is below
`a` followed by `d`. -/
theorem keyLt_append_lt (a : List Char) (c d : Char) (r : List Char)
    (h : c.toNat < d.toNat) : keyLt (a ++ c :: r) (a ++ [d]) = true := by
  induction a with
  | nil => simp [keyLt, h]
  | cons x xs ih => simp [keyLt, ih]

/-- A key whose first character is above the first character of the bound is
not below the bound. -/
theorem keyLt_head_gt (c d : Char) (cs ds : List Char) (h : d.toNat < c.toNat) :
    keyLt (c :: cs) (d :: ds) = false := by
  simp only [keyLt, Bool.or_eq_false_iff, decide_eq_false_iff_not, Bool.and_eq_false_imp,
    decide_eq_true_eq]
  refine ⟨by omega, ?_⟩
  rintro rfl
  omega

/-! ## The representation invariant of the ledger -/

theorem mem_insertKV {key : String} {value : Bytes} {l : List (String × Bytes)}
    {e : String × Bytes} (h : e ∈ insertKV key value l) : e = (key, value) ∨ e ∈ l := by
  induction l with
  | nil => simpa [insertKV] using h
  | cons hd tl ih =>
    obtain ⟨k, v⟩ := hd
    unfold insertKV at h
    split_ifs at h with h1 h2
    · rcases List.mem_cons.1 h with h | h
      · exact Or.inl h
      · exact Or.inr h
    · rcases List.mem_cons.1 h with h | h
      · exact Or.inl h
      · exact Or.inr (List.mem_cons_of_mem _ h)
    · rcases List.mem_cons.1 h with h | h
      · exact Or.inr (h ▸ List.mem_cons_self _ _)
      · rcases ih h with h | h
        · exact Or.inl h
        · exact Or.inr (List.mem_cons_of_mem _ h)

theorem sorted_insertKV (key : String) (value : Bytes) (l : List (String × Bytes))
    (hl : l.Pairwise (fun a b => keyLt a.1.data b.1.data = true)) :
    (insertKV key value l).Pairwise (fun a b => keyLt a.1.data b.1.data = true) := by
  induction l with
  | nil => simp [insertKV]
  | cons hd tl ih =>
    obtain ⟨k, v⟩ := hd
    rw [List.pairwise_cons] at hl
    unfold insertKV
    split_ifs with h1 h2
    · refine List.pairwise_cons.2 ⟨?_, List.pairwise_cons.2 hl⟩
      intro e he
      rcases List.mem_cons.1 he with he | he
      · subst he; exact h1
      · exact keyLt_trans h1 (hl.1 e he)
    · subst h2
      exact List.pairwise_cons.2 hl
    · refine List.pairwise_cons.2 ⟨?_, ih hl.2⟩
      intro e he
      rcases mem_insertKV he with he | he
      · subst he
        rcases keyLt_trichotomy key.data k.data with h | h | h
        · exact absurd h h1
        · exact absurd (String.ext h) h2
        · exact h
      · exact hl.1 e he

theorem Ledger.WF.PutState {stub : Ledger} (h : stub.WF) (key : String) (value : Bytes) :
    (stub.PutState key value).WF :=
  sorted_insertKV key value stub.entries h

theorem Ledger.WF.DelState {stub : Ledger} (h : stub.WF) (key : String) :
    (stub.DelState key).WF :=
  List.Pairwise.filter _ h

/-- A new key is added to the bindings. -/
theorem insertKV_perm (key : String) (value : Bytes) (l : List (String × Bytes))
    (h : lookupKV key l = none) : (insertKV key value l).Perm ((key, value) :: l) := by
  induction l with
  | nil => simp [insertKV]
  | cons hd tl ih =>
    obtain ⟨k, v⟩ := hd
    unfold lookupKV at h
    split_ifs at h with hk
    unfold insertKV
    split_ifs with h1 h2
    · exact List.Perm.refl _
    · exact absurd h2.symm hk
    · exact ((ih h).cons (k, v)).trans (List.Perm.swap _ _ _)

/-- In a ledger in key order the binding of a bound key is replaced in place. -/
theorem insertKV_replace (key : String) (value : Bytes) (l : List (String × Bytes))
    (hl : l.Pairwise (fun a b => keyLt a.1.data b.1.data = true)) (value0 : Bytes)
    (h : lookupKV key l = some value0) :
    ∃ l1 l2, l = l1 ++ (key, value0) :: l2 ∧ insertKV key value l = l1 ++ (key, value) :: l2 := by
  induction l with
  | nil => simp [lookupKV] at h
  | cons hd tl ih =>
    obtain ⟨k, v⟩ := hd
    rw [List.pairwise_cons] at hl
    unfold lookupKV at h
    split_ifs at h with hk
    · subst hk
      cases h
      refine ⟨[], tl, rfl, ?_⟩
      unfold insertKV
      simp [keyLt_irrefl]
    · have hne : keyLt key.data k.data = false := by
        -- the key is bound further down, above `k`
        have hmem : ∃ e ∈ tl, e.1 = key := by
          clear ih hl
          induction tl with
          | nil => simp [lookupKV] at h
          | cons hd2 tl2 ih2 =>
            obtain ⟨k2, v2⟩ := hd2
            unfold lookupKV at h
            split_ifs at h with hk2
            · exact ⟨(k2, v2), List.mem_cons_self _ _, hk2⟩
            · obtain ⟨e, he, hek⟩ := ih2 h
              exact ⟨e, List.mem_cons_of_mem _ he, hek⟩
        obtain ⟨e, he, hek⟩ := hmem
        have := hl.1 e he
        rw [hek] at this
        cases hc : keyLt key.data k.data
        · rfl
        · have := keyLt_trans hc this
          rw [keyLt_irrefl] at this
          cases this
      obtain ⟨l1, l2, e1, e2⟩ := ih hl.2 h
      refine ⟨(k, v) :: l1, l2, by rw [e1]; rfl, ?_⟩
      unfold insertKV
      rw [hne]
      simp [Ne.symm hk, e2]


/-! ## The shape of the composite keys -/

theorem validate_ok_iff (str : String) :
    validateCompositeKeyAttribute str = Except.ok () ↔
      minUnicodeRuneValue ∉ str.data ∧ maxUnicodeRuneValue ∉ str.data := by
  unfold validateCompositeKeyAttribute
  split_ifs with h
  · simp only [false_iff, reduceCtorEq]
    intro hh
    rcases h with h | h
    · exact hh.1 h
    · exact hh.2 h
  · push_neg at h
    simp [h]

theorem CreateCompositeKey_one {assetId key : String}
    (h : CreateCompositeKey "history" [assetId] = Except.ok key) :
    key.data = historyPrefix assetId := by
  unfold CreateCompositeKey at h
  split at h
  · cases h
  · unfold appendAttributes at h
    split at h
    · cases h
    · simp only [appendAttributes, Except.ok.injEq] at h
      subst h
      simp [historyPrefix, compositeKeyNamespace, String.data_append, String.singleton]

theorem CreateCompositeKey_three {assetId o c key : String}
    (h : CreateCompositeKey "history" [assetId, o, c] = Except.ok key) :
    (minUnicodeRuneValue ∉ assetId.data ∧ maxUnicodeRuneValue ∉ assetId.data) ∧
      (minUnicodeRuneValue ∉ o.data ∧ maxUnicodeRuneValue ∉ o.data) ∧
      (minUnicodeRuneValue ∉ c.data ∧ maxUnicodeRuneValue ∉ c.data) ∧
      key.data = historyPrefix assetId ++ (o.data ++ minUnicodeRuneValue ::
        (c.data ++ [minUnicodeRuneValue])) := by
  unfold CreateCompositeKey at h
  split at h
  · cases h
  · unfold appendAttributes at h
    split at h
    · cases h
    · rename_i ha
      unfold appendAttributes at h
      split at h
      · cases h
      · rename_i ho
        unfold appendAttributes at h
        split at h
        · cases h
        · rename_i hc
          simp only [appendAttributes, Except.ok.injEq] at h
          subst h
          refine ⟨(validate_ok_iff _).1 ?_, (validate_ok_iff _).1 ?_, (validate_ok_iff _).1 ?_, ?_⟩
          · rw [ha]
          · rw [ho]
          · rw [hc]
          · simp [historyPrefix, compositeKeyNamespace, String.data_append, String.singleton]

theorem CreateCompositeKey_one_of_three {assetId o c key : String}
    (h : CreateCompositeKey "history" [assetId, o, c] = Except.ok key) :
    ∃ p, CreateCompositeKey "history" [assetId] = Except.ok p ∧ p.data = historyPrefix assetId := by
  obtain ⟨ha, -, -, -⟩ := CreateCompositeKey_three h
  have hv : validateCompositeKeyAttribute assetId = Except.ok () := (validate_ok_iff _).2 ha
  have hh : validateCompositeKeyAttribute "history" = Except.ok () :=
    (validate_ok_iff _).2 (by decide)
  refine ⟨compositeKeyNamespace ++ "history" ++ String.singleton minUnicodeRuneValue ++ assetId ++
    String.singleton minUnicodeRuneValue, ?_, ?_⟩
  · simp only [CreateCompositeKey, hh, appendAttributes, hv]
  · simp [historyPrefix, compositeKeyNamespace, String.data_append, String.singleton]


/-! ## The range of a history query -/

theorem char_lt_max {c : Char} (h : c ≠ maxUnicodeRuneValue) :
    c.toNat < maxUnicodeRuneValue.toNat := by
  have hv := c.valid
  have hmax : maxUnicodeRuneValue.toNat = 0x10FFFF := by decide
  rw [hmax]
  have hne : c.toNat ≠ 0x10FFFF := by
    intro e
    apply h
    apply Char.ext
    apply UInt32.ext
    simpa [Char.toNat] using e
  have : c.toNat < 0x110000 := by
    rcases hv with h1 | ⟨_, h2⟩
    · have : c.toNat < 0xD800 := h1
      omega
    · exact h2
  omega

theorem GetStateByRange_eq (stub : Ledger) (p : String) :
    stub.GetStateByRange p (p ++ String.singleton maxUnicodeRuneValue) =
      stub.entries.filter (inHistoryRange p.data) := by
  unfold Ledger.GetStateByRange inHistoryRange
  simp [String.data_append, String.singleton]

theorem inHistoryRange_history {assetId o c key : String} (value : Bytes)
    (h : CreateCompositeKey "history" [assetId, o, c] = Except.ok key) :
    inHistoryRange (historyPrefix assetId) (key, value) = true := by
  obtain ⟨-, ho, -, hd⟩ := CreateCompositeKey_three h
  simp only [inHistoryRange, hd, keyLt_append_self, Bool.not_false, Bool.true_and]
  cases hod : o.data with
  | nil =>
    simp only [List.nil_append]
    exact keyLt_append_lt _ _ _ _ (by decide)
  | cons x xs =>
    simp only [List.cons_append]
    apply keyLt_append_lt
    apply char_lt_max
    intro e
    apply ho.2
    rw [hod, e]
    exact List.mem_cons_self _ _

theorem inHistoryRange_of_head (assetId : String) (k : String) (value : Bytes) (c : Char)
    (hk : k.data.head? = some c) (hc : 0 < c.toNat) :
    inHistoryRange (historyPrefix assetId) (k, value) = false := by
  cases hd : k.data with
  | nil => rw [hd] at hk; cases hk
  | cons x xs =>
    rw [hd] at hk
    simp only [List.head?_cons, Option.some.injEq] at hk
    subst hk
    have hlt : keyLt (x :: xs) (historyPrefix assetId ++ [maxUnicodeRuneValue]) = false := by
      simp only [historyPrefix, List.cons_append]
      exact keyLt_head_gt x minUnicodeRuneValue _ _ (by simpa using hc)
    simp only [inHistoryRange, hd, hlt, Bool.and_false]

theorem inHistoryRange_user (assetId id : String) (value : Bytes) :
    inHistoryRange (historyPrefix assetId) (constructUserKey id, value) = false :=
  inHistoryRange_of_head assetId _ value 'u' (head_constructUserKey id) (by decide)

theorem inHistoryRange_food (assetId id : String) (value : Bytes) :
    inHistoryRange (historyPrefix assetId) (constructFoodKey id, value) = false :=
  inHistoryRange_of_head assetId _ value 'f' (head_constructFoodKey id) (by decide)

theorem inHistoryRange_ingredient (assetId id : String) (value : Bytes) :
    inHistoryRange (historyPrefix assetId) (constructIngredientKey id, value) = false :=
  inHistoryRange_of_head assetId _ value 'i' (head_constructIngredientKey id) (by decide)

theorem inHistoryRange_congr (p : List Char) (k : String) (v w : Bytes) :
    inHistoryRange p (k, v) = inHistoryRange p (k, w) := rfl

/-- A write outside the range does not change the result of the scan. -/
theorem filter_insertKV_out (p : List Char) (key : String) (value : Bytes)
    (l : List (String × Bytes)) (h : inHistoryRange p (key, value) = false) :
    (insertKV key value l).filter (inHistoryRange p) = l.filter (inHistoryRange p) := by
  induction l with
  | nil => simp [insertKV, h]
  | cons hd tl ih =>
    obtain ⟨k, v⟩ := hd
    unfold insertKV
    split_ifs with h1 h2
    · rw [List.filter_cons_of_neg (by simp [h])]
    · subst h2
      rw [List.filter_cons_of_neg (by simp [h]),
        List.filter_cons_of_neg (by rw [inHistoryRange_congr p key v value]; simp [h])]
    · simp only [List.filter_cons, ih]

/-- A write of a new key in the range adds one binding to the result of the
scan. -/
theorem filter_insertKV_new (p : List Char) (key : String) (value : Bytes)
    (l : List (String × Bytes)) (h : inHistoryRange p (key, value) = true)
    (hnew : lookupKV key l = none) :
    ((insertKV key value l).filter (inHistoryRange p)).Perm
      ((key, value) :: l.filter (inHistoryRange p)) := by
  have := (insertKV_perm key value l hnew).filter (inHistoryRange p)
  rwa [List.filter_cons_of_pos h] at this

/-- A write of a bound key in the range replaces one binding of the result of
the scan. -/
theorem filter_insertKV_old (p : List Char) (key : String) (value : Bytes)
    (l : List (String × Bytes)) (h : inHistoryRange p (key, value) = true)
    (hl : l.Pairwise (fun a b => keyLt a.1.data b.1.data = true)) (value0 : Bytes)
    (hold : lookupKV key l = some value0) :
    ∃ r1 r2, l.filter (inHistoryRange p) = r1 ++ (key, value0) :: r2 ∧
      (insertKV key value l).filter (inHistoryRange p) = r1 ++ (key, value) :: r2 := by
  obtain ⟨l1, l2, e1, e2⟩ := insertKV_replace key value l hl value0 hold
  refine ⟨l1.filter (inHistoryRange p), l2.filter (inHistoryRange p), ?_, ?_⟩
  · rw [e1, List.filter_append,
      List.filter_cons_of_pos (by rw [inHistoryRange_congr p key value0 value]; exact h)]
  · rw [e2, List.filter_append, List.filter_cons_of_pos h]

theorem lookupKV_mem {key : String} {l : List (String × Bytes)} {value : Bytes}
    (h : lookupKV key l = some value) : (key, value) ∈ l := by
  induction l with
  | nil => simp [lookupKV] at h
  | cons hd tl ih =>
    obtain ⟨k, v⟩ := hd
    unfold lookupKV at h
    split_ifs at h with hk
    · cases h; subst hk; exact List.mem_cons_self _ _
    · exact List.mem_cons_of_mem _ (ih h)

/-! ## The loop of the history query -/

theorem collect_ok (queryType : String) (result : List (String × Bytes))
    (acc : List IngredientHistory)
    (h : ∀ e ∈ result, ∃ history, unmarshalIngredientHistory e.2 = Except.ok history) :
    ∃ histories, collectIngredientHistories queryType result acc = Except.ok histories ∧
      histories.length = acc.length + result.countP (keptHistory queryType) := by
  induction result generalizing acc with
  | nil => exact ⟨acc, rfl, by simp⟩
  | cons hd tl ih =>
    obtain ⟨k, v⟩ := hd
    obtain ⟨history, hh⟩ := h (k, v) (List.mem_cons_self _ _)
    have htl := fun e he => h e (List.mem_cons_of_mem _ he)
    unfold collectIngredientHistories
    simp only [hh]
    split_ifs with hq
    · obtain ⟨hs, h1, h2⟩ := ih acc htl
      refine ⟨hs, h1, ?_⟩
      rw [h2, List.countP_cons_of_neg]
      simp [keptHistory, hh, hq]
    · obtain ⟨hs, h1, h2⟩ := ih (acc ++ [history]) htl
      refine ⟨hs, h1, ?_⟩
      rw [h2, List.countP_cons_of_pos]
      · simp only [List.length_append, List.length_singleton]; omega
      · simp only [keptHistory, hh]
        simpa [not_and_or] using not_and_or.1 hq

theorem collect_decodable (queryType : String) (result : List (String × Bytes))
    (acc histories : List IngredientHistory)
    (h : collectIngredientHistories queryType result acc = Except.ok histories) :
    ∀ e ∈ result, ∃ history, unmarshalIngredientHistory e.2 = Except.ok history := by
  induction result generalizing acc with
  | nil => intro e he; cases he
  | cons hd tl ih =>
    obtain ⟨k, v⟩ := hd
    unfold collectIngredientHistories at h
    split at h
    · cases h
    · rename_i history hh
      intro e he
      rcases List.mem_cons.1 he with he | he
      · subst he; exact ⟨history, hh⟩
      · split_ifs at h
        · exact ih _ h e he
        · exact ih _ h e he

/-- The number of records of a history query of type `all` or `exchange` on a
stored ingredient whose id is a valid attribute. -/
theorem historyCount_query (stub : Ledger) (ingredientId queryType : String) (p : String)
    (bytes : Bytes) (hid : ingredientId ≠ "")
    (hq : queryType = "all" ∨ queryType = "exchange")
    (hb : stub.GetState (constructIngredientKey ingredientId) = some bytes)
    (hp : CreateCompositeKey "history" [ingredientId] = Except.ok p) :
    historyCount (queryIngredientHistory stub [ingredientId, queryType]).1 =
      match collectIngredientHistories queryType
          (stub.entries.filter (inHistoryRange (historyPrefix ingredientId))) [] with
      | Except.ok histories => some histories.length
      | Except.error _ => none := by
  have hne : queryType ≠ "enroll" := by
    rcases hq with h | h <;> (rw [h]; decide)
  have hq2 : ¬ (queryType ≠ "all" ∧ queryType ≠ "enroll" ∧ queryType ≠ "exchange") := by
    rcases hq with h | h <;> simp [h]
  have hr : stub.GetStateByPartialCompositeKey "history" [ingredientId] =
      Except.ok (stub.entries.filter (inHistoryRange (historyPrefix ingredientId))) := by
    simp only [Ledger.GetStateByPartialCompositeKey, hp, GetStateByRange_eq,
      CreateCompositeKey_one hp]
  simp only [queryIngredientHistory, queryIngredientHistoryBody, hid, if_false, hq2, hb, hne, hr]
  cases collectIngredientHistories queryType
      (stub.entries.filter (inHistoryRange (historyPrefix ingredientId))) [] with
  | error e => rfl
  | ok hs => simp [historyCount, marshalIngredientHistories]


/-! ## History completeness (C4) -/

/-- The scan for the history of `assetId` after two writes outside the range
and the write of the history record under its composite key. -/
theorem scan_after_new (stub : Ledger) (assetId k1 k2 hk : String) (v1 v2 hv : Bytes)
    (h1 : inHistoryRange (historyPrefix assetId) (k1, v1) = false)
    (h2 : inHistoryRange (historyPrefix assetId) (k2, v2) = false)
    (h3 : inHistoryRange (historyPrefix assetId) (hk, hv) = true)
    (hnew : stub.GetState hk = none) :
    ((((stub.PutState k1 v1).PutState k2 v2).PutState hk hv).entries.filter
      (inHistoryRange (historyPrefix assetId))).Perm
      ((hk, hv) :: stub.entries.filter (inHistoryRange (historyPrefix assetId))) := by
  have n1 : hk ≠ k1 := by
    rintro rfl
    rw [inHistoryRange_congr _ _ v1 hv, h3] at h1
    cases h1
  have n2 : hk ≠ k2 := by
    rintro rfl
    rw [inHistoryRange_congr _ _ v2 hv, h3] at h2
    cases h2
  have hl : lookupKV hk ((stub.PutState k1 v1).PutState k2 v2).entries = none := by
    have : ((stub.PutState k1 v1).PutState k2 v2).GetState hk = none := by
      rw [GetState_PutState, if_neg n2, GetState_PutState, if_neg n1]; exact hnew
    exact this
  have := filter_insertKV_new (historyPrefix assetId) hk hv _ h3 hl
  simp only [Ledger.PutState] at this ⊢
  rwa [filter_insertKV_out _ k2 v2 _ h2, filter_insertKV_out _ k1 v1 _ h1] at this

theorem scan_after_old (stub : Ledger) (hwf : stub.WF) (assetId k1 k2 hk : String)
    (v1 v2 hv hv0 : Bytes)
    (h1 : inHistoryRange (historyPrefix assetId) (k1, v1) = false)
    (h2 : inHistoryRange (historyPrefix assetId) (k2, v2) = false)
    (h3 : inHistoryRange (historyPrefix assetId) (hk, hv) = true)
    (hold : stub.GetState hk = some hv0) :
    ∃ r1 r2,
      stub.entries.filter (inHistoryRange (historyPrefix assetId)) = r1 ++ (hk, hv0) :: r2 ∧
      (((stub.PutState k1 v1).PutState k2 v2).PutState hk hv).entries.filter
        (inHistoryRange (historyPrefix assetId)) = r1 ++ (hk, hv) :: r2 := by
  have n1 : hk ≠ k1 := by
    rintro rfl
    rw [inHistoryRange_congr _ _ v1 hv, h3] at h1
    cases h1
  have n2 : hk ≠ k2 := by
    rintro rfl
    rw [inHistoryRange_congr _ _ v2 hv, h3] at h2
    cases h2
  have hl : lookupKV hk ((stub.PutState k1 v1).PutState k2 v2).entries = some hv0 := by
    have : ((stub.PutState k1 v1).PutState k2 v2).GetState hk = some hv0 := by
      rw [GetState_PutState, if_neg n2, GetState_PutState, if_neg n1]; exact hold
    exact this
  have hwf2 : ((stub.PutState k1 v1).PutState k2 v2).WF := (hwf.PutState k1 v1).PutState k2 v2
  obtain ⟨r1, r2, e1, e2⟩ :=
    filter_insertKV_old (historyPrefix assetId) hk hv _ h3 hwf2 hv0 hl
  refine ⟨r1, r2, ?_, e2⟩
  simp only [Ledger.PutState] at e1
  rwa [filter_insertKV_out _ k2 v2 _ h2, filter_insertKV_out _ k1 v1 _ h1] at e1

theorem collect_count_eq {queryType : String} {result : List (String × Bytes)}
    {histories : List IngredientHistory}
    (h : collectIngredientHistories queryType result [] = Except.ok histories) :
    histories.length = result.countP (keptHistory queryType) := by
  obtain ⟨hs, h1, h2⟩ := collect_ok queryType result [] (collect_decodable _ _ _ _ h)
  rw [h] at h1
  cases h1
  simpa using h2

theorem keptHistory_all {e : String × Bytes} {history : IngredientHistory}
    (h : unmarshalIngredientHistory e.2 = Except.ok history) : keptHistory "all" e = true := by
  simp [keptHistory, h]

/-- The count of a history query after two writes outside the range and the
write of a history record under a new composite key. -/
theorem count_after_new (stub : Ledger) (assetId queryType k1 k2 hk : String) (v1 v2 : Bytes)
    (history : IngredientHistory) (n : Nat)
    (h1 : inHistoryRange (historyPrefix assetId) (k1, v1) = false)
    (h2 : inHistoryRange (historyPrefix assetId) (k2, v2) = false)
    (h3 : inHistoryRange (historyPrefix assetId) (hk, marshalIngredientHistory history) = true)
    (hnew : stub.GetState hk = none)
    (hn : (match collectIngredientHistories queryType
          (stub.entries.filter (inHistoryRange (historyPrefix assetId))) [] with
      | Except.ok histories => some histories.length
      | Except.error _ => none) = some n) :
    (match collectIngredientHistories queryType
          ((((stub.PutState k1 v1).PutState k2 v2).PutState hk
            (marshalIngredientHistory history)).entries.filter
            (inHistoryRange (historyPrefix assetId))) [] with
      | Except.ok histories => some histories.length
      | Except.error _ => none) =
      some (n + if queryType = "exchange" ∧ history.OriginOwnerId = originOwner then 0 else 1) := by
  have hperm := scan_after_new stub assetId k1 k2 hk v1 v2 (marshalIngredientHistory history)
    h1 h2 h3 hnew
  cases hc : collectIngredientHistories queryType
      (stub.entries.filter (inHistoryRange (historyPrefix assetId))) [] with
  | error e => rw [hc] at hn; cases hn
  | ok hs =>
    rw [hc] at hn
    simp only [Option.some.injEq] at hn
    have hdec := collect_decodable _ _ _ _ hc
    have hdec1 : ∀ e ∈ (((stub.PutState k1 v1).PutState k2 v2).PutState hk
        (marshalIngredientHistory history)).entries.filter
        (inHistoryRange (historyPrefix assetId)),
        ∃ h, unmarshalIngredientHistory e.2 = Except.ok h := by
      intro e he
      rcases List.mem_cons.1 (hperm.mem_iff.1 he) with he | he
      · subst he; exact ⟨history, rfl⟩
      · exact hdec e he
    obtain ⟨hs1, e1, e2⟩ := collect_ok queryType _ [] hdec1
    rw [e1]
    simp only [Option.some.injEq]
    rw [e2, hperm.countP_eq, List.countP_cons, ← collect_count_eq hc, hn]
    simp only [List.length_nil, Nat.zero_add, Nat.add_left_cancel_iff]
    simp only [keptHistory, unmarshalIngredientHistory_marshal]
    by_cases hq : queryType = "exchange" ∧ history.OriginOwnerId = originOwner
    · simp [hq]
    · simp [hq]

/-- The count of a history query of type `all` after two writes outside the
range and the write of a history record under a composite key that holds a
record already. -/
theorem count_after_old (stub : Ledger) (hwf : stub.WF) (assetId k1 k2 hk : String)
    (v1 v2 : Bytes) (history : IngredientHistory) (n : Nat)
    (h1 : inHistoryRange (historyPrefix assetId) (k1, v1) = false)
    (h2 : inHistoryRange (historyPrefix assetId) (k2, v2) = false)
    (h3 : inHistoryRange (historyPrefix assetId) (hk, marshalIngredientHistory history) = true)
    (hold : stub.GetState hk ≠ none)
    (hn : (match collectIngredientHistories "all"
          (stub.entries.filter (inHistoryRange (historyPrefix assetId))) [] with
      | Except.ok histories => some histories.length
      | Except.error _ => none) = some n) :
    (match collectIngredientHistories "all"
          ((((stub.PutState k1 v1).PutState k2 v2).PutState hk
            (marshalIngredientHistory history)).entries.filter
            (inHistoryRange (historyPrefix assetId))) [] with
      | Except.ok histories => some histories.length
      | Except.error _ => none) = some n := by
  obtain ⟨hv0, hold⟩ := Option.ne_none_iff_exists'.1 hold
  obtain ⟨r1, r2, e1, e2⟩ := scan_after_old stub hwf assetId k1 k2 hk v1 v2
    (marshalIngredientHistory history) hv0 h1 h2 h3 hold
  cases hc : collectIngredientHistories "all"
      (stub.entries.filter (inHistoryRange (historyPrefix assetId))) [] with
  | error e => rw [hc] at hn; cases hn
  | ok hs =>
    rw [hc] at hn
    simp only [Option.some.injEq] at hn
    have hdec := collect_decodable _ _ _ _ hc
    rw [e1] at hdec
    have hdec1 : ∀ e ∈ r1 ++ (hk, marshalIngredientHistory history) :: r2,
        ∃ h, unmarshalIngredientHistory e.2 = Except.ok h := by
      intro e he
      rcases List.mem_append.1 he with he | he
      · exact hdec e (List.mem_append_left _ he)
      · rcases List.mem_cons.1 he with he | he
        · subst he; exact ⟨history, rfl⟩
        · exact hdec e (List.mem_append_right _ (List.mem_cons_of_mem _ he))
    have hall : ∀ (l : List (String × Bytes)),
        (∀ e ∈ l, ∃ h, unmarshalIngredientHistory e.2 = Except.ok h) →
        l.countP (keptHistory "all") = l.length := by
      intro l hl
      rw [List.countP_eq_length]
      intro e he
      obtain ⟨h, hh⟩ := hl e he
      exact keptHistory_all hh
    obtain ⟨hs1, f1, f2⟩ := collect_ok "all" _ [] hdec1
    rw [e2, f1]
    simp only [Option.some.injEq]
    rw [f2, hall _ hdec1, ← hn, collect_count_eq hc, e1, hall _ hdec]
    simp


/-- The counts of the history queries after a successful step that writes two
keys outside the range and the history record of `(ingredientId, o, c)`. -/
theorem count_step (stub : Ledger) (ingredientId o c k1 k2 hk : String) (v1 v2 bytes : Bytes)
    (hid : ingredientId ≠ "")
    (hkey : CreateCompositeKey "history" [ingredientId, o, c] = Except.ok hk)
    (h1 : inHistoryRange (historyPrefix ingredientId) (k1, v1) = false)
    (h2 : inHistoryRange (historyPrefix ingredientId) (k2, v2) = false)
    (hb1 : (((stub.PutState k1 v1).PutState k2 v2).PutState hk
      (marshalIngredientHistory ⟨ingredientId, o, c⟩)).GetState
        (constructIngredientKey ingredientId) = some bytes) :
    (∀ queryType n, queryType = "all" ∨ queryType = "exchange" →
      stub.GetState hk = none →
      (match collectIngredientHistories queryType
          (stub.entries.filter (inHistoryRange (historyPrefix ingredientId))) [] with
        | Except.ok histories => some histories.length
        | Except.error _ => none) = some n →
      historyCount (queryIngredientHistory (((stub.PutState k1 v1).PutState k2 v2).PutState hk
        (marshalIngredientHistory ⟨ingredientId, o, c⟩)) [ingredientId, queryType]).1 =
        some (n + if queryType = "exchange" ∧ o = originOwner then 0 else 1)) ∧
    (∀ n, stub.WF → stub.GetState hk ≠ none →
      (match collectIngredientHistories "all"
          (stub.entries.filter (inHistoryRange (historyPrefix ingredientId))) [] with
        | Except.ok histories => some histories.length
        | Except.error _ => none) = some n →
      historyCount (queryIngredientHistory (((stub.PutState k1 v1).PutState k2 v2).PutState hk
        (marshalIngredientHistory ⟨ingredientId, o, c⟩)) [ingredientId, "all"]).1 = some n) := by
  obtain ⟨p, hp, -⟩ := CreateCompositeKey_one_of_three hkey
  have h3 := inHistoryRange_history (marshalIngredientHistory ⟨ingredientId, o, c⟩) hkey
  constructor
  · intro queryType n hq hnew hn
    rw [historyCount_query _ ingredientId queryType p bytes hid hq hb1 hp]
    exact count_after_new stub ingredientId queryType k1 k2 hk v1 v2 ⟨ingredientId, o, c⟩ n
      h1 h2 h3 hnew hn
  · intro n hwf hold hn
    rw [historyCount_query _ ingredientId "all" p bytes hid (Or.inl rfl) hb1 hp]
    exact count_after_old stub hwf ingredientId k1 k2 hk v1 v2 ⟨ingredientId, o, c⟩ n
      h1 h2 h3 hold hn

/-- The counts of the history queries after a successful custody transfer. -/
theorem count_transfer (stub stub1 : Ledger) (payload : Option Bytes)
    (fromOwnerId ingredientId toOwnerId historyKey : String)
    (hsucc : ingredientExchange stub [fromOwnerId, ingredientId, toOwnerId] =
        (Response.Success payload, stub1) ∨
      ingredientExchangeFood stub [fromOwnerId, ingredientId, toOwnerId] =
        (Response.Success payload, stub1))
    (hkey : CreateCompositeKey "history" [ingredientId, fromOwnerId, toOwnerId] =
      Except.ok historyKey) :
    (∀ queryType n, queryType = "all" ∨ queryType = "exchange" →
      stub.GetState historyKey = none →
      historyCount (queryIngredientHistory stub [ingredientId, queryType]).1 = some n →
      historyCount (queryIngredientHistory stub1 [ingredientId, queryType]).1 =
        some (n + if queryType = "exchange" ∧ fromOwnerId = originOwner then 0 else 1)) ∧
    (∀ n, stub.WF → stub.GetState historyKey ≠ none →
      historyCount (queryIngredientHistory stub [ingredientId, "all"]).1 = some n →
      historyCount (queryIngredientHistory stub1 [ingredientId, "all"]).1 = some n) := by
  obtain ⟨p, hp, -⟩ := CreateCompositeKey_one_of_three hkey
  rcases hsucc with h | h
  · obtain ⟨ownerId, x, currentOwnerId, b0, b1, u0, u1, hk, hargs, -, hid, -, -, -, hib, -,
      -, -, hkey1, -, rfl⟩ := ingredientExchange_success h
    simp only [List.cons.injEq, and_true] at hargs
    obtain ⟨rfl, rfl, rfl⟩ := hargs
    rw [hkey] at hkey1
    cases hkey1
    obtain ⟨bytes, hbytes⟩ := Option.ne_none_iff_exists'.1 hib
    have kI : ∀ a, constructIngredientKey a ≠ historyKey :=
      fun a => (compositeKey_ne_ingredient hkey a).symm
    have hb1 : (((stub.PutState (constructUserKey fromOwnerId)
        (marshalUser { u0 with Ingredients := removeId u0.Ingredients ingredientId })).PutState
        (constructUserKey toOwnerId)
        (marshalUser { u1 with Ingredients := u1.Ingredients ++ [ingredientId] })).PutState
        historyKey (marshalIngredientHistory ⟨ingredientId, fromOwnerId, toOwnerId⟩)).GetState
        (constructIngredientKey ingredientId) = some bytes := by
      simp only [GetState_PutState, kI, (fun a b => (user_ne_ingredient a b).symm), if_false,
        hbytes]
    obtain ⟨c1, c2⟩ := count_step stub ingredientId fromOwnerId toOwnerId
      (constructUserKey fromOwnerId) (constructUserKey toOwnerId) historyKey _ _ bytes hid hkey
      (inHistoryRange_user _ _ _) (inHistoryRange_user _ _ _) hb1
    constructor
    · intro queryType n hq hnew hn
      rw [historyCount_query stub ingredientId queryType p bytes hid hq hbytes hp] at hn
      exact c1 queryType n hq hnew hn
    · intro n hwf hold hn
      rw [historyCount_query stub ingredientId "all" p bytes hid (Or.inl rfl) hbytes hp] at hn
      exact c2 n hwf hold hn
  · obtain ⟨ownerId, x, currentOwnerId, b0, b1, u0, f1, hk, hargs, -, hid, -, -, -, hib, -,
      -, -, hkey1, -, rfl⟩ := ingredientExchangeFood_success h
    simp only [List.cons.injEq, and_true] at hargs
    obtain ⟨rfl, rfl, rfl⟩ := hargs
    rw [hkey] at hkey1
    cases hkey1
    obtain ⟨bytes, hbytes⟩ := Option.ne_none_iff_exists'.1 hib
    have kI : ∀ a, constructIngredientKey a ≠ historyKey :=
      fun a => (compositeKey_ne_ingredient hkey a).symm
    have hb1 : (((stub.PutState (constructUserKey fromOwnerId)
        (marshalUser { u0 with Ingredients := removeId u0.Ingredients ingredientId })).PutState
        (constructFoodKey toOwnerId)
        (marshalFood { f1 with Ingredients := f1.Ingredients ++ [ingredientId] })).PutState
        historyKey (marshalIngredientHistory ⟨ingredientId, fromOwnerId, toOwnerId⟩)).GetState
        (constructIngredientKey ingredientId) = some bytes := by
      simp only [GetState_PutState, kI, (fun a b => (user_ne_ingredient a b).symm),
        (fun a b => (food_ne_ingredient a b).symm), if_false, hbytes]
    obtain ⟨c1, c2⟩ := count_step stub ingredientId fromOwnerId toOwnerId
      (constructUserKey fromOwnerId) (constructFoodKey toOwnerId) historyKey _ _ bytes hid hkey
      (inHistoryRange_user _ _ _) (inHistoryRange_food _ _ _) hb1
    constructor
    · intro queryType n hq hnew hn
      rw [historyCount_query stub ingredientId queryType p bytes hid hq hbytes hp] at hn
      exact c1 queryType n hq hnew hn
    · intro n hwf hold hn
      rw [historyCount_query stub ingredientId "all" p bytes hid (Or.inl rfl) hbytes hp] at hn
      exact c2 n hwf hold hn

/-- The counts of the history queries after a successful enrollment on a
ledger that holds no history for the ingredient. -/
theorem count_enroll (stub stub1 : Ledger) (payload : Option Bytes)
    (name ingredientId metadata ownerId : String)
    (hsucc : ingredientEnroll stub [name, ingredientId, metadata, ownerId] =
      (Response.Success payload, stub1))
    (hnone : stub.GetStateByPartialCompositeKey "history" [ingredientId] = Except.ok []) :
    historyCount (queryIngredientHistory stub1 [ingredientId, "all"]).1 = some 1 ∧
      historyCount (queryIngredientHistory stub1 [ingredientId, "exchange"]).1 = some 0 := by
  obtain ⟨name0, id0, metadata0, ownerId0, ub, u0, hk, hargs, -, hid, -, -, -, -, hkey, -,
    rfl⟩ := ingredientEnroll_success hsucc
  simp only [List.cons.injEq, and_true] at hargs
  obtain ⟨rfl, rfl, rfl, rfl⟩ := hargs
  obtain ⟨p, hp, -⟩ := CreateCompositeKey_one_of_three hkey
  have hR : stub.entries.filter (inHistoryRange (historyPrefix ingredientId)) = [] := by
    simp only [Ledger.GetStateByPartialCompositeKey, hp, GetStateByRange_eq,
      CreateCompositeKey_one hp, Except.ok.injEq] at hnone
    exact hnone
  have hnew : stub.GetState hk = none := by
    cases hg : stub.GetState hk with
    | none => rfl
    | some v =>
      have hm := lookupKV_mem hg
      have : (hk, v) ∈ stub.entries.filter (inHistoryRange (historyPrefix ingredientId)) :=
        List.mem_filter.2 ⟨hm, inHistoryRange_history v hkey⟩
      rw [hR] at this
      cases this
  have kI : ∀ a, constructIngredientKey a ≠ hk :=
    fun a => (compositeKey_ne_ingredient hkey a).symm
  have hb1 : (((stub.PutState (constructIngredientKey ingredientId)
      (marshalIngredient ⟨name, ingredientId, metadata⟩)).PutState (constructUserKey u0.Id)
      (marshalUser { u0 with Ingredients := u0.Ingredients ++ [ingredientId] })).PutState hk
      (marshalIngredientHistory ⟨ingredientId, originOwner, ownerId⟩)).GetState
      (constructIngredientKey ingredientId) =
      some (marshalIngredient ⟨name, ingredientId, metadata⟩) := by
    simp only [GetState_PutState, kI, (fun a b => (user_ne_ingredient a b).symm), if_false,
      if_true]
  obtain ⟨c1, -⟩ := count_step stub ingredientId originOwner ownerId
    (constructIngredientKey ingredientId) (constructUserKey u0.Id) hk _ _ _ hid hkey
    (inHistoryRange_ingredient _ _ _) (inHistoryRange_user _ _ _) hb1
  have h0 : ∀ q, (match collectIngredientHistories q
      (stub.entries.filter (inHistoryRange (historyPrefix ingredientId))) [] with
      | Except.ok histories => some histories.length
      | Except.error _ => none) = some 0 := by
    intro q
    rw [hR]
    rfl
  constructor
  · have := c1 "all" 0 (Or.inl rfl) hnew (h0 _)
    simpa using this
  · have := c1 "exchange" 0 (Or.inr rfl) hnew (h0 _)
    simpa using this


/-- C4 as stated fails, three transfers and three records: `i1` is enrolled to `u1` on a ledger
that holds no history for it, then transferred from `u1` to `u2`, from `u2` to
`u1` and from `u1` to `u2` again. The three transfers succeed; the third one
writes the composite key of the first one again, and the history query returns
three records for type `all` and two for type `exchange`, not four and three. -/
theorem three_transfers_three_records :
    twoUsers.GetStateByPartialCompositeKey "history" ["i1"] = Except.ok [] ∧
      ingredientEnroll twoUsers ["Tomato", "i1", "organic", "u1"] =
        (Response.Success none, scenario) ∧
      ingredientExchange scenario ["u1", "i1", "u2"] = (Response.Success none, afterOne) ∧
      ingredientExchange afterOne ["u2", "i1", "u1"] = (Response.Success none, afterTwo) ∧
      ingredientExchange afterTwo ["u1", "i1", "u2"] = (Response.Success none, afterThree) ∧
      historyCount (queryIngredientHistory afterThree ["i1", "all"]).1 = some 3 ∧
      historyCount (queryIngredientHistory afterThree ["i1", "exchange"]).1 = some 2 := by
  refine ⟨rfl, by decide, by decide, by decide, by decide, by decide, by decide⟩

/-- C4 (amended), one history record per composite key: after a successful
`ingredientEnroll` of an id on a ledger that holds no history for it, the
history query returns exactly one record for type `all` and none for type
`exchange`. A successful custody transfer `(fromOwnerId, ingredientId,
toOwnerId)` by `ingredientExchange` or `ingredientExchangeFood` stores its
record under the composite key of these three attributes: when that key held
no record, the query of type `all` returns one record more than before, and so
does the query of type `exchange` unless `fromOwnerId` is `originOwner`; when
that key held a record already (on a ledger in key order), the record is
overwritten and the query of type `all` returns as many records as before. -/
theorem history_count (stub stub1 : Ledger) (payload : Option Bytes) :
    (∀ name ingredientId metadata ownerId,
      ingredientEnroll stub [name, ingredientId, metadata, ownerId] =
        (Response.Success payload, stub1) →
      stub.GetStateByPartialCompositeKey "history" [ingredientId] = Except.ok [] →
      historyCount (queryIngredientHistory stub1 [ingredientId, "all"]).1 = some 1 ∧
      historyCount (queryIngredientHistory stub1 [ingredientId, "exchange"]).1 = some 0) ∧
    (∀ fromOwnerId ingredientId toOwnerId historyKey,
      (ingredientExchange stub [fromOwnerId, ingredientId, toOwnerId] =
          (Response.Success payload, stub1) ∨
        ingredientExchangeFood stub [fromOwnerId, ingredientId, toOwnerId] =
          (Response.Success payload, stub1)) →
      CreateCompositeKey "history" [ingredientId, fromOwnerId, toOwnerId] =
        Except.ok historyKey →
      (∀ n, stub.GetState historyKey = none →
        historyCount (queryIngredientHistory stub [ingredientId, "all"]).1 = some n →
        historyCount (queryIngredientHistory stub1 [ingredientId, "all"]).1 = some (n + 1)) ∧
      (∀ n, stub.GetState historyKey = none →
        historyCount (queryIngredientHistory stub [ingredientId, "exchange"]).1 = some n →
        historyCount (queryIngredientHistory stub1 [ingredientId, "exchange"]).1 =
          some (if fromOwnerId = originOwner then n else n + 1)) ∧
      (∀ n, stub.WF → stub.GetState historyKey ≠ none →
        historyCount (queryIngredientHistory stub [ingredientId, "all"]).1 = some n →
        historyCount (queryIngredientHistory stub1 [ingredientId, "all"]).1 = some n)) := by
  constructor
  · intro name ingredientId metadata ownerId hsucc hnone
    exact count_enroll stub stub1 payload name ingredientId metadata ownerId hsucc hnone
  · intro fromOwnerId ingredientId toOwnerId historyKey hsucc hkey
    obtain ⟨c1, c2⟩ := count_transfer stub stub1 payload fromOwnerId ingredientId toOwnerId
      historyKey hsucc hkey
    refine ⟨?_, ?_, c2⟩
    · intro n hnew hn
      have := c1 "all" n (Or.inl rfl) hnew hn
      simpa using this
    · intro n hnew hn
      have := c1 "exchange" n (Or.inr rfl) hnew hn
      by_cases hf : fromOwnerId = originOwner
      · simpa [hf] using this
      · simpa [hf] using this

/-- C4 at the scenario of the specification: the enrollment of `i1` gives one
record, its first transfer from `u1` to `u2` a second one, and the repetition
of that transfer after the way back leaves the three records that were
stored. -/
theorem history_count_witness :
    (historyCount (queryIngredientHistory scenario ["i1", "all"]).1 = some 1 ∧
        historyCount (queryIngredientHistory scenario ["i1", "exchange"]).1 = some 0) ∧
      historyCount (queryIngredientHistory afterOne ["i1", "all"]).1 = some (1 + 1) ∧
      historyCount (queryIngredientHistory afterOne ["i1", "exchange"]).1 =
        some (if "u1" = originOwner then 0 else 0 + 1) ∧
      historyCount (queryIngredientHistory afterThree ["i1", "all"]).1 = some 3 :=
  ⟨(history_count twoUsers scenario none).1 "Tomato" "i1" "organic" "u1" (by decide) rfl,
    ((history_count scenario afterOne none).2 "u1" "i1" "u2" "\x00history\x00i1\x00u1\x00u2\x00"
      (Or.inl (by decide)) rfl).1 1 (by decide) (by decide),
    ((history_count scenario afterOne none).2 "u1" "i1" "u2" "\x00history\x00i1\x00u1\x00u2\x00"
      (Or.inl (by decide)) rfl).2.1 0 (by decide) (by decide),
    ((history_count afterTwo afterThree none).2 "u1" "i1" "u2"
      "\x00history\x00i1\x00u1\x00u2\x00" (Or.inl (by decide)) rfl).2.2 3 (by decide)
      (by decide) (by decide)⟩

/-! ## History is kept (C5) -/

theorem HistoryKept.refl (stub : Ledger) : HistoryKept stub stub :=
  fun _ value _ h => ⟨value, h, Or.inl rfl⟩

theorem HistoryKept.put_user {stub s1 : Ledger} (h : HistoryKept stub s1) (id : String)
    (v : Bytes) : HistoryKept stub (s1.PutState (constructUserKey id) v) := by
  intro key value hk hv
  obtain ⟨attrs, ha⟩ := hk
  obtain ⟨v1, h1, h2⟩ := h key value ⟨attrs, ha⟩ hv
  exact ⟨v1, by rw [GetState_PutState, if_neg (compositeKey_ne_user ha id)]; exact h1, h2⟩

theorem HistoryKept.put_food {stub s1 : Ledger} (h : HistoryKept stub s1) (id : String)
    (v : Bytes) : HistoryKept stub (s1.PutState (constructFoodKey id) v) := by
  intro key value hk hv
  obtain ⟨attrs, ha⟩ := hk
  obtain ⟨v1, h1, h2⟩ := h key value ⟨attrs, ha⟩ hv
  exact ⟨v1, by rw [GetState_PutState, if_neg (compositeKey_ne_food ha id)]; exact h1, h2⟩

theorem HistoryKept.put_ingredient {stub s1 : Ledger} (h : HistoryKept stub s1) (id : String)
    (v : Bytes) : HistoryKept stub (s1.PutState (constructIngredientKey id) v) := by
  intro key value hk hv
  obtain ⟨attrs, ha⟩ := hk
  obtain ⟨v1, h1, h2⟩ := h key value ⟨attrs, ha⟩ hv
  exact ⟨v1, by rw [GetState_PutState, if_neg (compositeKey_ne_ingredient ha id)]; exact h1, h2⟩

theorem HistoryKept.del_user {stub s1 : Ledger} (h : HistoryKept stub s1) (id : String) :
    HistoryKept stub (s1.DelState (constructUserKey id)) := by
  intro key value hk hv
  obtain ⟨attrs, ha⟩ := hk
  obtain ⟨v1, h1, h2⟩ := h key value ⟨attrs, ha⟩ hv
  exact ⟨v1, by rw [GetState_DelState, if_neg (compositeKey_ne_user ha id)]; exact h1, h2⟩

theorem HistoryKept.by_deleteIngredients {stub s1 : Ledger} (h : HistoryKept stub s1)
    (ids : List String) : HistoryKept stub (deleteIngredients s1 ids) := by
  intro key value hk hv
  obtain ⟨attrs, ha⟩ := hk
  obtain ⟨v1, h1, h2⟩ := h key value ⟨attrs, ha⟩ hv
  refine ⟨v1, ?_, h2⟩
  rw [GetState_deleteIngredients, if_neg]
  · exact h1
  · intro hm
    obtain ⟨b, -, hb⟩ := List.mem_map.1 hm
    exact compositeKey_ne_ingredient ha b hb.symm

theorem HistoryKept.put_ingredientHistory {stub s1 : Ledger} (h : HistoryKept stub s1)
    {a o c hk : String} (hkey : CreateCompositeKey "history" [a, o, c] = Except.ok hk) :
    HistoryKept stub (s1.PutState hk (marshalIngredientHistory ⟨a, o, c⟩)) := by
  intro key value hkk hv
  obtain ⟨v1, h1, h2⟩ := h key value hkk hv
  by_cases e : key = hk
  · subst e
    exact ⟨_, by rw [GetState_PutState, if_pos rfl], Or.inr ⟨a, o, c, hkey, Or.inl rfl⟩⟩
  · exact ⟨v1, by rw [GetState_PutState, if_neg e]; exact h1, h2⟩

theorem HistoryKept.put_foodHistory {stub s1 : Ledger} (h : HistoryKept stub s1)
    {a o c hk : String} (hkey : CreateCompositeKey "history" [a, o, c] = Except.ok hk) :
    HistoryKept stub (s1.PutState hk (marshalFoodHistory ⟨a, o, c⟩)) := by
  intro key value hkk hv
  obtain ⟨v1, h1, h2⟩ := h key value hkk hv
  by_cases e : key = hk
  · subst e
    exact ⟨_, by rw [GetState_PutState, if_pos rfl], Or.inr ⟨a, o, c, hkey, Or.inr rfl⟩⟩
  · exact ⟨v1, by rw [GetState_PutState, if_neg e]; exact h1, h2⟩

theorem HistoryKept.by_userRegister (stub : Ledger) (args : List String) :
    HistoryKept stub (userRegister stub args).2 := by
  unfold FabricFood.userRegister
  repeat' split
  all_goals first
    | exact HistoryKept.refl stub
    | exact (HistoryKept.refl stub).put_user _ _

theorem HistoryKept.by_userDestroy (stub : Ledger) (args : List String) :
    HistoryKept stub (userDestroy stub args).2 := by
  unfold FabricFood.userDestroy
  repeat' split
  all_goals first
    | exact HistoryKept.refl stub
    | exact (HistoryKept.refl stub).del_user _
    | exact ((HistoryKept.refl stub).del_user _).by_deleteIngredients _

theorem HistoryKept.by_ingredientEnroll (stub : Ledger) (args : List String) :
    HistoryKept stub (ingredientEnroll stub args).2 := by
  unfold FabricFood.ingredientEnroll
  repeat' split
  all_goals first
    | exact HistoryKept.refl stub
    | exact (HistoryKept.refl stub).put_ingredient _ _
    | exact ((HistoryKept.refl stub).put_ingredient _ _).put_user _ _
    | exact (((HistoryKept.refl stub).put_ingredient _ _).put_user _ _).put_ingredientHistory
        (by assumption)

theorem HistoryKept.by_foodEnroll (stub : Ledger) (args : List String) :
    HistoryKept stub (foodEnroll stub args).2 := by
  unfold FabricFood.foodEnroll
  repeat' split
  all_goals first
    | exact HistoryKept.refl stub
    | exact (HistoryKept.refl stub).put_food _ _
    | exact ((HistoryKept.refl stub).put_food _ _).put_user _ _
    | exact (((HistoryKept.refl stub).put_food _ _).put_user _ _).put_foodHistory
        (by assumption)

theorem HistoryKept.by_ingredientExchange (stub : Ledger) (args : List String) :
    HistoryKept stub (ingredientExchange stub args).2 := by
  unfold FabricFood.ingredientExchange
  repeat' split
  all_goals first
    | exact HistoryKept.refl stub
    | exact (HistoryKept.refl stub).put_user _ _
    | exact ((HistoryKept.refl stub).put_user _ _).put_user _ _
    | exact (((HistoryKept.refl stub).put_user _ _).put_user _ _).put_ingredientHistory
        (by assumption)

theorem HistoryKept.by_ingredientExchangeFood (stub : Ledger) (args : List String) :
    HistoryKept stub (ingredientExchangeFood stub args).2 := by
  unfold FabricFood.ingredientExchangeFood
  repeat' split
  all_goals first
    | exact HistoryKept.refl stub
    | exact (HistoryKept.refl stub).put_user _ _
    | exact ((HistoryKept.refl stub).put_user _ _).put_food _ _
    | exact (((HistoryKept.refl stub).put_user _ _).put_food _ _).put_ingredientHistory
        (by assumption)

theorem HistoryKept.by_foodExchange (stub : Ledger) (args : List String) :
    HistoryKept stub (foodExchange stub args).2 := by
  unfold FabricFood.foodExchange
  repeat' split
  all_goals first
    | exact HistoryKept.refl stub
    | exact (HistoryKept.refl stub).put_user _ _
    | exact ((HistoryKept.refl stub).put_user _ _).put_user _ _
    | exact (((HistoryKept.refl stub).put_user _ _).put_user _ _).put_foodHistory
        (by assumption)

/-- C5 as stated fails, the overwriting of a history record: `u1` has enrolled the ingredient `x`,
whose enrollment record is stored under the composite key `(x,
originPlaceholder, u1)`; the enrollment of a food with the same id `x` to `u1`
succeeds and stores the food-history record under that key, a value different
from the one stored before. -/
theorem foodEnroll_overwrites_history :
    CreateCompositeKey "history" ["x", originOwner, "u1"] =
        Except.ok "\x00history\x00x\x00originPlaceholder\x00u1\x00" ∧
      ingredientX.GetState "\x00history\x00x\x00originPlaceholder\x00u1\x00" =
        some (marshalIngredientHistory ⟨"x", originOwner, "u1"⟩) ∧
      (Invoke ingredientX "foodEnroll" ["Soup", "x", "hot", "u1"]).1 = Response.Success none ∧
      (Invoke ingredientX "foodEnroll" ["Soup", "x", "hot", "u1"]).2.GetState
          "\x00history\x00x\x00originPlaceholder\x00u1\x00" =
        some (marshalFoodHistory ⟨"x", originOwner, "u1"⟩) ∧
      marshalFoodHistory ⟨"x", originOwner, "u1"⟩ ≠
        marshalIngredientHistory ⟨"x", originOwner, "u1"⟩ := by
  refine ⟨rfl, by decide, by decide, by decide, by decide⟩

theorem HistoryKept.by_Invoke (stub : Ledger) (funcName : String) (args : List String) :
    HistoryKept stub (Invoke stub funcName args).2 := by
  apply Invoke_cases (fun r => HistoryKept stub r.2)
  · exact HistoryKept.by_userRegister stub args
  · exact HistoryKept.by_userDestroy stub args
  · exact HistoryKept.by_ingredientEnroll stub args
  · exact HistoryKept.by_foodEnroll stub args
  · exact HistoryKept.by_ingredientExchange stub args
  · exact HistoryKept.by_foodExchange stub args
  · exact HistoryKept.by_ingredientExchangeFood stub args
  · rw [queryUser_ledger]; exact HistoryKept.refl stub
  · rw [queryIngredient_ledger]; exact HistoryKept.refl stub
  · rw [queryFood_ledger]; exact HistoryKept.refl stub
  · rw [queryIngredientHistory_ledger]; exact HistoryKept.refl stub
  · rw [queryFoodHistory_ledger]; exact HistoryKept.refl stub
  · exact HistoryKept.refl stub

/-- C5 (amended), no history record is deleted: for every operation dispatched
by `Invoke`, every ledger state and all arguments, each composite key of the
`history` namespace that holds a record before the call holds a record after
it; the record is the same one, unless the call writes this composite key,
which then holds the ingredient- or food-history record of the three
attributes of the key (the record stored before is overwritten). -/
theorem history_kept (stub : Ledger) (funcName : String) (args : List String)
    (key : String) (value : Bytes)
    (hkey : ∃ attributes : List String, CreateCompositeKey "history" attributes = Except.ok key)
    (hvalue : stub.GetState key = some value) :
    ∃ value1, (Invoke stub funcName args).2.GetState key = some value1 ∧
      (value1 = value ∨
        ∃ assetId originOwnerId currentOwnerId,
          CreateCompositeKey "history" [assetId, originOwnerId, currentOwnerId] =
            Except.ok key ∧
          (value1 = marshalIngredientHistory ⟨assetId, originOwnerId, currentOwnerId⟩ ∨
            value1 = marshalFoodHistory ⟨assetId, originOwnerId, currentOwnerId⟩)) :=
  HistoryKept.by_Invoke stub funcName args key value hkey hvalue

/-- C5 at the scenario of the specification: the enrollment record of `i1` is
kept by the transfer of `i1` from `u1` to `u2`. -/
theorem history_kept_witness :
    ∃ value1,
      (Invoke scenario "ingredientExchange" ["u1", "i1", "u2"]).2.GetState
          "\x00history\x00i1\x00originPlaceholder\x00u1\x00" = some value1 ∧
      (value1 = marshalIngredientHistory ⟨"i1", originOwner, "u1"⟩ ∨
        ∃ assetId originOwnerId currentOwnerId,
          CreateCompositeKey "history" [assetId, originOwnerId, currentOwnerId] =
            Except.ok "\x00history\x00i1\x00originPlaceholder\x00u1\x00" ∧
          (value1 = marshalIngredientHistory ⟨assetId, originOwnerId, currentOwnerId⟩ ∨
            value1 = marshalFoodHistory ⟨assetId, originOwnerId, currentOwnerId⟩)) :=
  history_kept scenario "ingredientExchange" ["u1", "i1", "u2"]
    "\x00history\x00i1\x00originPlaceholder\x00u1\x00"
    (marshalIngredientHistory ⟨"i1", originOwner, "u1"⟩)
    ⟨["i1", originOwner, "u1"], rfl⟩ (by decide)

/-! ## Errors and writes (C6) -/

theorem NoWriteOnError.same (stub : Ledger) (r : Response) :
    NoWriteOnError stub (r, stub) := fun _ _ => Or.inl rfl

theorem NoWriteOnError.success (stub s1 : Ledger) (payload : Option Bytes) :
    NoWriteOnError stub (Response.Success payload, s1) := fun _ h => by cases h

theorem NoWriteOnError.unmarshal (stub s1 : Ledger) (e : String) :
    NoWriteOnError stub (Response.Error ("unmarshal user error: " ++ e), s1) :=
  fun msg h => by
    cases h
    exact Or.inr (Or.inl ⟨e, rfl⟩)

theorem NoWriteOnError.createKey (stub s1 : Ledger) (e : String) :
    NoWriteOnError stub (Response.Error ("create key error: " ++ e), s1) :=
  fun msg h => by
    cases h
    exact Or.inr (Or.inr ⟨e, rfl⟩)

theorem NoWriteOnError.in_userRegister (stub : Ledger) (args : List String) :
    NoWriteOnError stub (userRegister stub args) := by
  unfold FabricFood.userRegister
  repeat' split
  all_goals first
    | exact NoWriteOnError.same _ _
    | exact NoWriteOnError.success _ _ _

theorem NoWriteOnError.in_userDestroy (stub : Ledger) (args : List String) :
    NoWriteOnError stub (userDestroy stub args) := by
  unfold FabricFood.userDestroy
  repeat' split
  all_goals first
    | exact NoWriteOnError.same _ _
    | exact NoWriteOnError.success _ _ _
    | exact NoWriteOnError.unmarshal _ _ _

theorem NoWriteOnError.in_ingredientEnroll (stub : Ledger) (args : List String) :
    NoWriteOnError stub (ingredientEnroll stub args) := by
  unfold FabricFood.ingredientEnroll
  repeat' split
  all_goals first
    | exact NoWriteOnError.same _ _
    | exact NoWriteOnError.success _ _ _
    | exact NoWriteOnError.unmarshal _ _ _
    | exact NoWriteOnError.createKey _ _ _

theorem NoWriteOnError.in_foodEnroll (stub : Ledger) (args : List String) :
    NoWriteOnError stub (foodEnroll stub args) := by
  unfold FabricFood.foodEnroll
  repeat' split
  all_goals first
    | exact NoWriteOnError.same _ _
    | exact NoWriteOnError.success _ _ _
    | exact NoWriteOnError.unmarshal _ _ _
    | exact NoWriteOnError.createKey _ _ _

theorem NoWriteOnError.in_ingredientExchange (stub : Ledger) (args : List String) :
    NoWriteOnError stub (ingredientExchange stub args) := by
  unfold FabricFood.ingredientExchange
  repeat' split
  all_goals first
    | exact NoWriteOnError.same _ _
    | exact NoWriteOnError.success _ _ _
    | exact NoWriteOnError.unmarshal _ _ _
    | exact NoWriteOnError.createKey _ _ _

theorem NoWriteOnError.in_ingredientExchangeFood (stub : Ledger) (args : List String) :
    NoWriteOnError stub (ingredientExchangeFood stub args) := by
  unfold FabricFood.ingredientExchangeFood
  repeat' split
  all_goals first
    | exact NoWriteOnError.same _ _
    | exact NoWriteOnError.success _ _ _
    | exact NoWriteOnError.unmarshal _ _ _
    | exact NoWriteOnError.createKey _ _ _

theorem NoWriteOnError.in_foodExchange (stub : Ledger) (args : List String) :
    NoWriteOnError stub (foodExchange stub args) := by
  unfold FabricFood.foodExchange
  repeat' split
  all_goals first
    | exact NoWriteOnError.same _ _
    | exact NoWriteOnError.success _ _ _
    | exact NoWriteOnError.unmarshal _ _ _
    | exact NoWriteOnError.createKey _ _ _

theorem NoWriteOnError.of_ledger {stub : Ledger} {r : Response × Ledger} (h : r.2 = stub) :
    NoWriteOnError stub r := fun _ _ => Or.inl h

theorem NoWriteOnError.in_Invoke (stub : Ledger) (funcName : String) (args : List String) :
    NoWriteOnError stub (Invoke stub funcName args) := by
  apply Invoke_cases (fun r => NoWriteOnError stub r)
  · exact NoWriteOnError.in_userRegister stub args
  · exact NoWriteOnError.in_userDestroy stub args
  · exact NoWriteOnError.in_ingredientEnroll stub args
  · exact NoWriteOnError.in_foodEnroll stub args
  · exact NoWriteOnError.in_ingredientExchange stub args
  · exact NoWriteOnError.in_foodExchange stub args
  · exact NoWriteOnError.in_ingredientExchangeFood stub args
  · exact NoWriteOnError.of_ledger (queryUser_ledger _ _)
  · exact NoWriteOnError.of_ledger (queryIngredient_ledger _ _)
  · exact NoWriteOnError.of_ledger (queryFood_ledger _ _)
  · exact NoWriteOnError.of_ledger (queryIngredientHistory_ledger _ _)
  · exact NoWriteOnError.of_ledger (queryFoodHistory_ledger _ _)
  · exact NoWriteOnError.same _ _

/-- C6 as stated fails, errors after writes: `u1` is registered and enrolls an
ingredient whose id holds U+0000. `ingredientEnroll` stores the ingredient and
the updated user, then fails to build the composite history key and returns an
error: the ledger after the call holds the ingredient record and is not the
ledger before it. And `userDestroy` on a stored user value that does not decode
deletes the user before it returns the decoding error. -/
theorem ingredientEnroll_error_after_writes :
    (Invoke oneUser "ingredientEnroll" ["Tomato", "i\x00", "organic", "u1"]).1 =
        Response.Error ("create key error: " ++
          "input contain unicode U+0000 or U+10FFFF, not allowed in a composite key") ∧
      oneUser.GetState (constructIngredientKey "i\x00") = none ∧
      (Invoke oneUser "ingredientEnroll" ["Tomato", "i\x00", "organic", "u1"]).2.GetState
          (constructIngredientKey "i\x00") =
        some (marshalIngredient ⟨"Tomato", "i\x00", "organic"⟩) ∧
      userIngredients
        (Invoke oneUser "ingredientEnroll" ["Tomato", "i\x00", "organic", "u1"]).2 "u1" =
          ["i\x00"] ∧
      (Invoke oneUser "ingredientEnroll" ["Tomato", "i\x00", "organic", "u1"]).2 ≠ oneUser ∧
      Invoke undecodableUser "userDestroy" ["u1"] =
        (Response.Error ("unmarshal user error: " ++
          "json: cannot unmarshal into Go value of type main.User"), Ledger.empty) ∧
      undecodableUser ≠ Ledger.empty := by
  refine ⟨by decide, by decide, by decide, by decide, by decide, by decide, by decide⟩

/-- C6 (amended), no write before a validation error: for every operation
dispatched by `Invoke`, every ledger state and every argument list, if the
operation returns an error response other than an `unmarshal user error` (a
stored record does not decode) or a `create key error` (the composite history
key cannot be built), it has performed no put and no delete, and the ledger
after the call is the ledger before it. -/
theorem no_write_on_error (stub : Ledger) (funcName : String) (args : List String)
    (msg : String) (h : (Invoke stub funcName args).1 = Response.Error msg) :
    (Invoke stub funcName args).2 = stub ∨
      (∃ e, msg = "unmarshal user error: " ++ e) ∨ (∃ e, msg = "create key error: " ++ e) :=
  NoWriteOnError.in_Invoke stub funcName args msg h

/-- C6 at the scenario of the specification: the transfer of `i1` by `u2`, who
does not hold it, is an error that leaves the ledger as it was. -/
theorem no_write_on_error_witness :
    (Invoke scenario "ingredientExchange" ["u2", "i1", "u1"]).1 =
        Response.Error "ingredient owner not match" ∧
      ((Invoke scenario "ingredientExchange" ["u2", "i1", "u1"]).2 = scenario ∨
        (∃ e, "ingredient owner not match" = "unmarshal user error: " ++ e) ∨
        (∃ e, "ingredient owner not match" = "create key error: " ++ e)) :=
  ⟨by decide,
    no_write_on_error scenario "ingredientExchange" ["u2", "i1", "u1"]
      "ingredient owner not match" (by decide)⟩

/-! ## Cascade on destroy -/

theorem entries_deleteIngredients (ids : List String) (stub : Ledger) :
    (deleteIngredients stub ids).entries =
      stub.entries.filter (fun e => e.1 ∉ ids.map constructIngredientKey) := by
  induction ids generalizing stub with
  | nil => simp [deleteIngredients]
  | cons x rest ih =>
    simp only [deleteIngredients, ih, Ledger.DelState, eraseKV, List.filter_filter,
      List.map_cons, List.mem_cons, not_or]
    congr 1
    funext e
    simp only [Bool.decide_and, decide_not, Bool.and_comm]

/-- The cascade of `userDestroy` on a ledger in which a decodable user record
with Ingredients list `L` is stored for a non-empty `id`: the call succeeds,
the key of the user and the keys of the ingredients of `L` hold nothing
afterwards, every other key keeps its value, and `queryUser(id)` and
`queryIngredient(x)`, for every non-empty `x` of `L`, answer not found. -/
theorem userDestroy_removes (stub : Ledger) (id : String) (userBytes : Bytes) (user : User)
    (hid : id ≠ "")
    (hb : stub.GetState (constructUserKey id) = some userBytes)
    (hu : unmarshalUser userBytes = Except.ok user) :
    userDestroy stub [id] =
        (Response.Success none,
          deleteIngredients (stub.DelState (constructUserKey id)) user.Ingredients) ∧
      (userDestroy stub [id]).2.entries =
        stub.entries.filter (fun e =>
          e.1 ≠ constructUserKey id ∧ e.1 ∉ user.Ingredients.map constructIngredientKey) ∧
      (∀ k, (userDestroy stub [id]).2.GetState k =
        if k = constructUserKey id ∨ k ∈ user.Ingredients.map constructIngredientKey then none
        else stub.GetState k) ∧
      (∀ foodId, (userDestroy stub [id]).2.GetState (constructFoodKey foodId) =
        stub.GetState (constructFoodKey foodId)) ∧
      (∀ objectType attributes key, CreateCompositeKey objectType attributes = Except.ok key →
        (userDestroy stub [id]).2.GetState key = stub.GetState key) ∧
      (queryUser (userDestroy stub [id]).2 [id]).1 = Response.Error "user not found" ∧
      (∀ x ∈ user.Ingredients, x ≠ "" →
        (queryIngredient (userDestroy stub [id]).2 [x]).1 =
          Response.Error "ingredient not found") := by
  have hrun : userDestroy stub [id] =
      (Response.Success none,
        deleteIngredients (stub.DelState (constructUserKey id)) user.Ingredients) := by
    simp [userDestroy, hid, hb, hu]
  have hget : ∀ k, (userDestroy stub [id]).2.GetState k =
      if k = constructUserKey id ∨ k ∈ user.Ingredients.map constructIngredientKey then none
      else stub.GetState k := by
    intro k
    rw [hrun]
    simp only [GetState_deleteIngredients, GetState_DelState]
    by_cases c1 : k ∈ user.Ingredients.map constructIngredientKey
    · simp [c1]
    · by_cases c2 : k = constructUserKey id
      · simp [c2]
      · simp [c1, c2]
  have hnotU : ∀ a, constructUserKey a ∉ user.Ingredients.map constructIngredientKey := by
    intro a hm
    obtain ⟨b, -, hb⟩ := List.mem_map.1 hm
    exact user_ne_ingredient _ _ hb.symm
  refine ⟨hrun, ?_, hget, ?_, ?_, ?_, ?_⟩
  · rw [hrun]
    simp only [entries_deleteIngredients, Ledger.DelState, eraseKV, List.filter_filter]
    congr 1
    funext e
    simp only [Bool.decide_and, decide_not, ne_eq]
    rw [Bool.and_comm]
  · intro foodId
    rw [hget]
    have h1 : constructFoodKey foodId ≠ constructUserKey id := (user_ne_food _ _).symm
    have h2 : constructFoodKey foodId ∉ user.Ingredients.map constructIngredientKey := by
      intro hm
      obtain ⟨b, -, hb⟩ := List.mem_map.1 hm
      exact food_ne_ingredient _ _ hb.symm
    simp [h1, h2]
  · intro objectType attributes key hkey
    rw [hget]
    have h1 : key ≠ constructUserKey id := compositeKey_ne_user hkey id
    have h2 : key ∉ user.Ingredients.map constructIngredientKey := by
      intro hm
      obtain ⟨b, -, hb⟩ := List.mem_map.1 hm
      exact compositeKey_ne_ingredient hkey b hb.symm
    simp [h1, h2]
  · have : (userDestroy stub [id]).2.GetState (constructUserKey id) = none := by
      rw [hget]; simp
    simp [queryUser, hid, this]
  · intro x hx hxne
    have : (userDestroy stub [id]).2.GetState (constructIngredientKey x) = none := by
      rw [hget]
      simp [List.mem_map_of_mem constructIngredientKey hx]
    simp [queryIngredient, hxne, this]


/-! ## Enrollment of an ingredient (C9) -/

/-- C10, the postcondition of an absorption: on every ledger state and all
arguments `(fromOwnerId, ingredientId, foodId)` on which
`ingredientExchangeFood` succeeds, `ingredientId` was in the Ingredients list
of `fromOwnerId` before the call and does not occur in it afterwards, the
Ingredients list of the food is its previous list with `ingredientId`
appended, no user record gains `ingredientId` (every user record other than
that of `fromOwnerId` is unchanged), and the history record `(ingredientId,
fromOwnerId, foodId)` is stored under the composite key of these three
attributes. -/
theorem ingredientExchangeFood_post (stub stub1 : Ledger)
    (fromOwnerId ingredientId foodId : String) (payload : Option Bytes)
    (h : ingredientExchangeFood stub [fromOwnerId, ingredientId, foodId] =
      (Response.Success payload, stub1)) :
    ingredientId ∈ userIngredients stub fromOwnerId ∧
      ingredientId ∉ userIngredients stub1 fromOwnerId ∧
      foodIngredients stub1 foodId = foodIngredients stub foodId ++ [ingredientId] ∧
      (∀ userId, ingredientId ∈ userIngredients stub1 userId →
        ingredientId ∈ userIngredients stub userId) ∧
      (∀ userId, userId ≠ fromOwnerId →
        stub1.GetState (constructUserKey userId) = stub.GetState (constructUserKey userId)) ∧
      ∃ historyKey,
        CreateCompositeKey "history" [ingredientId, fromOwnerId, foodId] =
          Except.ok historyKey ∧
        stub1.GetState historyKey =
          some (marshalIngredientHistory ⟨ingredientId, fromOwnerId, foodId⟩) := by
  obtain ⟨ownerId, x, currentOwnerId, b0, b1, u0, f1, hk, hargs, -, -, -, hb0, hb1, -, hu0,
    hmem, hu1, hkey, -, rfl⟩ := ingredientExchangeFood_success h
  simp only [List.cons.injEq, and_true] at hargs
  obtain ⟨rfl, rfl, rfl⟩ := hargs
  have kU : ∀ a, constructUserKey a ≠ hk := fun a => (compositeKey_ne_user hkey a).symm
  have kF : ∀ a, constructFoodKey a ≠ hk := fun a => (compositeKey_ne_food hkey a).symm
  have gU : ∀ id, (((stub.PutState (constructUserKey fromOwnerId)
        (marshalUser { u0 with Ingredients := removeId u0.Ingredients ingredientId })).PutState
        (constructFoodKey foodId)
        (marshalFood { f1 with Ingredients := f1.Ingredients ++ [ingredientId] })).PutState hk
        (marshalIngredientHistory ⟨ingredientId, fromOwnerId, foodId⟩)).GetState
        (constructUserKey id) =
      if id = fromOwnerId then
        some (marshalUser { u0 with Ingredients := removeId u0.Ingredients ingredientId })
      else stub.GetState (constructUserKey id) := by
    intro id
    simp only [GetState_PutState, constructUserKey_inj, kU, user_ne_food, if_false]
  have uI : ∀ id, userIngredients (((stub.PutState (constructUserKey fromOwnerId)
        (marshalUser { u0 with Ingredients := removeId u0.Ingredients ingredientId })).PutState
        (constructFoodKey foodId)
        (marshalFood { f1 with Ingredients := f1.Ingredients ++ [ingredientId] })).PutState hk
        (marshalIngredientHistory ⟨ingredientId, fromOwnerId, foodId⟩)) id =
      if id = fromOwnerId then removeId u0.Ingredients ingredientId
      else userIngredients stub id := by
    intro id
    by_cases c : id = fromOwnerId
    · subst c
      simp [userIngredients, gU, unmarshalUser_marshalUser]
    · simp [userIngredients, gU, c]
  refine ⟨?_, ?_, ?_, ?_, ?_, hk, hkey, ?_⟩
  · rw [userIngredients_of hb0 hu0]; exact hmem
  · rw [uI, if_pos rfl]
    exact fun hm => (mem_removeId.1 hm).2 rfl
  · rw [foodIngredients_of hb1 hu1]
    simp [foodIngredients, GetState_PutState, kF, unmarshalFood_marshalFood]
  · intro userId hm
    rw [uI] at hm
    split_ifs at hm with c
    · exact absurd rfl (mem_removeId.1 hm).2
    · exact hm
  · intro userId hne
    rw [gU, if_neg hne]
  · simp [GetState_PutState]

/-- C10 at the scenario with a food: `u1` puts `i1` into the food `f1`. -/
theorem ingredientExchangeFood_post_witness :
    ingredientExchangeFood foodScenario ["u1", "i1", "f1"] =
        (Response.Success none, (ingredientExchangeFood foodScenario ["u1", "i1", "f1"]).2) ∧
      userIngredients (ingredientExchangeFood foodScenario ["u1", "i1", "f1"]).2 "u1" = [] ∧
      foodIngredients (ingredientExchangeFood foodScenario ["u1", "i1", "f1"]).2 "f1" = ["i1"] ∧
      "i1" ∈ userIngredients foodScenario "u1" :=
  ⟨by decide, by decide, by decide,
    (ingredientExchangeFood_post foodScenario
      (ingredientExchangeFood foodScenario ["u1", "i1", "f1"]).2 "u1" "i1" "f1" none
      (by decide)).1⟩

/-! ## Registration of a user (C15) -/

/-- C15, the contract of `userRegister`: `userRegister(name, id)` fails, without
any write, when `name` or `id` is empty or when a user record is already
stored under `id`; on every ledger state in which no user is stored under `id`
and `name`, `id` are non-empty it succeeds with an empty payload, the only key
it changes is the key of user `id`, and `queryUser(id)` afterwards returns the
record `{name, id, Ingredients = [], Foods = []}`. -/
theorem userRegister_contract (stub : Ledger) (name id : String) :
    (name = "" ∨ id = "" → userRegister stub [name, id] = (Response.Error "invalid args", stub)) ∧
    (∀ bytes, name ≠ "" → id ≠ "" → stub.GetState (constructUserKey id) = some bytes →
      userRegister stub [name, id] = (Response.Error "user already exist", stub)) ∧
    (∀ bytes, stub.GetState (constructUserKey id) = some bytes →
      ∃ msg, userRegister stub [name, id] = (Response.Error msg, stub)) ∧
    (name ≠ "" → id ≠ "" → stub.GetState (constructUserKey id) = none →
      (userRegister stub [name, id]).1 = Response.Success none ∧
      (∀ key, key ≠ constructUserKey id →
        (userRegister stub [name, id]).2.GetState key = stub.GetState key) ∧
      (userRegister stub [name, id]).2.GetState (constructUserKey id) =
        some (marshalUser ⟨name, id, [], []⟩) ∧
      (queryUser (userRegister stub [name, id]).2 [id]).1 =
        Response.Success (some (marshalUser ⟨name, id, [], []⟩))) := by
  refine ⟨?_, ?_, ?_, ?_⟩
  · intro h
    simp [userRegister, h]
  · intro bytes h1 h2 hb
    simp [userRegister, h1, h2, hb]
  · intro bytes hb
    by_cases h : name = "" ∨ id = ""
    · exact ⟨"invalid args", by simp [userRegister, h]⟩
    · push_neg at h
      exact ⟨"user already exist", by simp [userRegister, h.1, h.2, hb]⟩
  · intro h1 h2 hb
    have hrun : userRegister stub [name, id] =
        (Response.Success none,
          stub.PutState (constructUserKey id) (marshalUser ⟨name, id, [], []⟩)) := by
      simp [userRegister, h1, h2, hb]
    rw [hrun]
    refine ⟨rfl, ?_, ?_, ?_⟩
    · intro key hk
      simp [GetState_PutState, hk]
    · simp [GetState_PutState]
    · simp [queryUser, h2, GetState_PutState]

/-- C15 on the empty ledger: the registration of Alice as `u1`. -/
theorem userRegister_contract_witness :
    (userRegister Ledger.empty ["Alice", "u1"]).1 = Response.Success none ∧
      (∀ key, key ≠ constructUserKey "u1" →
        (userRegister Ledger.empty ["Alice", "u1"]).2.GetState key =
          Ledger.empty.GetState key) ∧
      (userRegister Ledger.empty ["Alice", "u1"]).2.GetState (constructUserKey "u1") =
        some (marshalUser ⟨"Alice", "u1", [], []⟩) ∧
      (queryUser (userRegister Ledger.empty ["Alice", "u1"]).2 ["u1"]).1 =
        Response.Success (some (marshalUser ⟨"Alice", "u1", [], []⟩)) :=
  (userRegister_contract Ledger.empty "Alice" "u1").2.2.2 (by decide) (by decide) (by decide)

/-! ## The modes of the history queries (C17) -/

/-- C17, the handling of the query mode: on every ledger state and for every
id, the history queries with the id alone return the response of the queries
with the mode `all`, and for every mode other than `all`, `enroll` and
`exchange` the queries with two arguments return an error response (and write
nothing). -/
theorem query_mode_handling (stub : Ledger) (id : String) :
    queryIngredientHistory stub [id] = queryIngredientHistory stub [id, "all"] ∧
    queryFoodHistory stub [id] = queryFoodHistory stub [id, "all"] ∧
    (∀ mode, mode ≠ "all" → mode ≠ "enroll" → mode ≠ "exchange" →
      (∃ msg, queryIngredientHistory stub [id, mode] = (Response.Error msg, stub)) ∧
      (∃ msg, queryFoodHistory stub [id, mode] = (Response.Error msg, stub))) := by
  refine ⟨rfl, rfl, ?_⟩
  intro mode h1 h2 h3
  by_cases hid : id = ""
  · exact ⟨⟨"invalid args", by simp [queryIngredientHistory, queryIngredientHistoryBody, hid]⟩,
      ⟨"invalid args", by simp [queryFoodHistory, queryFoodHistoryBody, hid]⟩⟩
  · exact ⟨⟨"queryType unknown " ++ mode,
        by simp [queryIngredientHistory, queryIngredientHistoryBody, hid, h1, h2, h3]⟩,
      ⟨"queryType unknown " ++ mode,
        by simp [queryFoodHistory, queryFoodHistoryBody, hid, h1, h2, h3]⟩⟩

/-- C17 at the scenario of the specification: the mode `latest` is refused. -/
theorem query_mode_handling_witness :
    (∃ msg, queryIngredientHistory scenario ["i1", "latest"] = (Response.Error msg, scenario)) ∧
      (∃ msg, queryFoodHistory scenario ["i1", "latest"] = (Response.Error msg, scenario)) :=
  (query_mode_handling scenario "i1").2.2 "latest" (by decide) (by decide) (by decide)

/-! ## The storage keys (C18) -/

/-- C18, the entity keys never collide: `constructUserKey`,
`constructIngredientKey` and `constructFoodKey` (and `constructFOODKey`, the
same function) are injective, the keys of two different entity classes differ,
and the keys are `user_`, `ingredient_` and `food_` followed by the id. -/
theorem entity_keys_never_collide :
    Function.Injective constructUserKey ∧
    Function.Injective constructIngredientKey ∧
    Function.Injective constructFoodKey ∧
    Function.Injective constructFOODKey ∧
    (∀ a b, constructUserKey a ≠ constructFoodKey b) ∧
    (∀ a b, constructUserKey a ≠ constructIngredientKey b) ∧
    (∀ a b, constructFoodKey a ≠ constructIngredientKey b) ∧
    (∀ id, constructUserKey id = "user_" ++ id) ∧
    (∀ id, constructIngredientKey id = "ingredient_" ++ id) ∧
    (∀ id, constructFoodKey id = "food_" ++ id) ∧
    (∀ id, constructFOODKey id = "food_" ++ id) :=
  ⟨fun _ _ h => constructUserKey_inj.1 h, fun _ _ h => constructIngredientKey_inj.1 h,
    fun _ _ h => constructFoodKey_inj.1 h, fun _ _ h => constructFoodKey_inj.1 h,
    user_ne_food, user_ne_ingredient, food_ne_ingredient,
    fun _ => rfl, fun _ => rfl, fun _ => rfl, fun _ => rfl⟩

/-! ## The names of the operations (C19) -/

/-- C19 as stated fails: `Invoke` knows neither `registerUser` nor
`destroyUser`; on valid arguments both names get the error of an unsupported
function and nothing is written, while `userRegister` and `userDestroy`
succeed on the same arguments. -/
theorem Invoke_registerUser_unsupported :
    Invoke Ledger.empty "registerUser" ["Alice", "u1"] =
        (Response.Error "unsupported function: registerUser", Ledger.empty) ∧
      Invoke oneUser "destroyUser" ["u1"] =
        (Response.Error "unsupported function: destroyUser", oneUser) ∧
      (Invoke Ledger.empty "userRegister" ["Alice", "u1"]).1 = Response.Success none ∧
      (Invoke oneUser "userDestroy" ["u1"]).1 = Response.Success none := by
  decide

/-- C19 (amended), the names of the operations: `Invoke` routes the name
`userRegister` with arguments `(name, id)` to the registration of a user and
the name `userDestroy` with argument `(id)` to the destruction of a user, each
returning an empty success payload on valid input, and it routes the ten other
names `ingredientEnroll`, `foodEnroll`, `ingredientExchange`, `foodExchange`,
`ingredientExchangeFood`, `queryUser`, `queryIngredient`, `queryFood`,
`queryIngredientHistory` and `queryFoodHistory` to their operations. -/
theorem Invoke_routes (stub : Ledger) (args : List String) :
    Invoke stub "userRegister" args = userRegister stub args ∧
    Invoke stub "userDestroy" args = userDestroy stub args ∧
    Invoke stub "ingredientEnroll" args = ingredientEnroll stub args ∧
    Invoke stub "foodEnroll" args = foodEnroll stub args ∧
    Invoke stub "ingredientExchange" args = ingredientExchange stub args ∧
    Invoke stub "foodExchange" args = foodExchange stub args ∧
    Invoke stub "ingredientExchangeFood" args = ingredientExchangeFood stub args ∧
    Invoke stub "queryUser" args = queryUser stub args ∧
    Invoke stub "queryIngredient" args = queryIngredient stub args ∧
    Invoke stub "queryFood" args = queryFood stub args ∧
    Invoke stub "queryIngredientHistory" args = queryIngredientHistory stub args ∧
    Invoke stub "queryFoodHistory" args = queryFoodHistory stub args ∧
    (∀ name id, name ≠ "" → id ≠ "" → stub.GetState (constructUserKey id) = none →
      (Invoke stub "userRegister" [name, id]).1 = Response.Success none) ∧
    (∀ id bytes user, id ≠ "" → stub.GetState (constructUserKey id) = some bytes →
      unmarshalUser bytes = Except.ok user →
      (Invoke stub "userDestroy" [id]).1 = Response.Success none) := by
  refine ⟨rfl, rfl, rfl, rfl, rfl, rfl, rfl, rfl, rfl, rfl, rfl, rfl, ?_, ?_⟩
  · intro name id h1 h2 hb
    show (userRegister stub [name, id]).1 = Response.Success none
    simp [userRegister, h1, h2, hb]
  · intro id bytes user h1 hb hu
    show (userDestroy stub [id]).1 = Response.Success none
    simp [userDestroy, h1, hb, hu]

/-- C19 on the ledgers of one registration: `userRegister` registers Alice and
`userDestroy` destroys her. -/
theorem Invoke_routes_witness :
    (Invoke Ledger.empty "userRegister" ["Alice", "u1"]).1 = Response.Success none ∧
      (Invoke oneUser "userDestroy" ["u1"]).1 = Response.Success none :=
  ⟨(Invoke_routes Ledger.empty []).2.2.2.2.2.2.2.2.2.2.2.2.1 "Alice" "u1" (by decide)
      (by decide) (by decide),
    (Invoke_routes oneUser []).2.2.2.2.2.2.2.2.2.2.2.2.2 "u1"
      (marshalUser ⟨"Alice", "u1", [], []⟩) ⟨"Alice", "u1", [], []⟩ (by decide) (by decide) rfl⟩

/-! ## The enrollment sentinel (C13) -/

/-- C13 as stated fails: the origin owner of an enrollment record is the
constant `originOwner`, the string `originPlaceholder`, not the string
`ORIGIN`; in the scenario of the specification the query of the history of
`i1` does not return the record `(i1, ORIGIN, u1)`. -/
theorem sentinel_is_not_ORIGIN :
    originOwner ≠ "ORIGIN" ∧
      (queryIngredientHistory scenario ["i1", "all"]).1 ≠
        Response.Success (some (marshalIngredientHistories [⟨"i1", "ORIGIN", "u1"⟩])) ∧
      (queryIngredientHistory scenario ["i1", "all"]).1 =
        Response.Success (some (marshalIngredientHistories [⟨"i1", originOwner, "u1"⟩])) := by
  decide

/-- C13 (amended), the enrollment sentinel: the history record written by a
successful `ingredientEnroll` (and by a successful `foodEnroll`) is stored
under the composite key `(id, originPlaceholder, ownerId)` and is the record
`(id, originPlaceholder, ownerId)`: its origin owner is the constant
`originOwner`, the string `originPlaceholder`; in the scenario of the
specification `queryIngredientHistory(i1, all)` returns exactly one record,
`(i1, originPlaceholder, u1)`. -/
theorem enrollment_sentinel (stub stub1 : Ledger) (payload : Option Bytes)
    (name id metadata ownerId : String) :
    originOwner = "originPlaceholder" ∧
    (ingredientEnroll stub [name, id, metadata, ownerId] = (Response.Success payload, stub1) →
      ∃ key, CreateCompositeKey "history" [id, "originPlaceholder", ownerId] = Except.ok key ∧
        stub1.GetState key =
          some (marshalIngredientHistory ⟨id, "originPlaceholder", ownerId⟩)) ∧
    (foodEnroll stub [name, id, metadata, ownerId] = (Response.Success payload, stub1) →
      ∃ key, CreateCompositeKey "history" [id, "originPlaceholder", ownerId] = Except.ok key ∧
        stub1.GetState key =
          some (marshalFoodHistory ⟨id, "originPlaceholder", ownerId⟩)) ∧
    queryIngredientHistory scenario ["i1", "all"] =
      (Response.Success (some (marshalIngredientHistories [⟨"i1", "originPlaceholder", "u1"⟩])),
        scenario) := by
  refine ⟨rfl, ?_, ?_, by decide⟩
  · intro h
    obtain ⟨n, i, m, o, userBytes, user0, historyKey, ha, -, -, -, -, -, -, hk, -, rfl⟩ :=
      ingredientEnroll_success h
    simp only [List.cons.injEq, and_true] at ha
    obtain ⟨rfl, rfl, rfl, rfl⟩ := ha
    exact ⟨historyKey, hk, by rw [GetState_PutState, if_pos rfl]; rfl⟩
  · intro h
    obtain ⟨n, i, m, o, userBytes, user0, historyKey, ha, -, -, -, -, -, -, hk, -, rfl⟩ :=
      foodEnroll_success h
    simp only [List.cons.injEq, and_true] at ha
    obtain ⟨rfl, rfl, rfl, rfl⟩ := ha
    exact ⟨historyKey, hk, by rw [GetState_PutState, if_pos rfl]; rfl⟩

/-- C13 on the ledger of two users: the enrollment of `i1` to `u1`. -/
theorem enrollment_sentinel_witness :
    ∃ key, CreateCompositeKey "history" ["i1", "originPlaceholder", "u1"] = Except.ok key ∧
      (ingredientEnroll twoUsers ["Tomato", "i1", "organic", "u1"]).2.GetState key =
        some (marshalIngredientHistory ⟨"i1", "originPlaceholder", "u1"⟩) :=
  (enrollment_sentinel twoUsers (ingredientEnroll twoUsers ["Tomato", "i1", "organic", "u1"]).2
    none "Tomato" "i1" "organic" "u1").2.1 (by decide)

/-! ## The exchange-only query (C16) -/

theorem collect_exchange_of_all (result : List (String × Bytes))
    (acc hs : List IngredientHistory)
    (h : collectIngredientHistories "all" result acc = Except.ok hs) :
    collectIngredientHistories "exchange" result
        (acc.filter fun r => decide (r.OriginOwnerId ≠ originOwner)) =
      Except.ok (hs.filter fun r => decide (r.OriginOwnerId ≠ originOwner)) := by
  induction result generalizing acc with
  | nil =>
    simp only [collectIngredientHistories, Except.ok.injEq] at h
    subst h; rfl
  | cons hd tl ih =>
    obtain ⟨k, v⟩ := hd
    unfold collectIngredientHistories at h ⊢
    cases hu : unmarshalIngredientHistory v with
    | error e => simp [hu] at h
    | ok history =>
      simp only [hu] at h ⊢
      rw [if_neg (by simp)] at h
      have := ih _ h
      by_cases ho : history.OriginOwnerId = originOwner
      · rw [if_pos (by simp [ho])]
        simpa [List.filter_append, ho] using this
      · rw [if_neg (by simp [ho])]
        simpa [List.filter_append, ho] using this

theorem collectFood_exchange_of_all (result : List (String × Bytes))
    (acc hs : List FoodHistory)
    (h : collectFoodHistories "all" result acc = Except.ok hs) :
    collectFoodHistories "exchange" result
        (acc.filter fun r => decide (r.OriginOwnerId ≠ originOwner)) =
      Except.ok (hs.filter fun r => decide (r.OriginOwnerId ≠ originOwner)) := by
  induction result generalizing acc with
  | nil =>
    simp only [collectFoodHistories, Except.ok.injEq] at h
    subst h; rfl
  | cons hd tl ih =>
    obtain ⟨k, v⟩ := hd
    unfold collectFoodHistories at h ⊢
    cases hu : unmarshalFoodHistory v with
    | error e => simp [hu] at h
    | ok history =>
      simp only [hu] at h ⊢
      rw [if_neg (by simp)] at h
      have := ih _ h
      by_cases ho : history.OriginOwnerId = originOwner
      · rw [if_pos (by simp [ho])]
        simpa [List.filter_append, ho] using this
      · rw [if_neg (by simp [ho])]
        simpa [List.filter_append, ho] using this

/-- The loop fails for one query type exactly when it fails for another: the
decoding does not depend on the type. -/
theorem collect_error_iff (q1 q2 : String) (result : List (String × Bytes))
    (acc1 acc2 : List IngredientHistory) :
    (∃ hs, collectIngredientHistories q1 result acc1 = Except.ok hs) →
      ∃ hs, collectIngredientHistories q2 result acc2 = Except.ok hs := by
  rintro ⟨hs, h⟩
  obtain ⟨hs2, h2, -⟩ := collect_ok q2 result acc2 (collect_decodable q1 result acc1 hs h)
  exact ⟨hs2, h2⟩

theorem collectFood_error_iff (q1 q2 : String) (result : List (String × Bytes))
    (acc1 acc2 : List FoodHistory) :
    (∃ hs, collectFoodHistories q1 result acc1 = Except.ok hs) →
      ∃ hs, collectFoodHistories q2 result acc2 = Except.ok hs := by
  induction result generalizing acc1 acc2 with
  | nil => intro _; exact ⟨acc2, rfl⟩
  | cons hd tl ih =>
    obtain ⟨k, v⟩ := hd
    rintro ⟨hs, h⟩
    unfold collectFoodHistories at h ⊢
    cases hu : unmarshalFoodHistory v with
    | error e => simp [hu] at h
    | ok history =>
      simp only [hu] at h ⊢
      split_ifs at h ⊢ <;> exact ih _ _ ⟨hs, h⟩

theorem marshalIngredientHistories_inj {hs1 hs2 : List IngredientHistory}
    (h : marshalIngredientHistories hs1 = marshalIngredientHistories hs2) : hs1 = hs2 := by
  simp only [marshalIngredientHistories, Bytes.array.injEq] at h
  refine List.map_injective_iff.2 ?_ h
  intro a b hab
  have := congrArg (fun f => unmarshalIngredientHistory (Bytes.object f)) hab
  exact Except.ok.inj this

theorem marshalFoodHistories_inj {hs1 hs2 : List FoodHistory}
    (h : marshalFoodHistories hs1 = marshalFoodHistories hs2) : hs1 = hs2 := by
  simp only [marshalFoodHistories, Bytes.array.injEq] at h
  refine List.map_injective_iff.2 ?_ h
  intro a b hab
  have := congrArg (fun f => unmarshalFoodHistory (Bytes.object f)) hab
  exact Except.ok.inj this

/-- The exchange-only query of the history of an ingredient against the full
query. -/
theorem ingredient_exchange_of_all (stub : Ledger) (id : String) :
    ((queryIngredientHistory stub [id, "exchange"]).1.isSuccess =
        (queryIngredientHistory stub [id, "all"]).1.isSuccess) ∧
    ((queryIngredientHistory stub [id, "all"]).1.isSuccess = true →
      ∃ hs, (queryIngredientHistory stub [id, "all"]).1 =
        Response.Success (some (marshalIngredientHistories hs))) ∧
    (∀ hs, (queryIngredientHistory stub [id, "all"]).1 =
        Response.Success (some (marshalIngredientHistories hs)) →
      (queryIngredientHistory stub [id, "exchange"]).1 =
        Response.Success (some (marshalIngredientHistories
          (hs.filter fun r => decide (r.OriginOwnerId ≠ originOwner))))) := by
  by_cases hid : id = ""
  · simp [queryIngredientHistory, queryIngredientHistoryBody, hid, Response.isSuccess]
  cases hb : stub.GetState (constructIngredientKey id) with
  | none => simp [queryIngredientHistory, queryIngredientHistoryBody, hid, hb, Response.isSuccess]
  | some bytes =>
    cases hr : stub.GetStateByPartialCompositeKey "history" [id] with
    | error e =>
      simp [queryIngredientHistory, queryIngredientHistoryBody, hid, hb, hr, Response.isSuccess]
    | ok result =>
      cases hc : collectIngredientHistories "all" result [] with
      | error e =>
        have hx : ∀ hs, collectIngredientHistories "exchange" result [] ≠ Except.ok hs := by
          intro hs h
          obtain ⟨hs2, h2⟩ := collect_error_iff "exchange" "all" result [] [] ⟨hs, h⟩
          rw [hc] at h2; cases h2
        cases hc2 : collectIngredientHistories "exchange" result [] with
        | ok hs => exact absurd hc2 (hx hs)
        | error e2 =>
          simp [queryIngredientHistory, queryIngredientHistoryBody, hid, hb, hr, hc, hc2,
            Response.isSuccess]
      | ok hsAll =>
        have hx := collect_exchange_of_all result [] hsAll hc
        simp only [List.filter_nil] at hx
        have hall : queryIngredientHistory stub [id, "all"] =
            (Response.Success (some (marshalIngredientHistories hsAll)), stub) := by
          simp [queryIngredientHistory, queryIngredientHistoryBody, hid, hb, hr, hc]
        have hex : queryIngredientHistory stub [id, "exchange"] =
            (Response.Success (some (marshalIngredientHistories
              (hsAll.filter fun r => decide (r.OriginOwnerId ≠ originOwner)))), stub) := by
          simp [queryIngredientHistory, queryIngredientHistoryBody, hid, hb, hr, hx]
        rw [hall, hex]
        refine ⟨rfl, fun _ => ⟨hsAll, rfl⟩, ?_⟩
        intro hs h
        simp only [Response.Success.injEq, Option.some.injEq] at h
        rw [marshalIngredientHistories_inj h]

/-- The exchange-only query of the history of a food against the full
query. -/
theorem food_exchange_of_all (stub : Ledger) (id : String) :
    ((queryFoodHistory stub [id, "exchange"]).1.isSuccess =
        (queryFoodHistory stub [id, "all"]).1.isSuccess) ∧
    ((queryFoodHistory stub [id, "all"]).1.isSuccess = true →
      ∃ hs, (queryFoodHistory stub [id, "all"]).1 =
        Response.Success (some (marshalFoodHistories hs))) ∧
    (∀ hs, (queryFoodHistory stub [id, "all"]).1 =
        Response.Success (some (marshalFoodHistories hs)) →
      (queryFoodHistory stub [id, "exchange"]).1 =
        Response.Success (some (marshalFoodHistories
          (hs.filter fun r => decide (r.OriginOwnerId ≠ originOwner))))) := by
  by_cases hid : id = ""
  · simp [queryFoodHistory, queryFoodHistoryBody, hid, Response.isSuccess]
  cases hb : stub.GetState (constructFoodKey id) with
  | none => simp [queryFoodHistory, queryFoodHistoryBody, hid, hb, Response.isSuccess]
  | some bytes =>
    cases hr : stub.GetStateByPartialCompositeKey "history" [id] with
    | error e =>
      simp [queryFoodHistory, queryFoodHistoryBody, hid, hb, hr, Response.isSuccess]
    | ok result =>
      cases hc : collectFoodHistories "all" result [] with
      | error e =>
        have hx : ∀ hs, collectFoodHistories "exchange" result [] ≠ Except.ok hs := by
          intro hs h
          obtain ⟨hs2, h2⟩ := collectFood_error_iff "exchange" "all" result [] [] ⟨hs, h⟩
          rw [hc] at h2; cases h2
        cases hc2 : collectFoodHistories "exchange" result [] with
        | ok hs => exact absurd hc2 (hx hs)
        | error e2 =>
          simp [queryFoodHistory, queryFoodHistoryBody, hid, hb, hr, hc, hc2,
            Response.isSuccess]
      | ok hsAll =>
        have hx := collectFood_exchange_of_all result [] hsAll hc
        simp only [List.filter_nil] at hx
        have hall : queryFoodHistory stub [id, "all"] =
            (Response.Success (some (marshalFoodHistories hsAll)), stub) := by
          simp [queryFoodHistory, queryFoodHistoryBody, hid, hb, hr, hc]
        have hex : queryFoodHistory stub [id, "exchange"] =
            (Response.Success (some (marshalFoodHistories
              (hsAll.filter fun r => decide (r.OriginOwnerId ≠ originOwner)))), stub) := by
          simp [queryFoodHistory, queryFoodHistoryBody, hid, hb, hr, hx]
        rw [hall, hex]
        refine ⟨rfl, fun _ => ⟨hsAll, rfl⟩, ?_⟩
        intro hs h
        simp only [Response.Success.injEq, Option.some.injEq] at h
        rw [marshalFoodHistories_inj h]

/-- C16, the exchange-only query is the filtered full query: on every ledger
state and for every id, `queryIngredientHistory(id, exchange)` succeeds
exactly when `queryIngredientHistory(id, all)` does, a successful full query
returns the encoding of a list of records, and whenever the full query returns
the list `hs` the exchange-only query returns `hs` without the records whose
origin owner is the sentinel `originOwner`, the other records in the same
order (`List.filter`); the same holds for `queryFoodHistory`. -/
theorem exchange_query_is_filtered_all (stub : Ledger) (id : String) :
    (((queryIngredientHistory stub [id, "exchange"]).1.isSuccess =
        (queryIngredientHistory stub [id, "all"]).1.isSuccess) ∧
      ((queryIngredientHistory stub [id, "all"]).1.isSuccess = true →
        ∃ hs, (queryIngredientHistory stub [id, "all"]).1 =
          Response.Success (some (marshalIngredientHistories hs))) ∧
      (∀ hs, (queryIngredientHistory stub [id, "all"]).1 =
          Response.Success (some (marshalIngredientHistories hs)) →
        (queryIngredientHistory stub [id, "exchange"]).1 =
          Response.Success (some (marshalIngredientHistories
            (hs.filter fun r => decide (r.OriginOwnerId ≠ originOwner)))))) ∧
    (((queryFoodHistory stub [id, "exchange"]).1.isSuccess =
        (queryFoodHistory stub [id, "all"]).1.isSuccess) ∧
      ((queryFoodHistory stub [id, "all"]).1.isSuccess = true →
        ∃ hs, (queryFoodHistory stub [id, "all"]).1 =
          Response.Success (some (marshalFoodHistories hs))) ∧
      (∀ hs, (queryFoodHistory stub [id, "all"]).1 =
          Response.Success (some (marshalFoodHistories hs)) →
        (queryFoodHistory stub [id, "exchange"]).1 =
          Response.Success (some (marshalFoodHistories
            (hs.filter fun r => decide (r.OriginOwnerId ≠ originOwner)))))) :=
  ⟨ingredient_exchange_of_all stub id, food_exchange_of_all stub id⟩

/-- C16 after one transfer in the scenario of the specification: the full
query returns the enrollment and the transfer, the exchange-only query the
transfer. -/
theorem exchange_query_is_filtered_all_witness :
    (queryIngredientHistory afterOne ["i1", "exchange"]).1 =
      Response.Success (some (marshalIngredientHistories
        ([⟨"i1", "originPlaceholder", "u1"⟩, ⟨"i1", "u1", "u2"⟩].filter
          fun r => decide (r.OriginOwnerId ≠ originOwner)))) :=
  (exchange_query_is_filtered_all afterOne "i1").1.2.2
    [⟨"i1", "originPlaceholder", "u1"⟩, ⟨"i1", "u1", "u2"⟩] (by decide)


/-! ## The frame of a transfer (C20) -/

theorem storedUser_of {ledger : Ledger} {id : String} {bytes : Bytes} {user : User}
    (hb : ledger.GetState (constructUserKey id) = some bytes)
    (hu : unmarshalUser bytes = Except.ok user) : storedUser ledger id = some user := by
  simp [storedUser, hb, hu]

theorem ingredientExchange_frame (stub stub1 : Ledger) (payload : Option Bytes)
    (fromOwnerId x toOwnerId : String)
    (h : ingredientExchange stub [fromOwnerId, x, toOwnerId] =
      (Response.Success payload, stub1)) :
    TransferFrame stub stub1 (constructIngredientKey x) fromOwnerId x toOwnerId
      User.Ingredients User.Foods := by
  obtain ⟨ownerId, x0, currentOwnerId, b0, b1, u0, u1, hk, hargs, -, -, -, hb0, hb1, -, hu0,
    -, hu1, hkey, -, rfl⟩ := ingredientExchange_success h
  simp only [List.cons.injEq, and_true] at hargs
  obtain ⟨rfl, rfl, rfl⟩ := hargs
  have kU : ∀ a, constructUserKey a ≠ hk := fun a => (compositeKey_ne_user hkey a).symm
  have kI : ∀ a, constructIngredientKey a ≠ hk :=
    fun a => (compositeKey_ne_ingredient hkey a).symm
  refine ⟨⟨hk, hkey, ?_⟩, ?_, ?_, ?_⟩
  · intro key h1 h2 h3
    simp [GetState_PutState, h1, h2, h3]
  · simp [GetState_PutState, kI, fun a b => (user_ne_ingredient a b).symm]
  · intro id h1 h2
    simp [GetState_PutState, kU, constructUserKey_inj, h1, h2]
  · by_cases hne : fromOwnerId = toOwnerId
    · subst hne
      rw [hb0] at hb1
      cases hb1
      rw [hu0] at hu1
      cases hu1
      refine ⟨u0, { u0 with Ingredients := u0.Ingredients ++ [x] }, u0,
        { u0 with Ingredients := u0.Ingredients ++ [x] }, storedUser_of hb0 hu0, ?_,
        storedUser_of hb0 hu0, ?_, rfl, rfl, rfl, rfl, rfl, rfl, ?_, ?_, rfl⟩
      · simp [storedUser, GetState_PutState, kU, unmarshalUser_marshalUser]
      · simp [storedUser, GetState_PutState, kU, unmarshalUser_marshalUser]
      · simp [List.filter_append]
      · intro hc; exact absurd rfl hc
    · refine ⟨u0, { u0 with Ingredients := removeId u0.Ingredients x }, u1,
        { u1 with Ingredients := u1.Ingredients ++ [x] }, storedUser_of hb0 hu0, ?_,
        storedUser_of hb1 hu1, ?_, rfl, rfl, rfl, rfl, rfl, rfl, ?_, ?_, rfl⟩
      · simp [storedUser, GetState_PutState, kU, constructUserKey_inj, hne,
          unmarshalUser_marshalUser]
      · simp [storedUser, GetState_PutState, kU, unmarshalUser_marshalUser]
      · simp [removeId_eq_filter, List.filter_filter]
      · intro _; simp [removeId_eq_filter]

theorem foodExchange_frame (stub stub1 : Ledger) (payload : Option Bytes)
    (fromOwnerId x toOwnerId : String)
    (h : foodExchange stub [fromOwnerId, x, toOwnerId] =
      (Response.Success payload, stub1)) :
    TransferFrame stub stub1 (constructFoodKey x) fromOwnerId x toOwnerId
      User.Foods User.Ingredients := by
  obtain ⟨ownerId, x0, currentOwnerId, b0, b1, u0, u1, hk, hargs, -, -, -, hb0, hb1, -, hu0,
    -, hu1, hkey, -, rfl⟩ := foodExchange_success h
  simp only [List.cons.injEq, and_true] at hargs
  obtain ⟨rfl, rfl, rfl⟩ := hargs
  have kU : ∀ a, constructUserKey a ≠ hk := fun a => (compositeKey_ne_user hkey a).symm
  have kI : ∀ a, constructFoodKey a ≠ hk :=
    fun a => (compositeKey_ne_food hkey a).symm
  refine ⟨⟨hk, hkey, ?_⟩, ?_, ?_, ?_⟩
  · intro key h1 h2 h3
    simp [GetState_PutState, h1, h2, h3]
  · simp [GetState_PutState, kI, fun a b => (user_ne_food a b).symm]
  · intro id h1 h2
    simp [GetState_PutState, kU, constructUserKey_inj, h1, h2]
  · by_cases hne : fromOwnerId = toOwnerId
    · subst hne
      rw [hb0] at hb1
      cases hb1
      rw [hu0] at hu1
      cases hu1
      refine ⟨u0, { u0 with Foods := u0.Foods ++ [x] }, u0,
        { u0 with Foods := u0.Foods ++ [x] }, storedUser_of hb0 hu0, ?_,
        storedUser_of hb0 hu0, ?_, rfl, rfl, rfl, rfl, rfl, rfl, ?_, ?_, rfl⟩
      · simp [storedUser, GetState_PutState, kU, unmarshalUser_marshalUser]
      · simp [storedUser, GetState_PutState, kU, unmarshalUser_marshalUser]
      · simp [List.filter_append]
      · intro hc; exact absurd rfl hc
    · refine ⟨u0, { u0 with Foods := removeId u0.Foods x }, u1,
        { u1 with Foods := u1.Foods ++ [x] }, storedUser_of hb0 hu0, ?_,
        storedUser_of hb1 hu1, ?_, rfl, rfl, rfl, rfl, rfl, rfl, ?_, ?_, rfl⟩
      · simp [storedUser, GetState_PutState, kU, constructUserKey_inj, hne,
          unmarshalUser_marshalUser]
      · simp [storedUser, GetState_PutState, kU, unmarshalUser_marshalUser]
      · simp [removeId_eq_filter, List.filter_filter]
      · intro _; simp [removeId_eq_filter]

/-- C20, the frame of a transfer: on every ledger state (reachable or not) and
all arguments `(fromOwnerId, assetId, toOwnerId)` on which `ingredientExchange`
(resp. `foodExchange`) succeeds, every key other than the key of user
`fromOwnerId`, the key of user `toOwnerId` and the composite history key
`(assetId, fromOwnerId, toOwnerId)` keeps its value; the record of the asset
and the record of every other user are unchanged; the two user records keep
their name, their id and their other list (`Foods` for `ingredientExchange`,
`Ingredients` for `foodExchange`); the elements of the source list other than
`assetId` keep their relative order (between two different users the list
afterwards is the list before without `assetId`), and the list of the target
is its list before with `assetId` appended. -/
theorem transfer_frame (stub stub1 : Ledger) (payload : Option Bytes)
    (fromOwnerId assetId toOwnerId : String) :
    (ingredientExchange stub [fromOwnerId, assetId, toOwnerId] =
        (Response.Success payload, stub1) →
      TransferFrame stub stub1 (constructIngredientKey assetId) fromOwnerId assetId toOwnerId
        User.Ingredients User.Foods) ∧
    (foodExchange stub [fromOwnerId, assetId, toOwnerId] =
        (Response.Success payload, stub1) →
      TransferFrame stub stub1 (constructFoodKey assetId) fromOwnerId assetId toOwnerId
        User.Foods User.Ingredients) :=
  ⟨ingredientExchange_frame stub stub1 payload fromOwnerId assetId toOwnerId,
    foodExchange_frame stub stub1 payload fromOwnerId assetId toOwnerId⟩

/-- C20 at the scenario of the specification: the transfer of `i1` from `u1`
to `u2`, and the transfer of the food `f1` from `u1` to `u2`. -/
theorem transfer_frame_witness :
    TransferFrame scenario (ingredientExchange scenario ["u1", "i1", "u2"]).2
        (constructIngredientKey "i1") "u1" "i1" "u2" User.Ingredients User.Foods ∧
      TransferFrame foodScenario (foodExchange foodScenario ["u1", "f1", "u2"]).2
        (constructFoodKey "f1") "u1" "f1" "u2" User.Foods User.Ingredients :=
  ⟨(transfer_frame scenario (ingredientExchange scenario ["u1", "i1", "u2"]).2 none
      "u1" "i1" "u2").1 (by decide),
    (transfer_frame foodScenario (foodExchange foodScenario ["u1", "f1", "u2"]).2 none
      "u1" "f1" "u2").2 (by decide)⟩


/-! ## The invariant of the history records -/

theorem entriesOK_PutState {s : Ledger} (h : ∀ e ∈ s.entries, EntryOK e) {k : String} {v : Bytes}
    (hkv : EntryOK (k, v)) : ∀ e ∈ (s.PutState k v).entries, EntryOK e := by
  intro e he
  rcases mem_insertKV he with rfl | he
  · exact hkv
  · exact h e he

theorem entriesOK_DelState {s : Ledger} (h : ∀ e ∈ s.entries, EntryOK e) (k : String) :
    ∀ e ∈ (s.DelState k).entries, EntryOK e :=
  fun e he => h e (List.mem_of_mem_filter he)

theorem entriesOK_deleteIngredients {s : Ledger} (h : ∀ e ∈ s.entries, EntryOK e)
    (ids : List String) : ∀ e ∈ (deleteIngredients s ids).entries, EntryOK e := by
  intro e he
  rw [entries_deleteIngredients] at he
  exact h e (List.mem_of_mem_filter he)

theorem WF_deleteIngredients {s : Ledger} (h : s.WF) (ids : List String) :
    (deleteIngredients s ids).WF := by
  unfold Ledger.WF
  rw [entries_deleteIngredients]
  exact List.Pairwise.filter _ h

theorem EntryOK.user (id : String) (v : Bytes) : EntryOK (constructUserKey id, v) :=
  Or.inl ⟨id, rfl⟩

theorem EntryOK.ingredient (id : String) (v : Bytes) : EntryOK (constructIngredientKey id, v) :=
  Or.inr (Or.inl ⟨id, rfl⟩)

theorem EntryOK.food (id : String) (v : Bytes) : EntryOK (constructFoodKey id, v) :=
  Or.inr (Or.inr (Or.inl ⟨id, rfl⟩))

theorem EntryOK.ingredientHistory {a o c key : String}
    (h : CreateCompositeKey "history" [a, o, c] = Except.ok key) :
    EntryOK (key, marshalIngredientHistory ⟨a, o, c⟩) :=
  Or.inr (Or.inr (Or.inr ⟨a, o, c, h, Or.inl rfl⟩))

theorem EntryOK.foodHistory {a o c key : String}
    (h : CreateCompositeKey "history" [a, o, c] = Except.ok key) :
    EntryOK (key, marshalFoodHistory ⟨a, o, c⟩) :=
  Or.inr (Or.inr (Or.inr ⟨a, o, c, h, Or.inr rfl⟩))

theorem HasEnrollment.kept {s s1 : Ledger} (hk : HistoryKept s s1) {id : String}
    (h : HasEnrollment s id) : HasEnrollment s1 id := by
  obtain ⟨hid, owner, key, hkey, hv⟩ := h
  refine ⟨hid, owner, key, hkey, ?_⟩
  cases hs : s.GetState key with
  | none => exact absurd hs hv
  | some value =>
    obtain ⟨v1, h1, -⟩ := hk key value ⟨_, hkey⟩ hs
    rw [h1]; simp

theorem HistInv.of_empty : HistInv Ledger.empty :=
  ⟨List.Pairwise.nil, fun e he => (by cases he), fun id h => absurd rfl h,
    fun id h => absurd rfl h⟩

/-- The invariant after a call that keeps the history records and stores no
new ingredient or food without an enrollment record. -/
theorem HistInv.of_step {s s1 : Ledger} (hI : HistInv s) (hwf : s1.WF)
    (hok : ∀ e ∈ s1.entries, EntryOK e) (hk : HistoryKept s s1)
    (hing : ∀ id, s1.GetState (constructIngredientKey id) ≠ none →
      s.GetState (constructIngredientKey id) ≠ none ∨ HasEnrollment s1 id)
    (hfood : ∀ id, s1.GetState (constructFoodKey id) ≠ none →
      s.GetState (constructFoodKey id) ≠ none ∨ HasEnrollment s1 id) : HistInv s1 := by
  refine ⟨hwf, hok, ?_, ?_⟩
  · intro id h
    rcases hing id h with h0 | h0
    · exact (hI.ingredient_enrolled id h0).kept hk
    · exact h0
  · intro id h
    rcases hfood id h with h0 | h0
    · exact (hI.food_enrolled id h0).kept hk
    · exact h0

theorem HistInv.after_userRegister {stub stub1 : Ledger} {args : List String}
    {payload : Option Bytes} (hI : HistInv stub)
    (h : userRegister stub args = (Response.Success payload, stub1)) : HistInv stub1 := by
  have hk : HistoryKept stub stub1 := by
    have := HistoryKept.by_userRegister stub args
    rwa [h] at this
  obtain ⟨name, id, -, -, -, -, -, rfl⟩ := userRegister_success h
  refine hI.of_step (hI.wf.PutState _ _) (entriesOK_PutState hI.entries_ok (EntryOK.user _ _)) hk
    ?_ ?_
  · intro x hx
    left
    simpa [GetState_PutState, fun a b => (user_ne_ingredient a b).symm] using hx
  · intro x hx
    left
    simpa [GetState_PutState, fun a b => (user_ne_food a b).symm] using hx

theorem HistInv.after_userDestroy {stub stub1 : Ledger} {args : List String}
    {payload : Option Bytes} (hI : HistInv stub)
    (h : userDestroy stub args = (Response.Success payload, stub1)) : HistInv stub1 := by
  have hk : HistoryKept stub stub1 := by
    have := HistoryKept.by_userDestroy stub args
    rwa [h] at this
  obtain ⟨id, userBytes, user, -, -, -, -, -, rfl⟩ := userDestroy_success h
  refine hI.of_step (WF_deleteIngredients (hI.wf.DelState _) _)
    (entriesOK_deleteIngredients (entriesOK_DelState hI.entries_ok _) _) hk ?_ ?_
  · intro x hx
    left
    rw [GetState_deleteIngredients] at hx
    split_ifs at hx with hm
    · exact absurd rfl hx
    · simpa [GetState_DelState, fun a b => (user_ne_ingredient a b).symm] using hx
  · intro x hx
    left
    rw [GetState_deleteIngredients] at hx
    split_ifs at hx with hm
    · exact absurd rfl hx
    · simpa [GetState_DelState, fun a b => (user_ne_food a b).symm] using hx

theorem HistInv.after_ingredientEnroll {stub stub1 : Ledger} {args : List String}
    {payload : Option Bytes} (hI : HistInv stub)
    (h : ingredientEnroll stub args = (Response.Success payload, stub1)) : HistInv stub1 := by
  have hk : HistoryKept stub stub1 := by
    have := HistoryKept.by_ingredientEnroll stub args
    rwa [h] at this
  obtain ⟨n, x, m, o, userBytes, user0, historyKey, -, -, hx, -, -, -, -, hkey, -, rfl⟩ :=
    ingredientEnroll_success h
  have kI : ∀ a, constructIngredientKey a ≠ historyKey :=
    fun a => (compositeKey_ne_ingredient hkey a).symm
  have kF : ∀ a, constructFoodKey a ≠ historyKey := fun a => (compositeKey_ne_food hkey a).symm
  refine hI.of_step (((hI.wf.PutState _ _).PutState _ _).PutState _ _)
    (entriesOK_PutState (entriesOK_PutState (entriesOK_PutState hI.entries_ok
      (EntryOK.ingredient _ _)) (EntryOK.user _ _)) (EntryOK.ingredientHistory hkey)) hk ?_ ?_
  · intro y hy
    by_cases e : y = x
    · subst e
      exact Or.inr ⟨hx, o, historyKey, hkey, by simp [GetState_PutState]⟩
    · left
      simpa [GetState_PutState, kI, fun a b => (user_ne_ingredient a b).symm,
        constructIngredientKey_inj, e] using hy
  · intro y hy
    left
    simpa [GetState_PutState, kF, fun a b => (user_ne_food a b).symm, food_ne_ingredient]
      using hy

theorem HistInv.after_foodEnroll {stub stub1 : Ledger} {args : List String}
    {payload : Option Bytes} (hI : HistInv stub)
    (h : foodEnroll stub args = (Response.Success payload, stub1)) : HistInv stub1 := by
  have hk : HistoryKept stub stub1 := by
    have := HistoryKept.by_foodEnroll stub args
    rwa [h] at this
  obtain ⟨n, x, m, o, userBytes, user0, historyKey, -, -, hx, -, -, -, -, hkey, -, rfl⟩ :=
    foodEnroll_success h
  have kI : ∀ a, constructIngredientKey a ≠ historyKey :=
    fun a => (compositeKey_ne_ingredient hkey a).symm
  have kF : ∀ a, constructFoodKey a ≠ historyKey := fun a => (compositeKey_ne_food hkey a).symm
  refine hI.of_step (((hI.wf.PutState _ _).PutState _ _).PutState _ _)
    (entriesOK_PutState (entriesOK_PutState (entriesOK_PutState hI.entries_ok
      (EntryOK.food _ _)) (EntryOK.user _ _)) (EntryOK.foodHistory hkey)) hk ?_ ?_
  · intro y hy
    left
    simpa [GetState_PutState, kI, fun a b => (user_ne_ingredient a b).symm,
      fun a b => (food_ne_ingredient a b).symm] using hy
  · intro y hy
    by_cases e : y = x
    · subst e
      exact Or.inr ⟨hx, o, historyKey, hkey, by simp [GetState_PutState]⟩
    · left
      simpa [GetState_PutState, kF, fun a b => (user_ne_food a b).symm,
        constructFoodKey_inj, e] using hy

theorem HistInv.after_ingredientExchange {stub stub1 : Ledger} {args : List String}
    {payload : Option Bytes} (hI : HistInv stub)
    (h : ingredientExchange stub args = (Response.Success payload, stub1)) : HistInv stub1 := by
  have hk : HistoryKept stub stub1 := by
    have := HistoryKept.by_ingredientExchange stub args
    rwa [h] at this
  obtain ⟨o, x, c, b0, b1, u0, u1, historyKey, -, -, -, -, -, -, -, -, -, -, hkey, -, rfl⟩ :=
    ingredientExchange_success h
  have kI : ∀ a, constructIngredientKey a ≠ historyKey :=
    fun a => (compositeKey_ne_ingredient hkey a).symm
  have kF : ∀ a, constructFoodKey a ≠ historyKey := fun a => (compositeKey_ne_food hkey a).symm
  refine hI.of_step (((hI.wf.PutState _ _).PutState _ _).PutState _ _)
    (entriesOK_PutState (entriesOK_PutState (entriesOK_PutState hI.entries_ok
      (EntryOK.user _ _)) (EntryOK.user _ _)) (EntryOK.ingredientHistory hkey)) hk ?_ ?_
  · intro y hy
    left
    simpa [GetState_PutState, kI, fun a b => (user_ne_ingredient a b).symm] using hy
  · intro y hy
    left
    simpa [GetState_PutState, kF, fun a b => (user_ne_food a b).symm] using hy

theorem HistInv.after_ingredientExchangeFood {stub stub1 : Ledger} {args : List String}
    {payload : Option Bytes} (hI : HistInv stub)
    (h : ingredientExchangeFood stub args = (Response.Success payload, stub1)) :
    HistInv stub1 := by
  have hk : HistoryKept stub stub1 := by
    have := HistoryKept.by_ingredientExchangeFood stub args
    rwa [h] at this
  obtain ⟨o, x, c, b0, b1, u0, f1, historyKey, -, -, -, -, -, hf, -, -, -, -, hkey, -, rfl⟩ :=
    ingredientExchangeFood_success h
  have kI : ∀ a, constructIngredientKey a ≠ historyKey :=
    fun a => (compositeKey_ne_ingredient hkey a).symm
  have kF : ∀ a, constructFoodKey a ≠ historyKey := fun a => (compositeKey_ne_food hkey a).symm
  refine hI.of_step (((hI.wf.PutState _ _).PutState _ _).PutState _ _)
    (entriesOK_PutState (entriesOK_PutState (entriesOK_PutState hI.entries_ok
      (EntryOK.user _ _)) (EntryOK.food _ _)) (EntryOK.ingredientHistory hkey)) hk ?_ ?_
  · intro y hy
    left
    simpa [GetState_PutState, kI, fun a b => (user_ne_ingredient a b).symm,
      fun a b => (food_ne_ingredient a b).symm] using hy
  · intro y hy
    left
    by_cases e : y = c
    · subst e; rw [hf]; simp
    · simpa [GetState_PutState, kF, fun a b => (user_ne_food a b).symm, constructFoodKey_inj, e]
        using hy

theorem HistInv.after_foodExchange {stub stub1 : Ledger} {args : List String}
    {payload : Option Bytes} (hI : HistInv stub)
    (h : foodExchange stub args = (Response.Success payload, stub1)) : HistInv stub1 := by
  have hk : HistoryKept stub stub1 := by
    have := HistoryKept.by_foodExchange stub args
    rwa [h] at this
  obtain ⟨o, x, c, b0, b1, u0, u1, historyKey, -, -, -, -, -, -, -, -, -, -, hkey, -, rfl⟩ :=
    foodExchange_success h
  have kI : ∀ a, constructIngredientKey a ≠ historyKey :=
    fun a => (compositeKey_ne_ingredient hkey a).symm
  have kF : ∀ a, constructFoodKey a ≠ historyKey := fun a => (compositeKey_ne_food hkey a).symm
  refine hI.of_step (((hI.wf.PutState _ _).PutState _ _).PutState _ _)
    (entriesOK_PutState (entriesOK_PutState (entriesOK_PutState hI.entries_ok
      (EntryOK.user _ _)) (EntryOK.user _ _)) (EntryOK.foodHistory hkey)) hk ?_ ?_
  · intro y hy
    left
    simpa [GetState_PutState, kI, fun a b => (user_ne_ingredient a b).symm] using hy
  · intro y hy
    left
    simpa [GetState_PutState, kF, fun a b => (user_ne_food a b).symm] using hy

theorem HistInv.after_Invoke {stub : Ledger} (hI : HistInv stub) (funcName : String)
    (args : List String) :
    (Invoke stub funcName args).1.isSuccess = true → HistInv (Invoke stub funcName args).2 := by
  apply Invoke_cases (fun r => r.1.isSuccess = true → HistInv r.2)
  · intro hs; obtain ⟨p, hp⟩ := Response.isSuccess_pair hs; exact hI.after_userRegister hp
  · intro hs; obtain ⟨p, hp⟩ := Response.isSuccess_pair hs; exact hI.after_userDestroy hp
  · intro hs; obtain ⟨p, hp⟩ := Response.isSuccess_pair hs; exact hI.after_ingredientEnroll hp
  · intro hs; obtain ⟨p, hp⟩ := Response.isSuccess_pair hs; exact hI.after_foodEnroll hp
  · intro hs; obtain ⟨p, hp⟩ := Response.isSuccess_pair hs; exact hI.after_ingredientExchange hp
  · intro hs; obtain ⟨p, hp⟩ := Response.isSuccess_pair hs; exact hI.after_foodExchange hp
  · intro hs; obtain ⟨p, hp⟩ := Response.isSuccess_pair hs
    exact hI.after_ingredientExchangeFood hp
  · intro _; rw [queryUser_ledger]; exact hI
  · intro _; rw [queryIngredient_ledger]; exact hI
  · intro _; rw [queryFood_ledger]; exact hI
  · intro _; rw [queryIngredientHistory_ledger]; exact hI
  · intro _; rw [queryFoodHistory_ledger]; exact hI
  · intro _; exact hI

theorem HistInv.after_commit {ledger : Ledger} (hI : HistInv ledger) (funcName : String)
    (args : List String) : HistInv (commit ledger funcName args) := by
  unfold FabricFood.commit
  split_ifs with hs
  · exact hI.after_Invoke funcName args hs
  · exact hI

theorem Reachable.histInv {ledger : Ledger} (h : Reachable ledger) : HistInv ledger := by
  induction h with
  | empty => exact HistInv.of_empty
  | step ledger funcName args _ ih => exact ih.after_commit funcName args


/-! ## The keys of a range -/

/-- A key of the range of a partial key continues that partial key. -/
theorem keyLt_range_append (p k : List Char) (h1 : keyLt k p = false)
    (h2 : keyLt k (p ++ [maxUnicodeRuneValue]) = true) : ∃ r, k = p ++ r := by
  induction p generalizing k with
  | nil => exact ⟨k, rfl⟩
  | cons x p ih =>
    cases k with
    | nil => simp [keyLt] at h1
    | cons y k =>
      simp only [keyLt, Bool.or_eq_false_iff, decide_eq_false_iff_not, Bool.and_eq_false_imp,
        decide_eq_true_eq] at h1
      simp only [List.cons_append, keyLt, Bool.or_eq_true, decide_eq_true_eq,
        Bool.and_eq_true] at h2
      rcases h2 with h2 | ⟨h2, h3⟩
      · exact absurd h2 h1.1
      · subst h2
        obtain ⟨r, hr⟩ := ih k (h1.2 rfl) h3
        exact ⟨r, by rw [hr]; rfl⟩

theorem inHistoryRange_append {p : List Char} {e : String × Bytes}
    (h : inHistoryRange p e = true) : ∃ r, e.1.data = p ++ r := by
  simp only [inHistoryRange, Bool.and_eq_true, Bool.not_eq_true'] at h
  exact keyLt_range_append p e.1.data h.1 h.2

/-- A key that continues a partial key with a character other than U+10FFFF
is in its range. -/
theorem inHistoryRange_of_append {p : List Char} {k : String} (value : Bytes) {c : Char}
    {r : List Char} (hk : k.data = p ++ c :: r) (hc : c ≠ maxUnicodeRuneValue) :
    inHistoryRange p (k, value) = true := by
  simp only [inHistoryRange, hk, keyLt_append_self, Bool.not_false, Bool.true_and]
  exact keyLt_append_lt _ _ _ _ (char_lt_max hc)

/-- Two lists cut at their first separator: the parts before it and the parts
after it are the same. -/
theorem split_at_separator {sep : Char} {x y r s : List Char} (hx : sep ∉ x) (hy : sep ∉ y)
    (h : x ++ sep :: r = y ++ sep :: s) : x = y ∧ r = s := by
  induction x generalizing y with
  | nil =>
    cases y with
    | nil => simpa using h
    | cons b y =>
      simp only [List.nil_append, List.cons_append, List.cons.injEq] at h
      exact absurd (h.1 ▸ List.mem_cons_self _ _) hy
  | cons a x ih =>
    cases y with
    | nil =>
      simp only [List.nil_append, List.cons_append, List.cons.injEq] at h
      exact absurd (h.1 ▸ List.mem_cons_self _ _) hx
    | cons b y =>
      simp only [List.cons_append, List.cons.injEq] at h
      obtain ⟨e1, e2⟩ := ih (fun hm => hx (List.mem_cons_of_mem _ hm))
        (fun hm => hy (List.mem_cons_of_mem _ hm)) h.2
      exact ⟨by rw [h.1, e1], e2⟩

/-- The asset of a history key that continues the partial key of `id`. -/
theorem historyPrefix_split {a id : String} {t r : List Char}
    (ha : minUnicodeRuneValue ∉ a.data) (hid : minUnicodeRuneValue ∉ id.data)
    (h : historyPrefix a ++ t = historyPrefix id ++ r) : a = id ∧ t = r := by
  simp only [historyPrefix, List.cons_append, List.append_assoc, List.cons.injEq, true_and,
    List.append_cancel_left_eq, List.nil_append] at h
  obtain ⟨e1, e2⟩ := split_at_separator ha hid h
  exact ⟨String.ext e1, e2⟩

theorem unmarshalIngredientHistory_food (h : FoodHistory) :
    unmarshalIngredientHistory (marshalFoodHistory h) =
      Except.ok ⟨"", h.OriginOwnerId, h.CurrentOwnerId⟩ := rfl

theorem unmarshalFoodHistory_ingredient (h : IngredientHistory) :
    unmarshalFoodHistory (marshalIngredientHistory h) =
      Except.ok ⟨"", h.OriginOwnerId, h.CurrentOwnerId⟩ := rfl

/-! ## The bindings of a history scan -/

theorem head_historyPrefix_append (id : String) (r : List Char) :
    (historyPrefix id ++ r).head? = some minUnicodeRuneValue := rfl

theorem head_enrollPrefix_append (id : String) (r : List Char) :
    (enrollPrefix id ++ r).head? = some minUnicodeRuneValue := rfl

/-- A binding of the range of the history of `id`, in a ledger that holds the
bindings that the program writes, is a history record of `id` under its
composite key. -/
theorem EntryOK.of_range {e : String × Bytes} (hok : EntryOK e) {id : String}
    (hid : minUnicodeRuneValue ∉ id.data)
    (hr : inHistoryRange (historyPrefix id) e = true) :
    ∃ o c, CreateCompositeKey "history" [id, o, c] = Except.ok e.1 ∧
      e.1.data = historyPrefix id ++ pairKey o c ∧
      (e.2 = marshalIngredientHistory ⟨id, o, c⟩ ∨ e.2 = marshalFoodHistory ⟨id, o, c⟩) := by
  obtain ⟨r, hd⟩ := inHistoryRange_append hr
  have hh : e.1.data.head? = some minUnicodeRuneValue := by
    rw [hd]; exact head_historyPrefix_append id r
  rcases hok with ⟨x, hx⟩ | ⟨x, hx⟩ | ⟨x, hx⟩ | ⟨a, o, c, hkey, hv⟩
  · rw [hx, head_constructUserKey] at hh; exact absurd hh (by decide)
  · rw [hx, head_constructIngredientKey] at hh; exact absurd hh (by decide)
  · rw [hx, head_constructFoodKey] at hh; exact absurd hh (by decide)
  · obtain ⟨ha, -, -, hdata⟩ := CreateCompositeKey_three hkey
    rw [hd] at hdata
    obtain ⟨e1, e2⟩ := historyPrefix_split ha.1 hid hdata.symm
    subst e1
    exact ⟨o, c, hkey, by rw [hd, ← e2]; rfl, hv⟩

/-- A binding of the range of the enrollment records of `id` is a history
record of `id` whose origin owner is `originOwner`. -/
theorem EntryOK.of_enroll_range {e : String × Bytes} (hok : EntryOK e) {id : String}
    (hid : minUnicodeRuneValue ∉ id.data)
    (hr : inHistoryRange (enrollPrefix id) e = true) :
    ∃ c, CreateCompositeKey "history" [id, originOwner, c] = Except.ok e.1 ∧
      (e.2 = marshalIngredientHistory ⟨id, originOwner, c⟩ ∨
        e.2 = marshalFoodHistory ⟨id, originOwner, c⟩) := by
  obtain ⟨r, hd⟩ := inHistoryRange_append hr
  have hh : e.1.data.head? = some minUnicodeRuneValue := by
    rw [hd]; exact head_enrollPrefix_append id r
  rcases hok with ⟨x, hx⟩ | ⟨x, hx⟩ | ⟨x, hx⟩ | ⟨a, o, c, hkey, hv⟩
  · rw [hx, head_constructUserKey] at hh; exact absurd hh (by decide)
  · rw [hx, head_constructIngredientKey] at hh; exact absurd hh (by decide)
  · rw [hx, head_constructFoodKey] at hh; exact absurd hh (by decide)
  · obtain ⟨ha, ho, -, hdata⟩ := CreateCompositeKey_three hkey
    rw [hd, enrollPrefix, List.append_assoc] at hdata
    obtain ⟨e1, e2⟩ := historyPrefix_split ha.1 hid hdata.symm
    subst e1
    simp only [List.append_assoc, List.singleton_append] at e2
    obtain ⟨e3, -⟩ := split_at_separator ho.1 (by decide) e2
    have e4 : o = originOwner := String.ext e3
    subst e4
    exact ⟨c, hkey, hv⟩

/-- The composite key of an enrollment record is in the range of the
enrollment records of its asset. -/
theorem inHistoryRange_enroll {id c key : String} (value : Bytes)
    (h : CreateCompositeKey "history" [id, originOwner, c] = Except.ok key) :
    inHistoryRange (enrollPrefix id) (key, value) = true := by
  obtain ⟨-, -, hc, hd⟩ := CreateCompositeKey_three h
  cases hcd : c.data with
  | nil =>
    refine inHistoryRange_of_append value (c := minUnicodeRuneValue) (r := []) ?_ (by decide)
    rw [hd, hcd, enrollPrefix]; simp
  | cons x xs =>
    refine inHistoryRange_of_append value (c := x) (r := xs ++ [minUnicodeRuneValue]) ?_ ?_
    · rw [hd, hcd, enrollPrefix]; simp
    · intro e
      apply hc.2
      rw [hcd, e]
      exact List.mem_cons_self _ _

/-- The partial composite key of the enrollment records of an asset whose id
is a valid attribute. -/
theorem CreateCompositeKey_enroll {id : String}
    (hid : minUnicodeRuneValue ∉ id.data ∧ maxUnicodeRuneValue ∉ id.data) :
    ∃ p, CreateCompositeKey "history" [id, originOwner] = Except.ok p ∧
      p.data = enrollPrefix id := by
  have hv : validateCompositeKeyAttribute id = Except.ok () := (validate_ok_iff _).2 hid
  have hh : validateCompositeKeyAttribute "history" = Except.ok () :=
    (validate_ok_iff _).2 (by decide)
  have ho : validateCompositeKeyAttribute originOwner = Except.ok () :=
    (validate_ok_iff _).2 (by decide)
  refine ⟨compositeKeyNamespace ++ "history" ++ String.singleton minUnicodeRuneValue ++ id ++
    String.singleton minUnicodeRuneValue ++ originOwner ++ String.singleton minUnicodeRuneValue,
    ?_, ?_⟩
  · simp only [CreateCompositeKey, hh, appendAttributes, hv, ho]
  · simp [enrollPrefix, historyPrefix, compositeKeyNamespace, String.data_append,
      String.singleton]

/-- The composite key of three attributes determines the attributes. -/
theorem CreateCompositeKey_inj {a o c a1 o1 c1 key : String}
    (h : CreateCompositeKey "history" [a, o, c] = Except.ok key)
    (h1 : CreateCompositeKey "history" [a1, o1, c1] = Except.ok key) :
    a = a1 ∧ o = o1 ∧ c = c1 := by
  obtain ⟨ha, ho, hc, hd⟩ := CreateCompositeKey_three h
  obtain ⟨ha1, ho1, hc1, hd1⟩ := CreateCompositeKey_three h1
  rw [hd] at hd1
  obtain ⟨e1, e2⟩ := historyPrefix_split ha.1 ha1.1 hd1
  obtain ⟨e3, e4⟩ := split_at_separator ho.1 ho1.1 e2
  obtain ⟨e5, -⟩ := split_at_separator hc.1 hc1.1 e4
  exact ⟨e1, String.ext e3, String.ext e5⟩


/-! ## The records of a history query -/

/-- The loop of `queryIngredientHistory`, for a query type other than
`exchange`, returns the decoded values in the order of the iterator. -/
theorem collect_eq_map {queryType : String} (hq : queryType ≠ "exchange")
    (result : List (String × Bytes)) (acc hs : List IngredientHistory)
    (h : collectIngredientHistories queryType result acc = Except.ok hs) :
    hs = acc ++ result.map (fun e => decodeIngredientHistory e.2) := by
  induction result generalizing acc with
  | nil =>
    simp only [collectIngredientHistories, Except.ok.injEq] at h
    simp [h]
  | cons hd tl ih =>
    obtain ⟨k, v⟩ := hd
    unfold collectIngredientHistories at h
    cases hu : unmarshalIngredientHistory v with
    | error e => simp [hu] at h
    | ok history =>
      simp only [hu] at h
      rw [if_neg (by simp [hq])] at h
      rw [ih _ h]
      simp [decodeIngredientHistory, hu]

theorem collectFood_eq_map {queryType : String} (hq : queryType ≠ "exchange")
    (result : List (String × Bytes)) (acc hs : List FoodHistory)
    (h : collectFoodHistories queryType result acc = Except.ok hs) :
    hs = acc ++ result.map (fun e => decodeFoodHistory e.2) := by
  induction result generalizing acc with
  | nil =>
    simp only [collectFoodHistories, Except.ok.injEq] at h
    simp [h]
  | cons hd tl ih =>
    obtain ⟨k, v⟩ := hd
    unfold collectFoodHistories at h
    cases hu : unmarshalFoodHistory v with
    | error e => simp [hu] at h
    | ok history =>
      simp only [hu] at h
      rw [if_neg (by simp [hq])] at h
      rw [ih _ h]
      simp [decodeFoodHistory, hu]

/-- The loop of `queryFoodHistory` succeeds on values that decode. -/
theorem collectFood_ok (queryType : String) (result : List (String × Bytes))
    (acc : List FoodHistory)
    (h : ∀ e ∈ result, ∃ history, unmarshalFoodHistory e.2 = Except.ok history) :
    ∃ histories, collectFoodHistories queryType result acc = Except.ok histories := by
  induction result generalizing acc with
  | nil => exact ⟨acc, rfl⟩
  | cons hd tl ih =>
    obtain ⟨k, v⟩ := hd
    obtain ⟨history, hh⟩ := h (k, v) (List.mem_cons_self _ _)
    have htl := fun e he => h e (List.mem_cons_of_mem _ he)
    unfold collectFoodHistories
    simp only [hh]
    split_ifs
    · exact ih acc htl
    · exact ih _ htl

/-- The decoding of the history record of three attributes, as an ingredient
history: the origin and current owner are the attributes. -/
theorem decodeIngredientHistory_of {value : Bytes} {a o c : String}
    (h : value = marshalIngredientHistory ⟨a, o, c⟩ ∨ value = marshalFoodHistory ⟨a, o, c⟩) :
    unmarshalIngredientHistory value = Except.ok (decodeIngredientHistory value) ∧
      (decodeIngredientHistory value).OriginOwnerId = o ∧
      (decodeIngredientHistory value).CurrentOwnerId = c := by
  rcases h with rfl | rfl
  · exact ⟨rfl, rfl, rfl⟩
  · exact ⟨rfl, rfl, rfl⟩

theorem decodeFoodHistory_of {value : Bytes} {a o c : String}
    (h : value = marshalIngredientHistory ⟨a, o, c⟩ ∨ value = marshalFoodHistory ⟨a, o, c⟩) :
    unmarshalFoodHistory value = Except.ok (decodeFoodHistory value) ∧
      (decodeFoodHistory value).OriginOwnerId = o ∧
      (decodeFoodHistory value).CurrentOwnerId = c := by
  rcases h with rfl | rfl
  · exact ⟨rfl, rfl, rfl⟩
  · exact ⟨rfl, rfl, rfl⟩

/-- The scan of `queryIngredientHistory` and `queryFoodHistory` for the type
`enroll`, on an asset that has an enrollment record. -/
theorem scan_enroll (stub : Ledger) {id : String} (h : HasEnrollment stub id) :
    stub.GetStateByPartialCompositeKey "history" [id, originOwner] =
      Except.ok (stub.entries.filter (inHistoryRange (enrollPrefix id))) := by
  obtain ⟨-, owner, key, hkey, -⟩ := h
  obtain ⟨ha, -, -, -⟩ := CreateCompositeKey_three hkey
  obtain ⟨p, hp, hd⟩ := CreateCompositeKey_enroll ha
  simp only [Ledger.GetStateByPartialCompositeKey, hp, GetStateByRange_eq, hd]

/-- The scan of `queryIngredientHistory` and `queryFoodHistory` for the types
`all` and `exchange`, on an asset that has an enrollment record. -/
theorem scan_all (stub : Ledger) {id : String} (h : HasEnrollment stub id) :
    stub.GetStateByPartialCompositeKey "history" [id] =
      Except.ok (stub.entries.filter (inHistoryRange (historyPrefix id))) := by
  obtain ⟨-, owner, key, hkey, -⟩ := h
  obtain ⟨p, hp, hd⟩ := CreateCompositeKey_one_of_three hkey
  simp only [Ledger.GetStateByPartialCompositeKey, hp, GetStateByRange_eq, hd]

theorem HasEnrollment.valid {stub : Ledger} {id : String} (h : HasEnrollment stub id) :
    minUnicodeRuneValue ∉ id.data := by
  obtain ⟨-, owner, key, hkey, -⟩ := h
  exact (CreateCompositeKey_three hkey).1.1


/-- In bindings in key order a binding is the one that `lookupKV` reads. -/
theorem lookupKV_of_mem {l : List (String × Bytes)}
    (hl : l.Pairwise (fun a b => keyLt a.1.data b.1.data = true)) {key : String} {value : Bytes}
    (h : (key, value) ∈ l) : lookupKV key l = some value := by
  induction l with
  | nil => cases h
  | cons hd tl ih =>
    obtain ⟨k, v⟩ := hd
    rw [List.pairwise_cons] at hl
    unfold lookupKV
    rcases List.mem_cons.1 h with h | h
    · cases h; simp
    · have hlt := hl.1 _ h
      have hne : k ≠ key := by
        rintro rfl
        simp [keyLt_irrefl] at hlt
      rw [if_neg hne]
      exact ih hl.2 h

theorem GetState_of_mem {stub : Ledger} (hwf : stub.WF) {key : String} {value : Bytes}
    (h : (key, value) ∈ stub.entries) : stub.GetState key = some value :=
  lookupKV_of_mem hwf h

theorem keyLt_append_left (a x y : List Char) : keyLt (a ++ x) (a ++ y) = keyLt x y := by
  induction a with
  | nil => rfl
  | cons c cs ih => simp [keyLt, ih]

/-- The enrollment query of an ingredient, on a ledger with the invariant of
the history records. -/
theorem enroll_query_ingredient {stub : Ledger} (hI : HistInv stub) {id : String}
    (hst : stub.GetState (constructIngredientKey id) ≠ none) :
    ∃ hs, queryIngredientHistory stub [id, "enroll"] =
        (Response.Success (some (marshalIngredientHistories hs)), stub) ∧
      EnrollmentList stub id unmarshalIngredientHistory IngredientHistory.OriginOwnerId
        IngredientHistory.CurrentOwnerId hs := by
  have he := hI.ingredient_enrolled id hst
  have hvalid := he.valid
  have he0 := he
  obtain ⟨hid, owner, key, hkey, hv⟩ := he0
  have hres : ∀ e ∈ stub.entries.filter (inHistoryRange (enrollPrefix id)),
      ∃ c, CreateCompositeKey "history" [id, originOwner, c] = Except.ok e.1 ∧
        (e.2 = marshalIngredientHistory ⟨id, originOwner, c⟩ ∨
          e.2 = marshalFoodHistory ⟨id, originOwner, c⟩) := by
    intro e hm
    obtain ⟨h1, h2⟩ := List.mem_filter.1 hm
    exact (hI.entries_ok e h1).of_enroll_range hvalid h2
  have hdec : ∀ e ∈ stub.entries.filter (inHistoryRange (enrollPrefix id)),
      ∃ history, unmarshalIngredientHistory e.2 = Except.ok history := by
    intro e hm
    obtain ⟨c, -, hval⟩ := hres e hm
    exact ⟨_, (decodeIngredientHistory_of hval).1⟩
  obtain ⟨hs, hc, -⟩ := collect_ok "enroll" _ [] hdec
  have hmap := collect_eq_map (by decide) _ [] hs hc
  simp only [List.nil_append] at hmap
  have hsorted : (stub.entries.filter (inHistoryRange (enrollPrefix id))).Pairwise
      (fun a b => keyLt a.1.data b.1.data = true) := List.Pairwise.filter _ hI.wf
  refine ⟨hs, ?_, ?_, ?_, ?_, ?_⟩
  · cases hb : stub.GetState (constructIngredientKey id) with
    | none => exact absurd hb hst
    | some bytes =>
      simp [queryIngredientHistory, queryIngredientHistoryBody, hid, hb, scan_enroll stub he, hc]
  · cases hb : stub.GetState key with
    | none => exact absurd hb hv
    | some value =>
      have hm : (key, value) ∈ stub.entries.filter (inHistoryRange (enrollPrefix id)) :=
        List.mem_filter.2 ⟨lookupKV_mem hb, inHistoryRange_enroll value hkey⟩
      rw [hmap, List.length_map]
      exact List.length_pos_of_mem hm
  · rw [hmap, List.map_map]
    unfold List.Nodup
    rw [List.pairwise_map]
    refine List.Pairwise.imp_of_mem ?_ hsorted
    intro e1 e2 h1 h2 hlt heq
    obtain ⟨c1, hk1, hv1⟩ := hres e1 h1
    obtain ⟨c2, hk2, hv2⟩ := hres e2 h2
    simp only [Function.comp_apply, (decodeIngredientHistory_of hv1).2.2,
      (decodeIngredientHistory_of hv2).2.2] at heq
    subst heq
    rw [hk1] at hk2
    rw [Except.ok.inj hk2, keyLt_irrefl] at hlt
    cases hlt
  · intro h hm
    rw [hmap] at hm
    obtain ⟨e, he1, rfl⟩ := List.mem_map.1 hm
    obtain ⟨c, hk, hval⟩ := hres e he1
    obtain ⟨d1, d2, d3⟩ := decodeIngredientHistory_of hval
    refine ⟨d2, e.1, e.2, by rw [d3]; exact hk, ?_, d1⟩
    exact GetState_of_mem hI.wf (List.mem_filter.1 he1).1
  · intro c key1 hk1 hv1
    cases hb : stub.GetState key1 with
    | none => exact absurd hb hv1
    | some value =>
      have hm : (key1, value) ∈ stub.entries.filter (inHistoryRange (enrollPrefix id)) :=
        List.mem_filter.2 ⟨lookupKV_mem hb, inHistoryRange_enroll value hk1⟩
      obtain ⟨c1, hk, hval⟩ := hres _ hm
      obtain ⟨-, -, rfl⟩ := CreateCompositeKey_inj hk hk1
      rw [hmap, List.map_map]
      refine List.mem_map.2 ⟨(key1, value), hm, ?_⟩
      exact (decodeIngredientHistory_of hval).2.2

/-- The enrollment query of a food, on a ledger with the invariant of
the history records. -/
theorem enroll_query_food {stub : Ledger} (hI : HistInv stub) {id : String}
    (hst : stub.GetState (constructFoodKey id) ≠ none) :
    ∃ hs, queryFoodHistory stub [id, "enroll"] =
        (Response.Success (some (marshalFoodHistories hs)), stub) ∧
      EnrollmentList stub id unmarshalFoodHistory FoodHistory.OriginOwnerId
        FoodHistory.CurrentOwnerId hs := by
  have he := hI.food_enrolled id hst
  have hvalid := he.valid
  have he0 := he
  obtain ⟨hid, owner, key, hkey, hv⟩ := he0
  have hres : ∀ e ∈ stub.entries.filter (inHistoryRange (enrollPrefix id)),
      ∃ c, CreateCompositeKey "history" [id, originOwner, c] = Except.ok e.1 ∧
        (e.2 = marshalIngredientHistory ⟨id, originOwner, c⟩ ∨
          e.2 = marshalFoodHistory ⟨id, originOwner, c⟩) := by
    intro e hm
    obtain ⟨h1, h2⟩ := List.mem_filter.1 hm
    exact (hI.entries_ok e h1).of_enroll_range hvalid h2
  have hdec : ∀ e ∈ stub.entries.filter (inHistoryRange (enrollPrefix id)),
      ∃ history, unmarshalFoodHistory e.2 = Except.ok history := by
    intro e hm
    obtain ⟨c, -, hval⟩ := hres e hm
    exact ⟨_, (decodeFoodHistory_of hval).1⟩
  obtain ⟨hs, hc⟩ := collectFood_ok "enroll" _ [] hdec
  have hmap := collectFood_eq_map (by decide) _ [] hs hc
  simp only [List.nil_append] at hmap
  have hsorted : (stub.entries.filter (inHistoryRange (enrollPrefix id))).Pairwise
      (fun a b => keyLt a.1.data b.1.data = true) := List.Pairwise.filter _ hI.wf
  refine ⟨hs, ?_, ?_, ?_, ?_, ?_⟩
  · cases hb : stub.GetState (constructFoodKey id) with
    | none => exact absurd hb hst
    | some bytes =>
      simp [queryFoodHistory, queryFoodHistoryBody, hid, hb, scan_enroll stub he, hc]
  · cases hb : stub.GetState key with
    | none => exact absurd hb hv
    | some value =>
      have hm : (key, value) ∈ stub.entries.filter (inHistoryRange (enrollPrefix id)) :=
        List.mem_filter.2 ⟨lookupKV_mem hb, inHistoryRange_enroll value hkey⟩
      rw [hmap, List.length_map]
      exact List.length_pos_of_mem hm
  · rw [hmap, List.map_map]
    unfold List.Nodup
    rw [List.pairwise_map]
    refine List.Pairwise.imp_of_mem ?_ hsorted
    intro e1 e2 h1 h2 hlt heq
    obtain ⟨c1, hk1, hv1⟩ := hres e1 h1
    obtain ⟨c2, hk2, hv2⟩ := hres e2 h2
    simp only [Function.comp_apply, (decodeFoodHistory_of hv1).2.2,
      (decodeFoodHistory_of hv2).2.2] at heq
    subst heq
    rw [hk1] at hk2
    rw [Except.ok.inj hk2, keyLt_irrefl] at hlt
    cases hlt
  · intro h hm
    rw [hmap] at hm
    obtain ⟨e, he1, rfl⟩ := List.mem_map.1 hm
    obtain ⟨c, hk, hval⟩ := hres e he1
    obtain ⟨d1, d2, d3⟩ := decodeFoodHistory_of hval
    refine ⟨d2, e.1, e.2, by rw [d3]; exact hk, ?_, d1⟩
    exact GetState_of_mem hI.wf (List.mem_filter.1 he1).1
  · intro c key1 hk1 hv1
    cases hb : stub.GetState key1 with
    | none => exact absurd hb hv1
    | some value =>
      have hm : (key1, value) ∈ stub.entries.filter (inHistoryRange (enrollPrefix id)) :=
        List.mem_filter.2 ⟨lookupKV_mem hb, inHistoryRange_enroll value hk1⟩
      obtain ⟨c1, hk, hval⟩ := hres _ hm
      obtain ⟨-, -, rfl⟩ := CreateCompositeKey_inj hk hk1
      rw [hmap, List.map_map]
      refine List.mem_map.2 ⟨(key1, value), hm, ?_⟩
      exact (decodeFoodHistory_of hval).2.2


/-- A list without two records of the same current owner, whose records are
all the record `r0`, is the list of `r0` alone. -/
theorem eq_singleton_of_nodup {α : Type} (current : α → String) (r0 : α) (hs : List α)
    (hlen : 1 ≤ hs.length) (hnd : (hs.map current).Nodup) (hall : ∀ h ∈ hs, h = r0) :
    hs = [r0] := by
  cases hs with
  | nil => simp at hlen
  | cons a t =>
    have ha := hall a (List.mem_cons_self _ _)
    subst ha
    cases t with
    | nil => rfl
    | cons b t =>
      have hb := hall b (List.mem_cons_of_mem _ (List.mem_cons_self _ _))
      subst hb
      simp at hnd

/-- The enrollment query after the first enrollment of an ingredient. -/
theorem enroll_query_first_ingredient {stub stub1 : Ledger} (hI : HistInv stub)
    {name id metadata ownerId : String} {payload : Option Bytes}
    (h : ingredientEnroll stub [name, id, metadata, ownerId] = (Response.Success payload, stub1))
    (hnone : ∀ c key, CreateCompositeKey "history" [id, originOwner, c] = Except.ok key →
      stub.GetState key = none) :
    queryIngredientHistory stub1 [id, "enroll"] =
      (Response.Success (some (marshalIngredientHistories [⟨id, originOwner, ownerId⟩])),
        stub1) := by
  have hI1 := hI.after_ingredientEnroll h
  obtain ⟨n, x, m, o, userBytes, user0, historyKey, ha, -, -, -, -, -, -, hkey, -, hst⟩ :=
    ingredientEnroll_success h
  simp only [List.cons.injEq, and_true] at ha
  obtain ⟨rfl, rfl, rfl, rfl⟩ := ha
  have hstored : stub1.GetState (constructIngredientKey id) ≠ none := by
    rw [hst]
    simp [GetState_PutState, (compositeKey_ne_ingredient hkey _).symm,
      fun a b => (user_ne_ingredient a b).symm]
  obtain ⟨hs, hq, hlen, hnd, hrec, -⟩ := enroll_query_ingredient hI1 hstored
  rw [hq]
  have hall : ∀ r ∈ hs, r = ⟨id, originOwner, ownerId⟩ := by
    intro r hr
    obtain ⟨-, key, value, hk, hv, hu⟩ := hrec r hr
    have hne := hnone _ _ hk
    rw [hst] at hv
    simp only [GetState_PutState, compositeKey_ne_user hk, compositeKey_ne_ingredient hk,
      if_false, hne] at hv
    split_ifs at hv with e
    simp only [Option.some.injEq] at hv
    subst hv
    exact (Except.ok.inj hu).symm
  rw [eq_singleton_of_nodup IngredientHistory.CurrentOwnerId _ hs hlen hnd hall]

/-- The enrollment query after the first enrollment of a food. -/
theorem enroll_query_first_food {stub stub1 : Ledger} (hI : HistInv stub)
    {name id metadata ownerId : String} {payload : Option Bytes}
    (h : foodEnroll stub [name, id, metadata, ownerId] = (Response.Success payload, stub1))
    (hnone : ∀ c key, CreateCompositeKey "history" [id, originOwner, c] = Except.ok key →
      stub.GetState key = none) :
    queryFoodHistory stub1 [id, "enroll"] =
      (Response.Success (some (marshalFoodHistories [⟨id, originOwner, ownerId⟩])),
        stub1) := by
  have hI1 := hI.after_foodEnroll h
  obtain ⟨n, x, m, o, userBytes, user0, historyKey, ha, -, -, -, -, -, -, hkey, -, hst⟩ :=
    foodEnroll_success h
  simp only [List.cons.injEq, and_true] at ha
  obtain ⟨rfl, rfl, rfl, rfl⟩ := ha
  have hstored : stub1.GetState (constructFoodKey id) ≠ none := by
    rw [hst]
    simp [GetState_PutState, (compositeKey_ne_food hkey _).symm,
      fun a b => (user_ne_food a b).symm]
  obtain ⟨hs, hq, hlen, hnd, hrec, -⟩ := enroll_query_food hI1 hstored
  rw [hq]
  have hall : ∀ r ∈ hs, r = ⟨id, originOwner, ownerId⟩ := by
    intro r hr
    obtain ⟨-, key, value, hk, hv, hu⟩ := hrec r hr
    have hne := hnone _ _ hk
    rw [hst] at hv
    simp only [GetState_PutState, compositeKey_ne_user hk, compositeKey_ne_food hk,
      if_false, hne] at hv
    split_ifs at hv with e
    simp only [Option.some.injEq] at hv
    subst hv
    exact (Except.ok.inj hu).symm
  rw [eq_singleton_of_nodup FoodHistory.CurrentOwnerId _ hs hlen hnd hall]


/-! ## The enrollment records (C11) -/

/-- C11 as stated fails after a second enrollment: in the reachable ledger
`reEnrolled` the ingredient `x` was enrolled to `u1`, `u1` was destroyed (its
ingredients are deleted, the history is kept) and `x` was enrolled again, to
`u2`; the record of `x` is stored and `queryIngredientHistory(x, enroll)`
returns two records. -/
theorem re_enrollment_two_records :
    Reachable reEnrolled ∧ reEnrolled.GetState (constructIngredientKey "x") ≠ none ∧
      (queryIngredientHistory reEnrolled ["x", "enroll"]).1 =
        Response.Success (some (marshalIngredientHistories
          [⟨"x", originOwner, "u1"⟩, ⟨"x", originOwner, "u2"⟩])) ∧
      historyCount (queryIngredientHistory reEnrolled ["x", "enroll"]).1 = some 2 :=
  ⟨Reachable.run Reachable.empty _, by decide, by decide, by decide⟩

/-- C11 (amended), the enrollment records: in every reachable ledger state and
for every id with a stored ingredient record (resp. food record),
`queryIngredientHistory(id, enroll)` (resp. `queryFoodHistory(id, enroll)`)
succeeds and returns at least one record, and it returns one record for each
owner `c` such that a record is stored under the composite key `(id,
originOwner, c)`: the decoding of that record, whose origin owner is
`originOwner`. It returns exactly one record, `(id, originOwner, ownerId)`,
after a successful enrollment of `id` to `ownerId` on a reachable ledger state
in which no record is stored under a key `(id, originOwner, c)`. -/
theorem enrollment_records (ledger : Ledger) (hr : Reachable ledger) (id : String) :
    (ledger.GetState (constructIngredientKey id) ≠ none →
      ∃ hs, (queryIngredientHistory ledger [id, "enroll"]).1 =
          Response.Success (some (marshalIngredientHistories hs)) ∧
        EnrollmentList ledger id unmarshalIngredientHistory IngredientHistory.OriginOwnerId
          IngredientHistory.CurrentOwnerId hs) ∧
    (ledger.GetState (constructFoodKey id) ≠ none →
      ∃ hs, (queryFoodHistory ledger [id, "enroll"]).1 =
          Response.Success (some (marshalFoodHistories hs)) ∧
        EnrollmentList ledger id unmarshalFoodHistory FoodHistory.OriginOwnerId
          FoodHistory.CurrentOwnerId hs) ∧
    (∀ name metadata ownerId payload stub1,
      ingredientEnroll ledger [name, id, metadata, ownerId] =
        (Response.Success payload, stub1) →
      (∀ c key, CreateCompositeKey "history" [id, originOwner, c] = Except.ok key →
        ledger.GetState key = none) →
      (queryIngredientHistory stub1 [id, "enroll"]).1 =
        Response.Success (some (marshalIngredientHistories [⟨id, originOwner, ownerId⟩]))) ∧
    (∀ name metadata ownerId payload stub1,
      foodEnroll ledger [name, id, metadata, ownerId] = (Response.Success payload, stub1) →
      (∀ c key, CreateCompositeKey "history" [id, originOwner, c] = Except.ok key →
        ledger.GetState key = none) →
      (queryFoodHistory stub1 [id, "enroll"]).1 =
        Response.Success (some (marshalFoodHistories [⟨id, originOwner, ownerId⟩]))) := by
  refine ⟨?_, ?_, ?_, ?_⟩
  · intro hst
    obtain ⟨hs, hq, hl⟩ := enroll_query_ingredient hr.histInv hst
    exact ⟨hs, by rw [hq], hl⟩
  · intro hst
    obtain ⟨hs, hq, hl⟩ := enroll_query_food hr.histInv hst
    exact ⟨hs, by rw [hq], hl⟩
  · intro name metadata ownerId payload stub1 h hnone
    rw [enroll_query_first_ingredient hr.histInv h hnone]
  · intro name metadata ownerId payload stub1 h hnone
    rw [enroll_query_first_food hr.histInv h hnone]

/-- C11 at the scenario of the specification: `i1` is stored and its
enrollment query returns the list of its enrollment records; on the ledger of
the two users, which holds no history record, the enrollment of `i1` to `u1`
gives exactly the record `(i1, originOwner, u1)`. -/
theorem enrollment_records_witness :
    (Reachable scenario ∧ scenario.GetState (constructIngredientKey "i1") ≠ none ∧
      ∃ hs, (queryIngredientHistory scenario ["i1", "enroll"]).1 =
          Response.Success (some (marshalIngredientHistories hs)) ∧
        EnrollmentList scenario "i1" unmarshalIngredientHistory
          IngredientHistory.OriginOwnerId IngredientHistory.CurrentOwnerId hs) ∧
      (queryIngredientHistory (ingredientEnroll twoUsers ["Tomato", "i1", "organic", "u1"]).2
          ["i1", "enroll"]).1 =
        Response.Success (some (marshalIngredientHistories [⟨"i1", originOwner, "u1"⟩])) :=
  ⟨⟨Reachable.run Reachable.empty _, by decide,
      (enrollment_records scenario (Reachable.run Reachable.empty _) "i1").1 (by decide)⟩,
    (enrollment_records twoUsers (Reachable.run Reachable.empty _) "i1").2.2.1
      "Tomato" "organic" "u1" none
      (ingredientEnroll twoUsers ["Tomato", "i1", "organic", "u1"]).2 (by decide)
      (fun c key hk => by
        have e : twoUsers = ⟨[(constructUserKey "u1", marshalUser ⟨"Alice", "u1", [], []⟩),
            (constructUserKey "u2", marshalUser ⟨"Bob", "u2", [], []⟩)]⟩ := by decide
        rw [e]
        simp [Ledger.GetState, lookupKV, (compositeKey_ne_user hk _).symm])⟩

/-! ## The order of the history (C12) -/

/-- C12 as stated fails when the id of the first owner sorts before the
sentinel: in the reachable ledger `transferFromA` the ingredient `i1` was
enrolled to the user `a` and then transferred from `a` to `b`, and
`queryIngredientHistory(i1, all)` lists the record of the transfer first and
the enrollment record last. -/
theorem history_not_in_creation_order :
    Reachable transferFromA ∧
      (queryIngredientHistory transferFromA ["i1", "all"]).1 =
        Response.Success (some (marshalIngredientHistories
          [⟨"i1", "a", "b"⟩, ⟨"i1", originOwner, "a"⟩])) :=
  ⟨Reachable.run Reachable.empty _, by decide⟩

/-- C12 (amended), the history is returned in key order: in every reachable
ledger state and for every id on which `queryIngredientHistory(id, all)`
succeeds, every record of the returned list is the decoding of the value
stored under the composite key `(id, origin owner, current owner)` of its own
owners, and the list is in the strictly ascending order of these keys, that
is, of the characters of the origin owner, U+0000, the current owner, U+0000
(`pairKey`), whatever the order in which the operations that created the
records were executed. -/
theorem history_in_key_order (ledger : Ledger) (hr : Reachable ledger) (id : String)
    (hs : List IngredientHistory)
    (h : (queryIngredientHistory ledger [id, "all"]).1 =
      Response.Success (some (marshalIngredientHistories hs))) :
    hs.Pairwise (fun r1 r2 =>
        keyLt (pairKey r1.OriginOwnerId r1.CurrentOwnerId)
          (pairKey r2.OriginOwnerId r2.CurrentOwnerId) = true) ∧
      ∀ r ∈ hs, ∃ key value,
        CreateCompositeKey "history" [id, r.OriginOwnerId, r.CurrentOwnerId] = Except.ok key ∧
        key.data = historyPrefix id ++ pairKey r.OriginOwnerId r.CurrentOwnerId ∧
        ledger.GetState key = some value ∧ unmarshalIngredientHistory value = Except.ok r := by
  have hI := hr.histInv
  by_cases hid : id = ""
  · simp [queryIngredientHistory, queryIngredientHistoryBody, hid] at h
  cases hb : ledger.GetState (constructIngredientKey id) with
  | none => simp [queryIngredientHistory, queryIngredientHistoryBody, hid, hb] at h
  | some bytes =>
    have he := hI.ingredient_enrolled id (by rw [hb]; simp)
    have hres : ∀ e ∈ ledger.entries.filter (inHistoryRange (historyPrefix id)),
        ∃ o c, CreateCompositeKey "history" [id, o, c] = Except.ok e.1 ∧
          e.1.data = historyPrefix id ++ pairKey o c ∧
          (e.2 = marshalIngredientHistory ⟨id, o, c⟩ ∨ e.2 = marshalFoodHistory ⟨id, o, c⟩) := by
      intro e hm
      obtain ⟨h1, h2⟩ := List.mem_filter.1 hm
      exact (hI.entries_ok e h1).of_range he.valid h2
    cases hc : collectIngredientHistories "all"
        (ledger.entries.filter (inHistoryRange (historyPrefix id))) [] with
    | error e =>
      simp [queryIngredientHistory, queryIngredientHistoryBody, hid, hb, scan_all ledger he, hc]
        at h
    | ok hs1 =>
      have hq : queryIngredientHistory ledger [id, "all"] =
          (Response.Success (some (marshalIngredientHistories hs1)), ledger) := by
        simp [queryIngredientHistory, queryIngredientHistoryBody, hid, hb, scan_all ledger he,
          hc]
      rw [hq] at h
      simp only [Response.Success.injEq, Option.some.injEq] at h
      have := marshalIngredientHistories_inj h
      subst this
      have hmap := collect_eq_map (by decide) _ [] hs1 hc
      simp only [List.nil_append] at hmap
      have hsorted : (ledger.entries.filter (inHistoryRange (historyPrefix id))).Pairwise
          (fun a b => keyLt a.1.data b.1.data = true) := List.Pairwise.filter _ hI.wf
      constructor
      · rw [hmap, List.pairwise_map]
        refine List.Pairwise.imp_of_mem ?_ hsorted
        intro e1 e2 h1 h2 hlt
        obtain ⟨o1, c1, -, hd1, hv1⟩ := hres e1 h1
        obtain ⟨o2, c2, -, hd2, hv2⟩ := hres e2 h2
        rw [hd1, hd2, keyLt_append_left] at hlt
        rw [(decodeIngredientHistory_of hv1).2.1, (decodeIngredientHistory_of hv1).2.2,
          (decodeIngredientHistory_of hv2).2.1, (decodeIngredientHistory_of hv2).2.2]
        exact hlt
      · intro r hm
        rw [hmap] at hm
        obtain ⟨e, he1, rfl⟩ := List.mem_map.1 hm
        obtain ⟨o, c, hk, hd, hval⟩ := hres e he1
        obtain ⟨d1, d2, d3⟩ := decodeIngredientHistory_of hval
        refine ⟨e.1, e.2, by rw [d2, d3]; exact hk, by rw [d2, d3]; exact hd, ?_, d1⟩
        exact GetState_of_mem hI.wf (List.mem_filter.1 he1).1

/-- C12 at the ledger `transferFromA`: the transfer from `a` to `b` is listed
before the enrollment to `a`, in the order of the keys. -/
theorem history_in_key_order_witness :
    Reachable transferFromA ∧
      [(⟨"i1", "a", "b"⟩ : IngredientHistory), ⟨"i1", originOwner, "a"⟩].Pairwise
        (fun r1 r2 => keyLt (pairKey r1.OriginOwnerId r1.CurrentOwnerId)
          (pairKey r2.OriginOwnerId r2.CurrentOwnerId) = true) :=
  ⟨Reachable.run Reachable.empty _,
    (history_in_key_order transferFromA (Reachable.run Reachable.empty _) "i1"
      [⟨"i1", "a", "b"⟩, ⟨"i1", originOwner, "a"⟩] (by decide)).1⟩

/-! ## The sentinel as a user id (C14) -/

/-- C14 fails in the code: nothing stops the registration of a user under the
id `originPlaceholder`, the value of `originOwner`. In the reachable ledger
`sentinelUser` that user is stored, the transfer of `i1` from that user to
`u2` succeeded and its history record has the sentinel as origin owner; the
query of type `exchange`, whose filter is meant to drop the records that are
not transfers, returns no record, and the query of type `enroll` returns the
record of the transfer next to the enrollment record. -/
theorem sentinel_is_a_user_id :
    Reachable sentinelUser ∧
      sentinelUser.GetState (constructUserKey originOwner) =
        some (marshalUser ⟨"Eve", originOwner, [], []⟩) ∧
      (ingredientExchange sentinelEnrolled ["originPlaceholder", "i1", "u2"]).1 =
        Response.Success none ∧
      sentinelUser.GetState "\x00history\x00i1\x00originPlaceholder\x00u2\x00" =
        some (marshalIngredientHistory ⟨"i1", originOwner, "u2"⟩) ∧
      (queryIngredientHistory sentinelUser ["i1", "exchange"]).1 =
        Response.Success (some (marshalIngredientHistories [])) ∧
      (queryIngredientHistory sentinelUser ["i1", "enroll"]).1 =
        Response.Success (some (marshalIngredientHistories
          [⟨"i1", originOwner, "originPlaceholder"⟩, ⟨"i1", originOwner, "u2"⟩])) :=
  ⟨Reachable.step _ _ _ (Reachable.run Reachable.empty _), by decide, by decide, by decide,
    by decide, by decide⟩


/-! ## The foods of the users are stored -/

theorem userFoods_of {ledger : Ledger} {id : String} {bytes : Bytes} {user : User}
    (h : ledger.GetState (constructUserKey id) = some bytes)
    (hu : unmarshalUser bytes = Except.ok user) : userFoods ledger id = user.Foods := by
  simp [userFoods, h, hu]

theorem userFoods_put_user (s : Ledger) (a : String) (u : User) (id : String) :
    userFoods (s.PutState (constructUserKey a) (marshalUser u)) id =
      if id = a then u.Foods else userFoods s id := by
  by_cases h : id = a
  · simp [userFoods, GetState_PutState, h, unmarshalUser_marshalUser]
  · simp [userFoods, GetState_PutState, constructUserKey_inj, h]

theorem userFoods_put_other (s : Ledger) {key : String} (hk : ∀ a, constructUserKey a ≠ key)
    (v : Bytes) (id : String) : userFoods (s.PutState key v) id = userFoods s id := by
  simp [userFoods, GetState_PutState, hk]

theorem userFoods_del_user (s : Ledger) (a : String) (id : String) :
    userFoods (s.DelState (constructUserKey a)) id =
      if id = a then [] else userFoods s id := by
  by_cases h : id = a
  · simp [userFoods, GetState_DelState, h]
  · simp [userFoods, GetState_DelState, constructUserKey_inj, h]

theorem userFoods_deleteIngredients (s : Ledger) (ids : List String) (id : String) :
    userFoods (deleteIngredients s ids) id = userFoods s id := by
  have : (deleteIngredients s ids).GetState (constructUserKey id) =
      s.GetState (constructUserKey id) := by
    rw [GetState_deleteIngredients, if_neg]
    intro hm
    obtain ⟨b, -, hb⟩ := List.mem_map.1 hm
    exact user_ne_ingredient id b hb.symm
  simp [userFoods, this]

theorem stored_PutState {s : Ledger} {k : String} (h : s.GetState k ≠ none) (key : String)
    (v : Bytes) : (s.PutState key v).GetState k ≠ none := by
  rw [GetState_PutState]
  split_ifs
  · simp
  · exact h

/-- The foods of the users are stored after a call that deletes no food and
adds to the Foods lists only stored foods. -/
theorem FoodsStored.kept_by_step {s s1 : Ledger} (hF : FoodsStored s)
    (hfood : ∀ x, s.GetState (constructFoodKey x) ≠ none →
      s1.GetState (constructFoodKey x) ≠ none)
    (huser : ∀ id x, x ∈ userFoods s1 id →
      x ∈ userFoods s id ∨ s1.GetState (constructFoodKey x) ≠ none) : FoodsStored s1 := by
  intro id x hx
  rcases huser id x hx with h | h
  · exact hfood x (hF id x h)
  · exact h

theorem FoodsStored.at_empty : FoodsStored Ledger.empty := by
  intro id x hx
  simp [userFoods, Ledger.empty, Ledger.GetState, lookupKV] at hx

theorem FoodsStored.kept_by_userRegister {stub stub1 : Ledger} {args : List String}
    {payload : Option Bytes} (hF : FoodsStored stub)
    (h : userRegister stub args = (Response.Success payload, stub1)) : FoodsStored stub1 := by
  obtain ⟨name, id, -, -, -, -, -, rfl⟩ := userRegister_success h
  refine hF.kept_by_step (fun x hx => stored_PutState hx _ _) ?_
  intro a x hx
  rw [userFoods_put_user] at hx
  split_ifs at hx
  · cases hx
  · exact Or.inl hx

theorem FoodsStored.kept_by_userDestroy {stub stub1 : Ledger} {args : List String}
    {payload : Option Bytes} (hF : FoodsStored stub)
    (h : userDestroy stub args = (Response.Success payload, stub1)) : FoodsStored stub1 := by
  obtain ⟨id, userBytes, user, -, -, -, -, -, rfl⟩ := userDestroy_success h
  refine hF.kept_by_step ?_ ?_
  · intro x hx
    rw [GetState_deleteIngredients, if_neg, GetState_DelState,
      if_neg (fun e => user_ne_food _ _ e.symm)]
    · exact hx
    · intro hm
      obtain ⟨b, -, hb⟩ := List.mem_map.1 hm
      exact food_ne_ingredient x b hb.symm
  · intro a x hx
    rw [userFoods_deleteIngredients, userFoods_del_user] at hx
    split_ifs at hx
    · cases hx
    · exact Or.inl hx

theorem FoodsStored.kept_by_ingredientEnroll {stub stub1 : Ledger} {args : List String}
    {payload : Option Bytes} (hI : Inv stub) (hF : FoodsStored stub)
    (h : ingredientEnroll stub args = (Response.Success payload, stub1)) :
    FoodsStored stub1 := by
  obtain ⟨n, x, m, o, userBytes, user0, historyKey, -, -, -, -, hb0, -, hu0, hkey, -, rfl⟩ :=
    ingredientEnroll_success h
  obtain ⟨-, hown⟩ := hI.user_decode hb0 hu0
  have kU : ∀ a, constructUserKey a ≠ historyKey :=
    fun a => (compositeKey_ne_user hkey a).symm
  refine hF.kept_by_step
    (fun y hy => stored_PutState (stored_PutState (stored_PutState hy _ _) _ _) _ _) ?_
  intro a y hy
  rw [userFoods_put_other _ kU, userFoods_put_user, userFoods_put_other _
    (fun a => user_ne_ingredient a x)] at hy
  split_ifs at hy with e
  · left
    rw [e, hown, userFoods_of hb0 hu0]
    exact hy
  · exact Or.inl hy

theorem FoodsStored.kept_by_foodEnroll {stub stub1 : Ledger} {args : List String}
    {payload : Option Bytes} (hI : Inv stub) (hF : FoodsStored stub)
    (h : foodEnroll stub args = (Response.Success payload, stub1)) : FoodsStored stub1 := by
  obtain ⟨n, x, m, o, userBytes, user0, historyKey, -, -, -, -, hb0, -, hu0, hkey, -, rfl⟩ :=
    foodEnroll_success h
  obtain ⟨-, hown⟩ := hI.user_decode hb0 hu0
  have kU : ∀ a, constructUserKey a ≠ historyKey :=
    fun a => (compositeKey_ne_user hkey a).symm
  have kF : ∀ a, constructFoodKey a ≠ historyKey :=
    fun a => (compositeKey_ne_food hkey a).symm
  refine hF.kept_by_step
    (fun y hy => stored_PutState (stored_PutState (stored_PutState hy _ _) _ _) _ _) ?_
  intro a y hy
  rw [userFoods_put_other _ kU, userFoods_put_user, userFoods_put_other _
    (fun a => user_ne_food a x)] at hy
  split_ifs at hy with e
  · rcases List.mem_append.1 hy with hy | hy
    · left
      rw [e, hown, userFoods_of hb0 hu0]
      exact hy
    · right
      rw [List.mem_singleton] at hy
      subst hy
      simp [GetState_PutState, kF, fun a b => (user_ne_food a b).symm]
  · exact Or.inl hy

theorem FoodsStored.kept_by_ingredientExchange {stub stub1 : Ledger} {args : List String}
    {payload : Option Bytes} (hF : FoodsStored stub)
    (h : ingredientExchange stub args = (Response.Success payload, stub1)) :
    FoodsStored stub1 := by
  obtain ⟨o, x, c, b0, b1, u0, u1, historyKey, -, -, -, -, hb0, hb1, -, hu0, -, hu1, hkey, -,
    rfl⟩ := ingredientExchange_success h
  have kU : ∀ a, constructUserKey a ≠ historyKey :=
    fun a => (compositeKey_ne_user hkey a).symm
  refine hF.kept_by_step
    (fun y hy => stored_PutState (stored_PutState (stored_PutState hy _ _) _ _) _ _) ?_
  intro a y hy
  rw [userFoods_put_other _ kU, userFoods_put_user, userFoods_put_user] at hy
  left
  split_ifs at hy with e1 e2
  · rw [e1, userFoods_of hb1 hu1]; exact hy
  · rw [e2, userFoods_of hb0 hu0]; exact hy
  · exact hy

theorem FoodsStored.kept_by_ingredientExchangeFood {stub stub1 : Ledger} {args : List String}
    {payload : Option Bytes} (hF : FoodsStored stub)
    (h : ingredientExchangeFood stub args = (Response.Success payload, stub1)) :
    FoodsStored stub1 := by
  obtain ⟨o, x, c, b0, b1, u0, f1, historyKey, -, -, -, -, hb0, hb1, -, hu0, -, hu1, hkey, -,
    rfl⟩ := ingredientExchangeFood_success h
  have kU : ∀ a, constructUserKey a ≠ historyKey :=
    fun a => (compositeKey_ne_user hkey a).symm
  refine hF.kept_by_step
    (fun y hy => stored_PutState (stored_PutState (stored_PutState hy _ _) _ _) _ _) ?_
  intro a y hy
  rw [userFoods_put_other _ kU, userFoods_put_other _ (fun a => user_ne_food a c),
    userFoods_put_user] at hy
  left
  split_ifs at hy with e1
  · rw [e1, userFoods_of hb0 hu0]; exact hy
  · exact hy

theorem FoodsStored.kept_by_foodExchange {stub stub1 : Ledger} {args : List String}
    {payload : Option Bytes} (hF : FoodsStored stub)
    (h : foodExchange stub args = (Response.Success payload, stub1)) : FoodsStored stub1 := by
  obtain ⟨o, x, c, b0, b1, u0, u1, historyKey, -, -, -, -, hb0, hb1, hst, hu0, -, hu1, hkey, -,
    rfl⟩ := foodExchange_success h
  have kU : ∀ a, constructUserKey a ≠ historyKey :=
    fun a => (compositeKey_ne_user hkey a).symm
  refine hF.kept_by_step
    (fun y hy => stored_PutState (stored_PutState (stored_PutState hy _ _) _ _) _ _) ?_
  intro a y hy
  rw [userFoods_put_other _ kU, userFoods_put_user, userFoods_put_user] at hy
  split_ifs at hy with e1 e2
  · rcases List.mem_append.1 hy with hy | hy
    · left; rw [e1, userFoods_of hb1 hu1]; exact hy
    · right
      rw [List.mem_singleton] at hy
      subst hy
      exact stored_PutState (stored_PutState (stored_PutState hst _ _) _ _) _ _
  · left
    rw [e2, userFoods_of hb0 hu0]
    exact (mem_removeId.1 hy).1
  · exact Or.inl hy

theorem FoodsStored.kept_by_Invoke {stub : Ledger} (hI : Inv stub) (hF : FoodsStored stub)
    (funcName : String) (args : List String) :
    (Invoke stub funcName args).1.isSuccess = true →
      FoodsStored (Invoke stub funcName args).2 := by
  apply Invoke_cases (fun r => r.1.isSuccess = true → FoodsStored r.2)
  · intro hs; obtain ⟨p, hp⟩ := Response.isSuccess_pair hs; exact hF.kept_by_userRegister hp
  · intro hs; obtain ⟨p, hp⟩ := Response.isSuccess_pair hs; exact hF.kept_by_userDestroy hp
  · intro hs; obtain ⟨p, hp⟩ := Response.isSuccess_pair hs
    exact hF.kept_by_ingredientEnroll hI hp
  · intro hs; obtain ⟨p, hp⟩ := Response.isSuccess_pair hs; exact hF.kept_by_foodEnroll hI hp
  · intro hs; obtain ⟨p, hp⟩ := Response.isSuccess_pair hs; exact hF.kept_by_ingredientExchange hp
  · intro hs; obtain ⟨p, hp⟩ := Response.isSuccess_pair hs; exact hF.kept_by_foodExchange hp
  · intro hs; obtain ⟨p, hp⟩ := Response.isSuccess_pair hs
    exact hF.kept_by_ingredientExchangeFood hp
  · intro _; rw [queryUser_ledger]; exact hF
  · intro _; rw [queryIngredient_ledger]; exact hF
  · intro _; rw [queryFood_ledger]; exact hF
  · intro _; rw [queryIngredientHistory_ledger]; exact hF
  · intro _; rw [queryFoodHistory_ledger]; exact hF
  · intro _; exact hF

theorem Reachable.foodsStored {ledger : Ledger} (h : Reachable ledger) : FoodsStored ledger := by
  induction h with
  | empty => exact FoodsStored.at_empty
  | step ledger funcName args hprev ih =>
    unfold FabricFood.commit
    split_ifs with hs
    · exact ih.kept_by_Invoke hprev.inv funcName args hs
    · exact ih


/-! ## No dangling ownership reference (C22) -/

/-- C22, no dangling ownership reference: in every ledger state reachable from
the empty ledger, every id in the `Ingredients` list of a stored user or of a
stored food has a stored ingredient record, and every id in the `Foods` list
of a stored user has a stored food record; and when `userDestroy(id)`
succeeds, every ingredient that its cascade deletes was listed by the user
`id`, by no other user and by no food before the call, and is listed by no
user and no food after it. -/
theorem no_dangling_reference (ledger : Ledger) (hr : Reachable ledger) :
    (∀ id bytes user, ledger.GetState (constructUserKey id) = some bytes →
      unmarshalUser bytes = Except.ok user →
      ∀ x ∈ user.Ingredients, ledger.GetState (constructIngredientKey x) ≠ none) ∧
    (∀ id bytes food, ledger.GetState (constructFoodKey id) = some bytes →
      unmarshalFood bytes = Except.ok food →
      ∀ x ∈ food.Ingredients, ledger.GetState (constructIngredientKey x) ≠ none) ∧
    (∀ id bytes user, ledger.GetState (constructUserKey id) = some bytes →
      unmarshalUser bytes = Except.ok user →
      ∀ x ∈ user.Foods, ledger.GetState (constructFoodKey x) ≠ none) ∧
    (∀ id payload stub1, userDestroy ledger [id] = (Response.Success payload, stub1) →
      ∀ x, ledger.GetState (constructIngredientKey x) ≠ none →
        stub1.GetState (constructIngredientKey x) = none →
        x ∈ userIngredients ledger id ∧
        (∀ other, other ≠ id → x ∉ userIngredients ledger other) ∧
        (∀ food, x ∉ foodIngredients ledger food) ∧
        (∀ user, x ∉ userIngredients stub1 user) ∧
        (∀ food, x ∉ foodIngredients stub1 food)) := by
  refine ⟨?_, ?_, ?_, ?_⟩
  · intro id bytes user hb hu x hx
    apply hr.inv.held_stored (Holder.user id) x
    show x ∈ userIngredients ledger id
    rw [userIngredients_of hb hu]; exact hx
  · intro id bytes food hb hu x hx
    apply hr.inv.held_stored (Holder.food id) x
    show x ∈ foodIngredients ledger id
    rw [foodIngredients_of hb hu]; exact hx
  · intro id bytes user hb hu x hx
    apply hr.foodsStored id x
    rw [userFoods_of hb hu]; exact hx
  · intro id payload stub1 h x hst hdel
    have hI1 : Inv stub1 := by
      have := hr.inv.step_Invoke "userDestroy" [id]
        (by show (userDestroy ledger [id]).1.isSuccess = true; rw [h]; rfl)
      have e : (Invoke ledger "userDestroy" [id]).2 = stub1 := by
        show (userDestroy ledger [id]).2 = stub1
        rw [h]
      rwa [e] at this
    obtain ⟨id0, userBytes, user, ha, -, hb, hu, -, rfl⟩ := userDestroy_success h
    simp only [List.cons.injEq, and_true] at ha
    subst ha
    have hmem : x ∈ userIngredients ledger id := by
      rw [userIngredients_of hb hu]
      rw [GetState_deleteIngredients] at hdel
      split_ifs at hdel with hm
      · obtain ⟨b, hb1, hb2⟩ := List.mem_map.1 hm
        rw [constructIngredientKey_inj.1 hb2] at hb1
        exact hb1
      · rw [GetState_DelState, if_neg (fun e => user_ne_ingredient _ _ e.symm)] at hdel
        exact absurd hdel hst
    refine ⟨hmem, ?_, ?_, ?_, ?_⟩
    · intro other hne hx
      have := hr.inv.holder_unique x (Holder.user other) (Holder.user id) hx hmem
      simp only [Holder.user.injEq] at this
      exact hne this
    · intro food hx
      have := hr.inv.holder_unique x (Holder.food food) (Holder.user id) hx hmem
      cases this
    · intro user hx
      exact hI1.held_stored (Holder.user user) x hx hdel
    · intro food hx
      exact hI1.held_stored (Holder.food food) x hx hdel

/-- C22 at the scenario of the specification with the food `f1` enrolled to
`u1`: the ingredient `i1` and the food `f1` that `u1` lists are stored, and
the cascade of the destruction of `u1` deletes `i1`, which `u1` alone listed. -/
theorem no_dangling_reference_witness :
    Reachable foodScenario ∧
      foodScenario.GetState (constructIngredientKey "i1") ≠ none ∧
      foodScenario.GetState (constructFoodKey "f1") ≠ none ∧
      ("i1" ∈ userIngredients foodScenario "u1" ∧
        (∀ other, other ≠ "u1" → "i1" ∉ userIngredients foodScenario other) ∧
        (∀ food, "i1" ∉ foodIngredients foodScenario food) ∧
        (∀ user, "i1" ∉ userIngredients (userDestroy foodScenario ["u1"]).2 user) ∧
        (∀ food, "i1" ∉ foodIngredients (userDestroy foodScenario ["u1"]).2 food)) :=
  ⟨Reachable.step _ _ _ (Reachable.run Reachable.empty _),
    (no_dangling_reference foodScenario
      (Reachable.step _ _ _ (Reachable.run Reachable.empty _))).1 "u1"
      (marshalUser ⟨"Alice", "u1", ["i1"], ["f1"]⟩) ⟨"Alice", "u1", ["i1"], ["f1"]⟩
      (by decide) rfl "i1" (by decide),
    (no_dangling_reference foodScenario
      (Reachable.step _ _ _ (Reachable.run Reachable.empty _))).2.2.1 "u1"
      (marshalUser ⟨"Alice", "u1", ["i1"], ["f1"]⟩) ⟨"Alice", "u1", ["i1"], ["f1"]⟩
      (by decide) rfl "f1" (by decide),
    (no_dangling_reference foodScenario
      (Reachable.step _ _ _ (Reachable.run Reachable.empty _))).2.2.2 "u1" none
      (userDestroy foodScenario ["u1"]).2 (by decide) "i1" (by decide) (by decide)⟩


/-! ## Enroll and exchange partition the history (C23) -/

/-- The value stored under the composite key of three attributes, in a ledger
with the invariant of the history records, is the history record of these
attributes. -/
theorem HistInv.stored_record {stub : Ledger} (hI : HistInv stub) {a o c key : String}
    {value : Bytes} (hk : CreateCompositeKey "history" [a, o, c] = Except.ok key)
    (hv : stub.GetState key = some value) :
    value = marshalIngredientHistory ⟨a, o, c⟩ ∨ value = marshalFoodHistory ⟨a, o, c⟩ := by
  rcases hI.entries_ok (key, value) (lookupKV_mem hv) with ⟨x, hx⟩ | ⟨x, hx⟩ | ⟨x, hx⟩ |
    ⟨a1, o1, c1, hk1, hval⟩
  · exact absurd hx (compositeKey_ne_user hk x)
  · exact absurd hx (compositeKey_ne_ingredient hk x)
  · exact absurd hx (compositeKey_ne_food hk x)
  · obtain ⟨rfl, rfl, rfl⟩ := CreateCompositeKey_inj hk1 hk
    exact hval

/-- The scan of the enrollment records of `id` is the scan of the history of
`id` restricted to the records whose origin owner is `originOwner`. -/
theorem scan_enroll_eq_filter {stub : Ledger} (hI : HistInv stub) {id : String}
    (hid : minUnicodeRuneValue ∉ id.data) :
    stub.entries.filter (inHistoryRange (enrollPrefix id)) =
      (stub.entries.filter (inHistoryRange (historyPrefix id))).filter
        (fun e => decide ((decodeIngredientHistory e.2).OriginOwnerId = originOwner)) := by
  rw [List.filter_filter]
  apply List.filter_congr
  intro e he
  have hok := hI.entries_ok e he
  cases h1 : inHistoryRange (enrollPrefix id) e with
  | true =>
    obtain ⟨c, hk, hval⟩ := hok.of_enroll_range hid h1
    have h2 : inHistoryRange (historyPrefix id) e = true := inHistoryRange_history e.2 hk
    simp [h2, (decodeIngredientHistory_of hval).2.1]
  | false =>
    symm
    rw [Bool.and_eq_false_iff]
    by_cases h2 : inHistoryRange (historyPrefix id) e = true
    · left
      obtain ⟨o, c, hk, -, hval⟩ := hok.of_range hid h2
      rw [decide_eq_false_iff_not, (decodeIngredientHistory_of hval).2.1]
      rintro rfl
      rw [inHistoryRange_enroll e.2 hk] at h1
      cases h1
    · right
      simpa using h2

/-- The three history queries of an ingredient on a ledger with the invariant
of the history records. -/
theorem partition_queries {stub : Ledger} (hI : HistInv stub) (id : String) :
    ((queryIngredientHistory stub [id, "enroll"]).1.isSuccess =
        (queryIngredientHistory stub [id, "all"]).1.isSuccess ∧
      (queryIngredientHistory stub [id, "exchange"]).1.isSuccess =
        (queryIngredientHistory stub [id, "all"]).1.isSuccess) ∧
    ((queryIngredientHistory stub [id, "all"]).1.isSuccess = true →
      ∃ hs : List IngredientHistory,
        (queryIngredientHistory stub [id, "all"]).1 =
          Response.Success (some (marshalIngredientHistories hs)) ∧
        (queryIngredientHistory stub [id, "enroll"]).1 =
          Response.Success (some (marshalIngredientHistories
            (hs.filter fun r => decide (r.OriginOwnerId = originOwner)))) ∧
        (queryIngredientHistory stub [id, "exchange"]).1 =
          Response.Success (some (marshalIngredientHistories
            (hs.filter fun r => decide (r.OriginOwnerId ≠ originOwner))))) := by
  by_cases hid : id = ""
  · simp [queryIngredientHistory, queryIngredientHistoryBody, hid, Response.isSuccess]
  cases hb : stub.GetState (constructIngredientKey id) with
  | none => simp [queryIngredientHistory, queryIngredientHistoryBody, hid, hb, Response.isSuccess]
  | some bytes =>
    have he := hI.ingredient_enrolled id (by rw [hb]; simp)
    have hdec : ∀ e ∈ stub.entries.filter (inHistoryRange (historyPrefix id)),
        ∃ history, unmarshalIngredientHistory e.2 = Except.ok history := by
      intro e hm
      obtain ⟨h1, h2⟩ := List.mem_filter.1 hm
      obtain ⟨o, c, -, -, hval⟩ := (hI.entries_ok e h1).of_range he.valid h2
      exact ⟨_, (decodeIngredientHistory_of hval).1⟩
    obtain ⟨hs, hc, -⟩ := collect_ok "all" _ [] hdec
    have hmap := collect_eq_map (by decide) _ [] hs hc
    simp only [List.nil_append] at hmap
    have hx := collect_exchange_of_all _ [] hs hc
    simp only [List.filter_nil] at hx
    have hdecE : ∀ e ∈ stub.entries.filter (inHistoryRange (enrollPrefix id)),
        ∃ history, unmarshalIngredientHistory e.2 = Except.ok history := by
      intro e hm
      rw [scan_enroll_eq_filter hI he.valid] at hm
      exact hdec e (List.mem_filter.1 hm).1
    obtain ⟨hsE, hcE, -⟩ := collect_ok "enroll" _ [] hdecE
    have hmapE := collect_eq_map (by decide) _ [] hsE hcE
    simp only [List.nil_append] at hmapE
    have hE : hsE = hs.filter fun r => decide (r.OriginOwnerId = originOwner) := by
      rw [hmapE, hmap, scan_enroll_eq_filter hI he.valid, List.filter_map]
      rfl
    have hall : queryIngredientHistory stub [id, "all"] =
        (Response.Success (some (marshalIngredientHistories hs)), stub) := by
      simp [queryIngredientHistory, queryIngredientHistoryBody, hid, hb, scan_all stub he, hc]
    have hen : queryIngredientHistory stub [id, "enroll"] =
        (Response.Success (some (marshalIngredientHistories hsE)), stub) := by
      simp [queryIngredientHistory, queryIngredientHistoryBody, hid, hb, scan_enroll stub he,
        hcE]
    have hex : queryIngredientHistory stub [id, "exchange"] =
        (Response.Success (some (marshalIngredientHistories
          (hs.filter fun r => decide (r.OriginOwnerId ≠ originOwner)))), stub) := by
      simp [queryIngredientHistory, queryIngredientHistoryBody, hid, hb, scan_all stub he, hx]
    rw [hall, hen, hex, hE]
    exact ⟨⟨rfl, rfl⟩, fun _ => ⟨hs, rfl, rfl, rfl⟩⟩

theorem historyCount_marshal (hs : List IngredientHistory) :
    historyCount (Response.Success (some (marshalIngredientHistories hs))) = some hs.length := by
  simp [historyCount, marshalIngredientHistories]

/-- C23, enroll and exchange partition the history: in every ledger state
reachable from the empty ledger, every value stored under a composite key
`(a, o, c)` decodes to a history record whose origin owner is `o` and whose
current owner is `c`; for every id the three modes of
`queryIngredientHistory` succeed together, and when they do, with `hs` the
list returned for the mode `all`, the mode `enroll` returns the records of
`hs` whose origin owner is `originOwner` and the mode `exchange` the records
of `hs` whose origin owner is not, both in the order of `hs`: every record of
`hs` is in one of the two lists and in one only, and the number of records of
`all` is the sum of the numbers of `enroll` and `exchange`. -/
theorem history_partition (ledger : Ledger) (hr : Reachable ledger) (id : String) :
    (∀ a o c key value, CreateCompositeKey "history" [a, o, c] = Except.ok key →
      ledger.GetState key = some value →
      ∃ r : IngredientHistory, unmarshalIngredientHistory value = Except.ok r ∧
        r.OriginOwnerId = o ∧ r.CurrentOwnerId = c) ∧
    ((queryIngredientHistory ledger [id, "enroll"]).1.isSuccess =
        (queryIngredientHistory ledger [id, "all"]).1.isSuccess ∧
      (queryIngredientHistory ledger [id, "exchange"]).1.isSuccess =
        (queryIngredientHistory ledger [id, "all"]).1.isSuccess) ∧
    ((queryIngredientHistory ledger [id, "all"]).1.isSuccess = true →
      ∃ hs enrolls exchanges : List IngredientHistory,
        (queryIngredientHistory ledger [id, "all"]).1 =
          Response.Success (some (marshalIngredientHistories hs)) ∧
        (queryIngredientHistory ledger [id, "enroll"]).1 =
          Response.Success (some (marshalIngredientHistories enrolls)) ∧
        (queryIngredientHistory ledger [id, "exchange"]).1 =
          Response.Success (some (marshalIngredientHistories exchanges)) ∧
        enrolls = hs.filter (fun r => decide (r.OriginOwnerId = originOwner)) ∧
        exchanges = hs.filter (fun r => decide (r.OriginOwnerId ≠ originOwner)) ∧
        (∀ r, r ∈ hs ↔ r ∈ enrolls ∨ r ∈ exchanges) ∧
        (∀ r, ¬ (r ∈ enrolls ∧ r ∈ exchanges)) ∧
        hs.length = enrolls.length + exchanges.length ∧
        ∃ n m, historyCount (queryIngredientHistory ledger [id, "enroll"]).1 = some n ∧
          historyCount (queryIngredientHistory ledger [id, "exchange"]).1 = some m ∧
          historyCount (queryIngredientHistory ledger [id, "all"]).1 = some (n + m)) := by
  have hI := hr.histInv
  refine ⟨?_, (partition_queries hI id).1, ?_⟩
  · intro a o c key value hk hv
    have hval := hI.stored_record hk hv
    exact ⟨_, decodeIngredientHistory_of hval⟩
  · intro hs0
    obtain ⟨hs, h1, h2, h3⟩ := (partition_queries hI id).2 hs0
    have hlen : hs.length =
        (hs.filter fun r => decide (r.OriginOwnerId = originOwner)).length +
          (hs.filter fun r => decide (r.OriginOwnerId ≠ originOwner)).length := by
      rw [← List.countP_eq_length_filter, ← List.countP_eq_length_filter,
        List.length_eq_countP_add_countP (fun r => decide (r.OriginOwnerId = originOwner))]
      simp
    refine ⟨hs, hs.filter (fun r => decide (r.OriginOwnerId = originOwner)),
      hs.filter (fun r => decide (r.OriginOwnerId ≠ originOwner)), h1, h2, h3, rfl, rfl, ?_, ?_,
      hlen, (hs.filter fun r => decide (r.OriginOwnerId = originOwner)).length,
      (hs.filter fun r => decide (r.OriginOwnerId ≠ originOwner)).length, ?_, ?_, ?_⟩
    · intro r
      simp only [List.mem_filter, decide_eq_true_eq, ne_eq, decide_not, Bool.not_eq_true',
        decide_eq_false_iff_not]
      constructor
      · intro hm
        by_cases e : r.OriginOwnerId = originOwner
        · exact Or.inl ⟨hm, e⟩
        · exact Or.inr ⟨hm, e⟩
      · rintro (h | h) <;> exact h.1
    · intro r
      simp only [List.mem_filter, decide_eq_true_eq, ne_eq, decide_not, Bool.not_eq_true',
        decide_eq_false_iff_not]
      rintro ⟨⟨-, e1⟩, ⟨-, e2⟩⟩
      exact e2 e1
    · rw [h2, historyCount_marshal]
    · rw [h3, historyCount_marshal]
    · rw [h1, historyCount_marshal, hlen]

/-- C23 after one transfer in the scenario of the specification: the history
of `i1` holds the enrollment to `u1` and the transfer from `u1` to `u2`. -/
theorem history_partition_witness :
    Reachable afterOne ∧
      ∃ hs enrolls exchanges : List IngredientHistory,
        (queryIngredientHistory afterOne ["i1", "all"]).1 =
          Response.Success (some (marshalIngredientHistories hs)) ∧
        (queryIngredientHistory afterOne ["i1", "enroll"]).1 =
          Response.Success (some (marshalIngredientHistories enrolls)) ∧
        (queryIngredientHistory afterOne ["i1", "exchange"]).1 =
          Response.Success (some (marshalIngredientHistories exchanges)) ∧
        enrolls = hs.filter (fun r => decide (r.OriginOwnerId = originOwner)) ∧
        exchanges = hs.filter (fun r => decide (r.OriginOwnerId ≠ originOwner)) ∧
        (∀ r, r ∈ hs ↔ r ∈ enrolls ∨ r ∈ exchanges) ∧
        (∀ r, ¬ (r ∈ enrolls ∧ r ∈ exchanges)) ∧
        hs.length = enrolls.length + exchanges.length ∧
        ∃ n m, historyCount (queryIngredientHistory afterOne ["i1", "enroll"]).1 = some n ∧
          historyCount (queryIngredientHistory afterOne ["i1", "exchange"]).1 = some m ∧
          historyCount (queryIngredientHistory afterOne ["i1", "all"]).1 = some (n + m) :=
  ⟨Reachable.step _ _ _ (Reachable.run Reachable.empty _),
    (history_partition afterOne (Reachable.step _ _ _ (Reachable.run Reachable.empty _))
      "i1").2.2 (by decide)⟩


/-! ## No user is stored under the empty id -/

theorem NoEmptyUser.after_put_user {s : Ledger} (h : NoEmptyUser s) {id : String} (hid : id ≠ "")
    (v : Bytes) : NoEmptyUser (s.PutState (constructUserKey id) v) := by
  unfold NoEmptyUser
  rw [GetState_PutState, if_neg (fun e => hid (constructUserKey_inj.1 e).symm)]
  exact h

theorem NoEmptyUser.after_put_other {s : Ledger} (h : NoEmptyUser s) {key : String}
    (hk : ∀ a, constructUserKey a ≠ key) (v : Bytes) : NoEmptyUser (s.PutState key v) := by
  unfold NoEmptyUser
  rw [GetState_PutState, if_neg (hk "")]
  exact h

theorem NoEmptyUser.after_del {s : Ledger} (h : NoEmptyUser s) (key : String) :
    NoEmptyUser (s.DelState key) := by
  unfold NoEmptyUser
  rw [GetState_DelState]
  split_ifs
  · rfl
  · exact h

theorem NoEmptyUser.after_del_ingredients {s : Ledger} (h : NoEmptyUser s) (ids : List String) :
    NoEmptyUser (deleteIngredients s ids) := by
  unfold NoEmptyUser
  rw [GetState_deleteIngredients]
  split_ifs
  · rfl
  · exact h

theorem NoEmptyUser.through_Invoke {stub : Ledger} (hI : Inv stub) (hN : NoEmptyUser stub)
    (funcName : String) (args : List String) :
    (Invoke stub funcName args).1.isSuccess = true →
      NoEmptyUser (Invoke stub funcName args).2 := by
  apply Invoke_cases (fun r => r.1.isSuccess = true → NoEmptyUser r.2)
  · intro hs
    obtain ⟨p, hp⟩ := Response.isSuccess_pair hs
    obtain ⟨name, id, -, -, hid, -, -, e⟩ := userRegister_success hp
    rw [e]
    exact hN.after_put_user hid _
  · intro hs
    obtain ⟨p, hp⟩ := Response.isSuccess_pair hs
    obtain ⟨id, userBytes, user, -, -, -, -, -, e⟩ := userDestroy_success hp
    rw [e]
    exact (hN.after_del _).after_del_ingredients _
  · intro hs
    obtain ⟨p, hp⟩ := Response.isSuccess_pair hs
    obtain ⟨n, x, m, o, userBytes, user0, historyKey, -, -, -, ho, hb0, -, hu0, hkey, -, e⟩ :=
      ingredientEnroll_success hp
    obtain ⟨-, hown⟩ := hI.user_decode hb0 hu0
    rw [e]
    exact ((hN.after_put_other (fun a => user_ne_ingredient a x) _).after_put_user
      (by rw [hown]; exact ho) _).after_put_other (fun a => (compositeKey_ne_user hkey a).symm) _
  · intro hs
    obtain ⟨p, hp⟩ := Response.isSuccess_pair hs
    obtain ⟨n, x, m, o, userBytes, user0, historyKey, -, -, -, ho, hb0, -, hu0, hkey, -, e⟩ :=
      foodEnroll_success hp
    obtain ⟨-, hown⟩ := hI.user_decode hb0 hu0
    rw [e]
    exact ((hN.after_put_other (fun a => user_ne_food a x) _).after_put_user
      (by rw [hown]; exact ho) _).after_put_other (fun a => (compositeKey_ne_user hkey a).symm) _
  · intro hs
    obtain ⟨p, hp⟩ := Response.isSuccess_pair hs
    obtain ⟨o, x, c, b0, b1, u0, u1, historyKey, -, ho, -, hc, -, -, -, -, -, -, hkey, -, e⟩ :=
      ingredientExchange_success hp
    rw [e]
    exact ((hN.after_put_user ho _).after_put_user hc _).after_put_other
      (fun a => (compositeKey_ne_user hkey a).symm) _
  · intro hs
    obtain ⟨p, hp⟩ := Response.isSuccess_pair hs
    obtain ⟨o, x, c, b0, b1, u0, u1, historyKey, -, ho, -, hc, -, -, -, -, -, -, hkey, -, e⟩ :=
      foodExchange_success hp
    rw [e]
    exact ((hN.after_put_user ho _).after_put_user hc _).after_put_other
      (fun a => (compositeKey_ne_user hkey a).symm) _
  · intro hs
    obtain ⟨p, hp⟩ := Response.isSuccess_pair hs
    obtain ⟨o, x, c, b0, b1, u0, f1, historyKey, -, ho, -, hc, -, -, -, -, -, -, hkey, -, e⟩ :=
      ingredientExchangeFood_success hp
    rw [e]
    exact ((hN.after_put_user ho _).after_put_other (fun a => user_ne_food a c) _).after_put_other
      (fun a => (compositeKey_ne_user hkey a).symm) _
  · intro _; rw [queryUser_ledger]; exact hN
  · intro _; rw [queryIngredient_ledger]; exact hN
  · intro _; rw [queryFood_ledger]; exact hN
  · intro _; rw [queryIngredientHistory_ledger]; exact hN
  · intro _; rw [queryFoodHistory_ledger]; exact hN
  · intro _; exact hN

theorem Reachable.noEmptyUser {ledger : Ledger} (h : Reachable ledger) : NoEmptyUser ledger := by
  induction h with
  | empty => rfl
  | step ledger funcName args hprev ih =>
    unfold FabricFood.commit
    split_ifs with hs
    · exact ih.through_Invoke hprev.inv funcName args hs
    · exact ih

/-- In a reachable ledger the id of a stored user is not empty. -/
theorem Reachable.userId_ne {ledger : Ledger} (h : Reachable ledger) {id : String}
    (hst : ledger.GetState (constructUserKey id) ≠ none) : id ≠ "" := by
  rintro rfl
  exact hst h.noEmptyUser

/-- In a reachable ledger the id of a stored ingredient is not empty. -/
theorem Reachable.ingredientId_ne {ledger : Ledger} (h : Reachable ledger) {id : String}
    (hst : ledger.GetState (constructIngredientKey id) ≠ none) : id ≠ "" :=
  (h.histInv.ingredient_enrolled id hst).1

/-- In a reachable ledger the id of a stored food is not empty. -/
theorem Reachable.foodId_ne {ledger : Ledger} (h : Reachable ledger) {id : String}
    (hst : ledger.GetState (constructFoodKey id) ≠ none) : id ≠ "" :=
  (h.histInv.food_enrolled id hst).1


/-! ## Ownership mismatch rejection (C3) -/

/-- C3, ownership mismatch rejection: on every ledger state reachable from the
empty ledger and all arguments `(fromOwnerId, x, toOwnerId)` such that both
users and the ingredient `x` are stored but `x` is not in the Ingredients list
of `fromOwnerId`, `ingredientExchange` returns the error `ingredient owner not
match` and the ledger after the call is the ledger before it: no key changes,
so no user list and no history record. -/
theorem ingredientExchange_mismatch (ledger : Ledger) (hr : Reachable ledger)
    (fromOwnerId x toOwnerId : String)
    (hfrom : ledger.GetState (constructUserKey fromOwnerId) ≠ none)
    (hto : ledger.GetState (constructUserKey toOwnerId) ≠ none)
    (hx : ledger.GetState (constructIngredientKey x) ≠ none)
    (hnot : x ∉ userIngredients ledger fromOwnerId) :
    ingredientExchange ledger [fromOwnerId, x, toOwnerId] =
        (Response.Error "ingredient owner not match", ledger) ∧
      Invoke ledger "ingredientExchange" [fromOwnerId, x, toOwnerId] =
        (Response.Error "ingredient owner not match", ledger) := by
  have h1 := hr.userId_ne hfrom
  have h3 := hr.userId_ne hto
  have h2 := hr.ingredientId_ne hx
  cases hb0 : ledger.GetState (constructUserKey fromOwnerId) with
  | none => exact absurd hb0 hfrom
  | some fromBytes =>
    cases hb1 : ledger.GetState (constructUserKey toOwnerId) with
    | none => exact absurd hb1 hto
    | some toBytes =>
      cases hb2 : ledger.GetState (constructIngredientKey x) with
      | none => exact absurd hb2 hx
      | some assetBytes =>
        obtain ⟨fromUser, rfl, -⟩ := hr.inv.user_canon fromOwnerId fromBytes hb0
        rw [userIngredients_of hb0 (unmarshalUser_marshalUser fromUser)] at hnot
        have h := ingredientExchange_not_listed ledger fromOwnerId x toOwnerId _ toBytes
          assetBytes fromUser h1 h2 h3 hb0 hb1 hb2 (unmarshalUser_marshalUser fromUser) hnot
        exact ⟨h, h⟩

/-- C3 at the scenario of the specification: `u2` does not hold `i1`, and its
transfer from `u2` to `u1` is rejected without any write. -/
theorem ingredientExchange_mismatch_witness :
    Reachable scenario ∧
      ingredientExchange scenario ["u2", "i1", "u1"] =
        (Response.Error "ingredient owner not match", scenario) ∧
      Invoke scenario "ingredientExchange" ["u2", "i1", "u1"] =
        (Response.Error "ingredient owner not match", scenario) :=
  ⟨Reachable.run Reachable.empty _,
    ingredientExchange_mismatch scenario (Reachable.run Reachable.empty _) "u2" "i1" "u1"
      (by decide) (by decide) (by decide) (by decide)⟩

/-! ## Cascade on destroy (C7) -/

/-- C7, cascade on destroy: on every ledger state reachable from the empty
ledger in which a user record with Ingredients list `L` is stored for `id`,
`userDestroy(id)` succeeds and the resulting ledger is exactly the previous
ledger with the key of user `id` and the keys of the ingredients of `L`
removed: those keys hold nothing, every other key keeps its value, in
particular every food record and every composite (history) key. Afterwards
`queryUser(id)` fails with `user not found` and `queryIngredient(x)` fails
with `ingredient not found` for every `x` of `L`. -/
theorem userDestroy_cascade (ledger : Ledger) (hr : Reachable ledger) (id : String)
    (userBytes : Bytes) (user : User)
    (hb : ledger.GetState (constructUserKey id) = some userBytes)
    (hu : unmarshalUser userBytes = Except.ok user) :
    userDestroy ledger [id] =
        (Response.Success none,
          deleteIngredients (ledger.DelState (constructUserKey id)) user.Ingredients) ∧
      (userDestroy ledger [id]).2.entries =
        ledger.entries.filter (fun e =>
          e.1 ≠ constructUserKey id ∧ e.1 ∉ user.Ingredients.map constructIngredientKey) ∧
      (∀ k, (userDestroy ledger [id]).2.GetState k =
        if k = constructUserKey id ∨ k ∈ user.Ingredients.map constructIngredientKey then none
        else ledger.GetState k) ∧
      (∀ foodId, (userDestroy ledger [id]).2.GetState (constructFoodKey foodId) =
        ledger.GetState (constructFoodKey foodId)) ∧
      (∀ objectType attributes key, CreateCompositeKey objectType attributes = Except.ok key →
        (userDestroy ledger [id]).2.GetState key = ledger.GetState key) ∧
      (queryUser (userDestroy ledger [id]).2 [id]).1 = Response.Error "user not found" ∧
      (∀ x ∈ user.Ingredients,
        (queryIngredient (userDestroy ledger [id]).2 [x]).1 =
          Response.Error "ingredient not found") := by
  have hid : id ≠ "" := hr.userId_ne (by rw [hb]; simp)
  obtain ⟨c1, c2, c3, c4, c5, c6, c7⟩ := userDestroy_removes ledger id userBytes user hid hb hu
  refine ⟨c1, c2, c3, c4, c5, c6, ?_⟩
  intro x hx
  apply c7 x hx
  apply hr.ingredientId_ne
  apply hr.inv.held_stored (Holder.user id) x
  show x ∈ userIngredients ledger id
  rw [userIngredients_of hb hu]
  exact hx

/-- C7 at the scenario of the specification: the destruction of `u1`, who holds
`i1`, removes the user and the ingredient. -/
theorem userDestroy_cascade_witness :
    Reachable scenario ∧
      userDestroy scenario ["u1"] =
        (Response.Success none,
          deleteIngredients (scenario.DelState (constructUserKey "u1")) ["i1"]) ∧
      (queryUser (userDestroy scenario ["u1"]).2 ["u1"]).1 = Response.Error "user not found" ∧
      (queryIngredient (userDestroy scenario ["u1"]).2 ["i1"]).1 =
        Response.Error "ingredient not found" :=
  have h := userDestroy_cascade scenario (Reachable.run Reachable.empty _) "u1"
    (marshalUser ⟨"Alice", "u1", ["i1"], []⟩) ⟨"Alice", "u1", ["i1"], []⟩ (by decide) rfl
  ⟨Reachable.run Reachable.empty _, h.1, h.2.2.2.2.2.1, h.2.2.2.2.2.2 "i1" (by decide)⟩

/-! ## Uniqueness of ids (C8) -/

/-- C8 as stated fails for a registration with an empty name: in the scenario
of the specification, a reachable ledger, the user `u1` is stored, and
`userRegister` called with the empty name and the id `u1` answers `invalid
args`, not the already-exists error. -/
theorem userRegister_empty_name :
    Reachable scenario ∧ scenario.GetState (constructUserKey "u1") ≠ none ∧
      userRegister scenario ["", "u1"] = (Response.Error "invalid args", scenario) ∧
      (userRegister scenario ["", "u1"]).1 ≠ Response.Error "user already exist" :=
  ⟨Reachable.run Reachable.empty _, by decide, by decide, by decide⟩

/-- C8 (amended), uniqueness of ids: on every ledger state, when a record is
already stored under the id, `userRegister`, `ingredientEnroll` and
`foodEnroll`, each called with non-empty fields (and an existing owner for the
two enrollments), fail with the already-exists error of their class and leave
the ledger as it was; on a reachable ledger state the id of a stored user is
never empty, so a non-empty name is enough for `userRegister`. In particular
after a successful registration or enrollment a second attempt with the same
id and non-empty fields fails and the ledger with the record written by the
first attempt is left as it was. -/
theorem uniqueness_of_ids (stub : Ledger) :
    (∀ name id bytes, name ≠ "" → id ≠ "" →
      stub.GetState (constructUserKey id) = some bytes →
      userRegister stub [name, id] = (Response.Error "user already exist", stub)) ∧
    (∀ name id metadata ownerId ownerBytes bytes, name ≠ "" → id ≠ "" → ownerId ≠ "" →
      stub.GetState (constructUserKey ownerId) = some ownerBytes →
      stub.GetState (constructIngredientKey id) = some bytes →
      ingredientEnroll stub [name, id, metadata, ownerId] =
        (Response.Error "ingredient already exist", stub)) ∧
    (∀ name id metadata ownerId ownerBytes bytes, name ≠ "" → id ≠ "" → ownerId ≠ "" →
      stub.GetState (constructUserKey ownerId) = some ownerBytes →
      stub.GetState (constructFoodKey id) = some bytes →
      foodEnroll stub [name, id, metadata, ownerId] =
        (Response.Error "food already exist", stub)) ∧
    (∀ name id payload stub1 name2, userRegister stub [name, id] = (Response.Success payload, stub1) →
      name2 ≠ "" →
      stub1.GetState (constructUserKey id) = some (marshalUser ⟨name, id, [], []⟩) ∧
      userRegister stub1 [name2, id] = (Response.Error "user already exist", stub1)) ∧
    (∀ name id metadata ownerId payload stub1 name2 metadata2,
      ingredientEnroll stub [name, id, metadata, ownerId] = (Response.Success payload, stub1) →
      name2 ≠ "" →
      stub1.GetState (constructIngredientKey id) =
        some (marshalIngredient ⟨name, id, metadata⟩) ∧
      ingredientEnroll stub1 [name2, id, metadata2, ownerId] =
        (Response.Error "ingredient already exist", stub1)) ∧
    (∀ name id metadata ownerId payload stub1 name2 metadata2,
      foodEnroll stub [name, id, metadata, ownerId] = (Response.Success payload, stub1) →
      name2 ≠ "" →
      stub1.GetState (constructFoodKey id) = some (marshalFood ⟨name, id, metadata, []⟩) ∧
      foodEnroll stub1 [name2, id, metadata2, ownerId] =
        (Response.Error "food already exist", stub1)) ∧
    (Reachable stub → ∀ name id bytes, name ≠ "" →
      stub.GetState (constructUserKey id) = some bytes →
      userRegister stub [name, id] = (Response.Error "user already exist", stub)) := by
  have p1 : ∀ (s : Ledger) name id bytes, name ≠ "" → id ≠ "" →
      s.GetState (constructUserKey id) = some bytes →
      userRegister s [name, id] = (Response.Error "user already exist", s) := by
    intro s name id bytes h1 h2 hb
    simp [userRegister, h1, h2, hb]
  have p2 : ∀ (s : Ledger) name id metadata ownerId ownerBytes bytes, name ≠ "" → id ≠ "" →
      ownerId ≠ "" → s.GetState (constructUserKey ownerId) = some ownerBytes →
      s.GetState (constructIngredientKey id) = some bytes →
      ingredientEnroll s [name, id, metadata, ownerId] =
        (Response.Error "ingredient already exist", s) := by
    intro s name id metadata ownerId ownerBytes bytes h1 h2 h3 ho hb
    simp [ingredientEnroll, h1, h2, h3, ho, hb]
  have p3 : ∀ (s : Ledger) name id metadata ownerId ownerBytes bytes, name ≠ "" → id ≠ "" →
      ownerId ≠ "" → s.GetState (constructUserKey ownerId) = some ownerBytes →
      s.GetState (constructFoodKey id) = some bytes →
      foodEnroll s [name, id, metadata, ownerId] =
        (Response.Error "food already exist", s) := by
    intro s name id metadata ownerId ownerBytes bytes h1 h2 h3 ho hb
    simp [foodEnroll, constructFOODKey_eq, h1, h2, h3, ho, hb]
  refine ⟨p1 stub, p2 stub, p3 stub, ?_, ?_, ?_, ?_⟩
  · intro name id payload stub1 name2 h hn2
    obtain ⟨name0, id0, hargs, -, hid, -, -, rfl⟩ := userRegister_success h
    simp only [List.cons.injEq, and_true] at hargs
    obtain ⟨rfl, rfl⟩ := hargs
    have hg : (stub.PutState (constructUserKey id) (marshalUser ⟨name, id, [], []⟩)).GetState
        (constructUserKey id) = some (marshalUser ⟨name, id, [], []⟩) := by
      simp [GetState_PutState]
    exact ⟨hg, p1 _ name2 id _ hn2 hid hg⟩
  · intro name id metadata ownerId payload stub1 name2 metadata2 h hn2
    obtain ⟨name0, id0, metadata0, ownerId0, ub, u0, hk, hargs, -, hid, hoid, hb0, -, -, hkey, -,
      rfl⟩ := ingredientEnroll_success h
    simp only [List.cons.injEq, and_true] at hargs
    obtain ⟨rfl, rfl, rfl, rfl⟩ := hargs
    have kU : ∀ a, constructUserKey a ≠ hk := fun a => (compositeKey_ne_user hkey a).symm
    have kI : ∀ a, constructIngredientKey a ≠ hk :=
      fun a => (compositeKey_ne_ingredient hkey a).symm
    have hg : (((stub.PutState (constructIngredientKey id)
        (marshalIngredient ⟨name, id, metadata⟩)).PutState (constructUserKey u0.Id)
        (marshalUser { u0 with Ingredients := u0.Ingredients ++ [id] })).PutState hk
        (marshalIngredientHistory ⟨id, originOwner, ownerId⟩)).GetState
        (constructIngredientKey id) = some (marshalIngredient ⟨name, id, metadata⟩) := by
      simp [GetState_PutState, kI, (fun a b => (user_ne_ingredient a b).symm)]
    have ho : ∃ ob, (((stub.PutState (constructIngredientKey id)
        (marshalIngredient ⟨name, id, metadata⟩)).PutState (constructUserKey u0.Id)
        (marshalUser { u0 with Ingredients := u0.Ingredients ++ [id] })).PutState hk
        (marshalIngredientHistory ⟨id, originOwner, ownerId⟩)).GetState
        (constructUserKey ownerId) = some ob := by
      simp only [GetState_PutState, kU, if_false, user_ne_ingredient, constructUserKey_inj]
      split_ifs
      · exact ⟨_, rfl⟩
      · exact ⟨_, hb0⟩
    obtain ⟨ob, hob⟩ := ho
    exact ⟨hg, p2 _ name2 id metadata2 ownerId ob _ hn2 hid hoid hob hg⟩
  · intro name id metadata ownerId payload stub1 name2 metadata2 h hn2
    obtain ⟨name0, id0, metadata0, ownerId0, ub, u0, hk, hargs, -, hid, hoid, hb0, -, -, hkey, -,
      rfl⟩ := foodEnroll_success h
    simp only [List.cons.injEq, and_true] at hargs
    obtain ⟨rfl, rfl, rfl, rfl⟩ := hargs
    have kU : ∀ a, constructUserKey a ≠ hk := fun a => (compositeKey_ne_user hkey a).symm
    have kF : ∀ a, constructFoodKey a ≠ hk := fun a => (compositeKey_ne_food hkey a).symm
    have hg : (((stub.PutState (constructFoodKey id)
        (marshalFood ⟨name, id, metadata, []⟩)).PutState (constructUserKey u0.Id)
        (marshalUser { u0 with Foods := u0.Foods ++ [id] })).PutState hk
        (marshalFoodHistory ⟨id, originOwner, ownerId⟩)).GetState
        (constructFoodKey id) = some (marshalFood ⟨name, id, metadata, []⟩) := by
      simp [GetState_PutState, kF, (fun a b => (user_ne_food a b).symm)]
    have ho : ∃ ob, (((stub.PutState (constructFoodKey id)
        (marshalFood ⟨name, id, metadata, []⟩)).PutState (constructUserKey u0.Id)
        (marshalUser { u0 with Foods := u0.Foods ++ [id] })).PutState hk
        (marshalFoodHistory ⟨id, originOwner, ownerId⟩)).GetState
        (constructUserKey ownerId) = some ob := by
      simp only [GetState_PutState, kU, if_false, user_ne_food, constructUserKey_inj]
      split_ifs
      · exact ⟨_, rfl⟩
      · exact ⟨_, hb0⟩
    obtain ⟨ob, hob⟩ := ho
    exact ⟨hg, p3 _ name2 id metadata2 ownerId ob _ hn2 hid hoid hob hg⟩
  · intro hr name id bytes hn hb
    exact p1 stub name id bytes hn (hr.userId_ne (by rw [hb]; simp)) hb

/-- C8 at the scenario of the specification: a second registration of `u1` and
a second enrollment of `i1` fail and leave the ledger as it was. -/
theorem uniqueness_of_ids_witness :
    userRegister scenario ["Carol", "u1"] = (Response.Error "user already exist", scenario) ∧
      ingredientEnroll scenario ["Potato", "i1", "", "u2"] =
        (Response.Error "ingredient already exist", scenario) ∧
      foodEnroll foodScenario ["Stew", "f1", "", "u2"] =
        (Response.Error "food already exist", foodScenario) ∧
      ((userRegister Ledger.empty ["Alice", "u1"]).2.GetState (constructUserKey "u1") =
          some (marshalUser ⟨"Alice", "u1", [], []⟩) ∧
        userRegister (userRegister Ledger.empty ["Alice", "u1"]).2 ["Carol", "u1"] =
          (Response.Error "user already exist", (userRegister Ledger.empty ["Alice", "u1"]).2)) ∧
      ((foodEnroll scenario ["Soup", "f1", "hot", "u1"]).2.GetState (constructFoodKey "f1") =
          some (marshalFood ⟨"Soup", "f1", "hot", []⟩) ∧
        foodEnroll (foodEnroll scenario ["Soup", "f1", "hot", "u1"]).2
            ["Stew", "f1", "", "u1"] =
          (Response.Error "food already exist",
            (foodEnroll scenario ["Soup", "f1", "hot", "u1"]).2)) ∧
      userRegister scenario ["Carol", "u1"] = (Response.Error "user already exist", scenario) :=
  ⟨(uniqueness_of_ids scenario).1 "Carol" "u1" (marshalUser ⟨"Alice", "u1", ["i1"], []⟩)
      (by decide) (by decide) (by decide),
    (uniqueness_of_ids scenario).2.1 "Potato" "i1" "" "u2" (marshalUser ⟨"Bob", "u2", [], []⟩)
      (marshalIngredient ⟨"Tomato", "i1", "organic"⟩) (by decide) (by decide) (by decide)
      (by decide) (by decide),
    (uniqueness_of_ids foodScenario).2.2.1 "Stew" "f1" "" "u2"
      (marshalUser ⟨"Bob", "u2", [], []⟩) (marshalFood ⟨"Soup", "f1", "hot", []⟩)
      (by decide) (by decide) (by decide) (by decide) (by decide),
    (uniqueness_of_ids Ledger.empty).2.2.2.1 "Alice" "u1" none
      (userRegister Ledger.empty ["Alice", "u1"]).2 "Carol" (by decide) (by decide),
    (uniqueness_of_ids scenario).2.2.2.2.2.1 "Soup" "f1" "hot" "u1" none
      (foodEnroll scenario ["Soup", "f1", "hot", "u1"]).2 "Stew" "" (by decide) (by decide),
    (uniqueness_of_ids scenario).2.2.2.2.2.2 (Reachable.run Reachable.empty _) "Carol" "u1"
      (marshalUser ⟨"Alice", "u1", ["i1"], []⟩) (by decide) (by decide)⟩

/-! ## Strings of the model as Go strings -/

theorem decodeRune_encodeRune (c : Char) (rest : List Nat) :
    ∃ w, decodeRune (encodeRune c.toNat ++ rest) = some (c.toNat, w + 1) ∧
      (encodeRune c.toNat).length = w + 1 := by
  have hv : c.toNat < 0xD800 ∨ (0xDFFF < c.toNat ∧ c.toNat < 0x110000) := c.valid
  generalize c.toNat = n at hv
  unfold encodeRune
  by_cases h1 : n < 0x80
  · exact ⟨0, by simp [h1, decodeRune], by simp [h1]⟩
  by_cases h2 : n < 0x800
  · refine ⟨1, ?_, by simp [h1, h2]⟩
    simp only [h1, h2, if_false, if_true, List.cons_append, List.nil_append, decodeRune]
    rw [if_neg (by omega), if_pos (by omega), if_pos (by omega)]
    simp only [Option.some.injEq, Prod.mk.injEq, and_true]
    omega
  by_cases h3 : n < 0x10000
  · refine ⟨2, ?_, by simp [h1, h2, h3]⟩
    simp only [h1, h2, h3, if_false, if_true, List.cons_append, List.nil_append, decodeRune]
    rw [if_neg (by omega), if_neg (by omega), if_pos (by omega), if_pos]
    · simp only [Option.some.injEq, Prod.mk.injEq, and_true]
      omega
    · unfold secondLo secondHi
      split_ifs <;> omega
  · refine ⟨3, ?_, by simp [h1, h2, h3]⟩
    simp only [h1, h2, h3, if_false, List.cons_append, List.nil_append, decodeRune]
    rw [if_neg (by omega), if_neg (by omega), if_neg (by omega), if_pos (by omega), if_pos]
    · simp only [Option.some.injEq, Prod.mk.injEq, and_true]
      omega
    · unfold secondLo secondHi
      split_ifs <;> omega

theorem jsonRunes_succ_cons (skip b : Nat) (rest : List Nat) :
    jsonRunes (skip + 1) (b :: rest) = jsonRunes skip rest := by
  simp [jsonRunes]

theorem jsonRunes_skip (pre rest : List Nat) :
    jsonRunes pre.length (pre ++ rest) = jsonRunes 0 rest := by
  induction pre with
  | nil => rfl
  | cons b pre ih =>
    rw [List.length_cons, List.cons_append, jsonRunes_succ_cons]
    exact ih

theorem jsonRunes_encodeRunes (cs : List Char) : jsonRunes 0 (encodeRunes cs) = cs := by
  induction cs with
  | nil => rfl
  | cons c cs ih =>
    obtain ⟨w, hd, hl⟩ := decodeRune_encodeRune c (encodeRunes cs)
    unfold encodeRunes
    cases he : encodeRune c.toNat with
    | nil => rw [he] at hl; simp at hl
    | cons b tail =>
      rw [he] at hd hl
      simp only [List.length_cons, Nat.add_right_cancel_iff] at hl
      simp only [List.cons_append] at hd ⊢
      unfold jsonRunes
      simp only [hd, Nat.add_sub_cancel]
      rw [← hl, jsonRunes_skip, ih, Char.ofNat_toNat]

/-- A string of the model is read back as it is. -/
theorem jsonString_utf8Bytes (s : String) : jsonString (utf8Bytes s) = s := by
  unfold jsonString utf8Bytes
  rw [jsonRunes_encodeRunes]

theorem utf8Bytes_inj {s t : String} (h : utf8Bytes s = utf8Bytes t) : s = t := by
  have := congrArg jsonString h
  rwa [jsonString_utf8Bytes, jsonString_utf8Bytes] at this

theorem encodeRunes_append (a b : List Char) :
    encodeRunes (a ++ b) = encodeRunes a ++ encodeRunes b := by
  induction a with
  | nil => rfl
  | cons c cs ih => simp [encodeRunes, ih]

theorem utf8Bytes_append (s t : String) : utf8Bytes (s ++ t) = utf8Bytes s ++ utf8Bytes t := by
  simp [utf8Bytes, String.data_append, encodeRunes_append]

theorem utf8Bytes_eq_nil {s : String} : utf8Bytes s = [] ↔ s = "" := by
  constructor
  · intro h
    exact utf8Bytes_inj (h.trans rfl)
  · rintro rfl; rfl

theorem constructUserKey_raw_utf8 (id : String) :
    Raw.constructUserKey (utf8Bytes id) = utf8Bytes (constructUserKey id) := by
  simp [Raw.constructUserKey, constructUserKey, utf8Bytes_append]

theorem Ledger.raw_utf8 (stub : Ledger) (key : String) :
    stub.raw (utf8Bytes key) = stub.GetState key := by
  simp [Ledger.raw, jsonString_utf8Bytes]

theorem Ledger.raw_PutState (stub : Ledger) (key : String) (value : Bytes) (k : GoString) :
    (stub.PutState key value).raw k =
      (stub.raw.PutState (utf8Bytes key) value) k := by
  unfold Ledger.raw RawLedger.PutState
  by_cases hv : utf8Bytes (jsonString k) = k
  · simp only [hv, if_true, GetState_PutState]
    by_cases e : jsonString k = key
    · subst e
      simp [hv]
    · have : k ≠ utf8Bytes key := by
        rintro rfl
        exact e (jsonString_utf8Bytes key)
      simp [e, this]
  · have : k ≠ utf8Bytes key := by
      rintro rfl
      exact hv (by rw [jsonString_utf8Bytes])
    simp [hv, this]

/-- The operation `userRegister` of the model is `userRegister` on Go strings
restricted to arguments that are valid UTF-8: on the encodings of two strings
and the world state of the model, the response is the response of the model
and the resulting world state is the one of the model. -/
theorem userRegister_raw_utf8 (stub : Ledger) (name id : String) :
    (Raw.userRegister stub.raw [utf8Bytes name, utf8Bytes id]).1 =
        (userRegister stub [name, id]).1 ∧
      ∀ key, (Raw.userRegister stub.raw [utf8Bytes name, utf8Bytes id]).2 key =
        (userRegister stub [name, id]).2.raw key := by
  unfold Raw.userRegister userRegister
  by_cases h0 : name = "" ∨ id = ""
  · have : utf8Bytes name = [] ∨ utf8Bytes id = [] := by
      rcases h0 with h | h
      · exact Or.inl (utf8Bytes_eq_nil.2 h)
      · exact Or.inr (utf8Bytes_eq_nil.2 h)
    simp [h0, this]
  · have : ¬ (utf8Bytes name = [] ∨ utf8Bytes id = []) := by
      simpa [utf8Bytes_eq_nil] using h0
    simp only [h0, this, if_false, RawLedger.GetState, constructUserKey_raw_utf8,
      Ledger.raw_utf8]
    cases hb : stub.GetState (constructUserKey id) with
    | some bytes => simp
    | none =>
      simp only [jsonString_utf8Bytes, true_and]
      intro key
      rw [Ledger.raw_PutState]

/-- The record that `userRegister` stores for Go strings. -/
theorem userRegister_raw_stores (stub : RawLedger) (name id : GoString) (hn : name ≠ [])
    (hid : id ≠ []) (hb : stub.GetState (Raw.constructUserKey id) = none) :
    (Raw.userRegister stub [name, id]).1 = Response.Success none ∧
      (Raw.userRegister stub [name, id]).2.GetState (Raw.constructUserKey id) =
        some (marshalUser ⟨jsonString name, jsonString id, [], []⟩) := by
  have hb1 : stub (Raw.constructUserKey id) = none := hb
  simp [Raw.userRegister, hn, hid, hb1, RawLedger.GetState, RawLedger.PutState]


/-! ## The operations on arbitrary bytes -/

theorem toNat_ofNat_of_valid {n : Nat} (h : n < 0xD800 ∨ (0xDFFF < n ∧ n < 0x110000)) :
    (Char.ofNat n).toNat = n := by
  have hv : n.isValidChar := h
  simp only [Char.ofNat, hv, dite_true]
  rfl

/-- A rune that `utf8.DecodeRune` reads is a scalar value whose encoding is
the bytes read. -/
theorem decodeRune_spec {b0 : Nat} {rest : List Nat} {cp w : Nat}
    (h : decodeRune (b0 :: rest) = some (cp, w)) :
    ∃ pre tail, rest = pre ++ tail ∧ encodeRune cp = b0 :: pre ∧ pre.length + 1 = w ∧
      (Char.ofNat cp).toNat = cp := by
  simp only [decodeRune] at h
  split_ifs at h with h1 h2 h3 h4
  · simp only [Option.some.injEq, Prod.mk.injEq] at h
    obtain ⟨rfl, rfl⟩ := h
    exact ⟨[], rest, rfl, by simp [encodeRune, h1], rfl,
      toNat_ofNat_of_valid (Or.inl (by omega))⟩
  · cases rest with
    | nil => simp at h
    | cons b1 r =>
      simp only at h
      split_ifs at h with hc
      simp only [Option.some.injEq, Prod.mk.injEq] at h
      obtain ⟨rfl, rfl⟩ := h
      refine ⟨[b1], r, rfl, ?_, rfl, toNat_ofNat_of_valid (Or.inl (by omega))⟩
      unfold encodeRune
      rw [if_neg (by omega), if_pos (by omega)]
      simp only [List.cons.injEq, and_true]
      omega
  · cases rest with
    | nil => simp at h
    | cons b1 r =>
      cases r with
      | nil => simp at h
      | cons b2 r =>
        simp only at h
        split_ifs at h with hc
        simp only [Option.some.injEq, Prod.mk.injEq] at h
        obtain ⟨rfl, rfl⟩ := h
        unfold secondLo secondHi at hc
        refine ⟨[b1, b2], r, rfl, ?_, rfl, toNat_ofNat_of_valid ?_⟩
        · unfold encodeRune
          rw [if_neg (by split_ifs at hc <;> omega), if_neg (by split_ifs at hc <;> omega),
            if_pos (by split_ifs at hc <;> omega)]
          simp only [List.cons.injEq, and_true]
          split_ifs at hc <;> omega
        · split_ifs at hc <;> omega
  · cases rest with
    | nil => simp at h
    | cons b1 r =>
      cases r with
      | nil => simp at h
      | cons b2 r =>
        cases r with
        | nil => simp at h
        | cons b3 r =>
          simp only at h
          split_ifs at h with hc
          simp only [Option.some.injEq, Prod.mk.injEq] at h
          obtain ⟨rfl, rfl⟩ := h
          unfold secondLo secondHi at hc
          refine ⟨[b1, b2, b3], r, rfl, ?_, rfl, toNat_ofNat_of_valid ?_⟩
          · unfold encodeRune
            rw [if_neg (by split_ifs at hc <;> omega), if_neg (by split_ifs at hc <;> omega),
              if_neg (by split_ifs at hc <;> omega)]
            simp only [List.cons.injEq, and_true]
            split_ifs at hc <;> omega
          · split_ifs at hc <;> omega

theorem utf8Valid_succ_cons (skip b : Nat) (rest : List Nat) :
    utf8Valid (skip + 1) (b :: rest) = utf8Valid skip rest := by
  simp [utf8Valid]

theorem utf8Valid_skip (pre rest : List Nat) :
    utf8Valid pre.length (pre ++ rest) = utf8Valid 0 rest := by
  induction pre with
  | nil => rfl
  | cons b pre ih =>
    rw [List.length_cons, List.cons_append, utf8Valid_succ_cons]
    exact ih

theorem encodeRunes_jsonRunes (n : Nat) : ∀ b : List Nat, b.length ≤ n →
    utf8Valid 0 b = true → encodeRunes (jsonRunes 0 b) = b := by
  induction n with
  | zero =>
    intro b hl _
    cases b with
    | nil => rfl
    | cons x xs => simp at hl
  | succ n ih =>
    intro b hl hv
    cases b with
    | nil => rfl
    | cons b0 rest =>
      unfold utf8Valid at hv
      unfold jsonRunes
      cases hd : decodeRune (b0 :: rest) with
      | none => simp [hd] at hv
      | some p =>
        obtain ⟨cp, w⟩ := p
        obtain ⟨pre, tail, rfl, he, hw, hc⟩ := decodeRune_spec hd
        simp only [hd] at hv ⊢
        have hw1 : w - 1 = pre.length := by omega
        rw [hw1] at hv ⊢
        rw [utf8Valid_skip] at hv
        rw [jsonRunes_skip]
        simp only [encodeRunes, hc, he, List.cons_append]
        rw [ih tail (by simp at hl; omega) hv]

/-- Bytes that are valid UTF-8 are the bytes of the string read back. -/
theorem utf8Bytes_jsonString {b : GoString} (h : utf8Valid 0 b = true) :
    utf8Bytes (jsonString b) = b :=
  encodeRunes_jsonRunes b.length b (Nat.le_refl _) h

theorem utf8Valid_encodeRunes (cs : List Char) : utf8Valid 0 (encodeRunes cs) = true := by
  induction cs with
  | nil => rfl
  | cons c cs ih =>
    obtain ⟨w, hd, hl⟩ := decodeRune_encodeRune c (encodeRunes cs)
    unfold encodeRunes
    cases he : encodeRune c.toNat with
    | nil => rw [he] at hl; simp at hl
    | cons b tail =>
      rw [he] at hd hl
      simp only [List.length_cons, Nat.add_right_cancel_iff] at hl
      simp only [List.cons_append] at hd ⊢
      unfold utf8Valid
      simp only [hd, Nat.add_sub_cancel]
      rw [← hl, utf8Valid_skip, ih]

theorem utf8Valid_utf8Bytes (s : String) : utf8Valid 0 (utf8Bytes s) = true :=
  utf8Valid_encodeRunes s.data

theorem rawGetState_PutState (stub : RawLedger) (key : GoString) (value : Bytes)
    (k : GoString) :
    (stub.PutState key value).GetState k = if k = key then some value else stub.GetState k :=
  rfl

theorem rawGetState_DelState (stub : RawLedger) (key k : GoString) :
    (stub.DelState key).GetState k = if k = key then none else stub.GetState k :=
  rfl

theorem rawGetState_deleteIngredients (ids : List String) (stub : RawLedger) (k : GoString)
    (hk : ∀ a, k ≠ Raw.constructIngredientKey a) :
    (Raw.deleteIngredients stub ids).GetState k = stub.GetState k := by
  induction ids generalizing stub with
  | nil => rfl
  | cons a rest ih =>
    unfold Raw.deleteIngredients
    rw [ih, rawGetState_DelState, if_neg (hk _)]

theorem utf8Bytes_user : utf8Bytes "user_" = [117, 115, 101, 114, 95] := by decide

theorem utf8Bytes_ingredient :
    utf8Bytes "ingredient_" = [105, 110, 103, 114, 101, 100, 105, 101, 110, 116, 95] := by
  decide

theorem utf8Bytes_food : utf8Bytes "food_" = [102, 111, 111, 100, 95] := by decide

theorem constructUserKey_raw_inj {a b : GoString} :
    Raw.constructUserKey a = Raw.constructUserKey b ↔ a = b := by
  constructor
  · intro h
    exact List.append_cancel_left h
  · rintro rfl
    rfl

theorem raw_user_ne_ingredient (a b : GoString) :
    Raw.constructUserKey a ≠ Raw.constructIngredientKey b := by
  intro h
  simp [Raw.constructUserKey, Raw.constructIngredientKey, utf8Bytes_user,
    utf8Bytes_ingredient] at h

theorem raw_user_ne_food (a b : GoString) :
    Raw.constructUserKey a ≠ Raw.constructFoodKey b := by
  intro h
  simp [Raw.constructUserKey, Raw.constructFoodKey, utf8Bytes_user, utf8Bytes_food] at h

theorem raw_user_ne_FOOD (a b : GoString) :
    Raw.constructUserKey a ≠ Raw.constructFOODKey b := by
  intro h
  simp [Raw.constructUserKey, Raw.constructFOODKey, utf8Bytes_user, utf8Bytes_food] at h

theorem raw_appendAttributes_prefix (attrs : List GoString) (ck k : GoString)
    (h : Raw.appendAttributes ck attrs = Except.ok k) : ∃ rest, k = ck ++ rest := by
  induction attrs generalizing ck with
  | nil =>
    simp only [Raw.appendAttributes, Except.ok.injEq] at h
    exact ⟨[], by simp [h]⟩
  | cons att rest ih =>
    unfold Raw.appendAttributes at h
    split at h
    · cases h
    · obtain ⟨r, hr⟩ := ih _ h
      exact ⟨att ++ [0] ++ r, by simp [hr, List.append_assoc]⟩

theorem raw_head_CreateCompositeKey {objectType : GoString} {attrs : List GoString}
    {k : GoString} (h : Raw.CreateCompositeKey objectType attrs = Except.ok k) :
    k.head? = some 0 := by
  unfold Raw.CreateCompositeKey at h
  split at h
  · cases h
  · obtain ⟨r, hr⟩ := raw_appendAttributes_prefix _ _ _ h
    rw [hr]
    simp

theorem raw_compositeKey_ne_user {objectType : GoString} {attrs : List GoString}
    {k : GoString} (h : Raw.CreateCompositeKey objectType attrs = Except.ok k)
    (a : GoString) : k ≠ Raw.constructUserKey a := by
  intro e
  have h1 := raw_head_CreateCompositeKey h
  rw [e] at h1
  simp [Raw.constructUserKey, utf8Bytes_user] at h1

theorem raw_validate_utf8 {str : GoString}
    (h : Raw.validateCompositeKeyAttribute str = Except.ok ()) : utf8Valid 0 str = true := by
  unfold Raw.validateCompositeKeyAttribute at h
  split_ifs at h with hv
  exact hv

/-- A composite key is built only from attributes that are valid UTF-8. -/
theorem raw_CreateCompositeKey_utf8 {objectType a b c k : GoString}
    (h : Raw.CreateCompositeKey objectType [a, b, c] = Except.ok k) :
    utf8Valid 0 a = true ∧ utf8Valid 0 b = true ∧ utf8Valid 0 c = true := by
  unfold Raw.CreateCompositeKey at h
  split at h
  · cases h
  · unfold Raw.appendAttributes at h
    split at h
    · cases h
    · rename_i ha
      unfold Raw.appendAttributes at h
      split at h
      · cases h
      · rename_i hb
        unfold Raw.appendAttributes at h
        split at h
        · cases h
        · rename_i hc
          exact ⟨raw_validate_utf8 ha, raw_validate_utf8 hb, raw_validate_utf8 hc⟩

theorem RawUserCanon.raw_empty : RawUserCanon RawLedger.empty := by
  intro k bytes h
  cases h

theorem RawUserCanon.raw_decode {stub : RawLedger} (hI : RawUserCanon stub) {k : GoString}
    {bytes : Bytes} {u : User} (hb : stub.GetState (Raw.constructUserKey k) = some bytes)
    (hu : unmarshalUser bytes = Except.ok u) : bytes = marshalUser u ∧ u.Id = jsonString k := by
  obtain ⟨v, rfl, hv⟩ := hI k bytes hb
  rw [unmarshalUser_marshalUser] at hu
  cases hu
  exact ⟨rfl, hv⟩

theorem RawUserCanon.raw_put_user {stub : RawLedger} (hI : RawUserCanon stub) (k : GoString)
    (u : User) (hid : u.Id = jsonString k) :
    RawUserCanon (stub.PutState (Raw.constructUserKey k) (marshalUser u)) := by
  intro k1 bytes h
  rw [rawGetState_PutState] at h
  split_ifs at h with hk
  · cases h
    rw [constructUserKey_raw_inj] at hk
    subst hk
    exact ⟨u, rfl, hid⟩
  · exact hI k1 bytes h

theorem RawUserCanon.raw_put_other {stub : RawLedger} (hI : RawUserCanon stub)
    (key : GoString) (v : Bytes) (hk : ∀ a, Raw.constructUserKey a ≠ key) :
    RawUserCanon (stub.PutState key v) := by
  intro k1 bytes h
  rw [rawGetState_PutState, if_neg (hk k1)] at h
  exact hI k1 bytes h

theorem RawUserCanon.raw_del {stub : RawLedger} (hI : RawUserCanon stub) (key : GoString) :
    RawUserCanon (stub.DelState key) := by
  intro k1 bytes h
  rw [rawGetState_DelState] at h
  split_ifs at h
  exact hI k1 bytes h

theorem RawUserCanon.raw_deleteIngredients (ids : List String) {stub : RawLedger}
    (hI : RawUserCanon stub) : RawUserCanon (Raw.deleteIngredients stub ids) := by
  induction ids generalizing stub with
  | nil => exact hI
  | cons a rest ih =>
    unfold Raw.deleteIngredients
    exact ih (hI.raw_del _)

theorem ingredientEnroll_raw_success {stub stub1 : RawLedger} {args : List GoString}
    {payload : Option Bytes}
    (h : Raw.ingredientEnroll stub args = (Response.Success payload, stub1)) :
    ∃ ingredientName ingredientId metadata ownerId userBytes user0 historyKey,
      args = [ingredientName, ingredientId, metadata, ownerId] ∧
      stub.GetState (Raw.constructUserKey ownerId) = some userBytes ∧
      unmarshalUser userBytes = Except.ok user0 ∧
      Raw.CreateCompositeKey (utf8Bytes "history")
        [ingredientId, utf8Bytes originOwner, ownerId] = Except.ok historyKey ∧
      payload = none ∧
      stub1 = ((stub.PutState (Raw.constructIngredientKey ingredientId)
          (marshalIngredient ⟨jsonString ingredientName, jsonString ingredientId,
            jsonString metadata⟩)).PutState
          (Raw.constructUserKey (utf8Bytes user0.Id))
          (marshalUser { user0 with
            Ingredients := user0.Ingredients ++ [jsonString ingredientId] })).PutState
          historyKey
          (marshalIngredientHistory
            ⟨jsonString ingredientId, originOwner, jsonString ownerId⟩) := by
  unfold Raw.ingredientEnroll at h
  split at h
  case h_2 => simp at h
  case h_1 ingredientName ingredientId metadata ownerId =>
    split_ifs at h with h0
    · simp at h
    · split at h
      · simp at h
      · rename_i userBytes hb
        split at h
        · simp at h
        · split at h
          · simp at h
          · rename_i user0 hu
            split at h
            · simp at h
            · rename_i historyKey hk
              simp only [Prod.mk.injEq, Response.Success.injEq] at h
              exact ⟨ingredientName, ingredientId, metadata, ownerId, userBytes, user0,
                historyKey, rfl, hb, hu, hk, h.1.symm, h.2.symm⟩

theorem foodEnroll_raw_success {stub stub1 : RawLedger} {args : List GoString}
    {payload : Option Bytes}
    (h : Raw.foodEnroll stub args = (Response.Success payload, stub1)) :
    ∃ foodName foodId metadata ownerId userBytes user0 historyKey,
      args = [foodName, foodId, metadata, ownerId] ∧
      stub.GetState (Raw.constructUserKey ownerId) = some userBytes ∧
      unmarshalUser userBytes = Except.ok user0 ∧
      Raw.CreateCompositeKey (utf8Bytes "history")
        [foodId, utf8Bytes originOwner, ownerId] = Except.ok historyKey ∧
      payload = none ∧
      stub1 = ((stub.PutState (Raw.constructFoodKey foodId)
          (marshalFood ⟨jsonString foodName, jsonString foodId,
            jsonString metadata, []⟩)).PutState
          (Raw.constructUserKey (utf8Bytes user0.Id))
          (marshalUser { user0 with Foods := user0.Foods ++ [jsonString foodId] })).PutState
          historyKey
          (marshalFoodHistory ⟨jsonString foodId, originOwner, jsonString ownerId⟩) := by
  unfold Raw.foodEnroll at h
  split at h
  case h_2 => simp at h
  case h_1 foodName foodId metadata ownerId =>
    split_ifs at h with h0
    · simp at h
    · split at h
      · simp at h
      · rename_i userBytes hb
        split at h
        · simp at h
        · split at h
          · simp at h
          · rename_i user0 hu
            split at h
            · simp at h
            · rename_i historyKey hk
              simp only [Prod.mk.injEq, Response.Success.injEq] at h
              exact ⟨foodName, foodId, metadata, ownerId, userBytes, user0,
                historyKey, rfl, hb, hu, hk, h.1.symm, h.2.symm⟩

theorem RawUserCanon.raw_by_userRegister {stub stub1 : RawLedger} (hI : RawUserCanon stub)
    {args : List GoString} {payload : Option Bytes}
    (h : Raw.userRegister stub args = (Response.Success payload, stub1)) :
    RawUserCanon stub1 := by
  unfold Raw.userRegister at h
  split at h
  case h_2 => simp at h
  case h_1 name id =>
    split_ifs at h with h0
    · simp at h
    · split at h
      · simp at h
      · simp only [Prod.mk.injEq, Response.Success.injEq] at h
        rw [← h.2]
        exact hI.raw_put_user id _ rfl

theorem RawUserCanon.raw_by_userDestroy {stub stub1 : RawLedger} (hI : RawUserCanon stub)
    {args : List GoString} {payload : Option Bytes}
    (h : Raw.userDestroy stub args = (Response.Success payload, stub1)) :
    RawUserCanon stub1 := by
  unfold Raw.userDestroy at h
  split at h
  case h_2 => simp at h
  case h_1 id =>
    split_ifs at h with h0
    · simp at h
    · split at h
      · simp at h
      · split at h
        · simp at h
        · simp only [Prod.mk.injEq, Response.Success.injEq] at h
          rw [← h.2]
          exact RawUserCanon.raw_deleteIngredients _ (hI.raw_del _)

theorem RawUserCanon.raw_by_ingredientEnroll {stub stub1 : RawLedger} (hI : RawUserCanon stub)
    {args : List GoString} {payload : Option Bytes}
    (h : Raw.ingredientEnroll stub args = (Response.Success payload, stub1)) :
    RawUserCanon stub1 := by
  obtain ⟨ingredientName, ingredientId, metadata, ownerId, userBytes, user0, historyKey, -,
    hb, hu, hk, -, rfl⟩ := ingredientEnroll_raw_success h
  refine RawUserCanon.raw_put_other ?_ _ _ (fun a => (raw_compositeKey_ne_user hk a).symm)
  refine RawUserCanon.raw_put_user ?_ _ _ ?_
  · exact hI.raw_put_other _ _ (fun a => raw_user_ne_ingredient a _)
  · exact (jsonString_utf8Bytes _).symm

theorem RawUserCanon.raw_by_foodEnroll {stub stub1 : RawLedger} (hI : RawUserCanon stub)
    {args : List GoString} {payload : Option Bytes}
    (h : Raw.foodEnroll stub args = (Response.Success payload, stub1)) :
    RawUserCanon stub1 := by
  obtain ⟨foodName, foodId, metadata, ownerId, userBytes, user0, historyKey, -,
    hb, hu, hk, -, rfl⟩ := foodEnroll_raw_success h
  refine RawUserCanon.raw_put_other ?_ _ _ (fun a => (raw_compositeKey_ne_user hk a).symm)
  refine RawUserCanon.raw_put_user ?_ _ _ ?_
  · exact hI.raw_put_other _ _ (fun a => raw_user_ne_food a _)
  · exact (jsonString_utf8Bytes _).symm

theorem RawUserCanon.raw_by_ingredientExchange {stub stub1 : RawLedger} (hI : RawUserCanon stub)
    {args : List GoString} {payload : Option Bytes}
    (h : Raw.ingredientExchange stub args = (Response.Success payload, stub1)) :
    RawUserCanon stub1 := by
  unfold Raw.ingredientExchange at h
  split at h
  case h_2 => simp at h
  case h_1 ownerId ingredientId currentOwnerId =>
    split_ifs at h with h0
    · simp at h
    · split at h
      · simp at h
      · rename_i originOwnerBytes hb0
        split at h
        · simp at h
        · rename_i currentOwnerBytes hb1
          split at h
          · simp at h
          · split at h
            · simp at h
            · rename_i originOwner0 hu0
              split_ifs at h with hex
              swap
              · simp at h
              · split at h
                · simp at h
                · rename_i currentOwner0 hu1
                  split at h
                  · simp at h
                  · rename_i historyKey hk
                    simp only [Prod.mk.injEq, Response.Success.injEq] at h
                    rw [← h.2]
                    refine RawUserCanon.raw_put_other ?_ _ _
                      (fun a => (raw_compositeKey_ne_user hk a).symm)
                    refine RawUserCanon.raw_put_user ?_ _ _ (hI.raw_decode hb1 hu1).2
                    exact hI.raw_put_user _ _ (hI.raw_decode hb0 hu0).2

theorem RawUserCanon.raw_by_foodExchange {stub stub1 : RawLedger} (hI : RawUserCanon stub)
    {args : List GoString} {payload : Option Bytes}
    (h : Raw.foodExchange stub args = (Response.Success payload, stub1)) :
    RawUserCanon stub1 := by
  unfold Raw.foodExchange at h
  split at h
  case h_2 => simp at h
  case h_1 ownerId foodId currentOwnerId =>
    split_ifs at h with h0
    · simp at h
    · split at h
      · simp at h
      · rename_i originOwnerBytes hb0
        split at h
        · simp at h
        · rename_i currentOwnerBytes hb1
          split at h
          · simp at h
          · split at h
            · simp at h
            · rename_i originOwner0 hu0
              split_ifs at h with hex
              swap
              · simp at h
              · split at h
                · simp at h
                · rename_i currentOwner0 hu1
                  split at h
                  · simp at h
                  · rename_i historyKey hk
                    simp only [Prod.mk.injEq, Response.Success.injEq] at h
                    rw [← h.2]
                    refine RawUserCanon.raw_put_other ?_ _ _
                      (fun a => (raw_compositeKey_ne_user hk a).symm)
                    refine RawUserCanon.raw_put_user ?_ _ _ (hI.raw_decode hb1 hu1).2
                    exact hI.raw_put_user _ _ (hI.raw_decode hb0 hu0).2

theorem RawUserCanon.raw_by_ingredientExchangeFood {stub stub1 : RawLedger}
    (hI : RawUserCanon stub) {args : List GoString} {payload : Option Bytes}
    (h : Raw.ingredientExchangeFood stub args = (Response.Success payload, stub1)) :
    RawUserCanon stub1 := by
  unfold Raw.ingredientExchangeFood at h
  split at h
  case h_2 => simp at h
  case h_1 ownerId ingredientId currentOwnerId =>
    split_ifs at h with h0
    · simp at h
    · split at h
      · simp at h
      · rename_i originOwnerBytes hb0
        split at h
        · simp at h
        · rename_i currentOwnerBytes hb1
          split at h
          · simp at h
          · split at h
            · simp at h
            · rename_i originOwner0 hu0
              split_ifs at h with hex
              swap
              · simp at h
              · split at h
                · simp at h
                · rename_i currentOwner0 hu1
                  split at h
                  · simp at h
                  · rename_i historyKey hk
                    simp only [Prod.mk.injEq, Response.Success.injEq] at h
                    rw [← h.2]
                    refine RawUserCanon.raw_put_other ?_ _ _
                      (fun a => (raw_compositeKey_ne_user hk a).symm)
                    refine RawUserCanon.raw_put_other ?_ _ _
                      (fun a => raw_user_ne_FOOD a _)
                    exact hI.raw_put_user _ _ (hI.raw_decode hb0 hu0).2

/-- Every ledger state reachable by calls on arbitrary bytes keeps the
invariant of the user records. -/
theorem RawReachable.userCanon {stub : RawLedger} (hr : RawReachable stub) :
    RawUserCanon stub := by
  induction hr with
  | empty => exact RawUserCanon.raw_empty
  | step stub stub1 op args payload _ hop h ih =>
    simp only [Raw.writers, List.mem_cons, List.mem_singleton, List.not_mem_nil,
      or_false] at hop
    rcases hop with rfl | rfl | rfl | rfl | rfl | rfl | rfl
    · exact ih.raw_by_userRegister h
    · exact ih.raw_by_userDestroy h
    · exact ih.raw_by_ingredientEnroll h
    · exact ih.raw_by_foodEnroll h
    · exact ih.raw_by_ingredientExchange h
    · exact ih.raw_by_foodExchange h
    · exact ih.raw_by_ingredientExchangeFood h


/-! ## A user record is stored under its own id (C21) -/

/-- The write-back of the owner by `ingredientEnroll` goes to the key built
from the id of the decoded record: on the ledger `misfiledUser`, which is not
reachable, the enrollment to `u1` leaves the record under the key of `u1` as
it was and writes the updated record under the key of `u9`. -/
theorem ingredientEnroll_misfiled :
    (ingredientEnroll misfiledUser ["Tomato", "i1", "organic", "u1"]).1 =
        Response.Success none ∧
      (ingredientEnroll misfiledUser ["Tomato", "i1", "organic", "u1"]).2.GetState
          (constructUserKey "u1") = some (marshalUser ⟨"Alice", "u9", [], []⟩) ∧
      (ingredientEnroll misfiledUser ["Tomato", "i1", "organic", "u1"]).2.GetState
          (constructUserKey "u9") = some (marshalUser ⟨"Alice", "u9", ["i1"], []⟩) := by
  decide

/-- C21 as stated fails for an id that is not valid UTF-8: `userRegister` with
the name `Eve` and the id of the single byte `0xFF`, on the empty ledger,
succeeds, so that the ledger `eveLedger` is reachable; it stores, under the key
built from that byte, the document that `json.Marshal` writes, in which the id
is U+FFFD; the record decodes with an `Id` whose bytes are `EF BF BD`, not the
byte of the key, and the key built from the decoded `Id` is another key. -/
theorem userRegister_invalid_utf8 :
    (Raw.userRegister RawLedger.empty [utf8Bytes "Eve", [0xFF]]).1 = Response.Success none ∧
      RawReachable eveLedger ∧
      eveLedger.GetState (Raw.constructUserKey [0xFF]) =
        some (marshalUser ⟨"Eve", "\uFFFD", [], []⟩) ∧
      unmarshalUser (marshalUser ⟨"Eve", "\uFFFD", [], []⟩) =
        Except.ok ⟨"Eve", "\uFFFD", [], []⟩ ∧
      utf8Bytes "\uFFFD" = [0xEF, 0xBF, 0xBD] ∧
      utf8Bytes "\uFFFD" ≠ [0xFF] ∧
      Raw.constructUserKey (utf8Bytes "\uFFFD") ≠ Raw.constructUserKey [0xFF] :=
  ⟨by decide,
    RawReachable.step RawLedger.empty eveLedger Raw.userRegister [utf8Bytes "Eve", [0xFF]] none
      RawReachable.empty (by simp [Raw.writers]) rfl,
    by decide, rfl, by decide, by decide, by decide⟩

/-- C21 (amended), a user record is stored under the id that is read back
from its key. On arguments that are valid UTF-8 (the strings of the model): in
every ledger state reachable from the empty ledger, every value stored under
the key `constructUserKey k` is the encoding of a user record whose `Id` is
`k`; hence a successful `ingredientEnroll` (resp. `foodEnroll`) with owner
`ownerId`, which writes the updated owner under the key built from the `Id` of
the decoded record, writes it under the key of `ownerId`: the record of
`ownerId` becomes its record before with the asset id appended to
`Ingredients` (resp. `Foods`), the record of every other user is unchanged,
and the only keys whose value changes are the key of the asset, the key of
user `ownerId` and the composite history key `(id, originOwner, ownerId)`.
On arguments that are arbitrary bytes: in every ledger state reachable from
the empty ledger, every value stored under the key of the bytes `k` is the
encoding of a user record whose `Id` is `jsonString k`, the bytes `k` with
U+FFFD for each byte that does not start a valid encoding, so that the bytes
of `Id` are `k` when `k` is valid UTF-8; a successful enrollment has an owner
id that is valid UTF-8, because `CreateCompositeKey` rejects any other
attribute, and it updates the record of `ownerId` and the same three keys as
above. On any ledger, `userRegister` stores under the key of an id that is
valid UTF-8 a record whose `Id` is that id, whatever the bytes of the name. -/
theorem user_stored_under_own_id (ledger : Ledger) (hr : Reachable ledger) :
    (∀ k bytes, ledger.GetState (constructUserKey k) = some bytes →
      ∃ user : User, unmarshalUser bytes = Except.ok user ∧ bytes = marshalUser user ∧
        user.Id = k) ∧
    (∀ name id metadata ownerId payload stub1,
      ingredientEnroll ledger [name, id, metadata, ownerId] =
        (Response.Success payload, stub1) →
      ∃ (owner : User) (historyKey : String),
        ledger.GetState (constructUserKey ownerId) = some (marshalUser owner) ∧
        owner.Id = ownerId ∧
        CreateCompositeKey "history" [id, originOwner, ownerId] = Except.ok historyKey ∧
        stub1.GetState (constructUserKey ownerId) =
          some (marshalUser { owner with Ingredients := owner.Ingredients ++ [id] }) ∧
        (∀ k, k ≠ ownerId →
          stub1.GetState (constructUserKey k) = ledger.GetState (constructUserKey k)) ∧
        (∀ key, key ≠ constructIngredientKey id → key ≠ constructUserKey ownerId →
          key ≠ historyKey → stub1.GetState key = ledger.GetState key)) ∧
    (∀ name id metadata ownerId payload stub1,
      foodEnroll ledger [name, id, metadata, ownerId] = (Response.Success payload, stub1) →
      ∃ (owner : User) (historyKey : String),
        ledger.GetState (constructUserKey ownerId) = some (marshalUser owner) ∧
        owner.Id = ownerId ∧
        CreateCompositeKey "history" [id, originOwner, ownerId] = Except.ok historyKey ∧
        stub1.GetState (constructUserKey ownerId) =
          some (marshalUser { owner with Foods := owner.Foods ++ [id] }) ∧
        (∀ k, k ≠ ownerId →
          stub1.GetState (constructUserKey k) = ledger.GetState (constructUserKey k)) ∧
        (∀ key, key ≠ constructFoodKey id → key ≠ constructUserKey ownerId →
          key ≠ historyKey → stub1.GetState key = ledger.GetState key)) ∧
    (∀ stub : RawLedger, RawReachable stub →
      ∀ k bytes, stub.GetState (Raw.constructUserKey k) = some bytes →
        ∃ user : User, unmarshalUser bytes = Except.ok user ∧ bytes = marshalUser user ∧
          user.Id = jsonString k ∧ (utf8Valid 0 k = true → utf8Bytes user.Id = k)) ∧
    (∀ stub : RawLedger, RawReachable stub →
      ∀ name id metadata ownerId payload stub1,
        Raw.ingredientEnroll stub [name, id, metadata, ownerId] =
          (Response.Success payload, stub1) →
        utf8Valid 0 ownerId = true ∧
        ∃ (owner : User) (historyKey : GoString),
          stub.GetState (Raw.constructUserKey ownerId) = some (marshalUser owner) ∧
          utf8Bytes owner.Id = ownerId ∧
          Raw.CreateCompositeKey (utf8Bytes "history")
            [id, utf8Bytes originOwner, ownerId] = Except.ok historyKey ∧
          stub1.GetState (Raw.constructUserKey ownerId) =
            some (marshalUser
              { owner with Ingredients := owner.Ingredients ++ [jsonString id] }) ∧
          (∀ k, k ≠ ownerId →
            stub1.GetState (Raw.constructUserKey k) =
              stub.GetState (Raw.constructUserKey k)) ∧
          (∀ key, key ≠ Raw.constructIngredientKey id →
            key ≠ Raw.constructUserKey ownerId → key ≠ historyKey →
            stub1.GetState key = stub.GetState key)) ∧
    (∀ stub : RawLedger, RawReachable stub →
      ∀ name id metadata ownerId payload stub1,
        Raw.foodEnroll stub [name, id, metadata, ownerId] =
          (Response.Success payload, stub1) →
        utf8Valid 0 ownerId = true ∧
        ∃ (owner : User) (historyKey : GoString),
          stub.GetState (Raw.constructUserKey ownerId) = some (marshalUser owner) ∧
          utf8Bytes owner.Id = ownerId ∧
          Raw.CreateCompositeKey (utf8Bytes "history")
            [id, utf8Bytes originOwner, ownerId] = Except.ok historyKey ∧
          stub1.GetState (Raw.constructUserKey ownerId) =
            some (marshalUser { owner with Foods := owner.Foods ++ [jsonString id] }) ∧
          (∀ k, k ≠ ownerId →
            stub1.GetState (Raw.constructUserKey k) =
              stub.GetState (Raw.constructUserKey k)) ∧
          (∀ key, key ≠ Raw.constructFoodKey id →
            key ≠ Raw.constructUserKey ownerId → key ≠ historyKey →
            stub1.GetState key = stub.GetState key)) ∧
    (∀ (stub : RawLedger) (name : GoString) (id : String), name ≠ [] → id ≠ "" →
      stub.GetState (Raw.constructUserKey (utf8Bytes id)) = none →
      (Raw.userRegister stub [name, utf8Bytes id]).1 = Response.Success none ∧
      (Raw.userRegister stub [name, utf8Bytes id]).2.GetState
          (Raw.constructUserKey (utf8Bytes id)) =
        some (marshalUser ⟨jsonString name, id, [], []⟩)) := by
  refine ⟨?_, ?_, ?_, ?_, ?_, ?_, ?_⟩
  · intro k bytes hb
    obtain ⟨user, rfl, hid⟩ := hr.inv.user_canon k bytes hb
    exact ⟨user, rfl, rfl, hid⟩
  · intro name id metadata ownerId payload stub1 h
    obtain ⟨name0, id0, metadata0, ownerId0, ub, u0, hk, hargs, -, -, -, hb0, -, hu0, hkey, -,
      rfl⟩ := ingredientEnroll_success h
    simp only [List.cons.injEq, and_true] at hargs
    obtain ⟨rfl, rfl, rfl, rfl⟩ := hargs
    obtain ⟨rfl, hown⟩ := hr.inv.user_decode hb0 hu0
    have kU : ∀ a, constructUserKey a ≠ hk := fun a => (compositeKey_ne_user hkey a).symm
    refine ⟨u0, hk, hb0, hown, hkey, ?_, ?_, ?_⟩
    · simp [GetState_PutState, kU, hown]
    · intro k hne
      simp [GetState_PutState, kU, hown, constructUserKey_inj, hne, user_ne_ingredient]
    · intro key h1 h2 h3
      simp [GetState_PutState, h1, h2, h3, hown]
  · intro name id metadata ownerId payload stub1 h
    obtain ⟨name0, id0, metadata0, ownerId0, ub, u0, hk, hargs, -, -, -, hb0, -, hu0, hkey, -,
      rfl⟩ := foodEnroll_success h
    simp only [List.cons.injEq, and_true] at hargs
    obtain ⟨rfl, rfl, rfl, rfl⟩ := hargs
    obtain ⟨rfl, hown⟩ := hr.inv.user_decode hb0 hu0
    have kU : ∀ a, constructUserKey a ≠ hk := fun a => (compositeKey_ne_user hkey a).symm
    refine ⟨u0, hk, hb0, hown, hkey, ?_, ?_, ?_⟩
    · simp [GetState_PutState, kU, hown]
    · intro k hne
      simp [GetState_PutState, kU, hown, constructUserKey_inj, hne, user_ne_food]
    · intro key h1 h2 h3
      simp [GetState_PutState, h1, h2, h3, hown]
  · intro stub hs k bytes hb
    obtain ⟨user, rfl, hid⟩ := hs.userCanon k bytes hb
    exact ⟨user, rfl, rfl, hid, fun hv => by rw [hid]; exact utf8Bytes_jsonString hv⟩
  · intro stub hs name id metadata ownerId payload stub1 h
    obtain ⟨name0, id0, metadata0, ownerId0, ub, u0, hk, hargs, hb0, hu0, hkey, -, rfl⟩ :=
      ingredientEnroll_raw_success h
    simp only [List.cons.injEq, and_true] at hargs
    obtain ⟨rfl, rfl, rfl, rfl⟩ := hargs
    obtain ⟨rfl, hid⟩ := hs.userCanon.raw_decode hb0 hu0
    have hv := (raw_CreateCompositeKey_utf8 hkey).2.2
    have hown : utf8Bytes u0.Id = ownerId := by rw [hid]; exact utf8Bytes_jsonString hv
    have kU : ∀ a, Raw.constructUserKey a ≠ hk :=
      fun a => (raw_compositeKey_ne_user hkey a).symm
    refine ⟨hv, u0, hk, hb0, hown, hkey, ?_, ?_, ?_⟩
    · simp [rawGetState_PutState, kU, hown]
    · intro k hne
      simp [rawGetState_PutState, kU, hown, constructUserKey_raw_inj, hne,
        raw_user_ne_ingredient]
    · intro key h1 h2 h3
      simp [rawGetState_PutState, h1, h2, h3, hown]
  · intro stub hs name id metadata ownerId payload stub1 h
    obtain ⟨name0, id0, metadata0, ownerId0, ub, u0, hk, hargs, hb0, hu0, hkey, -, rfl⟩ :=
      foodEnroll_raw_success h
    simp only [List.cons.injEq, and_true] at hargs
    obtain ⟨rfl, rfl, rfl, rfl⟩ := hargs
    obtain ⟨rfl, hid⟩ := hs.userCanon.raw_decode hb0 hu0
    have hv := (raw_CreateCompositeKey_utf8 hkey).2.2
    have hown : utf8Bytes u0.Id = ownerId := by rw [hid]; exact utf8Bytes_jsonString hv
    have kU : ∀ a, Raw.constructUserKey a ≠ hk :=
      fun a => (raw_compositeKey_ne_user hkey a).symm
    refine ⟨hv, u0, hk, hb0, hown, hkey, ?_, ?_, ?_⟩
    · simp [rawGetState_PutState, kU, hown]
    · intro k hne
      simp [rawGetState_PutState, kU, hown, constructUserKey_raw_inj, hne, raw_user_ne_food]
    · intro key h1 h2 h3
      simp [rawGetState_PutState, h1, h2, h3, hown]
  · intro stub name id hn hid hb
    have h := userRegister_raw_stores stub name (utf8Bytes id) hn
      (fun e => hid (utf8Bytes_eq_nil.1 e)) hb
    rwa [jsonString_utf8Bytes] at h

/-- C21 at the scenario of the specification: the record under the key of
`u1` has the id `u1`, and the enrollment of `i2` to `u1` updates the record of
`u1`. On bytes: the record under the key of the byte `0xFF` in `eveLedger` has
the id U+FFFD, the enrollment of `i1` to `u1` in `aliceLedger`, with a name
that is not valid UTF-8, updates the record of `u1`, and the registration of
`u1` with such a name stores a record whose id is `u1`. -/
theorem user_stored_under_own_id_witness :
    Reachable scenario ∧
      (∃ user : User, unmarshalUser (marshalUser ⟨"Alice", "u1", ["i1"], []⟩) = Except.ok user ∧
        marshalUser ⟨"Alice", "u1", ["i1"], []⟩ = marshalUser user ∧ user.Id = "u1") ∧
      (∃ (owner : User) (historyKey : String),
        scenario.GetState (constructUserKey "u1") = some (marshalUser owner) ∧
        owner.Id = "u1" ∧
        CreateCompositeKey "history" ["i2", originOwner, "u1"] = Except.ok historyKey ∧
        (ingredientEnroll scenario ["Basil", "i2", "fresh", "u1"]).2.GetState
            (constructUserKey "u1") =
          some (marshalUser { owner with Ingredients := owner.Ingredients ++ ["i2"] }) ∧
        (∀ k, k ≠ "u1" →
          (ingredientEnroll scenario ["Basil", "i2", "fresh", "u1"]).2.GetState
              (constructUserKey k) = scenario.GetState (constructUserKey k)) ∧
        (∀ key, key ≠ constructIngredientKey "i2" → key ≠ constructUserKey "u1" →
          key ≠ historyKey →
          (ingredientEnroll scenario ["Basil", "i2", "fresh", "u1"]).2.GetState key =
            scenario.GetState key)) ∧
      (∃ user : User,
        unmarshalUser (marshalUser ⟨"Eve", "\uFFFD", [], []⟩) = Except.ok user ∧
        marshalUser ⟨"Eve", "\uFFFD", [], []⟩ = marshalUser user ∧
        user.Id = jsonString [0xFF] ∧ (utf8Valid 0 [0xFF] = true → utf8Bytes user.Id = [0xFF])) ∧
      (utf8Valid 0 (utf8Bytes "u1") = true ∧
        ∃ (owner : User) (historyKey : GoString),
          aliceLedger.GetState (Raw.constructUserKey (utf8Bytes "u1")) =
            some (marshalUser owner) ∧
          utf8Bytes owner.Id = utf8Bytes "u1" ∧
          Raw.CreateCompositeKey (utf8Bytes "history")
            [utf8Bytes "i1", utf8Bytes originOwner, utf8Bytes "u1"] = Except.ok historyKey ∧
          (Raw.ingredientEnroll aliceLedger
              [[0xFF], utf8Bytes "i1", [], utf8Bytes "u1"]).2.GetState
              (Raw.constructUserKey (utf8Bytes "u1")) =
            some (marshalUser
              { owner with Ingredients := owner.Ingredients ++ [jsonString (utf8Bytes "i1")] }) ∧
          (∀ k, k ≠ utf8Bytes "u1" →
            (Raw.ingredientEnroll aliceLedger
                [[0xFF], utf8Bytes "i1", [], utf8Bytes "u1"]).2.GetState
                (Raw.constructUserKey k) = aliceLedger.GetState (Raw.constructUserKey k)) ∧
          (∀ key, key ≠ Raw.constructIngredientKey (utf8Bytes "i1") →
            key ≠ Raw.constructUserKey (utf8Bytes "u1") → key ≠ historyKey →
            (Raw.ingredientEnroll aliceLedger
                [[0xFF], utf8Bytes "i1", [], utf8Bytes "u1"]).2.GetState key =
              aliceLedger.GetState key)) ∧
      ((Raw.userRegister RawLedger.empty [[0xFF], utf8Bytes "u1"]).1 = Response.Success none ∧
        (Raw.userRegister RawLedger.empty [[0xFF], utf8Bytes "u1"]).2.GetState
            (Raw.constructUserKey (utf8Bytes "u1")) =
          some (marshalUser ⟨jsonString [0xFF], "u1", [], []⟩)) :=
  ⟨Reachable.run Reachable.empty _,
    (user_stored_under_own_id scenario (Reachable.run Reachable.empty _)).1 "u1"
      (marshalUser ⟨"Alice", "u1", ["i1"], []⟩) (by decide),
    (user_stored_under_own_id scenario (Reachable.run Reachable.empty _)).2.1
      "Basil" "i2" "fresh" "u1" none
      (ingredientEnroll scenario ["Basil", "i2", "fresh", "u1"]).2 (by decide),
    (user_stored_under_own_id scenario (Reachable.run Reachable.empty _)).2.2.2.1 eveLedger
      (RawReachable.step RawLedger.empty eveLedger Raw.userRegister
        [utf8Bytes "Eve", [0xFF]] none RawReachable.empty (by simp [Raw.writers]) rfl)
      [0xFF] (marshalUser ⟨"Eve", "\uFFFD", [], []⟩) (by decide),
    (user_stored_under_own_id scenario (Reachable.run Reachable.empty _)).2.2.2.2.1 aliceLedger
      (RawReachable.step RawLedger.empty aliceLedger Raw.userRegister
        [utf8Bytes "Alice", utf8Bytes "u1"] none RawReachable.empty (by simp [Raw.writers]) rfl)
      [0xFF] (utf8Bytes "i1") [] (utf8Bytes "u1") none
      (Raw.ingredientEnroll aliceLedger [[0xFF], utf8Bytes "i1", [], utf8Bytes "u1"]).2 rfl,
    (user_stored_under_own_id scenario (Reachable.run Reachable.empty _)).2.2.2.2.2.2
      RawLedger.empty [0xFF] "u1" (by decide) (by decide) rfl⟩

end FabricFood
